import Mathlib

/-!
# DimRegionChooser (gigedit): index arithmetic and zone resizing

A shallow embedding of the parts of src/gigedit/dimregionchooser.cpp that
compute with dimension-region indices and zone limits, and of the key range
slots of PropEditor in src/gigedit/paramedit.h, with the properties proved
about them.

Conventions of the embedding.

* A C++ pointer to a heap object is modelled by the place where the object
  lives: a region pointer is an index into the regions of the instrument, a
  dimension-region pointer held in slot i of a region is the object stored in
  that slot (every slot owns its object, as in the sound-format library), and
  the address of the object is kept in the field addr for pointer comparisons.
  A null pointer is none.
* A function that dereferences a null pointer, reads an array outside its
  bounds or fails an assertion returns none.
* int values that are never negative in the program are natural numbers; the
  bitwise operators on possibly negative int values are computed on the
  32-bit two-complement bit pattern.  Shifts by a dimension bit width are
  computed without overflow (bit widths of a region sum to at most 8).
* A double expression is computed exactly, and the conversion to int truncates
  toward zero.  Pointer coordinates are integers.
-/

namespace Gigedit

/-! ## Machine integers -/

/-- The 32-bit pattern of an int. -/
def toBits32 (x : Int) : Nat := (x % 4294967296).toNat

/-- The int with a given 32-bit pattern (two-complement). -/
def ofBits32 (n : Nat) : Int :=
  if n % 4294967296 < 2147483648 then ((n % 4294967296 : Nat) : Int)
  else ((n % 4294967296 : Nat) : Int) - 4294967296

/-- The operator & on int. -/
def bitAnd (a b : Int) : Int := ofBits32 (toBits32 a &&& toBits32 b)

/-- The operator | on int. -/
def bitOr (a b : Int) : Int := ofBits32 (toBits32 a ||| toBits32 b)

/-- The operator ^ on int. -/
def bitXor (a b : Int) : Int := ofBits32 (toBits32 a ^^^ toBits32 b)

/-- The operator ~ on int. -/
def bitNot (a : Int) : Int := ofBits32 (toBits32 a ^^^ 4294967295)

/-- Storing an int into a uint8_t. -/
def toUInt8 (x : Int) : Nat := (x % 256).toNat

/-- The conversion int(e) of a double e = num / den to int: truncation toward
zero of the exact quotient. -/
def truncDiv (num den : Int) : Int := Int.tdiv num den

/-! ## The object model of the sound-format library -/

/-- Modelled from the spec: gig::dimension_t, the kind of a dimension, is
declared in the sound-format library; a kind is represented by a number. -/
abbrev dimension_t := Nat

/-- Modelled from the spec: the kind that marks an unused dimension. -/
def dimension_none : dimension_t := 0

/-- Modelled from the spec: the stereo-channel dimension kind. -/
def dimension_samplechannel : dimension_t := 128

/-- Modelled from the spec: the layer dimension kind (one more kind, used in
examples). -/
def dimension_layer : dimension_t := 129

/-- Modelled from the spec: the velocity dimension kind. -/
def dimension_velocity : dimension_t := 130

/-- Modelled from the spec: gig::split_type_t, the split policy of a dimension:
normal (limits derived arithmetically or custom) or bit-exact. -/
inductive split_type_t where
  | split_type_normal
  | split_type_bit
deriving DecidableEq, Repr

/-- Modelled from the spec: gig::dimension_def_t with the fields the widget
reads.  zone_size is a float in the library; the widget only reads
(int)zone_size, which is what the field holds here. -/
structure dimension_def_t where
  dimension : dimension_t
  bits : Nat
  zones : Nat
  split_type : split_type_t
  zone_size : Int
deriving DecidableEq, Repr

/-- Modelled from the spec: gig::DimensionRegion with the two limit fields the
widget reads and writes: DimensionUpperLimits (uint8_t[8], entries beyond the
end of the list are 0) and the legacy VelocityUpperLimit (uint8_t). -/
structure DimensionRegion where
  addr : Nat
  DimensionUpperLimits : List Nat
  VelocityUpperLimit : Nat
deriving DecidableEq, Repr

/-- Modelled from the spec: gig::Region.  Dimensions is the length of
pDimensionDefinitions; pDimensionRegions has 256 slots, and slots beyond the
end of the list are null. -/
structure Region where
  pDimensionDefinitions : List dimension_def_t
  DimensionRegions : Nat
  pDimensionRegions : List (Option DimensionRegion)
deriving DecidableEq, Repr

/-- Modelled from the spec: gig::Instrument: the regions it owns and the table
behind GetRegion(key), which gives for each of the 128 keys the region (an
index into regions) or null. -/
structure Instrument where
  regions : List Region
  RegionKeyTable : List (Option Nat)
deriving DecidableEq, Repr

/-- An all-zero dimension definition, the content of the unused entries of
pDimensionDefinitions. -/
def dimension_def_t.zero : dimension_def_t :=
  { dimension := dimension_none, bits := 0, zones := 0,
    split_type := split_type_t.split_type_normal, zone_size := 0 }

/-- The field rgn->Dimensions. -/
def Region.Dimensions (rgn : Region) : Nat := rgn.pDimensionDefinitions.length

/-- The entry rgn->pDimensionDefinitions[d]. -/
def Region.dimDef (rgn : Region) (d : Nat) : dimension_def_t :=
  rgn.pDimensionDefinitions.getD d dimension_def_t.zero

/-- The pointer rgn->pDimensionRegions[i] for an int i: none for a null slot
and for i outside 0..255. -/
def Region.dimRgn (rgn : Region) (i : Int) : Option DimensionRegion :=
  if 0 ≤ i ∧ i < 256 then rgn.pDimensionRegions.getD i.toNat none else none

/-- The entry d->DimensionUpperLimits[i]. -/
def DimensionRegion.upperLimit (d : DimensionRegion) (i : Nat) : Nat :=
  d.DimensionUpperLimits.getD i 0

/-- The assignment a[i] = v on an array given by the list of its first entries
(the remaining ones are 0). -/
def arraySet (a : List Nat) (i v : Nat) : List Nat :=
  (a ++ List.replicate (i + 1 - a.length) 0).set i v

/-- The assignment d->DimensionUpperLimits[i] = v. -/
def DimensionRegion.setUpperLimit (d : DimensionRegion) (i v : Nat) : DimensionRegion :=
  { d with DimensionUpperLimits := arraySet d.DimensionUpperLimits i v }

/-- The assignment d->VelocityUpperLimit = v. -/
def DimensionRegion.setVelocityUpperLimit (d : DimensionRegion) (v : Nat) : DimensionRegion :=
  { d with VelocityUpperLimit := v }

/-- Modelled from the spec: instr->GetRegion(key). -/
def Instrument.GetRegion (instr : Instrument) (key : Nat) : Option Nat :=
  instr.RegionKeyTable.getD key none

/-! ## DimensionCase: std::map from dimension kind to zone index -/

/-- The type DimensionCase, a std::map<gig::dimension_t,int>, as the list of
its entries in increasing key order. -/
abbrev DimensionCase := List (dimension_t × Int)

/-- The assignment m[k] = v. -/
def DimensionCase.assign : DimensionCase → dimension_t → Int → DimensionCase
  | [], k, v => [(k, v)]
  | (k0, v0) :: rest, k, v =>
    if k < k0 then (k, v) :: (k0, v0) :: rest
    else if k = k0 then (k, v) :: rest
    else (k0, v0) :: DimensionCase.assign rest k v

/-- The lookup m.find(k). -/
def DimensionCase.find (m : DimensionCase) (k : dimension_t) : Option Int :=
  m.lookup k

/-- The value of the expression m[k] (0 when k has no entry). -/
def DimensionCase.get (m : DimensionCase) (k : dimension_t) : Int :=
  (m.lookup k).getD 0

/-- The map after evaluating the expression m[k], which adds the entry k ↦ 0
when k has none. -/
def DimensionCase.touch (m : DimensionCase) (k : dimension_t) : DimensionCase :=
  match m.lookup k with
  | some _ => m
  | none => DimensionCase.assign m k 0

/-! ## caseOfDimRegion -/

/-- The search loop of caseOfDimRegion: starting at drIndex with n iterations
left, the first index whose slot holds the pointer dr, or drIndex + n. -/
def findDimRgnIndexFrom (rgn : Region) (dr : Nat) : Nat → Nat → Nat
  | 0, drIndex => drIndex
  | n + 1, drIndex =>
    if (rgn.dimRgn drIndex).map (fun d => d.addr) = some dr then drIndex
    else findDimRgnIndexFrom rgn dr n (drIndex + 1)

/-- The value of drIndex after the search loop of caseOfDimRegion (256 when the
pointer is in none of the 256 slots). -/
def findDimRgnIndex (rgn : Region) (dr : Nat) : Nat :=
  findDimRgnIndexFrom rgn dr 256 0

/-- The zone index that caseOfDimRegion extracts for a dimension of width bits
at bit offset baseBits. -/
def zoneBits (drIndex baseBits bits : Nat) : Nat :=
  (drIndex >>> baseBits) &&& ((1 <<< bits) - 1)

/-- The decoding loop of caseOfDimRegion over the remaining dimension
definitions; the result is (isValidZone, returned case). -/
def caseLoop (drIndex : Nat) : List dimension_def_t → Nat → DimensionCase → Bool × DimensionCase
  | [], _, dimCase => (true, dimCase)
  | df :: rest, baseBits, dimCase =>
    let dimCase1 := dimCase.assign df.dimension (zoneBits drIndex baseBits df.bits)
    if dimCase1.get df.dimension ≥ (df.zones : Int) then (false, [])
    else caseLoop drIndex rest (baseBits + df.bits) dimCase1

/-- The function caseOfDimRegion(dr, isValidZone), for a dimension region whose
parent region is rgn; the result is (isValidZone, returned case). -/
def caseOfDimRegion (rgn : Region) (dr : Option Nat) : Bool × DimensionCase :=
  match dr with
  | none => (false, [])
  | some p =>
    let drIndex := findDimRgnIndex rgn p
    if drIndex = 256 then (false, [])
    else caseLoop drIndex rgn.pDimensionDefinitions 0 []

/-! ## The widget state -/

/-- The values of resize.selected. -/
inductive resize_selected_t where
  | none
  | left
  | right
deriving DecidableEq, Repr

/-- The resize descriptor (the member resize of DimRegionChooser). -/
structure resize_t where
  active : Bool
  dimension : Nat
  dimensionDef : dimension_def_t
  zone : Nat
  pos : Int
  min : Int
  max : Int
  selected : resize_selected_t
deriving DecidableEq, Repr

/-- The notifications the widget emits. -/
inductive Signal where
  | dimregion_selected
  | region_changed
deriving DecidableEq, Repr

/-- The state of a DimRegionChooser together with the object graph it works on:
instr is the instrument that owns the regions, region is the pointer to the
selected region, width is the value of get_width(), emitted is the list of the
notifications emitted so far (latest first). -/
structure DimRegionChooser where
  instr : Instrument
  region : Option Nat
  maindimregno : Int
  maindimtype : dimension_t
  maindimcase : DimensionCase
  dimzones : List (dimension_t × List Int)
  focus_line : Int
  nbDimensions : Int
  h : Int
  label_width : Int
  width : Int
  resize : resize_t
  cursor_is_resize : Bool
  multiSelectKeyDown : Bool
  primaryKeyDown : Bool
  shiftKeyDown : Bool
  modifybothchannels : Bool
  modifyalldimregs : Bool
  modifyallregions : Bool
  labels_changed : Bool
  emitted : List Signal
deriving DecidableEq, Repr

/-- The region a region pointer points to. -/
def Instrument.regionAt (instr : Instrument) (r : Nat) : Option Region :=
  instr.regions[r]?

/-- The object graph after applying f to the dimension region in slot i of
region r; none when there is no such object. -/
def Instrument.modifyDimRgn (instr : Instrument) (r : Nat) (i : Int)
    (f : DimensionRegion → DimensionRegion) : Option Instrument :=
  match instr.regionAt r with
  | none => none
  | some rgn =>
    match rgn.dimRgn i with
    | none => none
    | some d =>
      let rgn1 : Region :=
        { rgn with pDimensionRegions := rgn.pDimensionRegions.set i.toNat (some (f d)) }
      some { instr with regions := instr.regions.set r rgn1 }

/-- The assignment region->pDimensionRegions[i]->DimensionUpperLimits[dim] = v
(none also when dim is outside the 8 entries of the array). -/
def Instrument.writeUpperLimit (instr : Instrument) (r : Nat) (i : Int) (dim v : Nat) :
    Option Instrument :=
  if dim < 8 then instr.modifyDimRgn r i (fun d => d.setUpperLimit dim v) else none

/-- The assignment region->pDimensionRegions[i]->VelocityUpperLimit = v. -/
def Instrument.writeVelocityUpperLimit (instr : Instrument) (r : Nat) (i : Int) (v : Nat) :
    Option Instrument :=
  instr.modifyDimRgn r i (fun d => d.setVelocityUpperLimit v)

/-! ## set_region -/

/-- The loop of set_region over the remaining dimension definitions; the state
of the loop is (maindimcase, maindimregno, nbDimensions), bitcount is the loop
variable of that name. -/
def setRegionLoop : List dimension_def_t → Nat → DimensionCase × Int × Int →
    DimensionCase × Int × Int
  | [], _, s => s
  | df :: rest, bitcount, (maindimcase, maindimregno, nbDimensions) =>
    if df.bits = 0 then setRegionLoop rest bitcount (maindimcase, maindimregno, nbDimensions)
    else
      let z : Int := min (maindimcase.get df.dimension) ((df.zones : Int) - 1)
      setRegionLoop rest (bitcount + df.bits)
        (maindimcase.touch df.dimension, bitOr maindimregno (z * 2 ^ bitcount), nbDimensions + 1)

/-- The method set_region(region). -/
def set_region (st : DimRegionChooser) (region : Option Nat) : Option DimRegionChooser :=
  match region with
  | none =>
    some { st with region := none, maindimregno := 0, nbDimensions := 0,
                   emitted := Signal.dimregion_selected :: st.emitted, labels_changed := true }
  | some r =>
    match st.instr.regionAt r with
    | none => none
    | some rgn =>
      let s := setRegionLoop rgn.pDimensionDefinitions 0 (st.maindimcase, 0, 0)
      some { st with region := some r, maindimcase := s.1, maindimregno := s.2.1,
                     nbDimensions := s.2.2,
                     emitted := Signal.dimregion_selected :: st.emitted, labels_changed := true }

/-! ## Helpers of global.h and of the sound-format library -/

/-- Modelled from the spec: baseBits(type, rgn) of global.h, the bit offset of
the dimension of the given kind: the cumulative bit width of the dimensions
before it in definition order (of all dimensions when the region has no
dimension of that kind). -/
def baseBitsIn : List dimension_def_t → dimension_t → Nat
  | [], _ => 0
  | df :: rest, type => if df.dimension = type then 0 else df.bits + baseBitsIn rest type

/-- Modelled from the spec: baseBits(type, rgn) of global.h. -/
def baseBits (type : dimension_t) (rgn : Region) : Nat :=
  baseBitsIn rgn.pDimensionDefinitions type

/-- Modelled from the spec: getDimensionIndex(type, rgn) of global.h, the index
of the dimension of the given kind in definition order, none (-1) when the
region has no such dimension. -/
def getDimensionIndex (type : dimension_t) (rgn : Region) : Option Nat :=
  let i := rgn.pDimensionDefinitions.findIdx (fun df => df.dimension = type)
  if i < rgn.Dimensions then some i else none

/-- Modelled from the spec: rgn->GetDimensionDefinition(type) of the
sound-format library, the dimension-definition-by-kind lookup; none is the null
pointer. -/
def Region.GetDimensionDefinition (rgn : Region) (type : dimension_t) : Option dimension_def_t :=
  rgn.pDimensionDefinitions.find? (fun df => df.dimension = type)

/-- Modelled from the spec: dimensionCaseOf(dr) of global.h, which the source
describes as a duplicate of caseOfDimRegion: the decoded case of the dimension
region (empty for an invalid one). -/
def dimensionCaseOf (rgn : Region) (dr : Option Nat) : DimensionCase :=
  (caseOfDimRegion rgn dr).2

/-- Modelled from the spec: whether the case of a slot matches a (partial)
case: every dimension of the slot case that the partial case mentions has the
same zone there. -/
def caseMatches (dimCase slotCase : DimensionCase) : Bool :=
  slotCase.all (fun kv =>
    match dimCase.lookup kv.1 with
    | none => true
    | some z => z == kv.2)

/-- Modelled from the spec: dimensionRegionsMatching(dimCase, rgn) of global.h:
the slots (in increasing index order) that hold a dimension region whose
decoded case is valid and matches dimCase. -/
def dimensionRegionsMatching (dimCase : DimensionCase) (rgn : Region) : List Nat :=
  (List.range 256).filter (fun idr =>
    match rgn.dimRgn idr with
    | none => false
    | some d =>
      let c := caseOfDimRegion rgn (some d.addr)
      c.1 && caseMatches dimCase c.2)

/-! ## update_after_resize -/

/-- A loop for (j = 0; j < n; j++) with body f j on a state that can fail. -/
def forRange {σ : Type} (n : Nat) (f : Nat → σ → Option σ) (s : σ) : Option σ :=
  (List.range n).foldlM (fun acc j => f j acc) s

/-- The default limit int(128.0 * (j + 1) / nbZones - 1) written when limits
are back-filled; the double 128.0 * (j + 1) / nbZones - 1 is the quotient
(128 * (j + 1) - nbZones) / nbZones. -/
def defaultUpperLimit (j nbZones : Nat) : Int :=
  truncDiv (128 * ((j : Int) + 1) - (nbZones : Int)) (nbZones : Int)

/-- The bit offset computed at the start of update_after_resize: the sum of the
bit widths of the dimensions before index dim. -/
def bitposOf (rgn : Region) (dim : Nat) : Nat :=
  (List.range dim).foldl (fun bitpos j => bitpos + (rgn.dimDef j).bits) 0

/-- The expression ~(((1 << bits) - 1) << bitpos). -/
def dimMask (bits bitpos : Nat) : Int :=
  bitNot ((((1 <<< bits) - 1) <<< bitpos : Nat) : Int)

/-- The loop that back-fills the default DimensionUpperLimits of all zones of
dimension dim in the slots c + (j << bitpos) of region r. -/
def backfillUpperLimits (r : Nat) (c : Int) (bitpos dim nbZones : Nat) (instr : Instrument) :
    Option Instrument :=
  forRange nbZones (fun j m =>
    m.writeUpperLimit r (c + ((j <<< bitpos : Nat) : Int)) dim
      (toUInt8 (defaultUpperLimit j nbZones))) instr

/-- The loop that back-fills the default VelocityUpperLimit of all zones in the
slots c + (j << bitpos) of region r. -/
def backfillVelocityLimits (r : Nat) (c : Int) (bitpos nbZones : Nat) (instr : Instrument) :
    Option Instrument :=
  forRange nbZones (fun j m =>
    m.writeVelocityUpperLimit r (c + ((j <<< bitpos : Nat) : Int))
      (toUInt8 (defaultUpperLimit j nbZones))) instr

/-- One iteration of the loop for (int key = 0; key < 128; ++key) over the
regions of the instrument; the state of the loop is (rgn, object graph), rgn
being the region visited last. -/
def forEachKeyStep (body : Nat → Instrument → Option Instrument)
    (s : Option Nat × Instrument) (key : Nat) : Option (Option Nat × Instrument) :=
  match s.2.GetRegion key with
  | none => some s
  | some r =>
    if s.1 = some r then some s
    else (body r s.2).map (fun m => (some r, m))

/-- The loop for (int key = 0; key < 128; ++key) over the regions of the
instrument: a key without region and a key whose region is the one visited
last are skipped, body is run on the other regions. -/
def forEachKeyRegion (body : Nat → Instrument → Option Instrument) (instr : Instrument) :
    Option Instrument :=
  ((List.range 128).foldlM (forEachKeyStep body) (none, instr)).map
    (fun (s : Option Nat × Instrument) => s.2)

/-- One iteration of the loop for (int idr = 0; idr < 256; ++idr) of the
broadcast blocks: the limit is written into entry iDim of the slot
(idr & stencil) | selection of region rgnIdx unless the slot is null; when
legacy is some (r, index), the statement d->VelocityUpperLimit = upperLimit is
run as well, d being the dimension region in slot index of region r. -/
def broadcastSlot (rgnIdx iDim upperLimit : Nat) (stencil selection : Int)
    (legacy : Option (Nat × Int)) (idr : Nat) (m : Instrument) : Option Instrument :=
  let index := bitOr (bitAnd (idr : Int) stencil) selection
  if 0 ≤ index ∧ index < 256 then
    match (m.regionAt rgnIdx).bind (fun rgn => rgn.dimRgn index) with
    | none => some m
    | some _ =>
      match m.writeUpperLimit rgnIdx index iDim upperLimit with
      | none => none
      | some m1 =>
        match legacy with
        | none => some m1
        | some (r, dIndex) => m1.writeVelocityUpperLimit r dIndex upperLimit
  else none

/-- The loop for (int idr = 0; idr < 256; ++idr) of the broadcast blocks. -/
def broadcastSlots (rgnIdx iDim upperLimit : Nat) (stencil selection : Int)
    (legacy : Option (Nat × Int)) (instr : Instrument) : Option Instrument :=
  forRange 256 (broadcastSlot rgnIdx iDim upperLimit stencil selection legacy) instr

/-- The body of the key loop of the broadcast blocks for the region rgnIdx:
regions without the dimension kind of resize.dimensionDef or with another zone
count are skipped; onlyRegion is some region when the other regions are
skipped as well (the test !modifyallregions && rgn != region). -/
def broadcastRegion (resize : resize_t) (upperLimit : Nat) (onlyRegion : Option Nat)
    (legacy : Option (Nat × Int)) (rgnIdx : Nat) (instr : Instrument) : Option Instrument :=
  if onlyRegion.isSome ∧ onlyRegion ≠ some rgnIdx then some instr
  else
    match instr.regionAt rgnIdx with
    | none => none
    | some rgn =>
      match rgn.GetDimensionDefinition resize.dimensionDef.dimension with
      | none => some instr
      | some dimdef =>
        if dimdef.zones ≠ resize.dimensionDef.zones then some instr
        else
          match getDimensionIndex resize.dimensionDef.dimension rgn with
          | none => none
          | some iDim =>
            let bitpos := baseBits resize.dimensionDef.dimension rgn
            let stencil := dimMask dimdef.bits bitpos
            let selection : Int := ((resize.zone <<< bitpos : Nat) : Int)
            broadcastSlots rgnIdx iDim upperLimit stencil selection legacy instr

/-- The statements d->DimensionUpperLimits[dim] = upperLimit;
d->VelocityUpperLimit = upperLimit of the velocity branch (update both v2 and
v3 values), d being the dimension region in slot i of region r. -/
def writeBothLimits (m : Instrument) (r : Nat) (i : Int) (dim upperLimit : Nat) :
    Option Instrument :=
  match m.writeUpperLimit r i dim upperLimit with
  | none => none
  | some m1 => m1.writeVelocityUpperLimit r i upperLimit

/-- One iteration of the loop for (int i = 0; i < dimrgns.size(); ++i) of the
block else if (modifyallregions) of the velocity branch, for the dimension
region in slot i of region rgnIdx: the limit is written into entry iDim and
into the legacy field. -/
def matchingWrite (rgnIdx iDim upperLimit : Nat) (m : Instrument) (i : Nat) : Option Instrument :=
  match m.writeUpperLimit rgnIdx i iDim upperLimit with
  | none => none
  | some m1 => m1.writeVelocityUpperLimit rgnIdx i upperLimit

/-- The body of the key loop of the block else if (modifyallregions) of the
velocity branch: the limit is written into both fields of the dimension
regions of region rgnIdx that match dimCase. -/
def matchingRegion (resize : resize_t) (upperLimit : Nat) (dimCase : DimensionCase)
    (rgnIdx : Nat) (instr : Instrument) : Option Instrument :=
  match instr.regionAt rgnIdx with
  | none => none
  | some rgn =>
    match rgn.GetDimensionDefinition resize.dimensionDef.dimension with
    | none => some instr
    | some dimdef =>
      if dimdef.zones ≠ resize.dimensionDef.zones then some instr
      else
        match getDimensionIndex resize.dimensionDef.dimension rgn with
        | none => none
        | some iDim =>
          (dimensionRegionsMatching dimCase rgn).foldlM
            (matchingWrite rgnIdx iDim upperLimit) instr

/-- The blocks if (modifyalldimregs) and else if (modifyallregions) that end
the velocity branch; index is the slot of region r that was just written, d
being the dimension region in that slot. -/
def velocityBroadcast (st : DimRegionChooser) (r upperLimit : Nat) (index : Int)
    (m5 : Instrument) : Option Instrument :=
  if st.modifyalldimregs then
    forEachKeyRegion
      (broadcastRegion st.resize upperLimit
        (if st.modifyallregions then none else some r) (some (r, index))) m5
  else if st.modifyallregions then
    match (m5.regionAt r).bind (fun rgn5 =>
        (rgn5.dimRgn index).map (fun d => dimensionCaseOf rgn5 (some d.addr))) with
    | none => none
    | some dimCase =>
      forEachKeyRegion (matchingRegion st.resize upperLimit dimCase) m5
  else some m5

/-- The two blocks of the velocity branch that initialize all splits with
default values: when the dimension region in slot c has no custom v3 limit
the entries DimensionUpperLimits[dim] of the slots c + (j << bitpos) are
back-filled, and when it has no custom v2 limit the fields VelocityUpperLimit
are. -/
def velocityBackfill (r : Nat) (rgn : Region) (c : Int) (bitpos dim : Nat) (instr : Instrument) :
    Option Instrument :=
  let nbZones := (rgn.dimDef dim).zones
  match rgn.dimRgn c with
  | none => none
  | some dc =>
    match (if dc.upperLimit dim = 0 then backfillUpperLimits r c bitpos dim nbZones instr
           else some instr) with
    | none => none
    | some m1 =>
      match (m1.regionAt r).bind (fun rgn1 => rgn1.dimRgn c) with
      | none => none
      | some dc1 =>
        if dc1.VelocityUpperLimit = 0 then backfillVelocityLimits r c bitpos nbZones m1
        else some m1

/-- The block if (modifybothchannels && stereobitpos >= 0) of the velocity
branch: the new limit is written into both fields of the slot
index ^ (1 << stereobitpos), the dimension region of the other audio channel. -/
def otherChannelWrite (st : DimRegionChooser) (r upperLimit : Nat) (index stereobitpos : Int)
    (m4 : Instrument) : Option Instrument :=
  if st.modifybothchannels ∧ 0 ≤ stereobitpos then
    writeBothLimits m4 r (bitXor index ((1 <<< stereobitpos.toNat : Nat) : Int))
      st.resize.dimension upperLimit
  else some m4

/-- The rest of the velocity branch, from int index = c + (resize.zone << bitpos)
on: the new limit is written into both fields of the slot index, then into the
slot of the other audio channel, then the broadcast blocks run. -/
def velocityWrite (st : DimRegionChooser) (r upperLimit : Nat) (index stereobitpos : Int)
    (m2 : Instrument) : Option Instrument :=
  match writeBothLimits m2 r index st.resize.dimension upperLimit with
  | none => none
  | some m4 =>
    match otherChannelWrite st r upperLimit index stereobitpos m4 with
    | none => none
    | some m5 => velocityBroadcast st r upperLimit index m5

/-- The velocity branch of update_after_resize (r is the selected region). -/
def updateVelocity (st : DimRegionChooser) (r : Nat) (rgn : Region) (upperLimit bitpos : Nat)
    (stereobitpos : Int) : Option Instrument :=
  let dim := st.resize.dimension
  let mask := dimMask (rgn.dimDef dim).bits bitpos
  let c := bitAnd st.maindimregno mask
  match velocityBackfill r rgn c bitpos dim st.instr with
  | none => none
  | some m2 =>
    velocityWrite st r upperLimit (c + ((st.resize.zone <<< bitpos : Nat) : Int)) stereobitpos m2

/-- The inner loop for (j = 0; j < region->Dimensions; j++) of the other branch,
over the remaining dimension definitions, j and bitpos being the loop
variables: the value of bitpos at the break, none when the loop runs to
j == region->Dimensions. -/
def scanNextDim (dim i : Nat) : List dimension_def_t → Nat → Nat → Option Nat
  | [], _, _ => none
  | df :: rest, j, bitpos =>
    if j ≠ dim ∧ ((i >>> bitpos) &&& ((1 <<< df.bits) - 1)) + 1 < df.zones then some bitpos
    else scanNextDim dim i rest (j + 1) (bitpos + df.bits)

/-- The loop for (int i = 0; i < region->DimensionRegions; ) of the other
branch, started at i; fuel bounds the number of iterations. -/
def updateOtherLoop (st : DimRegionChooser) (r : Nat) (rgn : Region) (upperLimit bitpos : Nat) :
    Nat → Nat → Instrument → Option Instrument
  | 0, _, _ => none
  | fuel + 1, i, m =>
    if i < rgn.DimensionRegions then
      let dim := st.resize.dimension
      match (m.regionAt r).bind (fun rgn1 => rgn1.dimRgn i) with
      | none => none
      | some di =>
        match (if di.upperLimit dim = 0 then
                 backfillUpperLimits r i bitpos dim (rgn.dimDef dim).zones m
               else some m) with
        | none => none
        | some m1 =>
          match m1.writeUpperLimit r ((i : Int) + ((st.resize.zone <<< bitpos : Nat) : Int))
              dim upperLimit with
          | none => none
          | some m2 =>
            match scanNextDim dim i rgn.pDimensionDefinitions 0 0 with
            | none => some m2
            | some bp =>
              updateOtherLoop st r rgn upperLimit bitpos fuel
                ((bitAnd (i : Int) (bitNot (((1 <<< bp) - 1 : Nat) : Int))).toNat + (1 <<< bp)) m2
    else some m

/-- The branch of update_after_resize for the dimensions other than velocity.
Every iteration of the loop increases i, so region->DimensionRegions + 1 is
enough fuel. -/
def updateOther (st : DimRegionChooser) (r : Nat) (rgn : Region) (upperLimit bitpos : Nat) :
    Option Instrument :=
  match updateOtherLoop st r rgn upperLimit bitpos (rgn.DimensionRegions + 1) 0 st.instr with
  | none => none
  | some m =>
    if st.modifyallregions then
      forEachKeyRegion (broadcastRegion st.resize upperLimit none none) m
    else some m

/-- The method update_after_resize(). -/
def update_after_resize (st : DimRegionChooser) : Option DimRegionChooser :=
  let upperLimit : Nat := toUInt8 (st.resize.pos - 1)
  match st.region with
  | none => none
  | some r =>
    match st.instr.regionAt r with
    | none => none
    | some rgn =>
      let bitpos := bitposOf rgn st.resize.dimension
      let stereobitpos : Int :=
        if st.modifybothchannels then (baseBits dimension_samplechannel rgn : Int) else -1
      if (rgn.dimDef st.resize.dimension).dimension = dimension_velocity then
        (updateVelocity st r rgn upperLimit bitpos stereobitpos).map
          (fun m => { st with instr := m })
      else
        (updateOther st r rgn upperLimit bitpos).map (fun m => { st with instr := m })

/-! ## is_in_resize_zone -/

/-- The first loop of is_in_resize_zone (and of on_button_press_event) over the
remaining dimension definitions, which looks for the row ydim among the
dimensions with bits != 0; the result is (dim, bitpos) after the loop. -/
def findRow : List dimension_def_t → Nat → Int → Nat → Nat × Nat
  | [], dim, _, bitpos => (dim, bitpos)
  | df :: rest, dim, ydim, bitpos =>
    if df.bits = 0 then findRow rest (dim + 1) ydim bitpos
    else if ydim = 0 then (dim, bitpos)
    else findRow rest (dim + 1) (ydim - 1) (bitpos + df.bits)

/-- The value of customsplits in is_in_resize_zone; the dimension region in
slot c is dereferenced only where the C++ operators && and || evaluate it. -/
def customSplits (rgn : Region) (df : dimension_def_t) (dim : Nat) (c : Int) : Option Bool :=
  match (if df.split_type = split_type_t.split_type_normal then
           (rgn.dimRgn c).map (fun d => decide (d.upperLimit dim ≠ 0))
         else some false) with
  | none => none
  | some true => some true
  | some false =>
    if df.dimension = dimension_velocity then
      (rgn.dimRgn c).map (fun d => decide (d.VelocityUpperLimit ≠ 0))
    else some false

/-- The value of upperLimit for zone iZone in is_in_resize_zone: the custom
limit of the dimension region d (the legacy field when the modern one is 0),
or (iZone+1) * (int)zone_size - 1 without custom splits. -/
def zoneUpperLimit (customsplits : Bool) (d : Option DimensionRegion) (df : dimension_def_t)
    (dim iZone : Nat) : Option Int :=
  if customsplits then
    d.map (fun d =>
      if d.upperLimit dim ≠ 0 then (d.upperLimit dim : Int) else (d.VelocityUpperLimit : Int))
  else some (((iZone : Int) + 1) * df.zone_size - 1)

/-- The pixel column int((w - label_width - 1) * limit / 128.0 + 0.5) +
label_width of a limit. -/
def limitColumn (w label_width limit : Int) : Int :=
  truncDiv (2 * ((w - label_width - 1) * limit) + 128) 256 + label_width

/-- The loop over iZone of is_in_resize_zone, with n iterations left: some none
when no boundary is hit, some (some resize) with the new resize descriptor when
the pointer is in the resize zone of the boundary above zone iZone. -/
def resizeZoneLoop (st : DimRegionChooser) (rgn : Region) (df : dimension_def_t)
    (dim bitpos : Nat) (c : Int) (customsplits : Bool) (x : Int) :
    Nat → Nat → Int → Option (Option resize_t)
  | 0, _, _ => some none
  | n + 1, iZone, prev_limit =>
    match zoneUpperLimit customsplits (rgn.dimRgn (c + ((iZone <<< bitpos : Nat) : Int)))
        df dim iZone with
    | none => none
    | some upperLimit =>
      let limit := upperLimit + 1
      let limitx := limitColumn st.width st.label_width limit
      if x ≤ limitx - 2 then some none
      else if x ≤ limitx + 2 then
        let dr := bitAnd (st.maindimregno >>> bitpos) ((((1 <<< df.bits) - 1 : Nat)) : Int)
        match zoneUpperLimit customsplits
            (rgn.dimRgn (c + (((iZone + 1) <<< bitpos : Nat) : Int))) df dim (iZone + 1) with
        | none => none
        | some upperLimit2 =>
          some (some { st.resize with
            dimension := dim
            dimensionDef := df
            zone := iZone
            pos := limit
            min := prev_limit
            selected := if dr = (iZone : Int) then resize_selected_t.left
                        else if dr = (iZone : Int) + 1 then resize_selected_t.right
                        else resize_selected_t.none
            max := upperLimit2 + 1 })
      else resizeZoneLoop st rgn df dim bitpos c customsplits x n (iZone + 1) limit

/-- The method is_in_resize_zone(x, y): the returned value and the state after
the call. -/
def is_in_resize_zone (st : DimRegionChooser) (x y : Int) : Option (Bool × DimRegionChooser) :=
  match st.region with
  | none => some (false, st)
  | some r =>
    if y < st.nbDimensions * st.h ∧ x ≥ st.label_width ∧ x < st.width then
      match st.instr.regionAt r with
      | none => none
      | some rgn =>
        let ydim := truncDiv y st.h
        let row := findRow rgn.pDimensionDefinitions 0 ydim 0
        let dim := row.1
        let bitpos := row.2
        let df := rgn.dimDef dim
        let nbZones := df.zones
        let c : Int := if st.maindimregno ≥ 0 then bitAnd st.maindimregno (dimMask df.bits bitpos)
                       else 0
        match customSplits rgn df dim c with
        | none => none
        | some customsplits =>
          if df.split_type ≠ split_type_t.split_type_bit then
            match resizeZoneLoop st rgn df dim bitpos c customsplits x (nbZones - 1) 0 0 with
            | none => none
            | some none => some (false, st)
            | some (some rs) => some (true, { st with resize := rs })
          else some (false, st)
    else some (false, st)

/-! ## on_motion_notify_event -/

/-- The value of k in on_motion_notify_event after the clamping statements, for
the value k0 = int((x - label_width) * 128.0 / (w - label_width - 1) + 0.5). -/
def clampDrag (resize : resize_t) (k0 : Int) : Int :=
  let k1 := if k0 < resize.min then resize.min else if k0 > resize.max then resize.max else k0
  if k1 < 2 then 2 else k1

/-- The limit value under the pointer in on_motion_notify_event,
int((x - label_width) * 128.0 / (w - label_width - 1) + 0.5), clamped; none
when w - label_width - 1 is 0 (the double is then infinite or not a number and
its conversion to int is undefined). -/
def dragPosition (st : DimRegionChooser) (x : Int) : Option Int :=
  if st.width - st.label_width - 1 = 0 then none
  else
    some (clampDrag st.resize
      (truncDiv (2 * ((x - st.label_width) * 128) + (st.width - st.label_width - 1))
        (2 * (st.width - st.label_width - 1))))

/-- The method on_motion_notify_event for a pointer at (x, y). -/
def on_motion_notify_event (st : DimRegionChooser) (x y : Int) : Option DimRegionChooser :=
  if st.resize.active then
    match dragPosition st x with
    | none => none
    | some k =>
      if k ≠ st.resize.pos then update_after_resize { st with resize := { st.resize with pos := k } }
      else some st
  else
    match is_in_resize_zone st x y with
    | none => none
    | some (true, st1) => some { st1 with cursor_is_resize := true }
    | some (false, st1) => some { st1 with cursor_is_resize := false }

/-! ## on_button_release_event and the constructor -/

/-- The first statements of on_button_release_event when a resize is active:
the pointer grab is released, resize.active is cleared and region_changed is
emitted. -/
def releaseGrab (st : DimRegionChooser) : DimRegionChooser :=
  { st with resize := { st.resize with active := false }
            emitted := Signal.region_changed :: st.emitted }

/-- The method on_button_release_event for a pointer at (x, y). -/
def on_button_release_event (st : DimRegionChooser) (x y : Int) : Option DimRegionChooser :=
  if st.resize.active then
    match is_in_resize_zone (releaseGrab st) x y with
    | none => none
    | some (true, st1) => some st1
    | some (false, st1) =>
      if st1.cursor_is_resize then some { st1 with cursor_is_resize := false } else some st1
  else some st

/-- The constructor DimRegionChooser::DimRegionChooser(window): the members it
assigns (the maps are default-constructed empty); the members it does not
assign, among them modifyallregions, nbDimensions, label_width and the other
fields of resize, keep the indeterminate values that mem holds.  The log of
emitted notifications starts empty. -/
def DimRegionChooser.construct (mem : DimRegionChooser) : DimRegionChooser :=
  { mem with
    region := none
    maindimregno := -1
    maindimtype := dimension_none
    maindimcase := []
    dimzones := []
    focus_line := 0
    resize := { mem.resize with active := false }
    cursor_is_resize := false
    h := 24
    multiSelectKeyDown := false
    primaryKeyDown := false
    shiftKeyDown := false
    modifybothchannels := false
    modifyalldimregs := false
    labels_changed := true
    emitted := [] }

/-! ## split_dimension_zone and delete_dimension_zone -/

/-- Modelled from the spec: the values of Gtk::MessageType that the widget
uses. -/
inductive MessageType where
  | MESSAGE_INFO
  | MESSAGE_WARNING
  | MESSAGE_ERROR
deriving DecidableEq, Repr

/-- The text of the dialog that reports the ignored regions: the three
variants of txt with the numbers they show. -/
inductive IgnoredText where
  | missingDimension (minor : Nat)
  | differentZones (critical : Nat)
  | differentZonesAndMissing (critical minor : Nat)
deriving DecidableEq, Repr

/-- The local variables of the key loop of split_dimension_zone and
delete_dimension_zone, with the object graph; visited and called are logs, in
order, of the regions that the loop visits and of the regions on which it
calls the library method. -/
structure ZoneLoop where
  instr : Instrument
  rgn : Option Nat
  ignoredAll : List Nat
  ignoredMinor : List Nat
  ignoredCritical : List Nat
  visited : List Nat
  called : List Nat
deriving DecidableEq, Repr

/-- The loop for (int key = 0; key < 128; ++key) of split_dimension_zone and
delete_dimension_zone over the remaining keys.  The library method
(rgn->SplitDimensionZone or rgn->DeleteDimensionZone) is the parameter method:
it gives the region after the call, or none when it throws.  The result is the
state at the end of the loop and whether the loop was left by an exception. -/
def zoneLoop (method : Region → dimension_t → Int → Option Region) (maindimtype : dimension_t)
    (zone : Int) (maindimdefZones : Nat) : List Nat → ZoneLoop → Option (ZoneLoop × Bool)
  | [], s => some (s, false)
  | key :: rest, s =>
    match s.instr.GetRegion key with
    | none => zoneLoop method maindimtype zone maindimdefZones rest s
    | some r =>
      if s.rgn = some r then zoneLoop method maindimtype zone maindimdefZones rest s
      else
        match s.instr.regionAt r with
        | none => none
        | some g =>
          match g.GetDimensionDefinition maindimtype with
          | none =>
            zoneLoop method maindimtype zone maindimdefZones rest
              { s with rgn := some r, visited := s.visited ++ [r]
                       ignoredAll := s.ignoredAll ++ [r]
                       ignoredMinor := s.ignoredMinor ++ [r] }
          | some dimdef =>
            if dimdef.zones ≠ maindimdefZones then
              zoneLoop method maindimtype zone maindimdefZones rest
                { s with rgn := some r, visited := s.visited ++ [r]
                         ignoredAll := s.ignoredAll ++ [r]
                         ignoredCritical := s.ignoredCritical ++ [r] }
            else
              match method g maindimtype zone with
              | none =>
                some ({ s with rgn := some r, visited := s.visited ++ [r]
                               called := s.called ++ [r] }, true)
              | some g1 =>
                zoneLoop method maindimtype zone maindimdefZones rest
                  { s with rgn := some r, visited := s.visited ++ [r]
                           called := s.called ++ [r]
                           instr := { s.instr with regions := s.instr.regions.set r g1 } }

/-- The dialog of the block if (!ignoredAll.empty()): its message type and
text, none when no dialog is shown. -/
def ignoredReport (s : ZoneLoop) : Option (MessageType × IgnoredText) :=
  if s.ignoredAll = [] then none
  else
    let txt :=
      if s.ignoredCritical = [] then IgnoredText.missingDimension s.ignoredMinor.length
      else if s.ignoredMinor = [] then IgnoredText.differentZones s.ignoredCritical.length
      else IgnoredText.differentZonesAndMissing s.ignoredCritical.length s.ignoredMinor.length
    let type :=
      if s.ignoredCritical = [] then MessageType.MESSAGE_INFO else MessageType.MESSAGE_WARNING
    some (type, txt)

/-- The outcome of split_dimension_zone or delete_dimension_zone: the widget
state after refresh_all(), the loop variables at the end of the loop (empty
when modifyallregions is unset), the dialog that reports ignored regions, and
whether an exception was caught (in which case an error dialog is shown). -/
structure ZoneOperation where
  st : DimRegionChooser
  loop : ZoneLoop
  report : Option (MessageType × IgnoredText)
  thrown : Bool
deriving DecidableEq, Repr

/-- The common body of split_dimension_zone() and delete_dimension_zone(), which
differ only in the library method they call; method is that library method.
The result is none when a null pointer is dereferenced or the assertion
pMaindimdef != NULL fails. -/
def zoneOperation (method : Region → dimension_t → Int → Option Region) (st : DimRegionChooser) :
    Option ZoneOperation :=
  let maindimcase := st.maindimcase.touch st.maindimtype
  let zone := maindimcase.get st.maindimtype
  match st.region with
  | none => none
  | some r =>
    match st.instr.regionAt r with
    | none => none
    | some region =>
      let s0 : ZoneLoop :=
        { instr := st.instr, rgn := none, ignoredAll := [], ignoredMinor := [],
          ignoredCritical := [], visited := [], called := [] }
      if ¬ st.modifyallregions then
        match method region st.maindimtype zone with
        | none =>
          (set_region { st with maindimcase := maindimcase } st.region).map
            (fun st1 => { st := st1, loop := { s0 with called := [r] }, report := none,
                          thrown := true })
        | some region1 =>
          (set_region { st with maindimcase := maindimcase
                                instr := { st.instr with regions := st.instr.regions.set r region1 } }
            st.region).map
            (fun st1 => { st := st1, loop := { s0 with called := [r] }, report := none,
                          thrown := false })
      else
        match region.GetDimensionDefinition st.maindimtype with
        | none => none
        | some maindimdef =>
          match zoneLoop method st.maindimtype zone maindimdef.zones (List.range 128) s0 with
          | none => none
          | some (s, thrown) =>
            (set_region { st with maindimcase := maindimcase, instr := s.instr } st.region).map
              (fun st1 => { st := st1, loop := s,
                            report := if thrown then none else ignoredReport s,
                            thrown := thrown })

/-- The method split_dimension_zone(); SplitDimensionZone is the method
gig::Region::SplitDimensionZone(type, zone) of the sound-format library. -/
def split_dimension_zone (SplitDimensionZone : Region → dimension_t → Int → Option Region)
    (st : DimRegionChooser) : Option ZoneOperation :=
  zoneOperation SplitDimensionZone st

/-- The method delete_dimension_zone(); DeleteDimensionZone is the method
gig::Region::DeleteDimensionZone(type, zone) of the sound-format library. -/
def delete_dimension_zone (DeleteDimensionZone : Region → dimension_t → Int → Option Region)
    (st : DimRegionChooser) : Option ZoneOperation :=
  zoneOperation DeleteDimensionZone st

/-! ## The slots read by caseOfDimRegion -/

/-- The indices drIndex at which the search loop of caseOfDimRegion evaluates
rgn->pDimensionRegions[drIndex], in order, starting at drIndex with n
iterations left. -/
def findDimRgnReadsFrom (rgn : Region) (dr : Nat) : Nat → Nat → List Nat
  | 0, _ => []
  | n + 1, drIndex =>
    drIndex ::
      (if (rgn.dimRgn drIndex).map (fun d => d.addr) = some dr then []
       else findDimRgnReadsFrom rgn dr n (drIndex + 1))

/-- The indices at which caseOfDimRegion reads the slots of the region when it
searches for the pointer dr. -/
def findDimRgnReads (rgn : Region) (dr : Nat) : List Nat :=
  findDimRgnReadsFrom rgn dr 256 0

/-! ## on_draw: the zone areas -/

/-- The result of an int multiplication whose mathematical value is x, kept to
32 bits. -/
def wrapInt32 (x : Int) : Int := ofBits32 (toBits32 x)

/-- What on_draw paints for one zone of a dimension: the zone index passed to
drawIconsFor, the columns prevX and x of its left and right border lines, and
the two numbers shown as text at the left and right end of the zone. -/
structure ZoneDrawing where
  zone : Nat
  prevX : Int
  x : Int
  lowerText : Int
  upperText : Int
deriving DecidableEq, Repr

/-- The pixel column int((w - label_width - 1) * j / double(nbZones) + 0.5) +
label_width at which on_draw draws border j of a dimension without custom
splits. -/
def borderColumn (w label_width : Int) (nbZones j : Nat) : Int :=
  truncDiv (2 * ((w - label_width - 1) * (j : Int)) + (nbZones : Int)) (2 * (nbZones : Int))
    + label_width

/-- The loop for (int j = 0 ; j <= nbZones ; j++) of on_draw for a dimension
without custom splits, with n iterations left; the result lists the zones that
are painted. -/
def drawNormalZones (w label_width clipx1 clipx2 : Int) (nbZones : Nat) :
    Nat → Nat → Int → List ZoneDrawing
  | 0, _, _ => []
  | n + 1, j, prevX =>
    let x := borderColumn w label_width nbZones j
    if x ≥ clipx2 then []
    else if x < clipx1 then drawNormalZones w label_width clipx1 clipx2 nbZones n (j + 1) prevX
    else
      (if j ≠ 0 then
         [{ zone := j - 1, prevX := prevX, x := x
            lowerText := truncDiv (wrapInt32 (((j : Int) - 1) * 128)) (nbZones : Int)
            upperText := truncDiv (wrapInt32 ((j : Int) * 128)) (nbZones : Int) - 1 }]
       else []) ++
      drawNormalZones w label_width clipx1 clipx2 nbZones n (j + 1) x

/-- The loop for (int j = 0 ; j < nbZones ; j++) of on_draw for a dimension
with custom splits, with n iterations left; none when a null slot is
dereferenced. -/
def drawCustomZones (rgn : Region) (i bitpos : Nat) (c : Int) (w label_width clipx1 clipx2 : Int) :
    Nat → Nat → Int → Int → Option (List ZoneDrawing)
  | 0, _, _, _ => some []
  | n + 1, j, prevX, prevUpperLimit =>
    match rgn.dimRgn (c + ((j <<< bitpos : Nat) : Int)) with
    | none => none
    | some d =>
      let upperLimit : Int :=
        if d.upperLimit i ≠ 0 then (d.upperLimit i : Int) else (d.VelocityUpperLimit : Int)
      let v := upperLimit + 1
      let x := limitColumn w label_width v
      if x ≥ clipx2 then some []
      else if x < clipx1 then
        drawCustomZones rgn i bitpos c w label_width clipx1 clipx2 n (j + 1) prevX prevUpperLimit
      else
        (drawCustomZones rgn i bitpos c w label_width clipx1 clipx2 n (j + 1) x upperLimit).map
          (fun rest =>
            { zone := j, prevX := prevX, x := x, lowerText := prevUpperLimit + 1
              upperText := upperLimit } :: rest)

/-- The zones that on_draw paints in the row of dimension i, whose bit offset is
bitpos. -/
def drawRow (st : DimRegionChooser) (rgn : Region) (i bitpos : Nat) (clipx1 clipx2 : Int) :
    Option (List ZoneDrawing) :=
  let df := rgn.dimDef i
  let c : Int := if st.maindimregno ≥ 0 then bitAnd st.maindimregno (dimMask df.bits bitpos)
                 else 0
  match customSplits rgn df i c with
  | none => none
  | some true =>
    drawCustomZones rgn i bitpos c st.width st.label_width clipx1 clipx2 df.zones 0
      st.label_width (-1)
  | some false =>
    some (drawNormalZones st.width st.label_width clipx1 clipx2 df.zones (df.zones + 1) 0 0)

/-- The loop of on_draw over the dimensions, on the remaining dimension
definitions; i, y and bitpos are the loop variables.  The result lists the
rows painted, each with its dimension index. -/
def drawRows (st : DimRegionChooser) (rgn : Region) (clipx1 clipy1 clipx2 clipy2 : Int) :
    List dimension_def_t → Nat → Int → Nat → Option (List (Nat × List ZoneDrawing))
  | [], _, _, _ => some []
  | df :: rest, i, y, bitpos =>
    if df.zones ≠ 0 then
      if y ≥ clipy2 then some []
      else if y + st.h > clipy1 then
        match drawRow st rgn i bitpos clipx1 clipx2 with
        | none => none
        | some zs =>
          (drawRows st rgn clipx1 clipy1 clipx2 clipy2 rest (i + 1) (y + st.h)
            (bitpos + df.bits)).map (fun rows => (i, zs) :: rows)
      else drawRows st rgn clipx1 clipy1 clipx2 clipy2 rest (i + 1) (y + st.h) (bitpos + df.bits)
    else drawRows st rgn clipx1 clipy1 clipx2 clipy2 rest (i + 1) y (bitpos + df.bits)

/-- The zone areas that on_draw paints for the clip rectangle (clipx1, clipy1,
clipx2, clipy2), st being the state after the dimension labels on the left
have been drawn (which sets label_width from the sizes of the label texts). -/
def on_draw (st : DimRegionChooser) (clipx1 clipy1 clipx2 clipy2 : Int) :
    Option (List (Nat × List ZoneDrawing)) :=
  match st.region with
  | none => some []
  | some r =>
    match st.instr.regionAt r with
    | none => none
    | some rgn =>
      if st.label_width ≥ clipx2 then some []
      else drawRows st rgn clipx1 clipy1 clipx2 clipy2 rgn.pDimensionDefinitions 0 0 0

/-! ## Sets and the map dimzones -/

/-- The operation s.insert(z) on a std::set, given as the list of its elements
in increasing order. -/
def setInsert {α : Type} [LinearOrder α] : List α → α → List α
  | [], z => [z]
  | a :: rest, z =>
    if z < a then z :: a :: rest
    else if z = a then a :: rest
    else a :: setInsert rest z

/-- The value of dimzones[k] (the empty set when k has no entry). -/
def dimzonesGet (m : List (dimension_t × List Int)) (k : dimension_t) : List Int :=
  (m.lookup k).getD []

/-- The assignment dimzones[k] = s on the map given as the list of its entries
in increasing key order. -/
def dimzonesAssign : List (dimension_t × List Int) → dimension_t → List Int →
    List (dimension_t × List Int)
  | [], k, s => [(k, s)]
  | (k0, s0) :: rest, k, s =>
    if k < k0 then (k, s) :: (k0, s0) :: rest
    else if k = k0 then (k, s) :: rest
    else (k0, s0) :: dimzonesAssign rest k s

/-- The loop for (it = maindimcase.begin(); ...) dimzones[it->first].insert(
it->second) over the remaining entries of the case. -/
def dimzonesOfCase (dimCase : DimensionCase) (dimzones : List (dimension_t × List Int)) :
    List (dimension_t × List Int) :=
  dimCase.foldl (fun m kv => dimzonesAssign m kv.1 (setInsert (dimzonesGet m kv.1) kv.2)) dimzones

/-! ## on_button_press_event -/

/-- The loops for (z = 0 ; z < nbZones ; z++) of on_button_press_event with
custom splits, with n iterations left: the value of z after the loop, which
stops at the first zone whose limit (the modern one, or the legacy one when
modern is false) is not below val; none when a null slot is dereferenced. -/
def pressZoneLoop (rgn : Region) (i bitpos : Nat) (c val : Int) (modern : Bool) :
    Nat → Nat → Option Nat
  | 0, z => some z
  | n + 1, z =>
    match rgn.dimRgn (c + ((z <<< bitpos : Nat) : Int)) with
    | none => none
    | some d =>
      if val ≤ (if modern then (d.upperLimit i : Int) else (d.VelocityUpperLimit : Int)) then some z
      else pressZoneLoop rgn i bitpos c val modern n (z + 1)

/-- The zone index z that on_button_press_event computes for the pointer
column x in the row of dimension dim: int((x - label_width) * nbZones /
(w - label_width - 1)) without custom splits, the result of the search through
the limits of the zones for val = int((x - label_width) * 128 /
(w - label_width - 1)) with custom splits.  The result is none when a null slot
is dereferenced or w - label_width - 1 is 0 (the double is then infinite or not
a number and its conversion to int is undefined).  At the call x >= label_width
and x < w hold, so the value is not negative. -/
def pressZone (st : DimRegionChooser) (rgn : Region) (dim bitpos : Nat) (c x : Int) : Option Nat :=
  let df := rgn.dimDef dim
  match customSplits rgn df dim c with
  | none => none
  | some customsplits =>
    if st.width - st.label_width - 1 = 0 then none
    else if customsplits then
      let val := truncDiv ((x - st.label_width) * 128) (st.width - st.label_width - 1)
      match rgn.dimRgn c with
      | none => none
      | some d0 =>
        pressZoneLoop rgn dim bitpos c val (decide (d0.upperLimit dim ≠ 0)) df.zones 0
    else
      some (truncDiv ((x - st.label_width) * (df.zones : Int))
        (st.width - st.label_width - 1)).toNat

/-- The statements of on_button_press_event that update the zone selection
dimzones for the clicked zone z of the dimension kind maindimtype. -/
def pressDimzones (st : DimRegionChooser) (maindimcase : DimensionCase) (maindimtype : dimension_t)
    (z : Int) : List (dimension_t × List Int) :=
  if st.multiSelectKeyDown then
    if (dimzonesGet st.dimzones maindimtype).contains z then
      if (dimzonesGet st.dimzones maindimtype).length > 1 then
        dimzonesAssign st.dimzones maindimtype ((dimzonesGet st.dimzones maindimtype).erase z)
      else dimzonesAssign st.dimzones maindimtype (dimzonesGet st.dimzones maindimtype)
    else
      dimzonesAssign st.dimzones maindimtype (setInsert (dimzonesGet st.dimzones maindimtype) z)
  else dimzonesOfCase maindimcase []

/-- The branch of on_button_press_event for a press that is not in a resize
zone: the clicked zone becomes the main selection. -/
def pressSelect (st : DimRegionChooser) (rgn : Region) (x y : Int) : Option DimRegionChooser :=
  let dim := (findRow rgn.pDimensionDefinitions 0 (truncDiv y st.h) 0).1
  let df := rgn.dimDef dim
  let bitpos := bitposOf rgn dim
  let maindimregno0 : Int := if st.maindimregno < 0 then 0 else st.maindimregno
  let c := bitAnd maindimregno0 (dimMask df.bits bitpos)
  match pressZone st rgn dim bitpos c x with
  | none => none
  | some z =>
    let maindimcase := st.maindimcase.assign df.dimension (z : Int)
    some { st with
      maindimcase := maindimcase
      maindimregno := bitOr c ((z <<< bitpos : Nat) : Int)
      maindimtype := df.dimension
      dimzones := pressDimzones st maindimcase df.dimension (z : Int)
      focus_line := (dim : Int)
      emitted := Signal.dimregion_selected :: st.emitted }

/-- The method on_button_press_event for a pointer at (x, y). -/
def on_button_press_event (st : DimRegionChooser) (x y : Int) : Option DimRegionChooser :=
  match st.region with
  | none => some st
  | some r =>
    if y < st.nbDimensions * st.h ∧ x ≥ st.label_width ∧ x < st.width then
      match is_in_resize_zone st x y with
      | none => none
      | some (true, st1) => some { st1 with resize := { st1.resize with active := true } }
      | some (false, st1) =>
        match st1.instr.regionAt r with
        | none => none
        | some rgn => pressSelect st1 rgn x y
    else some st

/-! ## select_dimregion -/

/-- The method resetSelectedZones(). -/
def resetSelectedZones (st : DimRegionChooser) : Option DimRegionChooser :=
  let st1 := { st with dimzones := [] }
  match st.region with
  | none => some st1
  | some r =>
    match st.instr.regionAt r with
    | none => none
    | some rgn =>
      if st.maindimregno < 0 ∨ st.maindimregno ≥ (rgn.DimensionRegions : Int) then some st1
      else
        match rgn.dimRgn st.maindimregno with
        | none => some st1
        | some dimrgn =>
          let maindimcase := dimensionCaseOf rgn (some dimrgn.addr)
          some { st1 with maindimcase := maindimcase, dimzones := dimzonesOfCase maindimcase [] }

/-- The read of rgn->pDimensionRegions[dr] for an index dr that is not
negative: none when dr lies beyond the 256 slots, otherwise the pointer in the
slot. -/
def Region.readSlot (rgn : Region) (dr : Nat) : Option (Option DimensionRegion) :=
  if 256 ≤ dr then none else some (rgn.dimRgn dr)

/-- The loop for (int dr = 0; dr < region->DimensionRegions &&
region->pDimensionRegions[dr]; ++dr) of select_dimregion, with n iterations
left before dr reaches DimensionRegions: some (some dr) when the pointer dimrgn
is found in slot dr, some none when the loop ends without finding it, none
when a slot beyond the 256 slots is read. -/
def selectLoop (rgn : Region) (dimrgn : Option Nat) : Nat → Nat → Option (Option Nat)
  | 0, _ => some none
  | n + 1, dr =>
    match rgn.readSlot dr with
    | none => none
    | some none => some none
    | some (some d) =>
      if some d.addr = dimrgn then some (some dr)
      else selectLoop rgn dimrgn n (dr + 1)

/-- The method select_dimregion(dimrgn): the returned value and the state after
the call. -/
def select_dimregion (st : DimRegionChooser) (dimrgn : Option Nat) :
    Option (Bool × DimRegionChooser) :=
  match st.region with
  | none => some (false, st)
  | some r =>
    match st.instr.regionAt r with
    | none => none
    | some rgn =>
      match selectLoop rgn dimrgn rgn.DimensionRegions 0 with
      | none => none
      | some none => some (false, st)
      | some (some dr) =>
        match resetSelectedZones { st with maindimregno := (dr : Int) } with
        | none => none
        | some st1 =>
          some (true, { st1 with emitted := Signal.dimregion_selected :: st1.emitted })

/-! ## get_dimregions -/

/-- The test that the loop over the decoded case in get_dimregions makes for
one entry (dimension kind, zone): whether the entry counts as selected. -/
def zoneIsSelected (dimzones : List (dimension_t × List Int)) (stereo : Bool)
    (kv : dimension_t × Int) : Bool :=
  if stereo ∧ kv.1 = dimension_samplechannel then true
  else
    match dimzones.lookup kv.1 with
    | none => false
    | some zs =>
      if zs.contains kv.2 then true
      else if zs.isEmpty ∧ kv.2 = 0 then true
      else false

/-- One iteration of the loop for (int iDimRgn = 0; iDimRgn < 256; ++iDimRgn)
of get_dimregions on the set dimregs of pointers. -/
def getDimregionsStep (st : DimRegionChooser) (rgn : Region) (stereo : Bool)
    (dimregs : List Nat) (iDimRgn : Nat) : List Nat :=
  match rgn.dimRgn iDimRgn with
  | none => dimregs
  | some dimRgn =>
    let dimCase := caseOfDimRegion rgn (some dimRgn.addr)
    if dimCase.1 = false then dimregs
    else if dimCase.2.all (zoneIsSelected st.dimzones stereo) then setInsert dimregs dimRgn.addr
    else dimregs

/-- The method get_dimregions(region, stereo, dimregs) for a non-null region:
the set dimregs after the call. -/
def get_dimregions (st : DimRegionChooser) (rgn : Region) (stereo : Bool) (dimregs : List Nat) :
    List Nat :=
  (List.range 256).foldl (getDimregionsStep st rgn stereo) dimregs

/-! ## The setters of the check boxes -/

/-- The method setModifyAllRegions(b) (the menu labels are not modelled). -/
def setModifyAllRegions (st : DimRegionChooser) (b : Bool) : DimRegionChooser :=
  { st with modifyallregions := b }

/-! ## The indices visited by the loop of the non-velocity branch -/

/-- The loop for (int i = 0; i < region->DimensionRegions; ) of the other
branch (updateOtherLoop) together with the log of the values that i takes at
the start of the iterations, in order. -/
def updateOtherTrace (st : DimRegionChooser) (r : Nat) (rgn : Region) (upperLimit bitpos : Nat) :
    Nat → Nat → Instrument → Option (List Nat × Instrument)
  | 0, _, _ => none
  | fuel + 1, i, m =>
    if i < rgn.DimensionRegions then
      let dim := st.resize.dimension
      match (m.regionAt r).bind (fun rgn1 => rgn1.dimRgn i) with
      | none => none
      | some di =>
        match (if di.upperLimit dim = 0 then
                 backfillUpperLimits r i bitpos dim (rgn.dimDef dim).zones m
               else some m) with
        | none => none
        | some m1 =>
          match m1.writeUpperLimit r ((i : Int) + ((st.resize.zone <<< bitpos : Nat) : Int))
              dim upperLimit with
          | none => none
          | some m2 =>
            match scanNextDim dim i rgn.pDimensionDefinitions 0 0 with
            | none => some ([i], m2)
            | some bp =>
              (updateOtherTrace st r rgn upperLimit bitpos fuel
                ((bitAnd (i : Int) (bitNot (((1 <<< bp) - 1 : Nat) : Int))).toNat + (1 <<< bp))
                m2).map (fun res => (i :: res.1, res.2))
    else some ([], m)

/-! ## PropEditor (paramedit.h): the two entries of a key range -/

/-- A NoteEntry, that is a NumEntryTemp<uint8_t> with 0 decimals: the member
value, the number shown by the spin button, and the upper bound of the
adjustment (the lower bound is 0, the default of the constructor). -/
structure NoteEntry where
  value : Nat
  spin : Nat
  upper : Nat
deriving DecidableEq, Repr

/-- The method NumEntryTemp<uint8_t>::set_value(value): the widget after the
call and whether sig_changed is emitted (it is the last statement).  A value
above the upper bound of the adjustment is replaced by that bound.  The spin
button is set to a value within the bounds of its adjustment, so it shows that
value, and the handler value_changed that it triggers finds the member value
equal to it and emits nothing. -/
def NoteEntry.set_value (e : NoteEntry) (value : Nat) : NoteEntry × Bool :=
  let value1 := if value > e.upper then e.upper else value
  if e.value ≠ value1 then ({ e with value := value1, spin := value1 }, true)
  else (e, false)

/-- The state of a PropEditor<M> whose two NoteEntry widgets are connected to
a key range of the model m by connect(eKeyRangeLow, eKeyRangeHigh, range): low
and high are (m->*range).low and (m->*range).high, changed counts the emissions
of the signal sig_changed of the editor. -/
structure PropEditor where
  low : Nat
  high : Nat
  update_model : Int
  eKeyRangeLow : NoteEntry
  eKeyRangeHigh : NoteEntry
  changed : Nat
deriving DecidableEq, Repr

/-- The two slots that connect(eKeyRangeLow, eKeyRangeHigh, range) attaches to
the signals signal_value_changed() of the two widgets. -/
inductive KeyRangeSlot where
  | key_range_low_changed
  | key_range_high_changed
deriving DecidableEq, Repr

/-- The slots key_range_low_changed and key_range_high_changed.  The call of
set_value on the other widget emits the signal of that widget when its value
changes, which runs the other slot before set_value returns; fuel bounds the
depth of these nested calls (none when it is used up). -/
def keyRangeChanged : Nat → KeyRangeSlot → PropEditor → Option PropEditor
  | 0, _, _ => none
  | fuel + 1, KeyRangeSlot.key_range_low_changed, s =>
    if s.update_model = 0 then
      let value := s.eKeyRangeLow.value
      let s1 := { s with low := value }
      let s2 :=
        if value > s1.high then
          let res := s1.eKeyRangeHigh.set_value value
          if res.2 then
            keyRangeChanged fuel KeyRangeSlot.key_range_high_changed
              { s1 with eKeyRangeHigh := res.1 }
          else some { s1 with eKeyRangeHigh := res.1 }
        else some s1
      s2.map (fun s3 => { s3 with changed := s3.changed + 1 })
    else some s
  | fuel + 1, KeyRangeSlot.key_range_high_changed, s =>
    if s.update_model = 0 then
      let value := s.eKeyRangeHigh.value
      let s1 := { s with high := value }
      let s2 :=
        if value < s1.low then
          let res := s1.eKeyRangeLow.set_value value
          if res.2 then
            keyRangeChanged fuel KeyRangeSlot.key_range_low_changed
              { s1 with eKeyRangeLow := res.1 }
          else some { s1 with eKeyRangeLow := res.1 }
        else some s1
      s2.map (fun s3 => { s3 with changed := s3.changed + 1 })
    else some s

/-- The slot key_range_low_changed(eKeyRangeLow, eKeyRangeHigh, range), run
when the value of eKeyRangeLow has changed. -/
def key_range_low_changed (fuel : Nat) (s : PropEditor) : Option PropEditor :=
  keyRangeChanged fuel KeyRangeSlot.key_range_low_changed s

/-- The slot key_range_high_changed(eKeyRangeLow, eKeyRangeHigh, range), run
when the value of eKeyRangeHigh has changed. -/
def key_range_high_changed (fuel : Nat) (s : PropEditor) : Option PropEditor :=
  keyRangeChanged fuel KeyRangeSlot.key_range_high_changed s

/-! ## Notions used in the statements -/

/-- The total bit width of the dimensions of a region. -/
def Region.totalBits (rgn : Region) : Nat :=
  (rgn.pDimensionDefinitions.map (fun df => df.bits)).sum

/-- The dimension region with address dr is stored in slot drIndex of the
region and in no slot before it. -/
def Region.StoredAt (rgn : Region) (dr drIndex : Nat) : Prop :=
  drIndex < 256 ∧ (rgn.dimRgn drIndex).map (fun d => d.addr) = some dr ∧
    ∀ i, i < drIndex → (rgn.dimRgn i).map (fun d => d.addr) ≠ some dr

/-- All zone indices extracted from drIndex for the dimensions of the list,
the first dimension being at bit offset off, are below the zone counts. -/
def ZonesInRange (drIndex : Nat) : List dimension_def_t → Nat → Prop
  | [], _ => True
  | df :: rest, off =>
    zoneBits drIndex off df.bits < df.zones ∧ ZonesInRange drIndex rest (off + df.bits)

/-- The case mc gives every dimension of the list (the first one at bit offset
off) the zone index extracted from drIndex, and that zone index is below the
zone count. -/
def CaseAgrees (drIndex : Nat) : List dimension_def_t → Nat → DimensionCase → Prop
  | [], _, _ => True
  | df :: rest, off, mc =>
    mc.get df.dimension = ((zoneBits drIndex off df.bits : Nat) : Int) ∧
      zoneBits drIndex off df.bits < df.zones ∧ CaseAgrees drIndex rest (off + df.bits) mc

/-! ## Example objects -/

/-- A dimension definition of normal split type with zone_size = 128 / zones
(its integer part). -/
def mkDef (kind bits zones : Nat) : dimension_def_t :=
  { dimension := kind, bits := bits, zones := zones,
    split_type := split_type_t.split_type_normal, zone_size := 128 / zones }

/-- A dimension definition of bit-exact split type (zone_size 0). -/
def mkBitDef (kind bits zones : Nat) : dimension_def_t :=
  { dimension := kind, bits := bits, zones := zones,
    split_type := split_type_t.split_type_bit, zone_size := 0 }

/-- Fresh dimension regions (no custom limits) with the addresses 100, 101, ... -/
def freshSlots (n : Nat) : List (Option DimensionRegion) :=
  (List.range n).map (fun i =>
    some { addr := 100 + i, DimensionUpperLimits := [], VelocityUpperLimit := 0 })

/-- A region with the given dimension definitions and n fresh dimension regions. -/
def mkRegion (defs : List dimension_def_t) (n : Nat) : Region :=
  { pDimensionDefinitions := defs, DimensionRegions := n, pDimensionRegions := freshSlots n }

/-- An instrument whose 128 keys all belong to its only region. -/
def mkInstrument (rgn : Region) : Instrument :=
  { regions := [rgn], RegionKeyTable := List.replicate 128 (some 0) }

/-- A widget showing region 0 of the instrument, with the given main case and
slot, no resize in progress and all broadcast flags off. -/
def mkChooser (instr : Instrument) (maindimcase : DimensionCase) (maindimregno : Int) :
    DimRegionChooser :=
  { instr := instr
    region := some 0
    maindimregno := maindimregno
    maindimtype := dimension_none
    maindimcase := maindimcase
    dimzones := []
    focus_line := 0
    nbDimensions := 0
    h := 24
    label_width := 0
    width := 129
    resize := { active := false, dimension := 0, dimensionDef := dimension_def_t.zero,
                zone := 0, pos := 0, min := 0, max := 0, selected := resize_selected_t.none }
    cursor_is_resize := false
    multiSelectKeyDown := false
    primaryKeyDown := false
    shiftKeyDown := false
    modifybothchannels := false
    modifyalldimregs := false
    modifyallregions := false
    labels_changed := false
    emitted := [] }

/-- The region of the examples of the specification: dimension A (kind 1) with
2 bits and 3 zones, dimension B (kind 2) with 1 bit and 2 zones. -/
def exampleRegion : Region := mkRegion [mkDef 1 2 3, mkDef 2 1 2] 8

/-- A region with two dimensions of the same kind (1 bit, 2 zones each). -/
def dupRegion : Region := mkRegion [mkDef 1 1 2, mkDef 1 1 2] 4

/-- A region with one dimension of 2 bits and 3 zones whose slots 4..7 hold
dimension regions as well. -/
def wideRegion : Region := mkRegion [mkDef 1 2 3] 8

/-- The widget state when a resize drag starts: the state that
is_in_resize_zone(x, y) leaves, with resize.active set as on_button_press_event
does after is_in_resize_zone has returned true. -/
def startDrag (st : DimRegionChooser) (x y : Int) : Option DimRegionChooser :=
  match is_in_resize_zone st x y with
  | some (true, st1) => some { st1 with resize := { st1.resize with active := true } }
  | _ => none

/-- The dimension region in slot i of region r of the instrument. -/
def Instrument.slot (m : Instrument) (r : Nat) (i : Int) : Option DimensionRegion :=
  (m.regionAt r).bind (fun rgn => rgn.dimRgn i)

/-- The entry DimensionUpperLimits[e] of the dimension region in slot i of
region r. -/
def Instrument.dul (m : Instrument) (r : Nat) (i : Int) (e : Nat) : Option Nat :=
  (m.slot r i).map (fun d => d.upperLimit e)

/-- The field VelocityUpperLimit of the dimension region in slot i of region r. -/
def Instrument.vul (m : Instrument) (r : Nat) (i : Int) : Option Nat :=
  (m.slot r i).map (fun d => d.VelocityUpperLimit)

/-- The limit fields (DimensionUpperLimits[dim], VelocityUpperLimit) of the
dimension region in slot i of region r, when there is one. -/
def limitsAt (st : DimRegionChooser) (r : Nat) (i : Int) (dim : Nat) : Option (Nat × Nat) :=
  (st.instr.slot r i).map (fun d => (d.upperLimit dim, d.VelocityUpperLimit))

/-- Two object graphs with the same structure: the same key table and, region
by region, the same dimension definitions, the same count of dimension regions
and the same dimension-region objects (by address) in the same slots; only
limit fields may differ. -/
def SameShape (m m1 : Instrument) : Prop :=
  m1.RegionKeyTable = m.RegionKeyTable ∧
  ∀ r, (m1.regionAt r).map (fun g => (g.pDimensionDefinitions, g.DimensionRegions)) =
        (m.regionAt r).map (fun g => (g.pDimensionDefinitions, g.DimensionRegions)) ∧
      ∀ i : Int, (m1.slot r i).map (fun d => d.addr) = (m.slot r i).map (fun d => d.addr)

/-- A region with a velocity dimension (1 bit, 2 zones) and a layer dimension
(1 bit, 2 zones), without custom limits. -/
def velocityLayerRegion : Region :=
  mkRegion [mkDef dimension_velocity 1 2, mkBitDef dimension_layer 1 2] 4

/-- A widget on velocityLayerRegion, 129 pixels wide, with the check box
all dimension regions set. -/
def allDimRegsChooser : DimRegionChooser :=
  { mkChooser (mkInstrument velocityLayerRegion) [] 0 with
    nbDimensions := 2, modifyalldimregs := true }

/-- A widget on velocityLayerRegion, 129 pixels wide, with all check boxes off. -/
def plainChooser : DimRegionChooser :=
  { mkChooser (mkInstrument velocityLayerRegion) [] 0 with nbDimensions := 2 }

/-- A region with one velocity dimension of 5 zones (3 bits), without custom
limits. -/
def fiveZoneRegion : Region := mkRegion [mkDef dimension_velocity 3 5] 8

/-- A widget on fiveZoneRegion, 129 pixels wide. -/
def fiveZoneChooser : DimRegionChooser :=
  { mkChooser (mkInstrument fiveZoneRegion) [] 0 with nbDimensions := 1 }

/-- A region with one dimension of 3 zones whose zone 0 has the custom limit 5
while zone 1 has no limit recorded. -/
def gapRegion : Region :=
  { pDimensionDefinitions := [mkDef 5 2 3]
    DimensionRegions := 4
    pDimensionRegions :=
      [some { addr := 100, DimensionUpperLimits := [5], VelocityUpperLimit := 0 },
       some { addr := 101, DimensionUpperLimits := [], VelocityUpperLimit := 0 },
       some { addr := 102, DimensionUpperLimits := [127], VelocityUpperLimit := 0 },
       some { addr := 103, DimensionUpperLimits := [], VelocityUpperLimit := 0 }] }

/-- A widget on gapRegion, 129 pixels wide. -/
def gapChooser : DimRegionChooser :=
  { mkChooser (mkInstrument gapRegion) [] 0 with nbDimensions := 1 }

/-- The state of fiveZoneChooser after the boundary above zone 3 (at x = 100)
has been grabbed. -/
def fiveZoneDragging : DimRegionChooser :=
  (startDrag fiveZoneChooser 100 0).getD fiveZoneChooser

/-- The state of gapChooser after the boundary above zone 0 (at x = 6) has been
grabbed. -/
def gapDragging : DimRegionChooser := (startDrag gapChooser 6 0).getD gapChooser

/-- The state of allDimRegsChooser after the boundary above velocity zone 0 (at
x = 64) has been grabbed. -/
def allDimRegsDragging : DimRegionChooser :=
  (startDrag allDimRegsChooser 64 0).getD allDimRegsChooser

/-- The state of plainChooser after the boundary above velocity zone 0 (at
x = 64) has been grabbed. -/
def plainDragging : DimRegionChooser := (startDrag plainChooser 64 0).getD plainChooser

/-- The region satisfies the invariants of the sound-format library that the
index arithmetic relies on: at most 8 dimensions with at most 8 bits in total,
every zone count between 1 and 2^bits, 2^(total bits) dimension regions, and a
dimension region in each of the slots below that number. -/
structure Region.WellFormed (rgn : Region) : Prop where
  dims_le : rgn.Dimensions ≤ 8
  bits_le : rgn.totalBits ≤ 8
  zones_pos : ∀ e, e < rgn.Dimensions → 1 ≤ (rgn.dimDef e).zones
  zones_le : ∀ e, e < rgn.Dimensions → (rgn.dimDef e).zones ≤ 2 ^ (rgn.dimDef e).bits
  count : rgn.DimensionRegions = 2 ^ rgn.totalBits
  slots : ∀ i : Nat, i < 2 ^ rgn.totalBits → (rgn.dimRgn i).isSome = true

/-- The slot index i belongs to a valid combination of zones of the dimensions
other than dim and to zone 0 of dim: these are the indices that the loop of the
non-velocity branch of update_after_resize visits. -/
def Region.BaseIndex (rgn : Region) (dim i : Nat) : Prop :=
  i < 2 ^ rgn.totalBits ∧
  zoneBits i (bitposOf rgn dim) (rgn.dimDef dim).bits = 0 ∧
  ∀ e, e < rgn.Dimensions → e ≠ dim →
    zoneBits i (bitposOf rgn e) (rgn.dimDef e).bits < (rgn.dimDef e).zones

/-- The limit that zone j of the resized dimension is expected to hold after
the first resize of a dimension with nbZones zones: the new limit for the
resized zone, the default limit for the other zones. -/
def expectedLimit (zone upperLimit nbZones j : Nat) : Nat :=
  if j = zone then upperLimit else toUInt8 (defaultUpperLimit j nbZones)

/-- The object graph m1 differs from m only in limit fields that now hold the
value v: entries DimensionUpperLimits[e] of slots (r, i) with P r i e, and
fields VelocityUpperLimit of slots (r, i) with Q r i. -/
def LimitsChangedOnly (m m1 : Instrument) (v : Nat) (P : Nat → Int → Nat → Prop)
    (Q : Nat → Int → Prop) : Prop :=
  SameShape m m1 ∧
  (∀ r i e, m1.dul r i e = m.dul r i e ∨ (P r i e ∧ m1.dul r i e = some v)) ∧
  (∀ r i, m1.vul r i = m.vul r i ∨ (Q r i ∧ m1.vul r i = some v))

/-- Every region that the key table of the instrument refers to exists and is
well-formed. -/
def Instrument.WellFormed (m : Instrument) : Prop :=
  ∀ key r, m.GetRegion key = some r → ∃ g, m.regionAt r = some g ∧ g.WellFormed

/-- The slot (r, i) holds zone `zone` of the dimension of kind `kind` of region
r (of the instrument m), and e is the index of that dimension. -/
def IsZoneSlot (m : Instrument) (kind : dimension_t) (zone : Nat) (r : Nat) (i : Int) (e : Nat) :
    Prop :=
  ∃ g s, m.regionAt r = some g ∧ getDimensionIndex kind g = some e ∧ i = ((s : Nat) : Int) ∧
    s < 256 ∧ zoneBits s (bitposOf g e) (g.dimDef e).bits = zone

/-- A widget on the example region (dimension A with 3 zones, dimension B with
2 zones, no custom limits), 129 pixels wide, with the check box all regions
set. -/
def exampleChooser : DimRegionChooser :=
  { mkChooser (mkInstrument exampleRegion) [] 0 with nbDimensions := 2, modifyallregions := true }

/-- The state of exampleChooser while the boundary above zone 0 of dimension A,
grabbed at x = 42, is dragged to the position 30. -/
def exampleResizing : DimRegionChooser :=
  let st := (startDrag exampleChooser 42 0).getD exampleChooser
  { st with resize := { st.resize with pos := 30 } }

/-- The slot (r1, i) is, when r1 is the region r, a slot whose zone index in
the bit field of width b at offset off is zone. -/
def InZoneOf (r off b zone : Nat) (r1 : Nat) (i : Int) : Prop :=
  r1 = r → ∃ s : Nat, i = (s : Int) ∧ zoneBits s off b = zone

/-- The state of plainChooser while the boundary above velocity zone 0, grabbed
at x = 64, is dragged to the position 50. -/
def plainResizing : DimRegionChooser :=
  { plainDragging with resize := { plainDragging.resize with pos := 50 } }

/-- A stereo region: a stereo-channel dimension (1 bit, 2 zones) and a velocity
dimension (2 bits, 3 zones), without custom limits. -/
def stereoRegion : Region :=
  mkRegion [mkBitDef dimension_samplechannel 1 2, mkDef dimension_velocity 2 3] 8

/-- A widget on stereoRegion, 129 pixels wide, whose main selection is slot 1
(second channel, velocity zone 0), with the check boxes both channels and
all regions set. -/
def stereoChooser : DimRegionChooser :=
  { mkChooser (mkInstrument stereoRegion) [] 1 with
    nbDimensions := 2, modifybothchannels := true, modifyallregions := true }

/-- The state of stereoChooser while the boundary above velocity zone 0, grabbed
at x = 42 in the second row, is dragged to the position 30. -/
def stereoResizing : DimRegionChooser :=
  let st := (startDrag stereoChooser 42 24).getD stereoChooser
  { st with resize := { st.resize with pos := 30 } }

/-- In the object graph m every dimension region of region r1 that lies in the
zone resize.zone of the dimension of the kind of resize.dimensionDef holds the
limit v in its entry for that dimension, provided region r1 (as it is in m0) is
one that a broadcast block restricted to onlyRegion treats: it has a dimension
of that kind with the zone count of resize.dimensionDef. -/
def ZoneWritten (m0 : Instrument) (resize : resize_t) (v : Nat) (onlyRegion : Option Nat)
    (r1 : Nat) (m : Instrument) : Prop :=
  ∀ g dd iDim, m0.regionAt r1 = some g →
    g.GetDimensionDefinition resize.dimensionDef.dimension = some dd →
    dd.zones = resize.dimensionDef.zones →
    (onlyRegion = none ∨ onlyRegion = some r1) →
    getDimensionIndex resize.dimensionDef.dimension g = some iDim →
    ∀ s : Nat, s < 256 → zoneBits s (bitposOf g iDim) (g.dimDef iDim).bits = resize.zone →
      (m0.slot r1 (s : Int)).isSome = true → m.dul r1 (s : Int) iDim = some v

/-- The state of allDimRegsChooser while the boundary above velocity zone 0,
grabbed at x = 64, is dragged to the position 50. -/
def allDimRegsResizing : DimRegionChooser :=
  { allDimRegsDragging with resize := { allDimRegsDragging.resize with pos := 50 } }

/-- An instrument with two regions: the keys 0..63 belong to region a, the keys
64..127 to region b. -/
def pairInstrument (a b : Region) : Instrument :=
  { regions := [a, b], RegionKeyTable := List.replicate 64 (some 0) ++ List.replicate 64 (some 1) }

/-- A region with the dimensions of exampleRegion in the other order: B (1 bit,
2 zones) in bit 0 and A (2 bits, 3 zones) in bits 1..2. -/
def siblingRegion : Region := mkRegion [mkDef 2 1 2, mkDef 1 2 3] 8

/-- A region whose dimension A has 2 zones instead of 3. -/
def otherCountRegion : Region := mkRegion [mkDef 1 1 2, mkDef 2 1 2] 4

/-- A widget on region 0 (exampleRegion) of the instrument whose other region
is b, 129 pixels wide, with the check box all regions set. -/
def pairChooser (b : Region) : DimRegionChooser :=
  { mkChooser (pairInstrument exampleRegion b) [] 0 with
    nbDimensions := 2, modifyallregions := true }

/-- The state of pairChooser b while the boundary above zone 0 of dimension A,
grabbed at x = 42, is dragged to the position 30. -/
def pairResizing (b : Region) : DimRegionChooser :=
  let st := (startDrag (pairChooser b) 42 0).getD (pairChooser b)
  { st with resize := { st.resize with pos := 30 } }

/-- The row of is_in_resize_zone: the pair (dim, bitpos) that its first loop
leaves for the pointer row y. -/
def rowOf (st : DimRegionChooser) (rgn : Region) (y : Int) : Nat × Nat :=
  findRow rgn.pDimensionDefinitions 0 (truncDiv y st.h) 0

/-- The value of c in is_in_resize_zone: maindimregno with the bits of the
dimension masked away, 0 when maindimregno is negative. -/
def baseSlot (st : DimRegionChooser) (rgn : Region) (dim bitpos : Nat) : Int :=
  if st.maindimregno ≥ 0 then bitAnd st.maindimregno (dimMask (rgn.dimDef dim).bits bitpos)
  else 0

/-- The upper limit that is_in_resize_zone computes for zone i of dimension dim
(none when the slot it reads is null). -/
def zoneLimitAt (rgn : Region) (dim bitpos : Nat) (c : Int) (customsplits : Bool) (i : Nat) :
    Option Int :=
  zoneUpperLimit customsplits (rgn.dimRgn (c + ((i <<< bitpos : Nat) : Int))) (rgn.dimDef dim)
    dim i

/-- The pixel column limitx that is_in_resize_zone computes for the boundary
above zone i. -/
def boundaryColumn (st : DimRegionChooser) (rgn : Region) (dim bitpos : Nat) (c : Int)
    (customsplits : Bool) (i : Nat) : Int :=
  limitColumn st.width st.label_width ((zoneLimitAt rgn dim bitpos c customsplits i).getD 0 + 1)

/-- Region r1 of the object graph m0 has a dimension of the kind type, and that
dimension has the given zone count. -/
def HasZoneCount (m0 : Instrument) (type : dimension_t) (zones : Nat) (r1 : Nat) : Prop :=
  ∃ g dd, m0.regionAt r1 = some g ∧ g.GetDimensionDefinition type = some dd ∧ dd.zones = zones

/-- Region r1 of the object graph m0 has no dimension of the kind type. -/
def LacksDimension (m0 : Instrument) (type : dimension_t) (r1 : Nat) : Prop :=
  ∃ g, m0.regionAt r1 = some g ∧ g.GetDimensionDefinition type = none

/-- Region r1 of the object graph m0 has a dimension of the kind type with a
zone count other than zones. -/
def HasOtherZoneCount (m0 : Instrument) (type : dimension_t) (zones : Nat) (r1 : Nat) : Prop :=
  ∃ g dd, m0.regionAt r1 = some g ∧ g.GetDimensionDefinition type = some dd ∧ dd.zones ≠ zones

/-- What holds of the variables of the key loop of split_dimension_zone and
delete_dimension_zone at every iteration, m0 being the object graph before the
loop and zones the zone count copied from the source region: the key table is
as in m0; the regions on which the library method has not been called are as
in m0; the method has been called only on regions that had the dimension with
that zone count in m0, and on every visited region that had it; every visit
is in exactly one of the lists called, ignoredMinor, ignoredCritical, and
ignoredAll has the entries of the last two. -/
structure ZoneLoopInv (m0 : Instrument) (type : dimension_t) (zones : Nat) (s : ZoneLoop) :
    Prop where
  table : s.instr.RegionKeyTable = m0.RegionKeyTable
  exist : ∀ r1, (s.instr.regionAt r1).isSome = (m0.regionAt r1).isSome
  unchanged : ∀ r1, r1 ∉ s.called → s.instr.regionAt r1 = m0.regionAt r1
  called_ok : ∀ r1, r1 ∈ s.called → HasZoneCount m0 type zones r1
  visited_ok : ∀ r1, r1 ∈ s.visited → HasZoneCount m0 type zones r1 → r1 ∈ s.called
  last : ∀ r1, s.rgn = some r1 → r1 ∈ s.visited
  classes : (s.called ++ s.ignoredMinor ++ s.ignoredCritical).Perm s.visited
  all : s.ignoredAll.Perm (s.ignoredMinor ++ s.ignoredCritical)
  minor_ok : ∀ r1, r1 ∈ s.ignoredMinor → r1 ∉ s.called → LacksDimension m0 type r1
  critical_ok : ∀ r1, r1 ∈ s.ignoredCritical → r1 ∉ s.called →
    HasOtherZoneCount m0 type zones r1

/-- An example of the library method DeleteDimensionZone: it throws when the
region has no dimension of the kind or that dimension has at most 2 zones, and
otherwise lowers the zone count of the dimension by one (the dimension regions
are left as they are). -/
def exampleDeleteZone (g : Region) (type : dimension_t) (_zone : Int) : Option Region :=
  match g.GetDimensionDefinition type with
  | none => none
  | some dd =>
    if dd.zones ≤ 2 then none
    else
      some { g with pDimensionDefinitions := g.pDimensionDefinitions.map (fun df =>
        if df.dimension = type then { df with zones := df.zones - 1 } else df) }

/-- An instrument with three regions: the keys 0..41 belong to region a, the
keys 42..83 to region b and the keys 84..127 to region c. -/
def tripleInstrument (a b c : Region) : Instrument :=
  { regions := [a, b, c]
    RegionKeyTable :=
      List.replicate 42 (some 0) ++ List.replicate 42 (some 1) ++ List.replicate 44 (some 2) }

/-- A region with the single dimension B (kind 2, 1 bit, 2 zones). -/
def onlyBRegion : Region := mkRegion [mkDef 2 1 2] 2

/-- A widget on region 0 of the instrument, the dimension A (kind 1) being the
one clicked last, in zone 0, with the check box all regions set. -/
def zoneOpChooser (instr : Instrument) : DimRegionChooser :=
  { mkChooser instr [(1, 0)] 0 with
    nbDimensions := 2, maindimtype := 1, modifyallregions := true }

/-- The widget zoneOpChooser on the instrument of exampleRegion and
siblingRegion, which both have 3 zones in the dimension A. -/
def pairZoneOp : DimRegionChooser := zoneOpChooser (pairInstrument exampleRegion siblingRegion)

/-- The widget zoneOpChooser on an instrument of two regions that both have 2
zones in the dimension A. -/
def twoZoneOp : DimRegionChooser := zoneOpChooser (pairInstrument otherCountRegion otherCountRegion)

/-- The widget zoneOpChooser on an instrument of three regions: exampleRegion
(3 zones in A), a region without the dimension A and a region with 2 zones in
A. -/
def tripleZoneOp : DimRegionChooser :=
  zoneOpChooser (tripleInstrument exampleRegion onlyBRegion otherCountRegion)

/-- A region with one dimension of 2 bits and 4 zones. -/
def fourZoneRegion : Region := mkRegion [mkDef 1 2 4] 4

/-- A widget on fourZoneRegion, 129 pixels wide. -/
def fourZoneChooser : DimRegionChooser :=
  { mkChooser (mkInstrument fourZoneRegion) [] 0 with nbDimensions := 1 }

/-- A widget on a region with the dimensions A (kind 1) and B (kind 2) of 1 bit
and 2 zones each, 129 pixels wide, its main selection being slot 0 (zone 0 of A
and of B). -/
def edgeChooser : DimRegionChooser :=
  { mkChooser (mkInstrument otherCountRegion) [(1, 0), (2, 0)] 0 with nbDimensions := 2 }

/-- The widget fiveZoneChooser at a width of 801 pixels. -/
def wideFiveZoneChooser : DimRegionChooser := { fiveZoneChooser with width := 801 }

/-- The pointer dimrgn is found by the loop of select_dimregion in slot k of the
region: k is below DimensionRegions, the slots 0..k are all non-null, slot k
holds the pointer and no slot before k does. -/
def Region.FoundAt (rgn : Region) (dimrgn : Option Nat) (k : Nat) : Prop :=
  k < rgn.DimensionRegions ∧ (∀ j, j ≤ k → (rgn.dimRgn j).isSome = true) ∧
  (rgn.dimRgn k).map (fun d => d.addr) = dimrgn ∧
  ∀ j, j < k → (rgn.dimRgn j).map (fun d => d.addr) ≠ dimrgn

/-- The entry (dimension kind, zone) of a decoded case counts as selected in
get_dimregions: the kind is the sample-channel dimension and stereo is set, or
the kind has an entry in dimzones that contains the zone or is empty while the
zone is 0. -/
def EntrySelected (st : DimRegionChooser) (stereo : Bool) (kv : dimension_t × Int) : Prop :=
  (stereo = true ∧ kv.1 = dimension_samplechannel) ∨
  ∃ zs, st.dimzones.lookup kv.1 = some zs ∧ (kv.2 ∈ zs ∨ (zs = [] ∧ kv.2 = 0))

/-- The dimension region with the address a is one that get_dimregions adds: it
is held by one of the 256 slots of the region, its decoded case is valid, and
every entry of that case counts as selected. -/
def DimRgnSelected (st : DimRegionChooser) (rgn : Region) (stereo : Bool) (a : Nat) : Prop :=
  ∃ i : Nat, i < 256 ∧ ∃ d, rgn.dimRgn i = some d ∧ d.addr = a ∧
    (caseOfDimRegion rgn (some a)).1 = true ∧
    ∀ kv, kv ∈ (caseOfDimRegion rgn (some a)).2 → EntrySelected st stereo kv

/-- A key range editor whose model holds the range 40..60, shown by the two
widgets (range 0..127), after the user has entered the value v in the widget
for the low end. -/
def lowEdited (v : Nat) : PropEditor :=
  { low := 40, high := 60, update_model := 0
    eKeyRangeLow := { value := v, spin := v, upper := 127 }
    eKeyRangeHigh := { value := 60, spin := 60, upper := 127 }
    changed := 0 }

/-- A key range editor whose model holds the range 40..60, shown by the two
widgets (range 0..127), after the user has entered the value v in the widget
for the high end. -/
def highEdited (v : Nat) : PropEditor :=
  { low := 40, high := 60, update_model := 0
    eKeyRangeLow := { value := 40, spin := 40, upper := 127 }
    eKeyRangeHigh := { value := v, spin := v, upper := 127 }
    changed := 0 }

/-! # Theorems -/

/-! ## Lemmas on the dimension case map -/

theorem lookup_assign_self (m : DimensionCase) (k : dimension_t) (v : Int) :
    (m.assign k v).lookup k = some v := by
  induction m with
  | nil => simp [DimensionCase.assign, List.lookup]
  | cons hd tl ih =>
    obtain ⟨k0, v0⟩ := hd
    unfold DimensionCase.assign
    by_cases h1 : k < k0
    · simp [h1, List.lookup]
    · by_cases h2 : k = k0
      · simp [h2, List.lookup]
      · have h3 : (k == k0) = false := by simpa using h2
        simp [h1, h2, List.lookup, h3, ih]

theorem lookup_assign_ne (m : DimensionCase) (k k1 : dimension_t) (v : Int) (h : k1 ≠ k) :
    (m.assign k v).lookup k1 = m.lookup k1 := by
  induction m with
  | nil =>
    have h3 : (k1 == k) = false := by simpa using h
    simp [DimensionCase.assign, List.lookup, h3]
  | cons hd tl ih =>
    obtain ⟨k0, v0⟩ := hd
    have h3 : (k1 == k) = false := by simpa using h
    unfold DimensionCase.assign
    by_cases h1 : k < k0
    · simp [h1, List.lookup, h3]
    · by_cases h2 : k = k0
      · subst h2
        simp [List.lookup, h3]
      · simp only [h1, h2, if_false]
        by_cases h4 : k1 = k0
        · subst h4
          simp [List.lookup]
        · have h5 : (k1 == k0) = false := by simpa using h4
          simp [List.lookup, h5, ih]

theorem get_assign_self (m : DimensionCase) (k : dimension_t) (v : Int) :
    (m.assign k v).get k = v := by
  simp [DimensionCase.get, lookup_assign_self]

theorem get_assign_ne (m : DimensionCase) (k k1 : dimension_t) (v : Int) (h : k1 ≠ k) :
    (m.assign k v).get k1 = m.get k1 := by
  simp [DimensionCase.get, lookup_assign_ne m k k1 v h]

theorem get_touch (m : DimensionCase) (k k1 : dimension_t) :
    (m.touch k).get k1 = m.get k1 := by
  unfold DimensionCase.touch
  cases hk : m.lookup k with
  | some v => simp
  | none =>
    simp only
    by_cases h : k1 = k
    · subst h
      simp [DimensionCase.get, lookup_assign_self, hk]
    · exact get_assign_ne m k k1 0 h

/-! ## Bit arithmetic -/

theorem zoneBits_eq_mod (x off b : Nat) : zoneBits x off b = (x >>> off) % 2 ^ b := by
  unfold zoneBits
  rw [Nat.one_shiftLeft, Nat.and_pow_two_sub_one_eq_mod]

theorem testBit_zoneBits (x off b i : Nat) :
    (zoneBits x off b).testBit i = (decide (i < b) && x.testBit (off + i)) := by
  rw [zoneBits_eq_mod, Nat.testBit_mod_two_pow, Nat.testBit_shiftRight]

theorem zoneBits_lt (x off b : Nat) : zoneBits x off b < 2 ^ b := by
  rw [zoneBits_eq_mod]
  exact Nat.mod_lt _ (Nat.two_pow_pos b)

theorem zoneBits_zero_width (x off : Nat) : zoneBits x off 0 = 0 := by
  have := zoneBits_lt x off 0
  simpa using this

/-! ## The offsets of the dimensions -/

theorem foldl_add_bits (rgn : Region) (l : List Nat) (a : Nat) :
    l.foldl (fun bitpos j => bitpos + (rgn.dimDef j).bits) a =
      a + (l.map (fun j => (rgn.dimDef j).bits)).sum := by
  induction l generalizing a with
  | nil => simp
  | cons hd tl ih => simp [List.foldl, ih, Nat.add_assoc]

theorem bitposOf_succ (rgn : Region) (d : Nat) :
    bitposOf rgn (d + 1) = bitposOf rgn d + (rgn.dimDef d).bits := by
  unfold bitposOf
  rw [List.range_succ, List.foldl_append]
  simp

theorem bitposOf_zero (rgn : Region) : bitposOf rgn 0 = 0 := by
  simp [bitposOf]

theorem bitposOf_cons (df : dimension_def_t) (rest : List dimension_def_t) (n : Nat)
    (regs : List (Option DimensionRegion)) (d : Nat) :
    bitposOf { pDimensionDefinitions := df :: rest, DimensionRegions := n,
               pDimensionRegions := regs } (d + 1) =
      df.bits + bitposOf { pDimensionDefinitions := rest, DimensionRegions := n,
                           pDimensionRegions := regs } d := by
  induction d with
  | zero => simp [bitposOf_succ, bitposOf_zero, Region.dimDef]
  | succ d ih =>
    rw [bitposOf_succ, ih, bitposOf_succ]
    simp [Region.dimDef, Nat.add_assoc]

/-- The list-level form of ZonesInRange in terms of the indexed accessors. -/
theorem zonesInRange_iff (x : Nat) (l : List dimension_def_t) (n : Nat)
    (regs : List (Option DimensionRegion)) (off : Nat) :
    ZonesInRange x l off ↔
      ∀ d, d < l.length →
        zoneBits x (off + bitposOf { pDimensionDefinitions := l, DimensionRegions := n,
                                      pDimensionRegions := regs } d)
          (l.getD d dimension_def_t.zero).bits < (l.getD d dimension_def_t.zero).zones := by
  induction l generalizing off with
  | nil => simp [ZonesInRange]
  | cons df rest ih =>
    simp only [ZonesInRange, List.length_cons]
    rw [ih]
    constructor
    · rintro ⟨h0, hrest⟩ d hd
      cases d with
      | zero => simpa [bitposOf_zero] using h0
      | succ d =>
        have := hrest d (by omega)
        rw [bitposOf_cons]
        simpa [Nat.add_assoc] using this
    · intro h
      refine ⟨?_, ?_⟩
      · have := h 0 (by omega)
        simpa [bitposOf_zero] using this
      · intro d hd
        have := h (d + 1) (by omega)
        rw [bitposOf_cons] at this
        simpa [Nat.add_assoc] using this

/-! ## caseOfDimRegion -/

theorem findDimRgnIndexFrom_eq (rgn : Region) (dr idx : Nat)
    (hat : (rgn.dimRgn idx).map (fun d => d.addr) = some dr) :
    ∀ (n start : Nat), start ≤ idx → idx < start + n →
      (∀ i, start ≤ i → i < idx → (rgn.dimRgn i).map (fun d => d.addr) ≠ some dr) →
      findDimRgnIndexFrom rgn dr n start = idx := by
  intro n
  induction n with
  | zero => intro start h1 h2; omega
  | succ n ih =>
    intro start h1 h2 hbefore
    rw [findDimRgnIndexFrom]
    by_cases hs : start = idx
    · subst hs
      simp [hat]
    · have hne := hbefore start (Nat.le_refl _) (by omega)
      simp only [hne, if_false]
      exact ih (start + 1) (by omega) (by omega) (fun i hi1 hi2 => hbefore i (by omega) hi2)

theorem findDimRgnIndex_of_storedAt (rgn : Region) (dr drIndex : Nat)
    (h : rgn.StoredAt dr drIndex) : findDimRgnIndex rgn dr = drIndex := by
  obtain ⟨hlt, hat, hfirst⟩ := h
  exact findDimRgnIndexFrom_eq rgn dr drIndex hat 256 0 (Nat.zero_le _) (by omega)
    (fun i _ hi => hfirst i hi)

theorem caseOfDimRegion_of_storedAt (rgn : Region) (dr drIndex : Nat)
    (h : rgn.StoredAt dr drIndex) :
    caseOfDimRegion rgn (some dr) = caseLoop drIndex rgn.pDimensionDefinitions 0 [] := by
  have hidx := findDimRgnIndex_of_storedAt rgn dr drIndex h
  have hlt : drIndex ≠ 256 := by have := h.1; omega
  simp [caseOfDimRegion, hidx, hlt]

theorem caseLoop_of_not_inRange (x : Nat) (l : List dimension_def_t) (off : Nat)
    (mc : DimensionCase) (h : ¬ ZonesInRange x l off) : caseLoop x l off mc = (false, []) := by
  induction l generalizing off mc with
  | nil => simp [ZonesInRange] at h
  | cons df rest ih =>
    unfold caseLoop
    simp only [get_assign_self]
    by_cases hz : zoneBits x off df.bits < df.zones
    · have hz2 : ¬ ((zoneBits x off df.bits : Int) ≥ (df.zones : Int)) := by omega
      simp only [hz2, if_false]
      apply ih
      intro hr
      exact h ⟨hz, hr⟩
    · have hz2 : ((zoneBits x off df.bits : Int) ≥ (df.zones : Int)) := by omega
      simp [hz2]

theorem caseLoop_valid_of_inRange (x : Nat) (l : List dimension_def_t) (off : Nat)
    (mc : DimensionCase) (h : ZonesInRange x l off) : (caseLoop x l off mc).1 = true := by
  induction l generalizing off mc with
  | nil => simp [caseLoop]
  | cons df rest ih =>
    unfold caseLoop
    simp only [get_assign_self]
    have hz2 : ¬ ((zoneBits x off df.bits : Int) ≥ (df.zones : Int)) := by
      have := h.1; omega
    simp only [hz2, if_false]
    exact ih _ _ h.2

theorem inRange_of_caseLoop_valid (x : Nat) (l : List dimension_def_t) (off : Nat)
    (mc : DimensionCase) (h : (caseLoop x l off mc).1 = true) : ZonesInRange x l off := by
  by_contra hn
  rw [caseLoop_of_not_inRange x l off mc hn] at h
  simp at h

theorem caseLoop_lookup_of_not_mem (x : Nat) (l : List dimension_def_t) (off : Nat)
    (mc : DimensionCase) (h : ZonesInRange x l off) (k : dimension_t)
    (hk : k ∉ l.map (fun df => df.dimension)) :
    (caseLoop x l off mc).2.lookup k = mc.lookup k := by
  induction l generalizing off mc with
  | nil => simp [caseLoop]
  | cons df rest ih =>
    unfold caseLoop
    simp only [get_assign_self]
    have hz2 : ¬ ((zoneBits x off df.bits : Int) ≥ (df.zones : Int)) := by
      have := h.1; omega
    simp only [hz2, if_false]
    simp only [List.map_cons, List.mem_cons, not_or] at hk
    rw [ih _ _ h.2 hk.2]
    exact lookup_assign_ne mc df.dimension k _ hk.1

/-- After a valid run of the decoding loop over dimensions of pairwise distinct
kinds, the case maps the kind of the dimension at position d of the list to
the zone extracted for it. -/
theorem caseLoop_lookup_of_nodup (x : Nat) (l : List dimension_def_t) (off : Nat)
    (mc : DimensionCase) (h : ZonesInRange x l off)
    (hnd : (l.map (fun df => df.dimension)).Nodup) (n : Nat)
    (regs : List (Option DimensionRegion)) (d : Nat) (hd : d < l.length) :
    (caseLoop x l off mc).2.lookup (l.getD d dimension_def_t.zero).dimension =
      some ((zoneBits x (off + bitposOf { pDimensionDefinitions := l, DimensionRegions := n,
                                          pDimensionRegions := regs } d)
              (l.getD d dimension_def_t.zero).bits : Nat) : Int) := by
  induction l generalizing off mc d with
  | nil => simp at hd
  | cons df rest ih =>
    unfold caseLoop
    simp only [get_assign_self]
    have hz2 : ¬ ((zoneBits x off df.bits : Int) ≥ (df.zones : Int)) := by
      have := h.1; omega
    simp only [hz2, if_false]
    simp only [List.map_cons, List.nodup_cons] at hnd
    cases d with
    | zero =>
      simp only [List.getD_cons_zero, bitposOf_zero, Nat.add_zero]
      rw [caseLoop_lookup_of_not_mem x rest _ _ h.2 _ hnd.1]
      exact lookup_assign_self mc df.dimension _
    | succ d =>
      have hd2 : d < rest.length := by simpa using hd
      have := ih (off + df.bits) (mc.assign df.dimension (zoneBits x off df.bits)) h.2 hnd.2 d hd2
      rw [bitposOf_cons]
      simpa [Nat.add_assoc] using this

/-! ## The bitwise operators on small non-negative values -/

theorem toBits32_natCast (n : Nat) (h : n < 4294967296) : toBits32 (n : Int) = n := by
  unfold toBits32
  have : ((n : Int) % 4294967296) = (n : Int) := Int.emod_eq_of_lt (by omega) (by omega)
  rw [this]
  simp

theorem ofBits32_of_lt (n : Nat) (h : n < 2147483648) : ofBits32 n = (n : Int) := by
  unfold ofBits32
  have h1 : n % 4294967296 = n := Nat.mod_eq_of_lt (by omega)
  rw [h1]
  simp [h]

theorem toBits32_ofBits32 (n : Nat) : toBits32 (ofBits32 n) = n % 4294967296 := by
  unfold toBits32 ofBits32
  have hlt : n % 4294967296 < 4294967296 := Nat.mod_lt _ (by norm_num)
  generalize n % 4294967296 = r at hlt ⊢
  split
  · have : ((r : Int) % 4294967296) = (r : Int) := Int.emod_eq_of_lt (by omega) (by omega)
    rw [this]
    simp
  · have : (((r : Int) - 4294967296) % 4294967296) = (r : Int) := by
      rw [Int.sub_emod, Int.emod_self, Int.sub_zero, Int.emod_emod_of_dvd _ (dvd_refl _)]
      exact Int.emod_eq_of_lt (by omega) (by omega)
    rw [this]
    simp

theorem testBit_clear (i m k : Nat) (hi : i < 4294967296) :
    (i &&& (m ^^^ 4294967295)).testBit k = (i.testBit k && !m.testBit k) := by
  rw [Nat.testBit_and, Nat.testBit_xor]
  have h32 : (4294967295 : Nat) = 2 ^ 32 - 1 := by norm_num
  rw [h32, Nat.testBit_two_pow_sub_one]
  by_cases hk : k < 32
  · simp [hk]
  · have : i.testBit k = false := by
      apply Nat.testBit_lt_two_pow
      calc i < 2 ^ 32 := by simpa using hi
        _ ≤ 2 ^ k := Nat.pow_le_pow_right (by norm_num) (by omega)
    simp [this]

theorem and_clear_le (i m : Nat) : i &&& (m ^^^ 4294967295) ≤ i := Nat.and_le_left

theorem bitAnd_natCast_bitNot (i m : Nat) (hi : i < 2147483648) (hm : m < 4294967296) :
    bitAnd (i : Int) (bitNot (m : Int)) = ((i &&& (m ^^^ 4294967295) : Nat) : Int) := by
  unfold bitAnd bitNot
  rw [toBits32_ofBits32, toBits32_natCast i (by omega), toBits32_natCast m hm]
  have hx : (m ^^^ 4294967295) < 4294967296 := by
    have h32 : (4294967296 : Nat) = 2 ^ 32 := by norm_num
    rw [h32]
    apply Nat.xor_lt_two_pow
    · simpa using hm
    · norm_num
  rw [Nat.mod_eq_of_lt hx]
  apply ofBits32_of_lt
  exact Nat.lt_of_le_of_lt Nat.and_le_left hi

theorem bitOr_natCast (a b : Nat) (ha : a < 2147483648) (hb : b < 2147483648) :
    bitOr (a : Int) (b : Int) = ((a ||| b : Nat) : Int) := by
  unfold bitOr
  rw [toBits32_natCast a (by omega), toBits32_natCast b (by omega)]
  apply ofBits32_of_lt
  have h31 : (2147483648 : Nat) = 2 ^ 31 := by norm_num
  rw [h31] at ha hb ⊢
  exact Nat.or_lt_two_pow ha hb

/-! ## Replacing the bit field of one dimension -/

theorem testBit_eq_false_of_lt_of_le (z b j : Nat) (hz : z < 2 ^ b) (hj : b ≤ j) :
    z.testBit j = false := by
  apply Nat.testBit_lt_two_pow
  exact Nat.lt_of_lt_of_le hz (Nat.pow_le_pow_right (by norm_num) hj)

/-- The bits of (i & ~(((1 << b) - 1) << off)) | (z << off), computed on
natural numbers. -/
theorem testBit_replaceField (i z off b k : Nat) (hi : i < 4294967296) (hz : z < 2 ^ b) :
    ((i &&& ((((1 <<< b) - 1) <<< off) ^^^ 4294967295)) ||| (z <<< off)).testBit k =
      if off ≤ k ∧ k < off + b then z.testBit (k - off) else i.testBit k := by
  rw [Nat.testBit_or, testBit_clear _ _ _ hi, Nat.testBit_shiftLeft, Nat.testBit_shiftLeft,
    Nat.one_shiftLeft, Nat.testBit_two_pow_sub_one]
  by_cases h1 : off ≤ k
  · by_cases h2 : k < off + b
    · have h3 : k - off < b := by omega
      simp [h1, h2, h3]
    · have h3 : ¬ (k - off < b) := by omega
      have h4 : z.testBit (k - off) = false :=
        testBit_eq_false_of_lt_of_le z b (k - off) hz (by omega)
      simp [h1, h2, h3, h4]
  · simp [h1]

theorem zoneBits_replaceField_same (i z off b : Nat) (hi : i < 4294967296) (hz : z < 2 ^ b) :
    zoneBits ((i &&& ((((1 <<< b) - 1) <<< off) ^^^ 4294967295)) ||| (z <<< off)) off b = z := by
  apply Nat.eq_of_testBit_eq
  intro j
  rw [testBit_zoneBits, testBit_replaceField i z off b _ hi hz]
  by_cases hj : j < b
  · have : off ≤ off + j ∧ off + j < off + b := ⟨by omega, by omega⟩
    simp [hj, this]
  · have h4 : z.testBit j = false := testBit_eq_false_of_lt_of_le z b j hz (by omega)
    simp [hj, h4]

theorem zoneBits_replaceField_other (i z off b off1 b1 : Nat) (hi : i < 4294967296)
    (hz : z < 2 ^ b) (hdisj : off1 + b1 ≤ off ∨ off + b ≤ off1) :
    zoneBits ((i &&& ((((1 <<< b) - 1) <<< off) ^^^ 4294967295)) ||| (z <<< off)) off1 b1 =
      zoneBits i off1 b1 := by
  apply Nat.eq_of_testBit_eq
  intro j
  rw [testBit_zoneBits, testBit_zoneBits, testBit_replaceField i z off b _ hi hz]
  by_cases hj : j < b1
  · have : ¬ (off ≤ off1 + j ∧ off1 + j < off + b) := by omega
    simp [hj, this]
  · simp [hj]

theorem replaceField_lt (i z off b n : Nat) (hi : i < 2 ^ n) (hn : n ≤ 32) (hz : z < 2 ^ b)
    (hfit : off + b ≤ n) :
    ((i &&& ((((1 <<< b) - 1) <<< off) ^^^ 4294967295)) ||| (z <<< off)) < 2 ^ n := by
  have hi32 : i < 4294967296 := by
    have : (2 : Nat) ^ n ≤ 2 ^ 32 := Nat.pow_le_pow_right (by norm_num) hn
    have h32 : (4294967296 : Nat) = 2 ^ 32 := by norm_num
    omega
  apply Nat.lt_pow_two_of_testBit
  intro k hk
  rw [testBit_replaceField i z off b k hi32 hz]
  have h2 : ¬ (off ≤ k ∧ k < off + b) := by omega
  simp only [h2, if_false]
  exact testBit_eq_false_of_lt_of_le i n k hi hk

/-! ## The bit fields of different dimensions do not overlap -/

theorem bitposOf_mono (rgn : Region) (e d : Nat) (h : e < d) :
    bitposOf rgn e + (rgn.dimDef e).bits ≤ bitposOf rgn d := by
  induction d with
  | zero => omega
  | succ d ih =>
    rw [bitposOf_succ]
    by_cases hed : e = d
    · subst hed; omega
    · have := ih (by omega)
      omega

theorem bitposOf_disjoint (rgn : Region) (e d : Nat) (h : e ≠ d) :
    bitposOf rgn e + (rgn.dimDef e).bits ≤ bitposOf rgn d ∨
      bitposOf rgn d + (rgn.dimDef d).bits ≤ bitposOf rgn e := by
  rcases Nat.lt_or_gt_of_ne h with h1 | h1
  · exact Or.inl (bitposOf_mono rgn e d h1)
  · exact Or.inr (bitposOf_mono rgn d e h1)

theorem zonesInRange_region_iff (x : Nat) (rgn : Region) :
    ZonesInRange x rgn.pDimensionDefinitions 0 ↔
      ∀ d, d < rgn.Dimensions →
        zoneBits x (bitposOf rgn d) (rgn.dimDef d).bits < (rgn.dimDef d).zones := by
  have := zonesInRange_iff x rgn.pDimensionDefinitions rgn.DimensionRegions
    rgn.pDimensionRegions 0
  simpa [Region.Dimensions, Region.dimDef] using this

/-! ## Decoding a slot index (C2, C3) -/

/-- C2 (amended): for a region whose dimension kinds are pairwise distinct and
a dimension region stored at slot drIndex, if every extracted value
(drIndex >> offset_d) & ((1 << bits_d) - 1) is below the zone count of its
dimension, caseOfDimRegion sets isValidZone to true and returns the case that
maps the kind of each dimension to exactly that value (and has no other
entry). -/
theorem caseOfDimRegion_valid_case (rgn : Region) (dr drIndex : Nat)
    (hstored : rgn.StoredAt dr drIndex)
    (hkinds : (rgn.pDimensionDefinitions.map (fun df => df.dimension)).Nodup)
    (hzones : ∀ d, d < rgn.Dimensions →
      zoneBits drIndex (bitposOf rgn d) (rgn.dimDef d).bits < (rgn.dimDef d).zones) :
    (caseOfDimRegion rgn (some dr)).1 = true ∧
    (∀ d, d < rgn.Dimensions →
      (caseOfDimRegion rgn (some dr)).2.find (rgn.dimDef d).dimension =
        some ((zoneBits drIndex (bitposOf rgn d) (rgn.dimDef d).bits : Nat) : Int)) ∧
    (∀ k, (∀ d, d < rgn.Dimensions → (rgn.dimDef d).dimension ≠ k) →
      (caseOfDimRegion rgn (some dr)).2.find k = none) := by
  have hin : ZonesInRange drIndex rgn.pDimensionDefinitions 0 :=
    (zonesInRange_region_iff drIndex rgn).2 hzones
  rw [caseOfDimRegion_of_storedAt rgn dr drIndex hstored]
  refine ⟨caseLoop_valid_of_inRange _ _ _ _ hin, ?_, ?_⟩
  · intro d hd
    have := caseLoop_lookup_of_nodup drIndex rgn.pDimensionDefinitions 0 [] hin hkinds
      rgn.DimensionRegions rgn.pDimensionRegions d hd
    simpa [DimensionCase.find, Region.dimDef] using this
  · intro k hk
    have hnot : k ∉ rgn.pDimensionDefinitions.map (fun df => df.dimension) := by
      intro hmem
      rw [List.mem_map] at hmem
      obtain ⟨df, hdf, hkd⟩ := hmem
      obtain ⟨n, hn, hget⟩ := List.getElem_of_mem hdf
      apply hk n hn
      simp [Region.dimDef, List.getD_eq_getElem?_getD, List.getElem?_eq_getElem hn, hget, hkd]
    have := caseLoop_lookup_of_not_mem drIndex rgn.pDimensionDefinitions 0 [] hin k hnot
    simpa [DimensionCase.find] using this

/-- C2, witness: the example of the specification, slot 5 of the region with
the dimensions A (2 bits, 3 zones) and B (1 bit, 2 zones), decodes to the valid
case A:1, B:1. -/
theorem caseOfDimRegion_valid_case_witness :
    exampleRegion.StoredAt 105 5 ∧
    caseOfDimRegion exampleRegion (some 105) = (true, [(1, 1), (2, 1)]) ∧
    ((caseOfDimRegion exampleRegion (some 105)).1 = true ∧
     (∀ d, d < exampleRegion.Dimensions →
       (caseOfDimRegion exampleRegion (some 105)).2.find (exampleRegion.dimDef d).dimension =
         some ((zoneBits 5 (bitposOf exampleRegion d) (exampleRegion.dimDef d).bits : Nat) : Int)) ∧
     (∀ k, (∀ d, d < exampleRegion.Dimensions → (exampleRegion.dimDef d).dimension ≠ k) →
       (caseOfDimRegion exampleRegion (some 105)).2.find k = none)) :=
  ⟨by unfold Region.StoredAt; decide, by decide,
   caseOfDimRegion_valid_case exampleRegion 105 5 (by unfold Region.StoredAt; decide)
     (by decide) (by decide)⟩

/-- C2, counterexample: in a region with two dimensions of the same kind, slot
1 has both extracted values in range (1 for the first dimension, 0 for the
second) and is reported valid, but the returned case maps the kind of the
first dimension to 0, not to its extracted value 1. -/
theorem caseOfDimRegion_valid_case_counterexample :
    dupRegion.StoredAt 101 1 ∧
    (∀ d, d < dupRegion.Dimensions →
      zoneBits 1 (bitposOf dupRegion d) (dupRegion.dimDef d).bits < (dupRegion.dimDef d).zones) ∧
    (caseOfDimRegion dupRegion (some 101)).1 = true ∧
    zoneBits 1 (bitposOf dupRegion 0) (dupRegion.dimDef 0).bits = 1 ∧
    (caseOfDimRegion dupRegion (some 101)).2.find (dupRegion.dimDef 0).dimension = some 0 :=
  ⟨by unfold Region.StoredAt; decide, by decide, by decide, by decide, by decide⟩

/-- C3: for a dimension region stored at slot drIndex of a region, if the zone
index extracted for some dimension is greater than or equal to the zone count
of that dimension, caseOfDimRegion reports invalid: isValidZone is false and
the returned case is empty. -/
theorem caseOfDimRegion_invalid (rgn : Region) (dr drIndex d : Nat)
    (hstored : rgn.StoredAt dr drIndex) (hd : d < rgn.Dimensions)
    (hbad : (rgn.dimDef d).zones ≤ zoneBits drIndex (bitposOf rgn d) (rgn.dimDef d).bits) :
    caseOfDimRegion rgn (some dr) = (false, []) := by
  rw [caseOfDimRegion_of_storedAt rgn dr drIndex hstored]
  apply caseLoop_of_not_inRange
  intro hin
  have := (zonesInRange_region_iff drIndex rgn).1 hin d hd
  omega

/-- C3, witness: the example of the specification, slot 3 of the region with
the dimensions A (2 bits, 3 zones) and B (1 bit, 2 zones), extracts zone 3 for
A and is invalid. -/
theorem caseOfDimRegion_invalid_witness :
    exampleRegion.StoredAt 103 3 ∧
    zoneBits 3 (bitposOf exampleRegion 0) (exampleRegion.dimDef 0).bits = 3 ∧
    caseOfDimRegion exampleRegion (some 103) = (false, []) :=
  ⟨by unfold Region.StoredAt; decide, by decide,
   caseOfDimRegion_invalid exampleRegion 103 3 0 (by unfold Region.StoredAt; decide)
     (by decide) (by decide)⟩

/-! ## The masked index (C4) -/

theorem dimMask_shape (bits bitpos : Nat) (h : bitpos + bits ≤ 31) :
    (((1 <<< bits) - 1) <<< bitpos : Nat) < 4294967296 := by
  rw [Nat.one_shiftLeft, Nat.shiftLeft_eq]
  have h1 : 2 ^ bits - 1 < 2 ^ bits := Nat.sub_lt (Nat.two_pow_pos bits) (by norm_num)
  have h2 : (2 ^ bits - 1) * 2 ^ bitpos < 2 ^ bits * 2 ^ bitpos :=
    Nat.mul_lt_mul_of_pos_right h1 (Nat.two_pow_pos bitpos)
  have h3 : 2 ^ bits * 2 ^ bitpos = 2 ^ (bits + bitpos) := (Nat.pow_add 2 bits bitpos).symm
  have h4 : (2 : Nat) ^ (bits + bitpos) ≤ 2 ^ 32 := Nat.pow_le_pow_right (by norm_num) (by omega)
  have h32 : (4294967296 : Nat) = 2 ^ 32 := by norm_num
  omega

theorem shiftLeft_lt_of_fit (z bits bitpos n : Nat) (hz : z < 2 ^ bits) (h : bitpos + bits ≤ n) :
    z <<< bitpos < 2 ^ n := by
  rw [Nat.shiftLeft_eq]
  have h2 : z * 2 ^ bitpos < 2 ^ bits * 2 ^ bitpos :=
    Nat.mul_lt_mul_of_pos_right hz (Nat.two_pow_pos bitpos)
  have h3 : 2 ^ bits * 2 ^ bitpos = 2 ^ (bits + bitpos) := (Nat.pow_add 2 bits bitpos).symm
  have h4 : (2 : Nat) ^ (bits + bitpos) ≤ 2 ^ n := Nat.pow_le_pow_right (by norm_num) (by omega)
  omega

/-- The index (i & stencil) | selection of the program is the natural number
obtained by replacing the bit field. -/
theorem maskedIndex_eq (i z bits bitpos : Nat) (hi : i < 256) (hz : z < 2 ^ bits)
    (hfit : bitpos + bits ≤ 8) :
    bitOr (bitAnd (i : Int) (dimMask bits bitpos)) ((z <<< bitpos : Nat) : Int) =
      (((i &&& ((((1 <<< bits) - 1) <<< bitpos) ^^^ 4294967295)) ||| (z <<< bitpos) : Nat) : Int) := by
  unfold dimMask
  rw [bitAnd_natCast_bitNot i _ (by omega) (dimMask_shape bits bitpos (by omega))]
  apply bitOr_natCast
  · exact Nat.lt_of_le_of_lt Nat.and_le_left (by omega)
  · have := shiftLeft_lt_of_fit z bits bitpos 8 hz hfit
    norm_num at this
    omega

/-- C4: for a slot index i in 0..255, a dimension d whose bit field lies within
the 8 index bits and a zone z < 2^bits_d, the index
(i & ~(((1 << bits_d) - 1) << offset_d)) | (z << offset_d) is a slot index in
0..255 that decodes to zone z in dimension d and to the same zone index as i
in every other dimension. -/
theorem maskedIndex_decodes (rgn : Region) (i d z : Nat) (hi : i < 256)
    (_hd : d < rgn.Dimensions) (hfit : bitposOf rgn d + (rgn.dimDef d).bits ≤ 8)
    (hz : z < 2 ^ (rgn.dimDef d).bits) :
    ∃ n : Nat,
      bitOr (bitAnd (i : Int) (dimMask (rgn.dimDef d).bits (bitposOf rgn d)))
        ((z <<< bitposOf rgn d : Nat) : Int) = (n : Int) ∧
      n < 256 ∧
      zoneBits n (bitposOf rgn d) (rgn.dimDef d).bits = z ∧
      ∀ e, e < rgn.Dimensions → e ≠ d →
        zoneBits n (bitposOf rgn e) (rgn.dimDef e).bits =
          zoneBits i (bitposOf rgn e) (rgn.dimDef e).bits := by
  refine ⟨_, maskedIndex_eq i z _ _ hi hz hfit, ?_, ?_, ?_⟩
  · have := replaceField_lt i z (bitposOf rgn d) (rgn.dimDef d).bits 8 (by norm_num; omega)
      (by norm_num) hz hfit
    norm_num at this
    exact this
  · exact zoneBits_replaceField_same i z _ _ (by omega) hz
  · intro e _ hne
    exact zoneBits_replaceField_other i z _ _ _ _ (by omega) hz (bitposOf_disjoint rgn e d hne)

/-- C4, witness: in the example region, replacing the field of dimension A
(bits 0..1) in slot 5 by zone 2 gives slot 6, which keeps zone 1 of dimension
B. -/
theorem maskedIndex_decodes_witness :
    bitOr (bitAnd (5 : Int) (dimMask (exampleRegion.dimDef 0).bits (bitposOf exampleRegion 0)))
        ((2 <<< bitposOf exampleRegion 0 : Nat) : Int) = 6 ∧
    ∃ n : Nat,
      bitOr (bitAnd ((5 : Nat) : Int)
          (dimMask (exampleRegion.dimDef 0).bits (bitposOf exampleRegion 0)))
        ((2 <<< bitposOf exampleRegion 0 : Nat) : Int) = (n : Int) ∧
      n < 256 ∧
      zoneBits n (bitposOf exampleRegion 0) (exampleRegion.dimDef 0).bits = 2 ∧
      ∀ e, e < exampleRegion.Dimensions → e ≠ 0 →
        zoneBits n (bitposOf exampleRegion e) (exampleRegion.dimDef e).bits =
          zoneBits 5 (bitposOf exampleRegion e) (exampleRegion.dimDef e).bits :=
  ⟨by decide,
   maskedIndex_decodes exampleRegion 5 0 2 (by decide) (by decide) (by decide) (by decide)⟩

/-! ## Re-encoding a decoded case (C1) -/

theorem caseAgrees_touch (x : Nat) (l : List dimension_def_t) (off : Nat) (mc : DimensionCase)
    (k : dimension_t) (h : CaseAgrees x l off mc) : CaseAgrees x l off (mc.touch k) := by
  induction l generalizing off with
  | nil => simp [CaseAgrees]
  | cons df rest ih =>
    obtain ⟨h1, h2, h3⟩ := h
    exact ⟨by rw [get_touch]; exact h1, h2, ih _ h3⟩

theorem caseAgrees_of_caseLoop (x : Nat) (l : List dimension_def_t) (off : Nat)
    (mc : DimensionCase) (h : ZonesInRange x l off)
    (hnd : (l.map (fun df => df.dimension)).Nodup) :
    CaseAgrees x l off (caseLoop x l off mc).2 := by
  induction l generalizing off mc with
  | nil => simp [CaseAgrees]
  | cons df rest ih =>
    simp only [List.map_cons, List.nodup_cons] at hnd
    have hz2 : ¬ ((zoneBits x off df.bits : Int) ≥ (df.zones : Int)) := by
      have := h.1; omega
    have hstep : caseLoop x (df :: rest) off mc =
        caseLoop x rest (off + df.bits) (mc.assign df.dimension (zoneBits x off df.bits)) := by
      rw [caseLoop]
      simp only [get_assign_self, hz2, if_false]
    rw [hstep]
    refine ⟨?_, h.1, ih _ _ h.2 hnd.2⟩
    unfold DimensionCase.get
    rw [caseLoop_lookup_of_not_mem x rest _ _ h.2 _ hnd.1, lookup_assign_self]
    rfl

theorem mod_or_zoneBits (x off b : Nat) :
    (x % 2 ^ off) ||| (zoneBits x off b <<< off) = x % 2 ^ (off + b) := by
  apply Nat.eq_of_testBit_eq
  intro k
  rw [Nat.testBit_or, Nat.testBit_mod_two_pow, Nat.testBit_shiftLeft, testBit_zoneBits,
    Nat.testBit_mod_two_pow]
  by_cases h1 : k < off
  · have h2 : k < off + b := by omega
    have h3 : ¬ (k ≥ off) := by omega
    simp [h1, h2, h3]
  · have h3 : k ≥ off := by omega
    have h4 : off + (k - off) = k := by omega
    by_cases h2 : k < off + b
    · have h5 : k - off < b := by omega
      simp [h1, h2, h3, h4, h5]
    · have h5 : ¬ (k - off < b) := by omega
      simp [h1, h2, h3, h5]

theorem zoneBits_shiftLeft_le (x off b : Nat) : zoneBits x off b <<< off ≤ x := by
  rw [zoneBits_eq_mod, Nat.shiftLeft_eq, Nat.shiftRight_eq_div_pow]
  calc x / 2 ^ off % 2 ^ b * 2 ^ off ≤ x / 2 ^ off * 2 ^ off :=
        Nat.mul_le_mul_right _ (Nat.mod_le _ _)
    _ ≤ x := Nat.div_mul_le_self x (2 ^ off)

/-- The loop of set_region, run on a case that agrees with the slot index x,
packs the fields of x one dimension after the other. -/
theorem setRegionLoop_pack (x : Nat) (hx : x < 2147483648) (l : List dimension_def_t)
    (off : Nat) (mc : DimensionCase) (nb : Int) (h : CaseAgrees x l off mc) :
    (setRegionLoop l off (mc, ((x % 2 ^ off : Nat) : Int), nb)).2.1 =
      ((x % 2 ^ (off + (l.map (fun df => df.bits)).sum) : Nat) : Int) := by
  induction l generalizing off mc nb with
  | nil => simp [setRegionLoop]
  | cons df rest ih =>
    obtain ⟨h1, h2, h3⟩ := h
    rw [setRegionLoop]
    by_cases hb : df.bits = 0
    · simp only [hb, if_true]
      rw [hb] at h3
      rw [ih off mc nb h3]
      simp [hb]
    · simp only [hb, if_false]
      have hz : min (mc.get df.dimension) ((df.zones : Int) - 1) =
          ((zoneBits x off df.bits : Nat) : Int) := by
        rw [h1]
        apply min_eq_left
        omega
      rw [hz]
      have hshift : ((zoneBits x off df.bits : Nat) : Int) * 2 ^ off =
          ((zoneBits x off df.bits <<< off : Nat) : Int) := by
        rw [Nat.shiftLeft_eq]
        push_cast
        rfl
      rw [hshift, bitOr_natCast _ _ (Nat.lt_of_le_of_lt (Nat.mod_le _ _) hx)
        (Nat.lt_of_le_of_lt (zoneBits_shiftLeft_le x off df.bits) hx), mod_or_zoneBits]
      rw [ih (off + df.bits) (mc.touch df.dimension) (nb + 1) (caseAgrees_touch _ _ _ _ _ h3)]
      simp [Nat.add_assoc]

/-- C1 (amended): for a region whose dimension kinds are pairwise distinct and
a slot index drIndex below 2^(total bit width) for which caseOfDimRegion
reports a valid case, set_region run with that case as main case packs it (by
OR-ing zoneIndex_d << offset_d over the dimensions) into maindimregno =
drIndex. -/
theorem set_region_caseOfDimRegion (st : DimRegionChooser) (r : Nat) (rgn : Region)
    (dr drIndex : Nat) (hr : st.instr.regionAt r = some rgn)
    (hstored : rgn.StoredAt dr drIndex)
    (hkinds : (rgn.pDimensionDefinitions.map (fun df => df.dimension)).Nodup)
    (hrange : drIndex < 2 ^ rgn.totalBits)
    (hvalid : (caseOfDimRegion rgn (some dr)).1 = true)
    (hcase : st.maindimcase = (caseOfDimRegion rgn (some dr)).2) :
    ∃ st1, set_region st (some r) = some st1 ∧ st1.maindimregno = (drIndex : Int) := by
  rw [caseOfDimRegion_of_storedAt rgn dr drIndex hstored] at hvalid hcase
  have hin := inRange_of_caseLoop_valid _ _ _ _ hvalid
  have hagree := caseAgrees_of_caseLoop drIndex rgn.pDimensionDefinitions 0 [] hin hkinds
  rw [← hcase] at hagree
  have hlt : drIndex < 2147483648 := by have := hstored.1; omega
  have hpack := setRegionLoop_pack drIndex hlt rgn.pDimensionDefinitions 0 st.maindimcase 0 hagree
  simp only [pow_zero, Nat.mod_one, Nat.zero_add] at hpack
  have h0 : ((0 : Nat) : Int) = 0 := rfl
  unfold Region.totalBits at hrange
  rw [h0, Nat.mod_eq_of_lt hrange] at hpack
  simp only [set_region, hr]
  exact ⟨_, rfl, hpack⟩

/-- C1, witness: slot 5 of the example region decodes to the case A:1, B:1, and
set_region packs that case back into maindimregno = 5. -/
theorem set_region_caseOfDimRegion_witness :
    (caseOfDimRegion exampleRegion (some 105)).1 = true ∧
    ∃ st1, set_region (mkChooser (mkInstrument exampleRegion) [(1, 1), (2, 1)] (-1)) (some 0)
        = some st1 ∧ st1.maindimregno = ((5 : Nat) : Int) :=
  ⟨by decide,
   set_region_caseOfDimRegion (mkChooser (mkInstrument exampleRegion) [(1, 1), (2, 1)] (-1)) 0
     exampleRegion 105 5 (by decide) (by unfold Region.StoredAt; decide) (by decide)
     (by decide) (by decide) (by decide)⟩

/-- C1, counterexample: (a) in a region with two dimensions of the same kind,
slot 1 is reported valid with the case that maps the kind to 0, and set_region
packs that case into 0, not 1; (b) in a region with a single dimension of 2
bits, slot 4 is reported valid with the case of zone 0, and set_region packs
that case into 0, not 4. -/
theorem set_region_caseOfDimRegion_counterexample :
    (dupRegion.StoredAt 101 1 ∧
      caseOfDimRegion dupRegion (some 101) = (true, [(1, 0)]) ∧
      (set_region (mkChooser (mkInstrument dupRegion) [(1, 0)] (-1)) (some 0)).map
        (fun st1 => st1.maindimregno) = some 0) ∧
    (wideRegion.StoredAt 104 4 ∧
      caseOfDimRegion wideRegion (some 104) = (true, [(1, 0)]) ∧
      (set_region (mkChooser (mkInstrument wideRegion) [(1, 0)] (-1)) (some 0)).map
        (fun st1 => st1.maindimregno) = some 0) :=
  ⟨⟨by unfold Region.StoredAt; decide, by decide, by decide⟩,
   ⟨by unfold Region.StoredAt; decide, by decide, by decide⟩⟩

/-! ## The default limits (C9) -/

/-- The default limit for a zone whose quotient 128 * (j + 1) / n is at least 1:
truncation and floor agree. -/
theorem defaultUpperLimit_of_le (n j : Nat) (hn : 0 < n) (h : n ≤ 128 * (j + 1)) :
    defaultUpperLimit j n = ((128 * (j + 1) / n - 1 : Nat) : Int) := by
  unfold defaultUpperLimit truncDiv
  have hle : n * 1 ≤ 128 * (j + 1) := by omega
  have hnum : (128 * ((j : Int) + 1) - (n : Int)) = ((128 * (j + 1) - n * 1 : Nat) : Int) := by
    omega
  rw [hnum, Int.tdiv_eq_ediv (by omega) (by omega), ← Int.natCast_div,
    Nat.sub_mul_div _ _ _ hle]

theorem toUInt8_defaultUpperLimit (n j : Nat) (hn : 0 < n) (h : n ≤ 128 * (j + 1))
    (hj : j < n) : toUInt8 (defaultUpperLimit j n) = 128 * (j + 1) / n - 1 := by
  rw [defaultUpperLimit_of_le n j hn h]
  have hbound : 128 * (j + 1) / n ≤ 128 := by
    apply Nat.div_le_of_le_mul
    calc 128 * (j + 1) ≤ 128 * n := Nat.mul_le_mul_left _ (by omega)
      _ = n * 128 := Nat.mul_comm _ _
  unfold toUInt8
  omega

/-- C9: for a zone count n from 1 to 128 and a zone index j < n the default
limit int(128.0 * (j + 1) / n - 1) that update_after_resize back-fills equals
floor(128 * (j + 1) / n) - 1, also after it is stored in the uint8_t field, and
the last zone gets 127. -/
theorem defaultUpperLimit_eq_floor (n j : Nat) (hn1 : 1 ≤ n) (hn : n ≤ 128) (hj : j < n) :
    defaultUpperLimit j n = ((128 * (j + 1) / n : Nat) : Int) - 1 ∧
    toUInt8 (defaultUpperLimit j n) = 128 * (j + 1) / n - 1 ∧
    defaultUpperLimit (n - 1) n = 127 := by
  have key : ∀ i, i < n → defaultUpperLimit i n = ((128 * (i + 1) / n - 1 : Nat) : Int) :=
    fun i _ => defaultUpperLimit_of_le n i (by omega) (by omega)
  have hpos : ∀ i, 1 ≤ 128 * (i + 1) / n := by
    intro i
    apply (Nat.one_le_div_iff (by omega)).2
    omega
  have hlast : 128 * (n - 1 + 1) / n = 128 := by
    have h1 : n - 1 + 1 = n := by omega
    rw [h1, Nat.mul_div_cancel _ (by omega)]
  have hbound : 128 * (j + 1) / n ≤ 128 := by
    apply Nat.div_le_of_le_mul
    calc 128 * (j + 1) ≤ 128 * n := Nat.mul_le_mul_left _ (by omega)
      _ = n * 128 := Nat.mul_comm _ _
  refine ⟨?_, ?_, ?_⟩
  · rw [key j hj]
    have := hpos j
    omega
  · rw [key j hj]
    unfold toUInt8
    have := hpos j
    omega
  · rw [key (n - 1) (by omega), hlast]
    rfl

/-- C9, witness: with 5 zones the default limit of zone 2 is 75 =
floor(384 / 5) - 1. -/
theorem defaultUpperLimit_eq_floor_witness :
    defaultUpperLimit 2 5 = 75 ∧
    (defaultUpperLimit 2 5 = ((128 * (2 + 1) / 5 : Nat) : Int) - 1 ∧
     toUInt8 (defaultUpperLimit 2 5) = 128 * (2 + 1) / 5 - 1 ∧
     defaultUpperLimit (5 - 1) 5 = 127) :=
  ⟨by decide, defaultUpperLimit_eq_floor 5 2 (by decide) (by decide) (by decide)⟩

/-! ## The drag position (C10) -/

/-- The method update_after_resize changes nothing but the object graph. -/
theorem update_after_resize_frame (st st1 : DimRegionChooser)
    (h : update_after_resize st = some st1) : ∃ m, st1 = { st with instr := m } := by
  unfold update_after_resize at h
  cases hr : st.region with
  | none => simp [hr] at h
  | some r =>
    simp only [hr] at h
    cases hrg : st.instr.regionAt r with
    | none => simp [hrg] at h
    | some rgn =>
      simp only [hrg] at h
      split at h
      · rw [Option.map_eq_some'] at h
        obtain ⟨m, _, hm⟩ := h
        exact ⟨m, hm.symm⟩
      · rw [Option.map_eq_some'] at h
        obtain ⟨m, _, hm⟩ := h
        exact ⟨m, hm.symm⟩

theorem clampDrag_bounds (resize : resize_t) (k0 : Int) (hmm : resize.min ≤ resize.max)
    (hmax : 2 ≤ resize.max) :
    resize.min ≤ clampDrag resize k0 ∧ clampDrag resize k0 ≤ resize.max := by
  unfold clampDrag
  simp only
  split_ifs <;> omega

/-- C10 (amended): during an active resize drag whose recorded bounds satisfy
resize.min <= resize.max and resize.max >= 2, for every pointer position the
value that on_motion_notify_event accepts as resize.pos lies within
[resize.min, resize.max]. -/
theorem on_motion_pos_in_bounds (st : DimRegionChooser) (x y : Int)
    (hactive : st.resize.active = true)
    (hwidth : st.width - st.label_width - 1 ≠ 0)
    (hmm : st.resize.min ≤ st.resize.max) (hmax : 2 ≤ st.resize.max) :
    ∃ k, dragPosition st x = some k ∧ st.resize.min ≤ k ∧ k ≤ st.resize.max ∧
      ∀ st1, on_motion_notify_event st x y = some st1 → st1.resize.pos = k := by
  have hb := clampDrag_bounds st.resize
    (truncDiv (2 * ((x - st.label_width) * 128) + (st.width - st.label_width - 1))
      (2 * (st.width - st.label_width - 1))) hmm hmax
  refine ⟨_, by simp only [dragPosition, hwidth, if_false], hb.1, hb.2, ?_⟩
  intro st1 h
  simp only [on_motion_notify_event, hactive, if_true, dragPosition, hwidth, if_false] at h
  split at h
  · obtain ⟨m, hm⟩ := update_after_resize_frame _ _ h
    rw [hm]
  · rename_i hk
    simp only [ne_eq, not_not] at hk
    simp only [Option.some.injEq] at h
    rw [← h]
    exact hk.symm

/-- C10, witness: on the region with 5 velocity zones the boundary above zone 3
is grabbed at x = 100, which records the bounds [75, 125]; dragging to x = 10
is accepted as resize.pos = 75. -/
theorem on_motion_pos_in_bounds_witness :
    startDrag fiveZoneChooser 100 0 = some fiveZoneDragging ∧
    (fiveZoneDragging.resize.min, fiveZoneDragging.resize.max) = (75, 125) ∧
    dragPosition fiveZoneDragging 10 = some 75 ∧
    ∃ k, dragPosition fiveZoneDragging 10 = some k ∧ fiveZoneDragging.resize.min ≤ k ∧
      k ≤ fiveZoneDragging.resize.max ∧
      ∀ st1, on_motion_notify_event fiveZoneDragging 10 0 = some st1 → st1.resize.pos = k :=
  ⟨by decide, by decide, by decide,
   on_motion_pos_in_bounds fiveZoneDragging 10 0 (by decide) (by decide) (by decide)
     (by decide)⟩

/-- C10, counterexample: on a region whose zone 1 has no limit recorded while
zone 0 has the custom limit 5, is_in_resize_zone records the bounds
resize.min = 0 and resize.max = 1 for the boundary above zone 0; the drag to
x = 3 is then accepted as resize.pos = 2, above resize.max. -/
theorem on_motion_pos_in_bounds_counterexample :
    startDrag gapChooser 6 0 = some gapDragging ∧
    gapDragging.resize.active = true ∧
    (gapDragging.resize.min, gapDragging.resize.max) = (0, 1) ∧
    (on_motion_notify_event gapDragging 3 0).map (fun st1 => st1.resize.pos) = some 2 :=
  ⟨by decide, by decide, by decide, by decide⟩

/-! ## Modern and legacy velocity limits (C5) -/

set_option maxRecDepth 1000000 in
/-- C5, the code at the failing input: a region with a velocity dimension and a
layer dimension (2 zones each) without custom limits, the check box all
dimension regions set; the boundary above velocity zone 0 is grabbed at x = 64
and dragged to x = 50.  update_after_resize then writes the new limit 49 into
DimensionUpperLimits of slot 2 (velocity zone 0 of layer 1), whose
VelocityUpperLimit stays 0: the statement d->VelocityUpperLimit = upperLimit of
the loop writes to the slot of the main selection (slot 0) instead. -/
theorem update_after_resize_legacy_mismatch :
    startDrag allDimRegsChooser 64 0 = some allDimRegsDragging ∧
    allDimRegsDragging.modifyalldimregs = true ∧
    limitsAt allDimRegsDragging 0 2 0 = some (0, 0) ∧
    (on_motion_notify_event allDimRegsDragging 50 0).map
      (fun st => (st.resize.pos, limitsAt st 0 0 0, limitsAt st 0 2 0)) =
      some (50, some (49, 49), some (49, 0)) :=
  ⟨by decide, by decide, by decide, by decide⟩

/-! ## Zone coverage after the first resize (C8) -/

/-- C8, the code at the failing input: a region with one velocity dimension of
5 zones without custom limits; the boundary above zone 3 is grabbed at x = 100,
which records the drag bounds [75, 125], and dragged to x = 10, which is
accepted as resize.pos = 75.  update_after_resize back-fills the defaults
24, 50, 75, 101, 127 and writes 74 for zone 3: the limit of zone 3 is below the
limit of zone 2. -/
theorem update_after_resize_limits_decrease :
    startDrag fiveZoneChooser 100 0 = some fiveZoneDragging ∧
    (List.range 5).map (fun j => limitsAt fiveZoneDragging 0 j 0) =
      [some (0, 0), some (0, 0), some (0, 0), some (0, 0), some (0, 0)] ∧
    (fiveZoneDragging.resize.min, fiveZoneDragging.resize.max) = (75, 125) ∧
    (on_motion_notify_event fiveZoneDragging 10 0).map
      (fun st => (st.resize.pos, (List.range 5).map (fun j => limitsAt st 0 j 0))) =
      some (75, [some (24, 24), some (50, 50), some (75, 75), some (74, 74), some (127, 127)]) :=
  ⟨by decide, by decide, by decide, by decide⟩

/-! ## Writes to the object graph -/

theorem getElem?_pad (a : List Nat) (k j : Nat) :
    (a ++ List.replicate k 0)[j]?.getD 0 = a[j]?.getD 0 := by
  by_cases hj : j < a.length
  · rw [List.getElem?_append_left hj]
  · rw [List.getElem?_append_right (by omega), List.getElem?_replicate,
      List.getElem?_eq_none (l := a) (by omega)]
    split <;> rfl

theorem getD_arraySet (a : List Nat) (i v j : Nat) :
    (arraySet a i v).getD j 0 = if j = i then v else a.getD j 0 := by
  unfold arraySet
  rw [List.getD_eq_getElem?_getD, List.getD_eq_getElem?_getD, List.getElem?_set]
  have hlen : i < (a ++ List.replicate (i + 1 - a.length) 0).length := by
    simp only [List.length_append, List.length_replicate]
    omega
  by_cases hji : j = i
  · subst hji
    simp only [if_true, hlen]
    rfl
  · have hne : ¬ (i = j) := fun h => hji h.symm
    simp only [hne, hji, if_false]
    exact getElem?_pad a _ j

theorem upperLimit_setUpperLimit (d : DimensionRegion) (i v j : Nat) :
    (d.setUpperLimit i v).upperLimit j = if j = i then v else d.upperLimit j := by
  unfold DimensionRegion.setUpperLimit DimensionRegion.upperLimit
  exact getD_arraySet _ _ _ _

theorem dimRgn_set (rgn : Region) (i : Int) (d d1 : DimensionRegion)
    (hd : rgn.dimRgn i = some d) (j : Int) :
    Region.dimRgn { rgn with pDimensionRegions := rgn.pDimensionRegions.set i.toNat (some d1) } j =
      if j = i then some d1 else rgn.dimRgn j := by
  unfold Region.dimRgn at hd ⊢
  by_cases hi : 0 ≤ i ∧ i < 256
  · simp only [hi, and_self, if_true] at hd
    by_cases hj : 0 ≤ j ∧ j < 256
    · simp only [hj, and_self, if_true]
      rw [List.getD_eq_getElem?_getD, List.getD_eq_getElem?_getD, List.getElem?_set]
      have hlen : i.toNat < rgn.pDimensionRegions.length := by
        by_contra hcon
        rw [List.getD_eq_getElem?_getD, List.getElem?_eq_none (by omega)] at hd
        simp at hd
      by_cases hji : j = i
      · subst hji
        simp [hlen]
      · have hne : ¬ (i.toNat = j.toNat) := by omega
        simp [hne, hji]
    · have hji : j ≠ i := by
        intro h
        subst h
        exact hj hi
      simp [hj, hji]
  · simp [hi] at hd

theorem sameShape_refl (m : Instrument) : SameShape m m :=
  ⟨rfl, fun _ => ⟨rfl, fun _ => rfl⟩⟩

theorem sameShape_trans (m m1 m2 : Instrument) (h1 : SameShape m m1) (h2 : SameShape m1 m2) :
    SameShape m m2 :=
  ⟨h2.1.trans h1.1, fun r =>
    ⟨((h2.2 r).1).trans ((h1.2 r).1), fun i => ((h2.2 r).2 i).trans ((h1.2 r).2 i)⟩⟩

theorem sameShape_getRegion (m m1 : Instrument) (h : SameShape m m1) (key : Nat) :
    m1.GetRegion key = m.GetRegion key := by
  unfold Instrument.GetRegion
  rw [h.1]

theorem sameShape_regionAt (m m1 : Instrument) (h : SameShape m m1) (r : Nat) (g : Region)
    (hg : m.regionAt r = some g) :
    ∃ g1, m1.regionAt r = some g1 ∧ g1.pDimensionDefinitions = g.pDimensionDefinitions ∧
      g1.DimensionRegions = g.DimensionRegions := by
  have := (h.2 r).1
  rw [hg] at this
  cases h1 : m1.regionAt r with
  | none => simp [h1] at this
  | some g1 =>
    simp only [h1, Option.map_some', Option.some.injEq, Prod.mk.injEq] at this
    exact ⟨g1, rfl, this.1, this.2⟩

theorem sameShape_slot_isSome (m m1 : Instrument) (h : SameShape m m1) (r : Nat) (i : Int) :
    (m1.slot r i).isSome = (m.slot r i).isSome := by
  have := (h.2 r).2 i
  cases h1 : m1.slot r i <;> cases h0 : m.slot r i <;> simp [h1, h0] at this ⊢

/-- A write to the dimension region in slot i of region r: it succeeds when the
slot holds a dimension region, keeps the structure of the object graph and
changes only that dimension region. -/
theorem modifyDimRgn_spec (m : Instrument) (r : Nat) (i : Int) (f : DimensionRegion → DimensionRegion)
    (d : DimensionRegion) (hf : ∀ x, (f x).addr = x.addr) (hd : m.slot r i = some d) :
    ∃ m1, m.modifyDimRgn r i f = some m1 ∧ SameShape m m1 ∧
      ∀ r1 i1, m1.slot r1 i1 = if r1 = r ∧ i1 = i then some (f d) else m.slot r1 i1 := by
  unfold Instrument.slot at hd
  cases hg : m.regionAt r with
  | none => simp [hg] at hd
  | some g =>
    simp only [hg, Option.some_bind] at hd
    have hrlen : r < m.regions.length := by
      unfold Instrument.regionAt at hg
      by_contra hcon
      rw [List.getElem?_eq_none (by omega)] at hg
      simp at hg
    have hreg : ∀ (g1 : Region) (r1 : Nat),
        Instrument.regionAt { m with regions := m.regions.set r g1 } r1 =
          if r1 = r then some g1 else m.regionAt r1 := by
      intro g1 r1
      unfold Instrument.regionAt
      simp only [List.getElem?_set]
      by_cases h1 : r1 = r
      · subst h1
        simp [hrlen]
      · have h2 : ¬ (r = r1) := fun h => h1 h.symm
        simp [h1, h2]
    have hslot : ∀ (g1 : Region) (r1 : Nat) (i1 : Int),
        g1 = { g with pDimensionRegions := g.pDimensionRegions.set i.toNat (some (f d)) } →
        Instrument.slot { m with regions := m.regions.set r g1 } r1 i1 =
          if r1 = r ∧ i1 = i then some (f d) else m.slot r1 i1 := by
      intro g1 r1 i1 hg1
      unfold Instrument.slot
      rw [hreg g1 r1]
      by_cases h1 : r1 = r
      · subst h1
        simp only [if_true, Option.some_bind, true_and, hg]
        rw [hg1]
        exact dimRgn_set g i d (f d) hd i1
      · simp [h1]
    have hmod : m.modifyDimRgn r i f = some (Instrument.mk (m.regions.set r
        (Region.mk g.pDimensionDefinitions g.DimensionRegions
          (g.pDimensionRegions.set i.toNat (some (f d))))) m.RegionKeyTable) := by
      simp only [Instrument.modifyDimRgn, hg, hd]
    refine ⟨_, hmod, ⟨rfl, fun r1 => ⟨?_, ?_⟩⟩, fun r1 i1 => hslot _ r1 i1 rfl⟩
    · rw [hreg _ r1]
      by_cases h1 : r1 = r
      · subst h1
        simp [hg]
      · simp [h1]
    · intro i1
      rw [hslot _ r1 i1 rfl]
      by_cases h1 : r1 = r ∧ i1 = i
      · obtain ⟨h2, h3⟩ := h1
        subst h2
        subst h3
        simp [Instrument.slot, hg, hd, hf]
      · simp [h1]

/-- The assignment to DimensionUpperLimits[e] of the dimension region in slot i
of region r. -/
theorem writeUpperLimit_spec (m : Instrument) (r : Nat) (i : Int) (e v : Nat) (he : e < 8)
    (hs : (m.slot r i).isSome) :
    ∃ m1, m.writeUpperLimit r i e v = some m1 ∧ SameShape m m1 ∧
      m1.dul r i e = some v ∧
      (∀ r1 i1 e1, ¬ (r1 = r ∧ i1 = i ∧ e1 = e) → m1.dul r1 i1 e1 = m.dul r1 i1 e1) ∧
      (∀ r1 i1, m1.vul r1 i1 = m.vul r1 i1) := by
  cases hd : m.slot r i with
  | none => simp [hd] at hs
  | some d =>
    obtain ⟨m1, h1, h2, h3⟩ := modifyDimRgn_spec m r i (fun x => x.setUpperLimit e v) d
      (fun _ => rfl) hd
    refine ⟨m1, by simp only [Instrument.writeUpperLimit, he, if_true, h1], h2, ?_, ?_, ?_⟩
    · simp [Instrument.dul, h3, upperLimit_setUpperLimit]
    · intro r1 i1 e1 hne
      unfold Instrument.dul
      rw [h3 r1 i1]
      by_cases hri : r1 = r ∧ i1 = i
      · obtain ⟨hr, hi⟩ := hri
        subst hr
        subst hi
        have hee : e1 ≠ e := fun h => hne ⟨rfl, rfl, h⟩
        simp [hd, upperLimit_setUpperLimit, hee]
      · simp [hri]
    · intro r1 i1
      unfold Instrument.vul
      rw [h3 r1 i1]
      by_cases hri : r1 = r ∧ i1 = i
      · obtain ⟨hr, hi⟩ := hri
        subst hr
        subst hi
        simp [hd, DimensionRegion.setUpperLimit]
      · simp [hri]

/-- The assignment to VelocityUpperLimit of the dimension region in slot i of
region r. -/
theorem writeVelocityUpperLimit_spec (m : Instrument) (r : Nat) (i : Int) (v : Nat)
    (hs : (m.slot r i).isSome) :
    ∃ m1, m.writeVelocityUpperLimit r i v = some m1 ∧ SameShape m m1 ∧
      m1.vul r i = some v ∧
      (∀ r1 i1, ¬ (r1 = r ∧ i1 = i) → m1.vul r1 i1 = m.vul r1 i1) ∧
      (∀ r1 i1 e1, m1.dul r1 i1 e1 = m.dul r1 i1 e1) := by
  cases hd : m.slot r i with
  | none => simp [hd] at hs
  | some d =>
    obtain ⟨m1, h1, h2, h3⟩ := modifyDimRgn_spec m r i (fun x => x.setVelocityUpperLimit v) d
      (fun _ => rfl) hd
    refine ⟨m1, by simp only [Instrument.writeVelocityUpperLimit, h1], h2, ?_, ?_, ?_⟩
    · simp [Instrument.vul, h3, DimensionRegion.setVelocityUpperLimit]
    · intro r1 i1 hne
      unfold Instrument.vul
      rw [h3 r1 i1]
      simp [hne]
    · intro r1 i1 e1
      unfold Instrument.dul
      rw [h3 r1 i1]
      by_cases hri : r1 = r ∧ i1 = i
      · obtain ⟨hr, hi⟩ := hri
        subst hr
        subst hi
        simp [hd, DimensionRegion.setVelocityUpperLimit, DimensionRegion.upperLimit]
      · simp [hri]

/-! ## Loop rules -/

/-- Invariant rule for a counting loop that can fail. -/
theorem forRange_inv {σ : Type} (n : Nat) (f : Nat → σ → Option σ) (s0 : σ)
    (I : Nat → σ → Prop) (h0 : I 0 s0)
    (hstep : ∀ j s, j < n → I j s → ∃ s1, f j s = some s1 ∧ I (j + 1) s1) :
    ∃ s1, forRange n f s0 = some s1 ∧ I n s1 := by
  induction n with
  | zero => exact ⟨s0, by simp [forRange], h0⟩
  | succ n ih =>
    obtain ⟨s1, hs1, hI1⟩ := ih (fun j s hj hI => hstep j s (by omega) hI)
    obtain ⟨s2, hs2, hI2⟩ := hstep n s1 (by omega) hI1
    refine ⟨s2, ?_, hI2⟩
    unfold forRange at hs1 ⊢
    rw [List.range_succ, List.foldlM_append, hs1]
    simp [hs2]

/-- Invariant rule for the loop over the regions of the instrument. -/
theorem forEachKeyRegion_inv (body : Nat → Instrument → Option Instrument) (m0 : Instrument)
    (I : Instrument → Prop) (h0 : I m0)
    (hstep : ∀ key r m, key < 128 → I m → m.GetRegion key = some r →
      ∃ m1, body r m = some m1 ∧ I m1) :
    ∃ m1, forEachKeyRegion body m0 = some m1 ∧ I m1 := by
  have key : ∀ n, n ≤ 128 → ∃ s : Option Nat × Instrument,
      (List.range n).foldlM (forEachKeyStep body) (none, m0) = some s ∧ I s.2 := by
    intro n
    induction n with
    | zero => intro _; exact ⟨(none, m0), by simp, h0⟩
    | succ n ih =>
      intro hn
      obtain ⟨s, hs, hI⟩ := ih (by omega)
      rw [List.range_succ, List.foldlM_append, hs]
      simp only [Option.bind_eq_bind, Option.some_bind, List.foldlM_cons, List.foldlM_nil]
      unfold forEachKeyStep
      cases hg : s.2.GetRegion n with
      | none => exact ⟨s, by simp, hI⟩
      | some r =>
        by_cases hsame : s.1 = some r
        · exact ⟨s, by simp [hsame], hI⟩
        · obtain ⟨m1, hm1, hI1⟩ := hstep n r s.2 (by omega) hI hg
          exact ⟨(some r, m1), by simp [hsame, hm1], hI1⟩
  obtain ⟨s, hs, hI⟩ := key 128 (Nat.le_refl _)
  exact ⟨s.2, by unfold forEachKeyRegion; rw [hs]; rfl, hI⟩

/-! ## The index scan of the non-velocity branch -/

theorem bitposOf_dimensions (rgn : Region) : bitposOf rgn rgn.Dimensions = rgn.totalBits := by
  obtain ⟨l, n, regs⟩ := rgn
  unfold Region.totalBits Region.Dimensions
  simp only
  induction l with
  | nil => simp [bitposOf_zero]
  | cons df rest ih =>
    simp only [List.length_cons, List.map_cons, List.sum_cons]
    rw [bitposOf_cons, ih]

theorem bitposOf_add_bits_le (rgn : Region) (e : Nat) (he : e < rgn.Dimensions) :
    bitposOf rgn e + (rgn.dimDef e).bits ≤ rgn.totalBits := by
  rw [← bitposOf_dimensions]
  by_cases h : e + 1 = rgn.Dimensions
  · rw [← h, bitposOf_succ]
  · have := bitposOf_mono rgn e rgn.Dimensions he
    exact this

theorem scanNextDim_none (dim i : Nat) (l : List dimension_def_t) (n : Nat)
    (regs : List (Option DimensionRegion)) (j0 off0 : Nat)
    (h : scanNextDim dim i l j0 off0 = none) (k : Nat) (hk : k < l.length)
    (hne : j0 + k ≠ dim) :
    ¬ (zoneBits i (off0 + bitposOf { pDimensionDefinitions := l, DimensionRegions := n,
                                     pDimensionRegions := regs } k)
          (l.getD k dimension_def_t.zero).bits + 1 < (l.getD k dimension_def_t.zero).zones) := by
  induction l generalizing j0 off0 k with
  | nil => simp at hk
  | cons df rest ih =>
    rw [scanNextDim] at h
    split at h
    · simp at h
    · rename_i hcond
      cases k with
      | zero =>
        simp only [Nat.add_zero] at hne
        simp only [bitposOf_zero, Nat.add_zero, List.getD_cons_zero]
        intro hlt
        apply hcond
        refine ⟨hne, ?_⟩
        simpa [zoneBits] using hlt
      | succ k =>
        have hk2 : k < rest.length := by simpa using hk
        have := ih (j0 + 1) (off0 + df.bits) h k hk2 (by omega)
        rw [bitposOf_cons]
        simpa [Nat.add_assoc] using this

theorem scanNextDim_some (dim i : Nat) (l : List dimension_def_t) (n : Nat)
    (regs : List (Option DimensionRegion)) (j0 off0 bp : Nat)
    (h : scanNextDim dim i l j0 off0 = some bp) :
    ∃ k, k < l.length ∧ j0 + k ≠ dim ∧
      bp = off0 + bitposOf { pDimensionDefinitions := l, DimensionRegions := n,
                             pDimensionRegions := regs } k ∧
      zoneBits i bp (l.getD k dimension_def_t.zero).bits + 1 <
        (l.getD k dimension_def_t.zero).zones ∧
      ∀ k1, k1 < k → j0 + k1 ≠ dim →
        ¬ (zoneBits i (off0 + bitposOf { pDimensionDefinitions := l, DimensionRegions := n,
                                         pDimensionRegions := regs } k1)
              (l.getD k1 dimension_def_t.zero).bits + 1 <
            (l.getD k1 dimension_def_t.zero).zones) := by
  induction l generalizing j0 off0 with
  | nil => simp [scanNextDim] at h
  | cons df rest ih =>
    rw [scanNextDim] at h
    split at h
    · rename_i hcond
      simp only [Option.some.injEq] at h
      subst h
      refine ⟨0, by simp, by simpa using hcond.1, by simp [bitposOf_zero], ?_, ?_⟩
      · simpa [zoneBits] using hcond.2
      · intro k1 hk1; omega
    · rename_i hcond
      obtain ⟨k, hk, hne, hbp, hz, hbefore⟩ := ih (j0 + 1) (off0 + df.bits) h
      refine ⟨k + 1, by simpa using hk, by omega, ?_, ?_, ?_⟩
      · rw [bitposOf_cons, hbp]; omega
      · simpa using hz
      · intro k1 hk1 hne1
        cases k1 with
        | zero =>
          simp only [bitposOf_zero, Nat.add_zero, List.getD_cons_zero]
          intro hlt
          apply hcond
          refine ⟨by simpa using hne1, ?_⟩
          simpa [zoneBits] using hlt
        | succ k1 =>
          have := hbefore k1 (by omega) (by omega)
          rw [bitposOf_cons]
          simpa [Nat.add_assoc] using this

/-- The result none of the scan: every dimension other than dim is at its last
zone (or beyond). -/
theorem scanNextDim_region_none (rgn : Region) (dim i : Nat)
    (h : scanNextDim dim i rgn.pDimensionDefinitions 0 0 = none) (e : Nat)
    (he : e < rgn.Dimensions) (hne : e ≠ dim) :
    (rgn.dimDef e).zones ≤ zoneBits i (bitposOf rgn e) (rgn.dimDef e).bits + 1 := by
  have := scanNextDim_none dim i rgn.pDimensionDefinitions rgn.DimensionRegions
    rgn.pDimensionRegions 0 0 h e he (by omega)
  simp only [Nat.zero_add] at this
  exact Nat.le_of_not_lt this

/-- The result some bp of the scan: bp is the bit offset of the first dimension
j other than dim that is not at its last zone. -/
theorem scanNextDim_region_some (rgn : Region) (dim i bp : Nat)
    (h : scanNextDim dim i rgn.pDimensionDefinitions 0 0 = some bp) :
    ∃ j, j < rgn.Dimensions ∧ j ≠ dim ∧ bp = bitposOf rgn j ∧
      zoneBits i (bitposOf rgn j) (rgn.dimDef j).bits + 1 < (rgn.dimDef j).zones ∧
      ∀ e, e < j → e ≠ dim →
        (rgn.dimDef e).zones ≤ zoneBits i (bitposOf rgn e) (rgn.dimDef e).bits + 1 := by
  obtain ⟨k, hk, hne, hbp, hz, hbefore⟩ := scanNextDim_some dim i rgn.pDimensionDefinitions
    rgn.DimensionRegions rgn.pDimensionRegions 0 0 bp h
  simp only [Nat.zero_add] at hne hbp hbefore
  refine ⟨k, hk, hne, hbp, ?_, ?_⟩
  · rw [← hbp]; exact hz
  · intro e he hne1
    exact Nat.le_of_not_lt (hbefore e he (by omega))

/-! ## Order of slot indices and their fields -/

theorem mod_field (x off b : Nat) :
    x % 2 ^ (off + b) = x % 2 ^ off + 2 ^ off * zoneBits x off b := by
  rw [zoneBits_eq_mod, Nat.shiftRight_eq_div_pow, Nat.pow_add, Nat.mod_mul]

/-- If every field of k below dimension j is at most the field of i, the low
part of k is at most the low part of i. -/
theorem low_le_of_fields_le (rgn : Region) (k i j : Nat)
    (h : ∀ e, e < j →
      zoneBits k (bitposOf rgn e) (rgn.dimDef e).bits ≤
        zoneBits i (bitposOf rgn e) (rgn.dimDef e).bits) :
    k % 2 ^ bitposOf rgn j ≤ i % 2 ^ bitposOf rgn j := by
  induction j with
  | zero => simp [bitposOf_zero, Nat.mod_one]
  | succ j ih =>
    rw [bitposOf_succ, mod_field, mod_field]
    have h1 := ih (fun e he => h e (by omega))
    have h2 := Nat.mul_le_mul_left (2 ^ bitposOf rgn j) (h j (by omega))
    omega

/-- When the scan finds no dimension to advance, no index of a valid
combination lies above i. -/
theorem baseIndex_le_of_scan_none (rgn : Region) (dim i k : Nat)
    (h : scanNextDim dim i rgn.pDimensionDefinitions 0 0 = none)
    (hk : rgn.BaseIndex dim k) : k ≤ i := by
  obtain ⟨hk1, hk2, hk3⟩ := hk
  have hle := low_le_of_fields_le rgn k i rgn.Dimensions (by
    intro e he
    by_cases hed : e = dim
    · subst hed; rw [hk2]; exact Nat.zero_le _
    · have h1 := scanNextDim_region_none rgn dim i h e he hed
      have h2 := hk3 e he hed
      omega)
  rw [bitposOf_dimensions, Nat.mod_eq_of_lt hk1] at hle
  exact Nat.le_trans hle (Nat.mod_le _ _)

/-- The assignment i = (i & ~((1 << bitpos) - 1)) + (1 << bitpos) of the loop. -/
theorem nextIndex_eq (i bp : Nat) (hi : i < 2147483648) (hbp : bp ≤ 31) :
    (bitAnd (i : Int) (bitNot (((1 <<< bp) - 1 : Nat) : Int))).toNat + (1 <<< bp) =
      (i / 2 ^ bp + 1) * 2 ^ bp := by
  have hm : ((1 <<< bp) - 1 : Nat) < 4294967296 := by
    rw [Nat.one_shiftLeft]
    have h1 : (2 : Nat) ^ bp ≤ 2 ^ 31 := Nat.pow_le_pow_right (by norm_num) hbp
    have h2 : (2 : Nat) ^ 31 = 2147483648 := by norm_num
    omega
  rw [bitAnd_natCast_bitNot i _ hi hm, Int.toNat_ofNat]
  have hclear : i &&& (((1 <<< bp) - 1) ^^^ 4294967295) = (i / 2 ^ bp) * 2 ^ bp := by
    apply Nat.eq_of_testBit_eq
    intro t
    rw [testBit_clear _ _ _ (by omega), Nat.one_shiftLeft, Nat.testBit_two_pow_sub_one,
      ← Nat.shiftLeft_eq, ← Nat.shiftRight_eq_div_pow, Nat.testBit_shiftLeft,
      Nat.testBit_shiftRight]
    by_cases ht : t < bp
    · have : ¬ (t ≥ bp) := by omega
      simp [ht, this]
    · have h1 : t ≥ bp := by omega
      have h2 : bp + (t - bp) = t := by omega
      simp [ht, h1, h2]
  rw [hclear, Nat.one_shiftLeft, Nat.add_mul, Nat.one_mul]

theorem lt_nextIndex (i bp : Nat) : i < (i / 2 ^ bp + 1) * 2 ^ bp := by
  have := Nat.lt_mul_div_succ i (Nat.two_pow_pos bp)
  rw [Nat.mul_comm] at this
  exact this

theorem succ_div_of_mod_succ_lt (q P : Nat) (h : q % P + 1 < P) : (q + 1) / P = q / P := by
  have hP : 0 < P := by omega
  have h1 : q + 1 = P * (q / P) + (q % P + 1) := by
    have := Nat.div_add_mod q P
    omega
  rw [h1, Nat.mul_add_div hP, Nat.div_eq_of_lt h]
  simp

theorem succ_mod_of_mod_succ_lt (q P : Nat) (h : q % P + 1 < P) : (q + 1) % P = q % P + 1 := by
  rw [Nat.add_mod, Nat.mod_eq_of_lt (a := q % P + 1 % P)]
  · have : 1 % P = 1 := Nat.mod_eq_of_lt (by omega)
    rw [this]
  · have : 1 % P = 1 := Nat.mod_eq_of_lt (by omega)
    rw [this]
    exact h

theorem zoneBits_mul_pow_low (y bp off b : Nat) (h : off + b ≤ bp) :
    zoneBits (y * 2 ^ bp) off b = 0 := by
  apply Nat.eq_of_testBit_eq
  intro s
  rw [testBit_zoneBits, ← Nat.shiftLeft_eq, Nat.testBit_shiftLeft]
  by_cases hs : s < b
  · have : ¬ (off + s ≥ bp) := by omega
    simp [hs, this]
  · simp [hs]

theorem zoneBits_mul_pow_high (y bp off b : Nat) (h : bp ≤ off) :
    zoneBits (y * 2 ^ bp) off b = zoneBits y (off - bp) b := by
  apply Nat.eq_of_testBit_eq
  intro s
  rw [testBit_zoneBits, testBit_zoneBits, ← Nat.shiftLeft_eq, Nat.testBit_shiftLeft]
  have h1 : off + s ≥ bp := by omega
  have h2 : off + s - bp = off - bp + s := by omega
  simp [h1, h2]

theorem zoneBits_div_pow (x bp off b : Nat) :
    zoneBits (x / 2 ^ bp) off b = zoneBits x (bp + off) b := by
  apply Nat.eq_of_testBit_eq
  intro s
  rw [testBit_zoneBits, testBit_zoneBits, ← Nat.shiftRight_eq_div_pow, Nat.testBit_shiftRight,
    Nat.add_assoc]

/-- The fields of the next index (q + 1) * 2^bp, q = i / 2^bp, when the field
of width b at offset bp is not at its maximum: fields below are 0, the field
at bp is incremented, fields above are unchanged. -/
theorem zoneBits_nextIndex (i bp b off1 b1 : Nat)
    (hz : zoneBits i bp b + 1 < 2 ^ b) :
    (off1 + b1 ≤ bp → zoneBits ((i / 2 ^ bp + 1) * 2 ^ bp) off1 b1 = 0) ∧
    zoneBits ((i / 2 ^ bp + 1) * 2 ^ bp) bp b = zoneBits i bp b + 1 ∧
    (bp + b ≤ off1 → zoneBits ((i / 2 ^ bp + 1) * 2 ^ bp) off1 b1 = zoneBits i off1 b1) := by
  have hq : (i / 2 ^ bp) % 2 ^ b + 1 < 2 ^ b := by
    rw [zoneBits_eq_mod, Nat.shiftRight_eq_div_pow] at hz
    exact hz
  refine ⟨fun h => zoneBits_mul_pow_low _ _ _ _ h, ?_, ?_⟩
  · rw [zoneBits_mul_pow_high _ _ _ _ (Nat.le_refl _), Nat.sub_self, zoneBits_eq_mod,
      Nat.shiftRight_zero, succ_mod_of_mod_succ_lt _ _ hq, zoneBits_eq_mod,
      Nat.shiftRight_eq_div_pow]
  · intro h
    rw [zoneBits_mul_pow_high _ _ _ _ (by omega)]
    have h1 : off1 - bp = b + (off1 - bp - b) := by omega
    have h2 : off1 = bp + (b + (off1 - bp - b)) := by omega
    rw [h1, ← zoneBits_div_pow, succ_div_of_mod_succ_lt _ _ hq, zoneBits_div_pow,
      zoneBits_div_pow, ← h2]

theorem lt_two_pow_of_zoneBits_eq (x y T : Nat) (hy : y < 2 ^ T)
    (h : ∀ w, zoneBits x T w = zoneBits y T w) : x < 2 ^ T := by
  apply Nat.lt_pow_two_of_testBit
  intro t ht
  have h1 := testBit_zoneBits x T (t - T + 1) (t - T)
  have h2 := testBit_zoneBits y T (t - T + 1) (t - T)
  have h3 : T + (t - T) = t := by omega
  have h4 : t - T < t - T + 1 := by omega
  rw [h3] at h1 h2
  simp only [h4, decide_True, Bool.true_and] at h1 h2
  rw [← h1, h, h2]
  exact testBit_eq_false_of_lt_of_le y T t hy ht

/-- The step of the loop of the non-velocity branch: from the index i of a
valid combination the assignment leads to the next larger index of a valid
combination. -/
theorem baseIndex_next (rgn : Region) (dim i bp : Nat)
    (hpos : ∀ e, e < rgn.Dimensions → 1 ≤ (rgn.dimDef e).zones)
    (hle : ∀ e, e < rgn.Dimensions → (rgn.dimDef e).zones ≤ 2 ^ (rgn.dimDef e).bits)
    (h : scanNextDim dim i rgn.pDimensionDefinitions 0 0 = some bp)
    (hi : rgn.BaseIndex dim i) :
    rgn.BaseIndex dim ((i / 2 ^ bp + 1) * 2 ^ bp) ∧ i < (i / 2 ^ bp + 1) * 2 ^ bp ∧
      ∀ k, rgn.BaseIndex dim k → i < k → (i / 2 ^ bp + 1) * 2 ^ bp ≤ k := by
  obtain ⟨j, hj, hjd, hbp, hz, hbefore⟩ := scanNextDim_region_some rgn dim i bp h
  obtain ⟨hi1, hi2, hi3⟩ := hi
  subst hbp
  have hzlt : zoneBits i (bitposOf rgn j) (rgn.dimDef j).bits + 1 < 2 ^ (rgn.dimDef j).bits :=
    Nat.lt_of_lt_of_le hz (hle j hj)
  have hT : bitposOf rgn j + (rgn.dimDef j).bits ≤ rgn.totalBits := bitposOf_add_bits_le rgn j hj
  refine ⟨⟨?_, ?_, ?_⟩, lt_nextIndex i _, ?_⟩
  · apply lt_two_pow_of_zoneBits_eq _ i _ hi1
    intro w
    exact (zoneBits_nextIndex i _ _ rgn.totalBits w hzlt).2.2 hT
  · rcases Nat.lt_or_gt_of_ne hjd with hlt | hgt
    · rw [(zoneBits_nextIndex i _ _ _ _ hzlt).2.2 (bitposOf_mono rgn j dim hlt)]
      exact hi2
    · exact (zoneBits_nextIndex i _ _ _ _ hzlt).1 (bitposOf_mono rgn dim j hgt)
  · intro e he hed
    rcases Nat.lt_trichotomy e j with hlt | heq | hgt
    · rw [(zoneBits_nextIndex i _ _ _ _ hzlt).1 (bitposOf_mono rgn e j hlt)]
      exact hpos e he
    · subst heq
      rw [(zoneBits_nextIndex i _ _ 0 0 hzlt).2.1]
      exact hz
    · rw [(zoneBits_nextIndex i _ _ _ _ hzlt).2.2 (bitposOf_mono rgn j e hgt)]
      exact hi3 e he hed
  · intro k hk hik
    obtain ⟨_, hk2, hk3⟩ := hk
    by_contra hcon
    have hklt : k < (i / 2 ^ bitposOf rgn j + 1) * 2 ^ bitposOf rgn j := Nat.lt_of_not_le hcon
    have hP : 0 < 2 ^ bitposOf rgn j := Nat.two_pow_pos _
    have hq1 : k / 2 ^ bitposOf rgn j < i / 2 ^ bitposOf rgn j + 1 :=
      (Nat.div_lt_iff_lt_mul hP).2 hklt
    have hq2 : i / 2 ^ bitposOf rgn j ≤ k / 2 ^ bitposOf rgn j :=
      Nat.div_le_div_right (Nat.le_of_lt hik)
    have hq : k / 2 ^ bitposOf rgn j = i / 2 ^ bitposOf rgn j := by omega
    have hlow := low_le_of_fields_le rgn k i j (by
      intro e he
      by_cases hed : e = dim
      · subst hed; rw [hk2]; exact Nat.zero_le _
      · have h1 := hbefore e he hed
        have h2 := hk3 e (by omega) hed
        omega)
    have hk_eq := Nat.div_add_mod k (2 ^ bitposOf rgn j)
    have hi_eq := Nat.div_add_mod i (2 ^ bitposOf rgn j)
    rw [hq] at hk_eq
    omega

theorem baseIndex_zero (rgn : Region) (dim : Nat)
    (hpos : ∀ e, e < rgn.Dimensions → 1 ≤ (rgn.dimDef e).zones) : rgn.BaseIndex dim 0 := by
  refine ⟨Nat.two_pow_pos _, ?_, ?_⟩
  · simp [zoneBits]
  · intro e he _
    have := hpos e he
    simp only [zoneBits, Nat.zero_shiftRight, Nat.zero_and]
    omega

/-! ## The back-fill loops -/

theorem shiftLeft_inj (j j1 off : Nat) (h : j <<< off = j1 <<< off) : j = j1 := by
  rw [Nat.shiftLeft_eq, Nat.shiftLeft_eq] at h
  exact Nat.eq_of_mul_eq_mul_right (Nat.two_pow_pos off) h

/-- The loop that back-fills the default DimensionUpperLimits. -/
theorem backfillUpperLimits_spec (m : Instrument) (r : Nat) (c : Int) (off dim n : Nat)
    (hdim : dim < 8)
    (hslots : ∀ j, j < n → (m.slot r (c + ((j <<< off : Nat) : Int))).isSome = true) :
    ∃ m1, backfillUpperLimits r c off dim n m = some m1 ∧ SameShape m m1 ∧
      (∀ j, j < n → m1.dul r (c + ((j <<< off : Nat) : Int)) dim =
        some (toUInt8 (defaultUpperLimit j n))) ∧
      (∀ r1 i1 e1, ¬ (r1 = r ∧ e1 = dim ∧ ∃ j, j < n ∧ i1 = c + ((j <<< off : Nat) : Int)) →
        m1.dul r1 i1 e1 = m.dul r1 i1 e1) ∧
      (∀ r1 i1, m1.vul r1 i1 = m.vul r1 i1) := by
  unfold backfillUpperLimits
  apply forRange_inv n _ m (fun t s => SameShape m s ∧
      (∀ j, j < t → s.dul r (c + ((j <<< off : Nat) : Int)) dim =
        some (toUInt8 (defaultUpperLimit j n))) ∧
      (∀ r1 i1 e1, ¬ (r1 = r ∧ e1 = dim ∧ ∃ j, j < t ∧ i1 = c + ((j <<< off : Nat) : Int)) →
        s.dul r1 i1 e1 = m.dul r1 i1 e1) ∧
      (∀ r1 i1, s.vul r1 i1 = m.vul r1 i1))
  · exact ⟨sameShape_refl m, fun j hj => by omega, fun _ _ _ _ => rfl, fun _ _ => rfl⟩
  · intro t s ht ⟨hsh, hval, hframe, hvul⟩
    have hsome : (s.slot r (c + ((t <<< off : Nat) : Int))).isSome = true := by
      rw [sameShape_slot_isSome m s hsh]
      exact hslots t ht
    obtain ⟨s1, hw, hsh1, hnew, hother, hv1⟩ := writeUpperLimit_spec s r
      (c + ((t <<< off : Nat) : Int)) dim (toUInt8 (defaultUpperLimit t n)) hdim hsome
    refine ⟨s1, hw, sameShape_trans m s s1 hsh hsh1, ?_, ?_, ?_⟩
    · intro j hj
      by_cases hjt : j = t
      · subst hjt; exact hnew
      · rw [hother r _ dim, hval j (by omega)]
        intro hcon
        have h1 : ((j <<< off : Nat) : Int) = ((t <<< off : Nat) : Int) := by omega
        exact hjt (shiftLeft_inj j t off (by exact_mod_cast h1))
    · intro r1 i1 e1 hne
      rw [hother r1 i1 e1, hframe r1 i1 e1]
      · intro ⟨h1, h2, j, hj, h3⟩
        exact hne ⟨h1, h2, j, by omega, h3⟩
      · intro ⟨h1, h2, h3⟩
        exact hne ⟨h1, h3, t, by omega, h2⟩
    · intro r1 i1
      rw [hv1, hvul]

/-- The loop that back-fills the default VelocityUpperLimit. -/
theorem backfillVelocityLimits_spec (m : Instrument) (r : Nat) (c : Int) (off n : Nat)
    (hslots : ∀ j, j < n → (m.slot r (c + ((j <<< off : Nat) : Int))).isSome = true) :
    ∃ m1, backfillVelocityLimits r c off n m = some m1 ∧ SameShape m m1 ∧
      (∀ j, j < n → m1.vul r (c + ((j <<< off : Nat) : Int)) =
        some (toUInt8 (defaultUpperLimit j n))) ∧
      (∀ r1 i1, ¬ (r1 = r ∧ ∃ j, j < n ∧ i1 = c + ((j <<< off : Nat) : Int)) →
        m1.vul r1 i1 = m.vul r1 i1) ∧
      (∀ r1 i1 e1, m1.dul r1 i1 e1 = m.dul r1 i1 e1) := by
  unfold backfillVelocityLimits
  apply forRange_inv n _ m (fun t s => SameShape m s ∧
      (∀ j, j < t → s.vul r (c + ((j <<< off : Nat) : Int)) =
        some (toUInt8 (defaultUpperLimit j n))) ∧
      (∀ r1 i1, ¬ (r1 = r ∧ ∃ j, j < t ∧ i1 = c + ((j <<< off : Nat) : Int)) →
        s.vul r1 i1 = m.vul r1 i1) ∧
      (∀ r1 i1 e1, s.dul r1 i1 e1 = m.dul r1 i1 e1))
  · exact ⟨sameShape_refl m, fun j hj => by omega, fun _ _ _ => rfl, fun _ _ _ => rfl⟩
  · intro t s ht ⟨hsh, hval, hframe, hdul⟩
    have hsome : (s.slot r (c + ((t <<< off : Nat) : Int))).isSome = true := by
      rw [sameShape_slot_isSome m s hsh]
      exact hslots t ht
    obtain ⟨s1, hw, hsh1, hnew, hother, hd1⟩ := writeVelocityUpperLimit_spec s r
      (c + ((t <<< off : Nat) : Int)) (toUInt8 (defaultUpperLimit t n)) hsome
    refine ⟨s1, hw, sameShape_trans m s s1 hsh hsh1, ?_, ?_, ?_⟩
    · intro j hj
      by_cases hjt : j = t
      · subst hjt; exact hnew
      · rw [hother r _, hval j (by omega)]
        intro hcon
        have h1 : ((j <<< off : Nat) : Int) = ((t <<< off : Nat) : Int) := by omega
        exact hjt (shiftLeft_inj j t off (by exact_mod_cast h1))
    · intro r1 i1 hne
      rw [hother r1 i1, hframe r1 i1]
      · intro ⟨h1, j, hj, h3⟩
        exact hne ⟨h1, j, by omega, h3⟩
      · intro ⟨h1, h2⟩
        exact hne ⟨h1, t, by omega, h2⟩
    · intro r1 i1 e1
      rw [hd1, hdul]

/-! ## The slots of the zones of one dimension -/

theorem zoneBits_mod_two_pow (x n off b : Nat) (h : off + b ≤ n) :
    zoneBits (x % 2 ^ n) off b = zoneBits x off b := by
  apply Nat.eq_of_testBit_eq
  intro s
  rw [testBit_zoneBits, testBit_zoneBits, Nat.testBit_mod_two_pow]
  by_cases hs : s < b
  · have : off + s < n := by omega
    simp [hs, this]
  · simp [hs]

/-- The fields of k + (j << off) when the field of k at offset off is 0 and
j fits into that field: that field becomes j, the other fields are those of
k. -/
theorem zoneBits_add_shift (k j off b off1 b1 : Nat) (hk : zoneBits k off b = 0)
    (hj : j < 2 ^ b) :
    zoneBits (k + j <<< off) off b = j ∧
    (off1 + b1 ≤ off → zoneBits (k + j <<< off) off1 b1 = zoneBits k off1 b1) ∧
    (off + b ≤ off1 → zoneBits (k + j <<< off) off1 b1 = zoneBits k off1 b1) := by
  have hP : 0 < 2 ^ off := Nat.two_pow_pos off
  have hB : 0 < 2 ^ b := Nat.two_pow_pos b
  have hq0 : (k / 2 ^ off) % 2 ^ b = 0 := by
    rw [zoneBits_eq_mod, Nat.shiftRight_eq_div_pow] at hk
    exact hk
  have hdiv : (k + j <<< off) / 2 ^ off = k / 2 ^ off + j := by
    rw [Nat.shiftLeft_eq, Nat.add_mul_div_right _ _ hP]
  refine ⟨?_, ?_, ?_⟩
  · rw [zoneBits_eq_mod, Nat.shiftRight_eq_div_pow, hdiv, Nat.add_mod, hq0, Nat.zero_add,
      Nat.mod_mod, Nat.mod_eq_of_lt hj]
  · intro h
    rw [← zoneBits_mod_two_pow _ off _ _ h, ← zoneBits_mod_two_pow k off _ _ h,
      Nat.shiftLeft_eq, Nat.add_mul_mod_self_right]
  · intro h
    have h1 : off1 = off + (b + (off1 - off - b)) := by omega
    have hcarry : (k / 2 ^ off + j) / 2 ^ b = k / 2 ^ off / 2 ^ b := by
      have hdm := Nat.div_add_mod (k / 2 ^ off) (2 ^ b)
      rw [hq0, Nat.add_zero] at hdm
      rw [← hdm, Nat.mul_add_div hB, Nat.div_eq_of_lt hj, Nat.add_zero,
        Nat.mul_div_cancel_left _ hB]
    rw [h1, ← zoneBits_div_pow, ← zoneBits_div_pow, ← zoneBits_div_pow k, ← zoneBits_div_pow,
      hdiv, hcarry]

/-- The slot k + (j << bitpos) of zone j of dimension dim in the combination
with base index k: it lies below 2^(total bits), its field for dim is j and
its other fields are those of k. -/
theorem zoneSlot_fields (rgn : Region) (dim k j : Nat) (hd : dim < rgn.Dimensions)
    (hk : rgn.BaseIndex dim k) (hj : j < 2 ^ (rgn.dimDef dim).bits) :
    k + j <<< bitposOf rgn dim < 2 ^ rgn.totalBits ∧
    zoneBits (k + j <<< bitposOf rgn dim) (bitposOf rgn dim) (rgn.dimDef dim).bits = j ∧
    ∀ e, e ≠ dim →
      zoneBits (k + j <<< bitposOf rgn dim) (bitposOf rgn e) (rgn.dimDef e).bits =
        zoneBits k (bitposOf rgn e) (rgn.dimDef e).bits := by
  obtain ⟨hk1, hk2, _⟩ := hk
  refine ⟨?_, (zoneBits_add_shift k j _ _ 0 0 hk2 hj).1, ?_⟩
  · apply lt_two_pow_of_zoneBits_eq _ k _ hk1
    intro w
    exact (zoneBits_add_shift k j _ _ rgn.totalBits w hk2 hj).2.2
      (bitposOf_add_bits_le rgn dim hd)
  · intro e he
    rcases bitposOf_disjoint rgn e dim he with h | h
    · exact (zoneBits_add_shift k j _ _ _ _ hk2 hj).2.1 h
    · exact (zoneBits_add_shift k j _ _ _ _ hk2 hj).2.2 h

/-- Different zones or different base indices give different slots. -/
theorem zoneSlot_inj (rgn : Region) (dim k k1 j j1 : Nat) (hd : dim < rgn.Dimensions)
    (hk : rgn.BaseIndex dim k) (hk1 : rgn.BaseIndex dim k1)
    (hj : j < 2 ^ (rgn.dimDef dim).bits) (hj1 : j1 < 2 ^ (rgn.dimDef dim).bits)
    (h : k + j <<< bitposOf rgn dim = k1 + j1 <<< bitposOf rgn dim) : k = k1 ∧ j = j1 := by
  have h1 := (zoneSlot_fields rgn dim k j hd hk hj).2.1
  have h2 := (zoneSlot_fields rgn dim k1 j1 hd hk1 hj1).2.1
  rw [h, h2] at h1
  subst h1
  exact ⟨by omega, rfl⟩

/-- Every slot of a valid combination of zones is the slot of a zone of dim in
a combination with a base index. -/
theorem exists_baseIndex (rgn : Region) (dim s : Nat) (hs : s < 2 ^ rgn.totalBits)
    (hvalid : ∀ e, e < rgn.Dimensions →
      zoneBits s (bitposOf rgn e) (rgn.dimDef e).bits < (rgn.dimDef e).zones) :
    ∃ k, rgn.BaseIndex dim k ∧
      s = k + zoneBits s (bitposOf rgn dim) (rgn.dimDef dim).bits <<< bitposOf rgn dim := by
  have hP : 0 < 2 ^ bitposOf rgn dim := Nat.two_pow_pos _
  have hzlt : zoneBits s (bitposOf rgn dim) (rgn.dimDef dim).bits < 2 ^ (rgn.dimDef dim).bits :=
    zoneBits_lt _ _ _
  have hsplit : s = (s % 2 ^ bitposOf rgn dim +
      2 ^ (bitposOf rgn dim + (rgn.dimDef dim).bits) *
        (s / 2 ^ (bitposOf rgn dim + (rgn.dimDef dim).bits))) +
      zoneBits s (bitposOf rgn dim) (rgn.dimDef dim).bits <<< bitposOf rgn dim := by
    have h1 := Nat.div_add_mod s (2 ^ (bitposOf rgn dim + (rgn.dimDef dim).bits))
    rw [mod_field] at h1
    rw [Nat.shiftLeft_eq, Nat.mul_comm (zoneBits s _ _)]
    omega
  have hk0 : zoneBits (s % 2 ^ bitposOf rgn dim +
      2 ^ (bitposOf rgn dim + (rgn.dimDef dim).bits) *
        (s / 2 ^ (bitposOf rgn dim + (rgn.dimDef dim).bits)))
      (bitposOf rgn dim) (rgn.dimDef dim).bits = 0 := by
    rw [zoneBits_eq_mod, Nat.shiftRight_eq_div_pow, Nat.pow_add, Nat.mul_assoc,
      Nat.add_mul_div_left _ _ hP, Nat.div_eq_of_lt (Nat.mod_lt _ hP), Nat.zero_add,
      Nat.mul_mod_right]
  refine ⟨_, ⟨?_, hk0, ?_⟩, hsplit⟩
  · exact Nat.lt_of_le_of_lt (Nat.le.intro hsplit.symm) hs
  · intro e he hed
    have hf := zoneBits_add_shift _ (zoneBits s (bitposOf rgn dim) (rgn.dimDef dim).bits)
      (bitposOf rgn dim) (rgn.dimDef dim).bits (bitposOf rgn e) (rgn.dimDef e).bits hk0 hzlt
    rw [← hsplit] at hf
    rcases bitposOf_disjoint rgn e dim hed with h | h
    · rw [← hf.2.1 h]; exact hvalid e he
    · rw [← hf.2.2 h]; exact hvalid e he

/-! ## The loop of the non-velocity branch -/

theorem slot_of_regionAt (m : Instrument) (r : Nat) (rgn : Region) (i : Int)
    (h : m.regionAt r = some rgn) : m.slot r i = rgn.dimRgn i := by
  simp [Instrument.slot, h]

/-- The loop of the non-velocity branch, started at the index i of a valid
combination with all smaller combinations done and all others untouched,
returns with every zone of every valid combination holding its expected
limit. -/
theorem updateOtherLoop_spec (st : DimRegionChooser) (r : Nat) (rgn : Region) (upperLimit : Nat)
    (m0 : Instrument) (hr0 : m0.regionAt r = some rgn) (hwf : rgn.WellFormed)
    (hd : st.resize.dimension < rgn.Dimensions)
    (hzone : st.resize.zone < (rgn.dimDef st.resize.dimension).zones) :
    ∀ (fuel i : Nat) (m : Instrument), rgn.BaseIndex st.resize.dimension i →
      2 ^ rgn.totalBits + 1 ≤ fuel + i → SameShape m0 m →
      (∀ k, rgn.BaseIndex st.resize.dimension k → k < i →
        ∀ j, j < (rgn.dimDef st.resize.dimension).zones →
          m.dul r ((k : Int) + ((j <<< bitposOf rgn st.resize.dimension : Nat) : Int))
            st.resize.dimension =
          some (expectedLimit st.resize.zone upperLimit
            (rgn.dimDef st.resize.dimension).zones j)) →
      (∀ k, rgn.BaseIndex st.resize.dimension k → i ≤ k →
        ∀ j, j < (rgn.dimDef st.resize.dimension).zones →
          m.dul r ((k : Int) + ((j <<< bitposOf rgn st.resize.dimension : Nat) : Int))
            st.resize.dimension = some 0) →
      ∃ m1, updateOtherLoop st r rgn upperLimit (bitposOf rgn st.resize.dimension) fuel i m =
          some m1 ∧ SameShape m0 m1 ∧
        (∀ k, rgn.BaseIndex st.resize.dimension k →
          ∀ j, j < (rgn.dimDef st.resize.dimension).zones →
            m1.dul r ((k : Int) + ((j <<< bitposOf rgn st.resize.dimension : Nat) : Int))
              st.resize.dimension =
            some (expectedLimit st.resize.zone upperLimit
              (rgn.dimDef st.resize.dimension).zones j)) ∧
        (∀ r1 i1 e1, (r1 ≠ r ∨ e1 ≠ st.resize.dimension) →
          m1.dul r1 i1 e1 = m.dul r1 i1 e1) ∧
        (∀ r1 i1, m1.vul r1 i1 = m.vul r1 i1) := by
  intro fuel
  induction fuel with
  | zero =>
    intro i m hi hfuel
    have := hi.1
    omega
  | succ fuel ih =>
    intro i m hi hfuel hsh hdone htodo
    have hdim8 : st.resize.dimension < 8 := Nat.lt_of_lt_of_le hd hwf.dims_le
    have hzle := hwf.zones_le _ hd
    have hT8 := hwf.bits_le
    -- slots of m below 2^T hold dimension regions
    have hslotm : ∀ (m2 : Instrument), SameShape m0 m2 → ∀ s : Nat, s < 2 ^ rgn.totalBits →
        (m2.slot r (s : Int)).isSome = true := by
      intro m2 hsh2 s hs
      rw [sameShape_slot_isSome m0 m2 hsh2, slot_of_regionAt m0 r rgn _ hr0]
      exact hwf.slots s hs
    have hslotz : ∀ (m2 : Instrument), SameShape m0 m2 → ∀ k, rgn.BaseIndex st.resize.dimension k →
        ∀ j, j < (rgn.dimDef st.resize.dimension).zones →
        (m2.slot r ((k : Int) + ((j <<< bitposOf rgn st.resize.dimension : Nat) : Int))).isSome
          = true := by
      intro m2 hsh2 k hk j hj
      have := (zoneSlot_fields rgn _ k j hd hk (by omega)).1
      have hcast : ((k : Int) + ((j <<< bitposOf rgn st.resize.dimension : Nat) : Int)) =
          ((k + j <<< bitposOf rgn st.resize.dimension : Nat) : Int) := by push_cast; rfl
      rw [hcast]
      exact hslotm m2 hsh2 _ this
    rw [updateOtherLoop]
    have hlt : i < rgn.DimensionRegions := by rw [hwf.count]; exact hi.1
    simp only [hlt, if_true]
    have hi0 := htodo i hi (Nat.le_refl _) 0 (hwf.zones_pos _ hd)
    simp only [Nat.zero_shiftLeft, Nat.cast_zero, add_zero] at hi0
    have hslot_eq : (m.regionAt r).bind (fun rgn1 => rgn1.dimRgn (i : Int)) = m.slot r i := rfl
    rw [hslot_eq]
    cases hdi : m.slot r (i : Int) with
    | none => simp [Instrument.dul, hdi] at hi0
    | some di =>
      simp only
      have hdi0 : di.upperLimit st.resize.dimension = 0 := by
        simpa [Instrument.dul, hdi] using hi0
      simp only [hdi0, if_true]
      obtain ⟨m1, hb, hsh1, hbval, hbframe, hbvul⟩ := backfillUpperLimits_spec m r (i : Int)
        (bitposOf rgn st.resize.dimension) st.resize.dimension
        (rgn.dimDef st.resize.dimension).zones hdim8 (fun j hj => hslotz m hsh i hi j hj)
      rw [hb]
      simp only
      have hsh01 := sameShape_trans m0 m m1 hsh hsh1
      obtain ⟨m2, hw, hsh2, hwval, hwframe, hwvul⟩ := writeUpperLimit_spec m1 r
        ((i : Int) + ((st.resize.zone <<< bitposOf rgn st.resize.dimension : Nat) : Int))
        st.resize.dimension upperLimit hdim8 (hslotz m1 hsh01 i hi _ hzone)
      rw [hw]
      simp only
      have hsh02 := sameShape_trans m0 m1 m2 hsh01 hsh2
      -- the state after this iteration
      have hcur : ∀ j, j < (rgn.dimDef st.resize.dimension).zones →
          m2.dul r ((i : Int) + ((j <<< bitposOf rgn st.resize.dimension : Nat) : Int))
            st.resize.dimension =
          some (expectedLimit st.resize.zone upperLimit
            (rgn.dimDef st.resize.dimension).zones j) := by
        intro j hj
        unfold expectedLimit
        by_cases hjz : j = st.resize.zone
        · subst hjz
          simp only [if_true]
          exact hwval
        · simp only [hjz, if_false]
          rw [hwframe, hbval j hj]
          intro ⟨_, h2, _⟩
          have h3 : ((j <<< bitposOf rgn st.resize.dimension : Nat) : Int) =
              ((st.resize.zone <<< bitposOf rgn st.resize.dimension : Nat) : Int) := by omega
          exact hjz (shiftLeft_inj _ _ _ (by exact_mod_cast h3))
      have hother : ∀ k, rgn.BaseIndex st.resize.dimension k → k ≠ i →
          ∀ j, j < (rgn.dimDef st.resize.dimension).zones →
          m2.dul r ((k : Int) + ((j <<< bitposOf rgn st.resize.dimension : Nat) : Int))
            st.resize.dimension =
          m.dul r ((k : Int) + ((j <<< bitposOf rgn st.resize.dimension : Nat) : Int))
            st.resize.dimension := by
        intro k hk hki j hj
        rw [hwframe, hbframe]
        · intro ⟨_, _, j1, hj1, heq⟩
          have h3 : k + j <<< bitposOf rgn st.resize.dimension =
              i + j1 <<< bitposOf rgn st.resize.dimension := by exact_mod_cast heq
          exact hki (zoneSlot_inj rgn _ k i j j1 hd hk hi (by omega) (by omega) h3).1
        · intro ⟨_, heq, _⟩
          have h3 : k + j <<< bitposOf rgn st.resize.dimension =
              i + st.resize.zone <<< bitposOf rgn st.resize.dimension := by exact_mod_cast heq
          exact hki (zoneSlot_inj rgn _ k i j _ hd hk hi (by omega) (by omega) h3).1
      have hframe2 : ∀ r1 i1 e1, (r1 ≠ r ∨ e1 ≠ st.resize.dimension) →
          m2.dul r1 i1 e1 = m.dul r1 i1 e1 := by
        intro r1 i1 e1 hne
        rw [hwframe, hbframe]
        · intro ⟨h1, h2, _⟩
          rcases hne with h | h
          · exact h h1
          · exact h h2
        · intro ⟨h1, _, h2⟩
          rcases hne with h | h
          · exact h h1
          · exact h h2
      have hvul2 : ∀ r1 i1, m2.vul r1 i1 = m.vul r1 i1 := by
        intro r1 i1
        rw [hwvul, hbvul]
      cases hscan : scanNextDim st.resize.dimension i rgn.pDimensionDefinitions 0 0 with
      | none =>
        simp only
        refine ⟨m2, rfl, hsh02, ?_, hframe2, hvul2⟩
        intro k hk j hj
        by_cases hki : k = i
        · subst hki; exact hcur j hj
        · rw [hother k hk hki j hj]
          have hle := baseIndex_le_of_scan_none rgn _ i k hscan hk
          exact hdone k hk (by omega) j hj
      | some bp =>
        simp only
        obtain ⟨jd, hjd, _, hbp, _, _⟩ := scanNextDim_region_some rgn _ i bp hscan
        have hbp8 : bp ≤ 8 := by
          have := bitposOf_add_bits_le rgn jd hjd
          omega
        have hi31 : i < 2147483648 := by
          have h1 := hi.1
          have h2 : (2 : Nat) ^ rgn.totalBits ≤ 2 ^ 8 := Nat.pow_le_pow_right (by norm_num) hT8
          norm_num at h2
          omega
        rw [nextIndex_eq i bp hi31 (by omega)]
        obtain ⟨hnext, hlt2, hmin⟩ := baseIndex_next rgn _ i bp hwf.zones_pos hwf.zones_le hscan hi
        obtain ⟨m3, hloop, hsh3, hval3, hframe3, hvul3⟩ :=
          ih ((i / 2 ^ bp + 1) * 2 ^ bp) m2 hnext (by omega) hsh02
            (by
              intro k hk hklt j hj
              by_cases hki : k = i
              · subst hki; exact hcur j hj
              · rw [hother k hk hki j hj]
                have : k < i := by
                  by_contra hcon
                  have := hmin k hk (by omega)
                  omega
                exact hdone k hk this j hj)
            (by
              intro k hk hkge j hj
              rw [hother k hk (by omega) j hj]
              exact htodo k hk (by omega) j hj)
        refine ⟨m3, hloop, hsh3, hval3, ?_, ?_⟩
        · intro r1 i1 e1 hne
          rw [hframe3 r1 i1 e1 hne, hframe2 r1 i1 e1 hne]
        · intro r1 i1
          rw [hvul3, hvul2]

/-! ## The broadcast loops -/

theorem limitsChangedOnly_refl (m : Instrument) (v : Nat) (P : Nat → Int → Nat → Prop)
    (Q : Nat → Int → Prop) : LimitsChangedOnly m m v P Q :=
  ⟨sameShape_refl m, fun _ _ _ => Or.inl rfl, fun _ _ => Or.inl rfl⟩

theorem limitsChangedOnly_trans (m m1 m2 : Instrument) (v : Nat) (P : Nat → Int → Nat → Prop)
    (Q : Nat → Int → Prop) (h1 : LimitsChangedOnly m m1 v P Q)
    (h2 : LimitsChangedOnly m1 m2 v P Q) : LimitsChangedOnly m m2 v P Q := by
  refine ⟨sameShape_trans m m1 m2 h1.1 h2.1, ?_, ?_⟩
  · intro r i e
    rcases h2.2.1 r i e with h | h
    · rcases h1.2.1 r i e with h0 | h0
      · exact Or.inl (h.trans h0)
      · exact Or.inr ⟨h0.1, h.trans h0.2⟩
    · exact Or.inr h
  · intro r i
    rcases h2.2.2 r i with h | h
    · rcases h1.2.2 r i with h0 | h0
      · exact Or.inl (h.trans h0)
      · exact Or.inr ⟨h0.1, h.trans h0.2⟩
    · exact Or.inr h

theorem limitsChangedOnly_writeUpperLimit (m : Instrument) (r : Nat) (i : Int) (e v : Nat)
    (P : Nat → Int → Nat → Prop) (Q : Nat → Int → Prop) (he : e < 8)
    (hs : (m.slot r i).isSome = true) (hP : P r i e) :
    ∃ m1, m.writeUpperLimit r i e v = some m1 ∧ LimitsChangedOnly m m1 v P Q ∧
      m1.dul r i e = some v := by
  obtain ⟨m1, hw, hsh, hval, hframe, hvul⟩ := writeUpperLimit_spec m r i e v he hs
  refine ⟨m1, hw, ⟨hsh, ?_, fun r1 i1 => Or.inl (hvul r1 i1)⟩, hval⟩
  intro r1 i1 e1
  by_cases h : r1 = r ∧ i1 = i ∧ e1 = e
  · obtain ⟨h1, h2, h3⟩ := h
    subst h1; subst h2; subst h3
    exact Or.inr ⟨hP, hval⟩
  · exact Or.inl (hframe r1 i1 e1 h)

theorem limitsChangedOnly_writeVelocityUpperLimit (m : Instrument) (r : Nat) (i : Int) (v : Nat)
    (P : Nat → Int → Nat → Prop) (Q : Nat → Int → Prop)
    (hs : (m.slot r i).isSome = true) (hQ : Q r i) :
    ∃ m1, m.writeVelocityUpperLimit r i v = some m1 ∧ LimitsChangedOnly m m1 v P Q ∧
      m1.vul r i = some v := by
  obtain ⟨m1, hw, hsh, hval, hframe, hdul⟩ := writeVelocityUpperLimit_spec m r i v hs
  refine ⟨m1, hw, ⟨hsh, fun r1 i1 e1 => Or.inl (hdul r1 i1 e1), ?_⟩, hval⟩
  intro r1 i1
  by_cases h : r1 = r ∧ i1 = i
  · obtain ⟨h1, h2⟩ := h
    subst h1; subst h2
    exact Or.inr ⟨hQ, hval⟩
  · exact Or.inl (hframe r1 i1 h)

/-- The lookup of a dimension by kind: the definition found, its index and its
bit offset belong to the same dimension. -/
theorem find_dimension (l : List dimension_def_t) (n : Nat)
    (regs : List (Option DimensionRegion)) (kind : dimension_t) (dd : dimension_def_t)
    (h : l.find? (fun df => df.dimension = kind) = some dd) :
    ∃ k, k < l.length ∧ l.findIdx (fun df => df.dimension = kind) = k ∧
      l.getD k dimension_def_t.zero = dd ∧
      baseBitsIn l kind = bitposOf { pDimensionDefinitions := l, DimensionRegions := n,
                                     pDimensionRegions := regs } k := by
  induction l with
  | nil => simp at h
  | cons df rest ih =>
    by_cases hk : df.dimension = kind
    · simp only [List.find?_cons, hk, decide_True, Option.some.injEq] at h
      refine ⟨0, by simp, ?_, ?_, ?_⟩
      · simp [List.findIdx_cons, hk]
      · simpa using h
      · simp [baseBitsIn, hk, bitposOf_zero]
    · simp only [List.find?_cons, hk, decide_False] at h
      obtain ⟨k, hk1, hk2, hk3, hk4⟩ := ih h
      refine ⟨k + 1, by simpa using hk1, ?_, ?_, ?_⟩
      · simp [List.findIdx_cons, hk, hk2]
      · simpa using hk3
      · rw [bitposOf_cons]
        simp [baseBitsIn, hk, hk4]

theorem getDimensionDefinition_spec (g : Region) (kind : dimension_t) (dd : dimension_def_t)
    (h : g.GetDimensionDefinition kind = some dd) :
    ∃ k, k < g.Dimensions ∧ getDimensionIndex kind g = some k ∧ g.dimDef k = dd ∧
      baseBits kind g = bitposOf g k := by
  obtain ⟨k, hk1, hk2, hk3, hk4⟩ := find_dimension g.pDimensionDefinitions g.DimensionRegions
    g.pDimensionRegions kind dd h
  refine ⟨k, hk1, ?_, hk3, hk4⟩
  unfold getDimensionIndex
  simp only [hk2]
  simp [Region.Dimensions, hk1]

theorem replaceField_self (s off b : Nat) (hs : s < 4294967296) :
    (s &&& ((((1 <<< b) - 1) <<< off) ^^^ 4294967295)) ||| (zoneBits s off b <<< off) = s := by
  apply Nat.eq_of_testBit_eq
  intro k
  rw [testBit_replaceField s _ off b k hs (zoneBits_lt s off b)]
  by_cases h : off ≤ k ∧ k < off + b
  · have h1 : k - off < b := by omega
    have h2 : off + (k - off) = k := by omega
    simp [h, testBit_zoneBits, h1, h2]
  · simp [h]

theorem limitsChangedOnly_dul_some (m m1 : Instrument) (v : Nat) (P : Nat → Int → Nat → Prop)
    (Q : Nat → Int → Prop) (h : LimitsChangedOnly m m1 v P Q) (r : Nat) (i : Int) (e : Nat)
    (hv : m.dul r i e = some v) : m1.dul r i e = some v := by
  rcases h.2.1 r i e with h1 | h1
  · rw [h1, hv]
  · exact h1.2

/-- The loop over idr of a broadcast block: it succeeds, writes the limit only
into entry iDim of slots (idr & stencil) | selection of region rgnIdx (and into
the legacy field of the slot named by legacy), and every dimension region of
the region whose field for the dimension is the zone holds the limit
afterwards. -/
theorem broadcastSlots_spec (m : Instrument) (rgnIdx iDim bits bitpos zone v : Nat)
    (legacy : Option (Nat × Int)) (P : Nat → Int → Nat → Prop) (Q : Nat → Int → Prop)
    (hiDim : iDim < 8) (hfit : bitpos + bits ≤ 8) (hz : zone < 2 ^ bits)
    (hleg : ∀ r0 i0, legacy = some (r0, i0) → (m.slot r0 i0).isSome = true ∧ Q r0 i0)
    (hP : ∀ s : Nat, s < 256 → zoneBits s bitpos bits = zone → P rgnIdx (s : Int) iDim) :
    ∃ m1, broadcastSlots rgnIdx iDim v (dimMask bits bitpos) ((zone <<< bitpos : Nat) : Int)
        legacy m = some m1 ∧ LimitsChangedOnly m m1 v P Q ∧
      ∀ s : Nat, s < 256 → zoneBits s bitpos bits = zone → (m.slot rgnIdx (s : Int)).isSome = true →
        m1.dul rgnIdx (s : Int) iDim = some v := by
  unfold broadcastSlots
  have hmain := forRange_inv 256 (broadcastSlot rgnIdx iDim v (dimMask bits bitpos)
      ((zone <<< bitpos : Nat) : Int) legacy) m
    (fun t s => LimitsChangedOnly m s v P Q ∧
      ∀ idr : Nat, idr < t → zoneBits idr bitpos bits = zone →
        (m.slot rgnIdx (idr : Int)).isSome = true → s.dul rgnIdx (idr : Int) iDim = some v)
    ⟨limitsChangedOnly_refl m v P Q, fun idr h => by omega⟩
    (by
      intro t s ht ⟨hch, hdone⟩
      have hidx := maskedIndex_eq t zone bits bitpos ht hz hfit
      have hlt := replaceField_lt t zone bitpos bits 8 (by norm_num; omega) (by norm_num) hz hfit
      have hzb := zoneBits_replaceField_same t zone bitpos bits (by omega) hz
      norm_num at hlt
      unfold broadcastSlot
      simp only [hidx]
      have hrange : (0 : Int) ≤ (((t &&& ((((1 <<< bits) - 1) <<< bitpos) ^^^ 4294967295)) |||
          (zone <<< bitpos) : Nat) : Int) ∧
          ((((t &&& ((((1 <<< bits) - 1) <<< bitpos) ^^^ 4294967295)) |||
          (zone <<< bitpos) : Nat) : Int)) < 256 := ⟨by omega, by omega⟩
      simp only [hrange, and_self, if_true]
      -- the step leaves the invariant intact whatever it writes
      have hkeep : ∀ s1, LimitsChangedOnly s s1 v P Q →
          (zoneBits t bitpos bits = zone → (m.slot rgnIdx (t : Int)).isSome = true →
            s1.dul rgnIdx (t : Int) iDim = some v) →
          LimitsChangedOnly m s1 v P Q ∧
          ∀ idr : Nat, idr < t + 1 → zoneBits idr bitpos bits = zone →
            (m.slot rgnIdx (idr : Int)).isSome = true → s1.dul rgnIdx (idr : Int) iDim = some v := by
        intro s1 hs1 hnew
        refine ⟨limitsChangedOnly_trans m s s1 v P Q hch hs1, ?_⟩
        intro idr hidr hzone hsome
        by_cases hit : idr = t
        · subst hit; exact hnew hzone hsome
        · exact limitsChangedOnly_dul_some s s1 v P Q hs1 _ _ _
            (hdone idr (by omega) hzone hsome)
      have hself : zoneBits t bitpos bits = zone →
          ((t &&& ((((1 <<< bits) - 1) <<< bitpos) ^^^ 4294967295)) ||| (zone <<< bitpos)) = t := by
        intro h
        rw [← h]
        exact replaceField_self t bitpos bits (by omega)
      have hslot_eq : ∀ i : Int, (s.regionAt rgnIdx).bind (fun rgn => rgn.dimRgn i) =
          s.slot rgnIdx i := fun _ => rfl
      rw [hslot_eq]
      cases hsl : s.slot rgnIdx (((t &&& ((((1 <<< bits) - 1) <<< bitpos) ^^^ 4294967295)) |||
          (zone <<< bitpos) : Nat) : Int) with
      | none =>
        simp only
        refine ⟨s, rfl, hkeep s (limitsChangedOnly_refl s v P Q) ?_⟩
        intro hzone hsome
        rw [hself hzone] at hsl
        rw [← sameShape_slot_isSome m s hch.1, hsl] at hsome
        simp at hsome
      | some d0 =>
        simp only
        obtain ⟨s1, hw, hch1, hval1⟩ := limitsChangedOnly_writeUpperLimit s rgnIdx _ iDim v P Q
          hiDim (by rw [hsl]; rfl) (hP _ hlt hzb)
        rw [hw]
        simp only
        cases hl : legacy with
        | none =>
          simp only
          refine ⟨s1, rfl, hkeep s1 hch1 ?_⟩
          intro hzone _
          rw [hself hzone] at hval1
          exact hval1
        | some rd =>
          obtain ⟨r0, i0⟩ := rd
          simp only
          have hl2 := hleg r0 i0 hl
          obtain ⟨s2, hw2, hch2, _⟩ := limitsChangedOnly_writeVelocityUpperLimit s1 r0 i0 v P Q
            (by
              rw [sameShape_slot_isSome s s1 hch1.1, sameShape_slot_isSome m s hch.1]
              exact hl2.1) hl2.2
          refine ⟨s2, hw2, hkeep s2 (limitsChangedOnly_trans s s1 s2 v P Q hch1 hch2) ?_⟩
          intro hzone _
          rw [hself hzone] at hval1
          exact limitsChangedOnly_dul_some s1 s2 v P Q hch2 _ _ _ hval1)
  obtain ⟨m1, h1, h2, h3⟩ := hmain
  exact ⟨m1, h1, h2, fun s hs hzone hsome => h3 s hs hzone hsome⟩

theorem sameShape_symm (m m1 : Instrument) (h : SameShape m m1) : SameShape m1 m :=
  ⟨h.1.symm, fun r => ⟨((h.2 r).1).symm, fun i => ((h.2 r).2 i).symm⟩⟩

theorem dimDef_congr (g g0 : Region) (h : g.pDimensionDefinitions = g0.pDimensionDefinitions)
    (e : Nat) : g.dimDef e = g0.dimDef e := by
  unfold Region.dimDef
  rw [h]

theorem bitposOf_congr (g g0 : Region) (h : g.pDimensionDefinitions = g0.pDimensionDefinitions)
    (e : Nat) : bitposOf g e = bitposOf g0 e := by
  induction e with
  | zero => simp [bitposOf_zero]
  | succ e ih => rw [bitposOf_succ, bitposOf_succ, ih, dimDef_congr g g0 h]

theorem getDimensionIndex_congr (g g0 : Region)
    (h : g.pDimensionDefinitions = g0.pDimensionDefinitions) (kind : dimension_t) :
    getDimensionIndex kind g = getDimensionIndex kind g0 := by
  unfold getDimensionIndex Region.Dimensions
  rw [h]

/-- The body of the key loop of a broadcast block, for a region whose
dimensions fit into the 8 index bits: it succeeds and writes the limit only
into slots of the zone of the dimension of the kind of resize.dimensionDef. -/
theorem broadcastRegion_spec (m0 m : Instrument) (hsh : SameShape m0 m) (resize : resize_t)
    (v : Nat) (onlyRegion : Option Nat) (legacy : Option (Nat × Int)) (Q : Nat → Int → Prop)
    (rgnIdx : Nat) (g : Region) (hg : m.regionAt rgnIdx = some g)
    (hdims : g.Dimensions ≤ 8) (hbits : g.totalBits ≤ 8)
    (hzle : ∀ e, e < g.Dimensions → (g.dimDef e).zones ≤ 2 ^ (g.dimDef e).bits)
    (hzone : resize.zone < resize.dimensionDef.zones)
    (hleg : ∀ r0 i0, legacy = some (r0, i0) → (m.slot r0 i0).isSome = true ∧ Q r0 i0) :
    ∃ m1, broadcastRegion resize v onlyRegion legacy rgnIdx m = some m1 ∧
      LimitsChangedOnly m m1 v (IsZoneSlot m0 resize.dimensionDef.dimension resize.zone) Q := by
  unfold broadcastRegion
  split
  · exact ⟨m, rfl, limitsChangedOnly_refl m v _ Q⟩
  · simp only [hg]
    cases hdd : g.GetDimensionDefinition resize.dimensionDef.dimension with
    | none => exact ⟨m, rfl, limitsChangedOnly_refl m v _ Q⟩
    | some dimdef =>
      simp only
      split
      · exact ⟨m, rfl, limitsChangedOnly_refl m v _ Q⟩
      · rename_i hzeq
        simp only [ne_eq, not_not] at hzeq
        obtain ⟨k, hk, hidx, hdef, hbase⟩ := getDimensionDefinition_spec g _ dimdef hdd
        simp only [hidx, hbase]
        have hfit : bitposOf g k + dimdef.bits ≤ 8 := by
          have := bitposOf_add_bits_le g k hk
          rw [hdef] at this
          omega
        have hz : resize.zone < 2 ^ dimdef.bits := by
          have := hzle k hk
          rw [hdef] at this
          omega
        obtain ⟨g0, hg0, hdefs, _⟩ := sameShape_regionAt m m0 (sameShape_symm m0 m hsh) rgnIdx g hg
        obtain ⟨m1, h1, h2, _⟩ := broadcastSlots_spec m rgnIdx k dimdef.bits (bitposOf g k)
          resize.zone v legacy (IsZoneSlot m0 resize.dimensionDef.dimension resize.zone) Q
          (by omega) hfit hz hleg (by
            intro s hs hzs
            refine ⟨g0, s, hg0, ?_, rfl, hs, ?_⟩
            · rw [getDimensionIndex_congr g0 g hdefs]; exact hidx
            · rw [bitposOf_congr g0 g hdefs, dimDef_congr g0 g hdefs, hdef]; exact hzs)
        exact ⟨m1, h1, h2⟩

/-- A broadcast block over the regions of a well-formed instrument: it
succeeds and writes the limit only into slots of the zone of the dimension of
the kind of resize.dimensionDef (and into the legacy field of the slot named by
legacy). -/
theorem broadcastAll_spec (m : Instrument) (hwf : m.WellFormed) (resize : resize_t) (v : Nat)
    (onlyRegion : Option Nat) (legacy : Option (Nat × Int)) (Q : Nat → Int → Prop)
    (hzone : resize.zone < resize.dimensionDef.zones)
    (hleg : ∀ r0 i0, legacy = some (r0, i0) → (m.slot r0 i0).isSome = true ∧ Q r0 i0) :
    ∃ m1, forEachKeyRegion (broadcastRegion resize v onlyRegion legacy) m = some m1 ∧
      LimitsChangedOnly m m1 v (IsZoneSlot m resize.dimensionDef.dimension resize.zone) Q := by
  apply forEachKeyRegion_inv _ m
    (fun s => LimitsChangedOnly m s v (IsZoneSlot m resize.dimensionDef.dimension resize.zone) Q)
    (limitsChangedOnly_refl m v _ Q)
  intro key rr s _ hI hget
  rw [sameShape_getRegion m s hI.1] at hget
  obtain ⟨g0, hg0, hgwf⟩ := hwf key rr hget
  obtain ⟨g, hg, hdefs, _⟩ := sameShape_regionAt m s hI.1 rr g0 hg0
  obtain ⟨m1, h1, h2⟩ := broadcastRegion_spec m s hI.1 resize v onlyRegion legacy Q rr g hg
    (by unfold Region.Dimensions; rw [hdefs]; exact hgwf.dims_le)
    (by unfold Region.totalBits; rw [hdefs]; exact hgwf.bits_le)
    (by
      intro e he
      rw [dimDef_congr g g0 hdefs]
      apply hgwf.zones_le
      unfold Region.Dimensions at he ⊢
      rw [← hdefs]; exact he)
    hzone (by
      intro r0 i0 hl
      rw [sameShape_slot_isSome m s hI.1]
      exact hleg r0 i0 hl)
  exact ⟨m1, h1, limitsChangedOnly_trans m s m1 v _ Q hI h2⟩

/-! ## The non-velocity branch (C6) -/

theorem region_wellFormed_of_sameShape (m m1 : Instrument) (h : SameShape m m1) (r : Nat)
    (g g1 : Region) (hg : m.regionAt r = some g) (hg1 : m1.regionAt r = some g1)
    (hwf : g.WellFormed) : g1.WellFormed := by
  have hdefs : g1.pDimensionDefinitions = g.pDimensionDefinitions ∧
      g1.DimensionRegions = g.DimensionRegions := by
    have := (h.2 r).1
    rw [hg, hg1] at this
    simpa using this
  have hT : g1.totalBits = g.totalBits := by unfold Region.totalBits; rw [hdefs.1]
  have hD : g1.Dimensions = g.Dimensions := by unfold Region.Dimensions; rw [hdefs.1]
  refine ⟨by rw [hD]; exact hwf.dims_le, by rw [hT]; exact hwf.bits_le, ?_, ?_, ?_, ?_⟩
  · intro e he
    rw [dimDef_congr g1 g hdefs.1]
    exact hwf.zones_pos e (by omega)
  · intro e he
    rw [dimDef_congr g1 g hdefs.1]
    exact hwf.zones_le e (by omega)
  · rw [hT, hdefs.2]; exact hwf.count
  · intro i hi
    have h1 := sameShape_slot_isSome m m1 h r (i : Int)
    rw [slot_of_regionAt m r g _ hg, slot_of_regionAt m1 r g1 _ hg1] at h1
    rw [h1]
    exact hwf.slots i (by rw [← hT]; exact hi)

theorem instrument_wellFormed_of_sameShape (m m1 : Instrument) (h : SameShape m m1)
    (hwf : m.WellFormed) : m1.WellFormed := by
  intro key r hget
  rw [sameShape_getRegion m m1 h] at hget
  obtain ⟨g, hg, hgwf⟩ := hwf key r hget
  obtain ⟨g1, hg1, _, _⟩ := sameShape_regionAt m m1 h r g hg
  exact ⟨g1, hg1, region_wellFormed_of_sameShape m m1 h r g g1 hg hg1 hgwf⟩

/-- C6: when update_after_resize runs for a dimension other than velocity of a
well-formed region whose custom limits for that dimension are all unset (0),
the resize descriptor being the one of zone resize.zone of that dimension (and
the zone count at most 128, or the resized zone being zone 0), it returns, and
afterwards in every slot of a valid combination of zones the entry of the
dimension in DimensionUpperLimits is the new limit resize.pos - 1 (as stored in
the uint8_t upperLimit) when the slot belongs to the resized zone, and is
the uniform default floor(128*(j+1)/zones) - 1 when it belongs to another
zone j. -/
theorem update_after_resize_other_limits (st : DimRegionChooser) (r : Nat) (rgn : Region)
    (hregion : st.region = some r) (hrgn : st.instr.regionAt r = some rgn)
    (hwf : rgn.WellFormed)
    (hiwf : st.modifyallregions = true → st.instr.WellFormed)
    (hdim : st.resize.dimension < rgn.Dimensions)
    (hkind : (rgn.dimDef st.resize.dimension).dimension ≠ dimension_velocity)
    (hdef : st.resize.dimensionDef = rgn.dimDef st.resize.dimension)
    (hzone : st.resize.zone < (rgn.dimDef st.resize.dimension).zones)
    (hzones : (rgn.dimDef st.resize.dimension).zones ≤ 128 ∨ st.resize.zone = 0)
    (hunset : ∀ i d, rgn.dimRgn i = some d → d.upperLimit st.resize.dimension = 0) :
    ∃ st1, update_after_resize st = some st1 ∧
      ∀ s : Nat, s < 2 ^ rgn.totalBits →
        (∀ e, e < rgn.Dimensions →
          zoneBits s (bitposOf rgn e) (rgn.dimDef e).bits < (rgn.dimDef e).zones) →
        st1.instr.dul r (s : Int) st.resize.dimension =
          some (if zoneBits s (bitposOf rgn st.resize.dimension)
                    (rgn.dimDef st.resize.dimension).bits = st.resize.zone
                then toUInt8 (st.resize.pos - 1)
                else 128 * (zoneBits s (bitposOf rgn st.resize.dimension)
                    (rgn.dimDef st.resize.dimension).bits + 1) /
                  (rgn.dimDef st.resize.dimension).zones - 1) := by
  have hzle := hwf.zones_le _ hdim
  -- the loop
  obtain ⟨m1, hloop, hsh1, hval1, _, _⟩ := updateOtherLoop_spec st r rgn
    (toUInt8 (st.resize.pos - 1)) st.instr hrgn hwf hdim hzone
    (rgn.DimensionRegions + 1) 0 st.instr (baseIndex_zero rgn _ hwf.zones_pos)
    (by rw [hwf.count]) (sameShape_refl _)
    (by intro k _ hk; omega)
    (by
      intro k hk _ j hj
      have hlt := (zoneSlot_fields rgn _ k j hdim hk (by omega)).1
      have hcast : ((k : Int) + ((j <<< bitposOf rgn st.resize.dimension : Nat) : Int)) =
          ((k + j <<< bitposOf rgn st.resize.dimension : Nat) : Int) := by push_cast; rfl
      rw [hcast]
      unfold Instrument.dul
      rw [slot_of_regionAt _ r rgn _ hrgn]
      have hsome := hwf.slots _ hlt
      cases hd0 : rgn.dimRgn ((k + j <<< bitposOf rgn st.resize.dimension : Nat) : Int) with
      | none => rw [hd0] at hsome; simp at hsome
      | some d0 => simp [hunset _ d0 hd0])
  -- the value of a valid slot after the loop
  have hformula : ∀ j, j < (rgn.dimDef st.resize.dimension).zones →
      expectedLimit st.resize.zone (toUInt8 (st.resize.pos - 1))
        (rgn.dimDef st.resize.dimension).zones j =
      if j = st.resize.zone then toUInt8 (st.resize.pos - 1)
      else 128 * (j + 1) / (rgn.dimDef st.resize.dimension).zones - 1 := by
    intro j hj
    unfold expectedLimit
    by_cases hjz : j = st.resize.zone
    · simp [hjz]
    · simp only [hjz, if_false]
      apply toUInt8_defaultUpperLimit _ _ (by omega) _ hj
      rcases hzones with h | h
      · omega
      · have h8 : (rgn.dimDef st.resize.dimension).bits ≤ 8 := by
          have := bitposOf_add_bits_le rgn _ hdim
          have := hwf.bits_le
          omega
        have h256 : (2 : Nat) ^ (rgn.dimDef st.resize.dimension).bits ≤ 2 ^ 8 :=
          Nat.pow_le_pow_right (by norm_num) h8
        norm_num at h256
        omega
  have hslot1 : ∀ s : Nat, s < 2 ^ rgn.totalBits →
      (∀ e, e < rgn.Dimensions →
        zoneBits s (bitposOf rgn e) (rgn.dimDef e).bits < (rgn.dimDef e).zones) →
      m1.dul r (s : Int) st.resize.dimension =
        some (if zoneBits s (bitposOf rgn st.resize.dimension)
                  (rgn.dimDef st.resize.dimension).bits = st.resize.zone
              then toUInt8 (st.resize.pos - 1)
              else 128 * (zoneBits s (bitposOf rgn st.resize.dimension)
                  (rgn.dimDef st.resize.dimension).bits + 1) /
                (rgn.dimDef st.resize.dimension).zones - 1) := by
    intro s hs hvalid
    obtain ⟨k, hk, hsk⟩ := exists_baseIndex rgn st.resize.dimension s hs hvalid
    have hv := hval1 k hk _ (hvalid _ hdim)
    have hcast : ((k : Int) + ((zoneBits s (bitposOf rgn st.resize.dimension)
        (rgn.dimDef st.resize.dimension).bits <<< bitposOf rgn st.resize.dimension : Nat) : Int)) =
        (s : Int) := by
      rw [hsk]
      push_cast
      rw [← hsk]
    rw [hcast, hformula _ (hvalid _ hdim)] at hv
    exact hv
  have hrun : updateOther st r rgn (toUInt8 (st.resize.pos - 1))
      (bitposOf rgn st.resize.dimension) =
      if st.modifyallregions then
        forEachKeyRegion (broadcastRegion st.resize (toUInt8 (st.resize.pos - 1)) none none) m1
      else some m1 := by
    unfold updateOther
    rw [hloop]
  have hmain : update_after_resize st =
      (updateOther st r rgn (toUInt8 (st.resize.pos - 1))
        (bitposOf rgn st.resize.dimension)).map (fun m => { st with instr := m }) := by
    unfold update_after_resize
    simp only [hregion, hrgn, hkind, if_false]
  rw [hmain, hrun]
  by_cases hall : st.modifyallregions = true
  · simp only [hall, if_true]
    have hwf1 := instrument_wellFormed_of_sameShape _ _ hsh1 (hiwf hall)
    obtain ⟨m2, hb, hch⟩ := broadcastAll_spec m1 hwf1 st.resize (toUInt8 (st.resize.pos - 1))
      none none (fun _ _ => False) (by rw [hdef]; exact hzone) (by intro r0 i0 h; simp at h)
    rw [hb]
    refine ⟨_, rfl, ?_⟩
    intro s hs hvalid
    simp only
    rcases hch.2.1 r (s : Int) st.resize.dimension with h | ⟨hP, hv⟩
    · rw [h]; exact hslot1 s hs hvalid
    · obtain ⟨g, s1, hg, hidx, hs1, _, hz1⟩ := hP
      have hs_eq : s = s1 := by exact_mod_cast hs1
      subst hs_eq
      obtain ⟨g0, hg0, hdefs, _⟩ := sameShape_regionAt _ _ (sameShape_symm _ _ hsh1) r g hg
      rw [hrgn] at hg0
      simp only [Option.some.injEq] at hg0
      subst hg0
      rw [bitposOf_congr g rgn hdefs.symm, dimDef_congr g rgn hdefs.symm] at hz1
      rw [hv]
      simp [hz1]
  · simp only [hall, if_false]
    refine ⟨_, rfl, ?_⟩
    intro s hs hvalid
    exact hslot1 s hs hvalid

theorem mkInstrument_wellFormed (rgn : Region) (h : rgn.WellFormed) :
    (mkInstrument rgn).WellFormed := by
  intro key r hget
  unfold Instrument.GetRegion mkInstrument at hget
  simp only [List.getD_eq_getElem?_getD, List.getElem?_replicate] at hget
  split at hget
  · simp only [Option.getD_some, Option.some.injEq] at hget
    subst hget
    exact ⟨rgn, rfl, h⟩
  · simp at hget

theorem mkRegion_unset (defs : List dimension_def_t) (n : Nat) (i : Int) (d : DimensionRegion)
    (h : (mkRegion defs n).dimRgn i = some d) (e : Nat) :
    d.upperLimit e = 0 ∧ d.VelocityUpperLimit = 0 := by
  unfold Region.dimRgn mkRegion freshSlots at h
  split at h
  · simp only [List.getD_eq_getElem?_getD, List.getElem?_map] at h
    cases hx : (List.range n)[i.toNat]? with
    | none => simp [hx] at h
    | some k =>
      simp only [hx, Option.map_some', Option.getD_some, Option.some.injEq] at h
      subst h
      simp [DimensionRegion.upperLimit]
  · simp at h

theorem exampleRegion_wellFormed : exampleRegion.WellFormed :=
  ⟨by decide, by decide, by decide, by decide, by decide, by decide⟩

set_option maxRecDepth 1000000 in
/-- C6, witness: in the example region (A with 3 zones in bits 0..1, B with 2
zones in bit 2) the boundary above zone 0 of A is dragged to position 30; after
update_after_resize the slots of zone 0 of A hold 29, those of zone 1 hold 84
and those of zone 2 hold 127, for both zones of B. -/
theorem update_after_resize_other_limits_witness :
    (startDrag exampleChooser 42 0).isSome = true ∧
    (update_after_resize exampleResizing).map (fun st1 =>
      [0, 1, 2, 4, 5, 6].map (fun s => st1.instr.dul 0 s 0)) =
      some [some 29, some 84, some 127, some 29, some 84, some 127] ∧
    ∃ st1, update_after_resize exampleResizing = some st1 ∧
      ∀ s : Nat, s < 2 ^ exampleRegion.totalBits →
        (∀ e, e < exampleRegion.Dimensions →
          zoneBits s (bitposOf exampleRegion e) (exampleRegion.dimDef e).bits <
            (exampleRegion.dimDef e).zones) →
        st1.instr.dul 0 (s : Int) exampleResizing.resize.dimension =
          some (if zoneBits s (bitposOf exampleRegion exampleResizing.resize.dimension)
                    (exampleRegion.dimDef exampleResizing.resize.dimension).bits =
                    exampleResizing.resize.zone
                then toUInt8 (exampleResizing.resize.pos - 1)
                else 128 * (zoneBits s (bitposOf exampleRegion exampleResizing.resize.dimension)
                    (exampleRegion.dimDef exampleResizing.resize.dimension).bits + 1) /
                  (exampleRegion.dimDef exampleResizing.resize.dimension).zones - 1) :=
  ⟨by decide, by decide,
   update_after_resize_other_limits exampleResizing 0 exampleRegion (by decide) (by decide)
     exampleRegion_wellFormed (fun _ => mkInstrument_wellFormed _ exampleRegion_wellFormed)
     (by decide) (by decide) (by decide) (by decide) (by decide)
     (fun i d h => (mkRegion_unset _ _ i d h 0).1)⟩

/-! ## The velocity branch of update_after_resize (C7) -/

theorem limitsChangedOnly_mono (m m1 : Instrument) (v : Nat) (P P1 : Nat → Int → Nat → Prop)
    (Q Q1 : Nat → Int → Prop) (h : LimitsChangedOnly m m1 v P Q)
    (hP : ∀ r i e, P r i e → P1 r i e) (hQ : ∀ r i, Q r i → Q1 r i) :
    LimitsChangedOnly m m1 v P1 Q1 :=
  ⟨h.1, fun r i e => (h.2.1 r i e).imp id (fun x => ⟨hP _ _ _ x.1, x.2⟩),
   fun r i => (h.2.2 r i).imp id (fun x => ⟨hQ _ _ x.1, x.2⟩)⟩

theorem limitsChangedOnly_vul_some (m m1 : Instrument) (v : Nat) (P : Nat → Int → Nat → Prop)
    (Q : Nat → Int → Prop) (h : LimitsChangedOnly m m1 v P Q) (r : Nat) (i : Int)
    (hv : m.vul r i = some v) : m1.vul r i = some v := by
  rcases h.2.2 r i with h1 | h1
  · rw [h1]; exact hv
  · exact h1.2

theorem maskedBase (rgn : Region) (dim mr : Nat) (hd : dim < rgn.Dimensions)
    (hbits : rgn.totalBits ≤ 8) (hmr : mr < 2 ^ rgn.totalBits)
    (hvalid : ∀ e, e < rgn.Dimensions → e ≠ dim →
      zoneBits mr (bitposOf rgn e) (rgn.dimDef e).bits < (rgn.dimDef e).zones) :
    ∃ c0 : Nat,
      bitAnd (mr : Int) (dimMask (rgn.dimDef dim).bits (bitposOf rgn dim)) = (c0 : Int) ∧
      rgn.BaseIndex dim c0 ∧
      ∀ e, e ≠ dim → zoneBits c0 (bitposOf rgn e) (rgn.dimDef e).bits =
        zoneBits mr (bitposOf rgn e) (rgn.dimDef e).bits := by
  have hfit := bitposOf_add_bits_le rgn dim hd
  have hT : 2 ^ rgn.totalBits ≤ 2 ^ 8 := Nat.pow_le_pow_right (by norm_num) hbits
  have hmr256 : mr < 256 := by
    have : (2 : Nat) ^ 8 = 256 := by norm_num
    omega
  have hsame := zoneBits_replaceField_same mr 0 (bitposOf rgn dim) (rgn.dimDef dim).bits
    (by omega) (Nat.two_pow_pos _)
  have hother := fun off1 b1 h => zoneBits_replaceField_other mr 0 (bitposOf rgn dim)
    (rgn.dimDef dim).bits off1 b1 (by omega) (Nat.two_pow_pos _) h
  simp only [Nat.zero_shiftLeft, Nat.or_zero] at hsame hother
  refine ⟨mr &&& ((((1 <<< (rgn.dimDef dim).bits) - 1) <<< bitposOf rgn dim) ^^^ 4294967295),
    ?_, ⟨?_, hsame, ?_⟩, ?_⟩
  · unfold dimMask
    exact bitAnd_natCast_bitNot mr _ (by omega) (dimMask_shape _ _ (by omega))
  · exact Nat.lt_of_le_of_lt (and_clear_le mr _) hmr
  · intro e he hne
    rw [hother _ _ (bitposOf_disjoint rgn e dim hne)]
    exact hvalid e he hne
  · intro e hne
    exact hother _ _ (bitposOf_disjoint rgn e dim hne)

theorem eq_of_fields_eq (rgn : Region) (k i : Nat) (hk : k < 2 ^ rgn.totalBits)
    (hi : i < 2 ^ rgn.totalBits)
    (h : ∀ e, e < rgn.Dimensions →
      zoneBits k (bitposOf rgn e) (rgn.dimDef e).bits =
        zoneBits i (bitposOf rgn e) (rgn.dimDef e).bits) : k = i := by
  have h1 := low_le_of_fields_le rgn k i rgn.Dimensions (fun e he => le_of_eq (h e he))
  have h2 := low_le_of_fields_le rgn i k rgn.Dimensions (fun e he => le_of_eq (h e he).symm)
  rw [bitposOf_dimensions, Nat.mod_eq_of_lt hk, Nat.mod_eq_of_lt hi] at h1 h2
  omega

theorem bitXor_natCast (a b : Nat) (ha : a < 2147483648) (hb : b < 2147483648) :
    bitXor (a : Int) (b : Int) = ((a ^^^ b : Nat) : Int) := by
  unfold bitXor
  rw [toBits32_natCast a (by omega), toBits32_natCast b (by omega)]
  apply ofBits32_of_lt
  have h31 : (2147483648 : Nat) = 2 ^ 31 := by norm_num
  rw [h31] at ha hb ⊢
  exact Nat.xor_lt_two_pow ha hb

theorem zoneBits_xor_bit (x sb off b : Nat) (h : sb < off ∨ off + b ≤ sb) :
    zoneBits (x ^^^ (1 <<< sb)) off b = zoneBits x off b := by
  apply Nat.eq_of_testBit_eq
  intro i
  rw [testBit_zoneBits, testBit_zoneBits, Nat.testBit_xor, Nat.one_shiftLeft,
    Nat.testBit_two_pow]
  by_cases hi : i < b
  · have hne : ¬ (sb = off + i) := by omega
    simp [hi, hne]
  · simp [hi]

theorem xor_bit_lt (x sb T : Nat) (hx : x < 2 ^ T) (hsb : sb < T) :
    x ^^^ (1 <<< sb) < 2 ^ T := by
  apply Nat.xor_lt_two_pow hx
  rw [Nat.one_shiftLeft]
  exact Nat.pow_lt_pow_right (by norm_num) hsb

theorem dimension_index_of_nodup (rgn : Region) (e : Nat)
    (hnd : (rgn.pDimensionDefinitions.map (fun df => df.dimension)).Nodup)
    (he : e < rgn.Dimensions) :
    rgn.GetDimensionDefinition (rgn.dimDef e).dimension = some (rgn.dimDef e) ∧
    getDimensionIndex (rgn.dimDef e).dimension rgn = some e ∧
    baseBits (rgn.dimDef e).dimension rgn = bitposOf rgn e := by
  have hlen : e < rgn.pDimensionDefinitions.length := he
  have hde : rgn.dimDef e = rgn.pDimensionDefinitions[e] := by
    simp [Region.dimDef, List.getD_eq_getElem?_getD, List.getElem?_eq_getElem hlen]
  cases hf : rgn.GetDimensionDefinition (rgn.dimDef e).dimension with
  | none =>
    unfold Region.GetDimensionDefinition at hf
    rw [List.find?_eq_none] at hf
    have := hf (rgn.pDimensionDefinitions[e]) (List.getElem_mem _)
    simp [hde] at this
  | some dd =>
    obtain ⟨k, hk, hidx, hdk, hbase⟩ := getDimensionDefinition_spec rgn _ dd hf
    have hkind : dd.dimension = (rgn.dimDef e).dimension := by
      unfold Region.GetDimensionDefinition at hf
      have := List.find?_some hf
      simpa using this
    have hklen : k < rgn.pDimensionDefinitions.length := hk
    have hdk1 : rgn.dimDef k = rgn.pDimensionDefinitions[k] := by
      simp [Region.dimDef, List.getD_eq_getElem?_getD, List.getElem?_eq_getElem hklen]
    have hke : k = e := by
      have hk1 : k < (rgn.pDimensionDefinitions.map (fun df => df.dimension)).length := by
        simpa using hklen
      have he1 : e < (rgn.pDimensionDefinitions.map (fun df => df.dimension)).length := by
        simpa using hlen
      have h1 : (rgn.pDimensionDefinitions.map (fun df => df.dimension))[k] =
          (rgn.pDimensionDefinitions.map (fun df => df.dimension))[e] := by
        simp only [List.getElem_map]
        rw [← hdk1, ← hde, hdk]
        exact hkind
      exact (List.Nodup.getElem_inj_iff hnd).1 h1
    subst hke
    rw [hdk] at *
    exact ⟨rfl, hidx, hbase⟩

theorem mem_of_lookup (l : List (dimension_t × Int)) (k : dimension_t) (v : Int)
    (h : l.lookup k = some v) : (k, v) ∈ l := by
  induction l with
  | nil => simp at h
  | cons x rest ih =>
    obtain ⟨k0, v0⟩ := x
    rw [List.lookup_cons] at h
    by_cases hk : k = k0
    · subst hk
      simp at h
      subst h
      exact List.mem_cons_self _ _
    · have hb : (k == k0) = false := by simpa using hk
      rw [hb] at h
      exact List.mem_cons_of_mem _ (ih h)

theorem storedAt_of_distinct (rgn : Region)
    (haddr : ∀ (i j : Nat) (d d1 : DimensionRegion), rgn.dimRgn i = some d →
      rgn.dimRgn j = some d1 → d.addr = d1.addr → i = j)
    (s : Nat) (d : DimensionRegion) (hs : rgn.dimRgn s = some d) : rgn.StoredAt d.addr s := by
  refine ⟨?_, by simp [hs], ?_⟩
  · by_contra hge
    simp only [Region.dimRgn] at hs
    rw [if_neg (by omega)] at hs
    exact Option.noConfusion hs
  · intro i hi h
    cases hdi : rgn.dimRgn i with
    | none => simp [hdi] at h
    | some d1 =>
      simp only [hdi, Option.map_some', Option.some.injEq] at h
      have := haddr i s d1 d hdi hs h
      omega

theorem matching_zone (g : Region) (dim : Nat) (hd : dim < g.Dimensions)
    (hnd : (g.pDimensionDefinitions.map (fun df => df.dimension)).Nodup)
    (haddr : ∀ (i j : Nat) (d d1 : DimensionRegion), g.dimRgn i = some d →
      g.dimRgn j = some d1 → d.addr = d1.addr → i = j)
    (dimCase : DimensionCase) (z : Nat)
    (hlook : dimCase.lookup (g.dimDef dim).dimension = some (z : Int))
    (s : Nat) (hs : s ∈ dimensionRegionsMatching dimCase g) :
    s < 256 ∧ (g.dimRgn s).isSome = true ∧
      zoneBits s (bitposOf g dim) (g.dimDef dim).bits = z := by
  unfold dimensionRegionsMatching at hs
  rw [List.mem_filter, List.mem_range] at hs
  obtain ⟨hs256, hm⟩ := hs
  cases hslot : g.dimRgn (s : Int) with
  | none => simp [hslot] at hm
  | some d =>
    simp only [hslot, Bool.and_eq_true] at hm
    have hst := storedAt_of_distinct g haddr s d hslot
    rw [caseOfDimRegion_of_storedAt g d.addr s hst] at hm
    have hin := inRange_of_caseLoop_valid s g.pDimensionDefinitions 0 [] hm.1
    have hl := caseLoop_lookup_of_nodup s g.pDimensionDefinitions 0 [] hin hnd
      g.DimensionRegions g.pDimensionRegions dim hd
    have hmem := mem_of_lookup _ _ _ hl
    have hall := hm.2
    unfold caseMatches at hall
    rw [List.all_eq_true] at hall
    have h1 := hall _ hmem
    have hk : (g.pDimensionDefinitions.getD dim dimension_def_t.zero) = g.dimDef dim := rfl
    simp only [hk] at h1
    rw [hlook] at h1
    simp only [Nat.zero_add, beq_iff_eq, Nat.cast_inj] at h1
    refine ⟨hs256, by simp, ?_⟩
    exact h1.symm

theorem matchingWrites_spec (rgnIdx iDim v : Nat) (hiDim : iDim < 8)
    (P : Nat → Int → Nat → Prop) (Q : Nat → Int → Prop) :
    ∀ (l : List Nat) (m : Instrument),
      (∀ i, i ∈ l → (m.slot rgnIdx (i : Int)).isSome = true ∧ P rgnIdx (i : Int) iDim ∧
        Q rgnIdx (i : Int)) →
      ∃ m1, l.foldlM (matchingWrite rgnIdx iDim v) m = some m1 ∧
        LimitsChangedOnly m m1 v P Q := by
  intro l
  induction l with
  | nil =>
    intro m _
    exact ⟨m, rfl, limitsChangedOnly_refl m v P Q⟩
  | cons i rest ih =>
    intro m h
    obtain ⟨hs, hP, hQ⟩ := h i (List.mem_cons_self _ _)
    obtain ⟨m1, h1, hl1, _⟩ := limitsChangedOnly_writeUpperLimit m rgnIdx i iDim v P Q hiDim hs hP
    have hs1 : (m1.slot rgnIdx (i : Int)).isSome = true := by
      rw [sameShape_slot_isSome m m1 hl1.1]; exact hs
    obtain ⟨m2, h2, hl2, _⟩ := limitsChangedOnly_writeVelocityUpperLimit m1 rgnIdx i v P Q hs1 hQ
    have hl := limitsChangedOnly_trans m m1 m2 v P Q hl1 hl2
    obtain ⟨m3, h3, hl3⟩ := ih m2 (by
      intro j hj
      obtain ⟨hsj, hPj, hQj⟩ := h j (List.mem_cons_of_mem _ hj)
      refine ⟨?_, hPj, hQj⟩
      rw [sameShape_slot_isSome m m2 hl.1]; exact hsj)
    refine ⟨m3, ?_, limitsChangedOnly_trans m m2 m3 v P Q hl hl3⟩
    rw [List.foldlM_cons]
    have hstep : matchingWrite rgnIdx iDim v m i = some m2 := by
      unfold matchingWrite
      rw [h1]
      exact h2
    rw [hstep]
    exact h3

theorem mem_matching_isSome (dimCase : DimensionCase) (g : Region) (s : Nat)
    (hs : s ∈ dimensionRegionsMatching dimCase g) : (g.dimRgn (s : Int)).isSome = true := by
  unfold dimensionRegionsMatching at hs
  rw [List.mem_filter] at hs
  cases hslot : g.dimRgn (s : Int) with
  | none => simp [hslot] at hs
  | some d => rfl

theorem matchingRegion_spec (m : Instrument) (resize : resize_t) (v : Nat)
    (dimCase : DimensionCase) (P : Nat → Int → Nat → Prop) (Q : Nat → Int → Prop)
    (rgnIdx : Nat) (g : Region) (hg : m.regionAt rgnIdx = some g) (hdims : g.Dimensions ≤ 8)
    (hPQ : ∀ (s e : Nat), s ∈ dimensionRegionsMatching dimCase g →
      P rgnIdx (s : Int) e ∧ Q rgnIdx (s : Int)) :
    ∃ m1, matchingRegion resize v dimCase rgnIdx m = some m1 ∧
      LimitsChangedOnly m m1 v P Q := by
  simp only [matchingRegion, hg]
  cases hf : g.GetDimensionDefinition resize.dimensionDef.dimension with
  | none => exact ⟨m, rfl, limitsChangedOnly_refl m v P Q⟩
  | some dimdef =>
    by_cases hz : dimdef.zones ≠ resize.dimensionDef.zones
    · simp only [hz, ne_eq, not_false_eq_true, if_true]
      exact ⟨m, rfl, limitsChangedOnly_refl m v P Q⟩
    · obtain ⟨k, hk, hidx, _, _⟩ := getDimensionDefinition_spec g _ dimdef hf
      simp only [hz, if_false, hidx]
      apply matchingWrites_spec rgnIdx k v (by omega) P Q
      intro i hi
      refine ⟨?_, (hPQ i k hi).1, (hPQ i k hi).2⟩
      rw [slot_of_regionAt m rgnIdx g _ hg]
      exact mem_matching_isSome dimCase g i hi

theorem distinct_of_sameShape (m0 m : Instrument) (h : SameShape m0 m) (r : Nat)
    (rgn g : Region) (hrgn : m0.regionAt r = some rgn) (hg : m.regionAt r = some g)
    (haddr : ∀ (i j : Nat) (d d1 : DimensionRegion), rgn.dimRgn i = some d →
      rgn.dimRgn j = some d1 → d.addr = d1.addr → i = j) :
    ∀ (i j : Nat) (d d1 : DimensionRegion), g.dimRgn i = some d →
      g.dimRgn j = some d1 → d.addr = d1.addr → i = j := by
  have key : ∀ (i : Nat) (d : DimensionRegion), g.dimRgn i = some d →
      ∃ d0, rgn.dimRgn i = some d0 ∧ d0.addr = d.addr := by
    intro i d hd
    have h1 := (h.2 r).2 (i : Int)
    rw [slot_of_regionAt m r g _ hg, slot_of_regionAt m0 r rgn _ hrgn, hd] at h1
    cases h0 : rgn.dimRgn (i : Int) with
    | none => simp [h0] at h1
    | some d0 =>
      simp only [h0, Option.map_some', Option.some.injEq] at h1
      exact ⟨d0, rfl, h1.symm⟩
  intro i j d d1 hd hd1 heq
  obtain ⟨a, ha, ha1⟩ := key i d hd
  obtain ⟨b, hb, hb1⟩ := key j d1 hd1
  exact haddr i j a b ha hb (by rw [ha1, hb1, heq])

theorem matchingAll_spec (m5 : Instrument) (hwf : m5.WellFormed) (resize : resize_t) (v : Nat)
    (dimCase : DimensionCase) (r dim zone : Nat) (rgn5 : Region)
    (hr : m5.regionAt r = some rgn5) (hd : dim < rgn5.Dimensions)
    (hnd : (rgn5.pDimensionDefinitions.map (fun df => df.dimension)).Nodup)
    (haddr : ∀ (i j : Nat) (d d1 : DimensionRegion), rgn5.dimRgn i = some d →
      rgn5.dimRgn j = some d1 → d.addr = d1.addr → i = j)
    (hlook : dimCase.lookup (rgn5.dimDef dim).dimension = some (zone : Int)) :
    ∃ m1, forEachKeyRegion (matchingRegion resize v dimCase) m5 = some m1 ∧
      LimitsChangedOnly m5 m1 v
        (fun r1 i _ => InZoneOf r (bitposOf rgn5 dim) (rgn5.dimDef dim).bits zone r1 i)
        (InZoneOf r (bitposOf rgn5 dim) (rgn5.dimDef dim).bits zone) := by
  apply forEachKeyRegion_inv _ m5
    (fun s => LimitsChangedOnly m5 s v
      (fun r1 i _ => InZoneOf r (bitposOf rgn5 dim) (rgn5.dimDef dim).bits zone r1 i)
      (InZoneOf r (bitposOf rgn5 dim) (rgn5.dimDef dim).bits zone))
    (limitsChangedOnly_refl m5 v _ _)
  intro key rr s _ hI hget
  rw [sameShape_getRegion m5 s hI.1] at hget
  obtain ⟨g0, hg0, hgwf⟩ := hwf key rr hget
  obtain ⟨g, hg, hdefs, _⟩ := sameShape_regionAt m5 s hI.1 rr g0 hg0
  have hzone : ∀ (x e : Nat), x ∈ dimensionRegionsMatching dimCase g →
      (fun r1 i (_ : Nat) => InZoneOf r (bitposOf rgn5 dim) (rgn5.dimDef dim).bits zone r1 i)
        rr (x : Int) e ∧
      InZoneOf r (bitposOf rgn5 dim) (rgn5.dimDef dim).bits zone rr (x : Int) := by
    intro x e hx
    have hin : InZoneOf r (bitposOf rgn5 dim) (rgn5.dimDef dim).bits zone rr (x : Int) := by
      intro hrr
      subst hrr
      rw [hr] at hg0
      simp only [Option.some.injEq] at hg0
      subst hg0
      have hmz := matching_zone g dim (by unfold Region.Dimensions at hd ⊢; rw [hdefs]; exact hd)
        (by rw [hdefs]; exact hnd)
        (distinct_of_sameShape m5 s hI.1 rr rgn5 g hr hg haddr) dimCase zone
        (by rw [dimDef_congr g rgn5 hdefs]; exact hlook) x hx
      refine ⟨x, rfl, ?_⟩
      rw [← bitposOf_congr g rgn5 hdefs, ← dimDef_congr g rgn5 hdefs]
      exact hmz.2.2
    exact ⟨hin, hin⟩
  obtain ⟨m1, h1, h2⟩ := matchingRegion_spec s resize v dimCase
    (fun r1 i _ => InZoneOf r (bitposOf rgn5 dim) (rgn5.dimDef dim).bits zone r1 i)
    (InZoneOf r (bitposOf rgn5 dim) (rgn5.dimDef dim).bits zone) rr g hg
    (by unfold Region.Dimensions; rw [hdefs]; exact hgwf.dims_le) hzone
  exact ⟨m1, h1, limitsChangedOnly_trans m5 s m1 v _ _ hI h2⟩

theorem writeBothLimits_spec (m : Instrument) (r : Nat) (i : Int) (e v : Nat) (he : e < 8)
    (hs : (m.slot r i).isSome = true) :
    ∃ m1, writeBothLimits m r i e v = some m1 ∧ SameShape m m1 ∧
      m1.dul r i e = some v ∧ m1.vul r i = some v ∧
      ∀ r1 i1 e1, ¬ (r1 = r ∧ i1 = i) →
        m1.dul r1 i1 e1 = m.dul r1 i1 e1 ∧ m1.vul r1 i1 = m.vul r1 i1 := by
  obtain ⟨m1, h1, hsh1, hd1, hfd1, hfv1⟩ := writeUpperLimit_spec m r i e v he hs
  have hs1 : (m1.slot r i).isSome = true := by
    rw [sameShape_slot_isSome m m1 hsh1]; exact hs
  obtain ⟨m2, h2, hsh2, hv2, hfv2, hfd2⟩ := writeVelocityUpperLimit_spec m1 r i v hs1
  refine ⟨m2, ?_, sameShape_trans _ _ _ hsh1 hsh2, ?_, hv2, ?_⟩
  · unfold writeBothLimits
    rw [h1]
    exact h2
  · rw [hfd2]; exact hd1
  · intro r1 i1 e1 hne
    constructor
    · rw [hfd2, hfd1 r1 i1 e1 (fun h => hne ⟨h.1, h.2.1⟩)]
    · rw [hfv2 r1 i1 hne, hfv1]

theorem limitsChangedOnly_writeBothLimits (m : Instrument) (r : Nat) (i : Int) (e v : Nat)
    (P : Nat → Int → Nat → Prop) (Q : Nat → Int → Prop) (he : e < 8)
    (hs : (m.slot r i).isSome = true) (hP : P r i e) (hQ : Q r i) :
    ∃ m1, writeBothLimits m r i e v = some m1 ∧ LimitsChangedOnly m m1 v P Q := by
  obtain ⟨m1, h1, hl1, _⟩ := limitsChangedOnly_writeUpperLimit m r i e v P Q he hs hP
  have hs1 : (m1.slot r i).isSome = true := by
    rw [sameShape_slot_isSome m m1 hl1.1]; exact hs
  obtain ⟨m2, h2, hl2, _⟩ := limitsChangedOnly_writeVelocityUpperLimit m1 r i v P Q hs1 hQ
  refine ⟨m2, ?_, limitsChangedOnly_trans m m1 m2 v P Q hl1 hl2⟩
  unfold writeBothLimits
  rw [h1]
  exact h2

theorem stereoWrite_spec (m4 : Instrument) (r : Nat) (rgn : Region) (dim es idx zone v : Nat)
    (hslots : ∀ i : Nat, i < 2 ^ rgn.totalBits → (m4.slot r (i : Int)).isSome = true)
    (hdims : rgn.Dimensions ≤ 8) (hbits : rgn.totalBits ≤ 8) (hdim : dim < rgn.Dimensions)
    (hnd : (rgn.pDimensionDefinitions.map (fun df => df.dimension)).Nodup)
    (hes : es < rgn.Dimensions)
    (hkes : (rgn.dimDef es).dimension = dimension_samplechannel)
    (hbes : 1 ≤ (rgn.dimDef es).bits) (hne : es ≠ dim)
    (hidx : idx < 2 ^ rgn.totalBits)
    (hz : zoneBits idx (bitposOf rgn dim) (rgn.dimDef dim).bits = zone) :
    ∃ m5, writeBothLimits m4 r
        (bitXor (idx : Int) ((1 <<< baseBits dimension_samplechannel rgn : Nat) : Int)) dim v =
          some m5 ∧
      LimitsChangedOnly m4 m5 v
        (fun r1 i _ => InZoneOf r (bitposOf rgn dim) (rgn.dimDef dim).bits zone r1 i)
        (InZoneOf r (bitposOf rgn dim) (rgn.dimDef dim).bits zone) := by
  have hbase := (dimension_index_of_nodup rgn es hnd hes).2.2
  rw [hkes] at hbase
  rw [hbase]
  have hfit := bitposOf_add_bits_le rgn es hes
  have hsb : bitposOf rgn es < rgn.totalBits := by omega
  have hT : 2 ^ rgn.totalBits ≤ 2 ^ 8 := Nat.pow_le_pow_right (by norm_num) hbits
  have h256 : (2 : Nat) ^ 8 = 256 := by norm_num
  have hx := xor_bit_lt idx (bitposOf rgn es) rgn.totalBits hidx hsb
  have hone : 1 <<< bitposOf rgn es < 2 ^ rgn.totalBits := by
    rw [Nat.one_shiftLeft]
    exact Nat.pow_lt_pow_right (by norm_num) hsb
  rw [bitXor_natCast idx _ (by omega) (by omega)]
  have hzx : zoneBits (idx ^^^ (1 <<< bitposOf rgn es)) (bitposOf rgn dim)
      (rgn.dimDef dim).bits = zone := by
    rw [zoneBits_xor_bit _ _ _ _ (by
      rcases bitposOf_disjoint rgn es dim hne with h | h
      · left; omega
      · right; exact h)]
    exact hz
  have hin : InZoneOf r (bitposOf rgn dim) (rgn.dimDef dim).bits zone r
      ((idx ^^^ (1 <<< bitposOf rgn es) : Nat) : Int) := fun _ => ⟨_, rfl, hzx⟩
  have hd8 : dim < 8 := by omega
  exact limitsChangedOnly_writeBothLimits m4 r _ dim v _ _ hd8 (hslots _ hx) hin hin

theorem broadcastAll_inZone (m5 : Instrument) (hwf5 : m5.WellFormed) (resize : resize_t)
    (v : Nat) (onlyRegion : Option Nat) (r dim idx : Nat) (rgn5 : Region)
    (hr5 : m5.regionAt r = some rgn5) (hd : dim < rgn5.Dimensions)
    (hnd : (rgn5.pDimensionDefinitions.map (fun df => df.dimension)).Nodup)
    (hkind : resize.dimensionDef.dimension = (rgn5.dimDef dim).dimension)
    (hzone : resize.zone < resize.dimensionDef.zones)
    (hs : (m5.slot r (idx : Int)).isSome = true)
    (hz : zoneBits idx (bitposOf rgn5 dim) (rgn5.dimDef dim).bits = resize.zone) :
    ∃ m6, forEachKeyRegion (broadcastRegion resize v onlyRegion (some (r, (idx : Int)))) m5 =
        some m6 ∧
      LimitsChangedOnly m5 m6 v
        (fun r1 i _ => InZoneOf r (bitposOf rgn5 dim) (rgn5.dimDef dim).bits resize.zone r1 i)
        (InZoneOf r (bitposOf rgn5 dim) (rgn5.dimDef dim).bits resize.zone) := by
  obtain ⟨m6, h6, hl⟩ := broadcastAll_spec m5 hwf5 resize v onlyRegion (some (r, (idx : Int)))
    (InZoneOf r (bitposOf rgn5 dim) (rgn5.dimDef dim).bits resize.zone) hzone (by
      intro r0 i0 h
      simp only [Option.some.injEq, Prod.mk.injEq] at h
      obtain ⟨h1, h2⟩ := h
      subst h1 h2
      exact ⟨hs, fun _ => ⟨idx, rfl, hz⟩⟩)
  refine ⟨m6, h6, limitsChangedOnly_mono _ _ _ _ _ _ _ hl ?_ (fun _ _ h => h)⟩
  intro r1 i e hP hr1
  subst hr1
  obtain ⟨g, s, hg, hidx, hi, _, hzs⟩ := hP
  rw [hr5] at hg
  simp only [Option.some.injEq] at hg
  subst hg
  have hidx2 := (dimension_index_of_nodup rgn5 dim hnd hd).2.1
  rw [← hkind, hidx] at hidx2
  simp only [Option.some.injEq] at hidx2
  subst hidx2
  exact ⟨s, hi, hzs⟩

theorem matchingCase_lookup (rgn5 : Region) (dim idx : Nat) (d5 : DimensionRegion)
    (hslot : rgn5.dimRgn (idx : Int) = some d5)
    (haddr : ∀ (i j : Nat) (d d1 : DimensionRegion), rgn5.dimRgn i = some d →
      rgn5.dimRgn j = some d1 → d.addr = d1.addr → i = j)
    (hnd : (rgn5.pDimensionDefinitions.map (fun df => df.dimension)).Nodup)
    (hd : dim < rgn5.Dimensions)
    (hvalid : ∀ e, e < rgn5.Dimensions →
      zoneBits idx (bitposOf rgn5 e) (rgn5.dimDef e).bits < (rgn5.dimDef e).zones) :
    (dimensionCaseOf rgn5 (some d5.addr)).lookup (rgn5.dimDef dim).dimension =
      some ((zoneBits idx (bitposOf rgn5 dim) (rgn5.dimDef dim).bits : Nat) : Int) := by
  unfold dimensionCaseOf
  rw [caseOfDimRegion_of_storedAt rgn5 d5.addr idx (storedAt_of_distinct rgn5 haddr idx d5 hslot)]
  have hin := (zonesInRange_region_iff idx rgn5).2 hvalid
  have hl := caseLoop_lookup_of_nodup idx rgn5.pDimensionDefinitions 0 [] hin hnd
    rgn5.DimensionRegions rgn5.pDimensionRegions dim hd
  simp only [Nat.zero_add] at hl
  exact hl

theorem velocityBroadcast_spec (st : DimRegionChooser) (r idx v : Nat) (rgn : Region)
    (m5 : Instrument) (hrgn : st.instr.regionAt r = some rgn) (hsh : SameShape st.instr m5)
    (hwf : rgn.WellFormed)
    (hiwf : st.modifyalldimregs = true ∨ st.modifyallregions = true → st.instr.WellFormed)
    (hdim : st.resize.dimension < rgn.Dimensions)
    (hdef : st.resize.dimensionDef = rgn.dimDef st.resize.dimension)
    (hzone : st.resize.zone < (rgn.dimDef st.resize.dimension).zones)
    (hnd : (rgn.pDimensionDefinitions.map (fun df => df.dimension)).Nodup)
    (haddr : ∀ (i j : Nat) (d d1 : DimensionRegion), rgn.dimRgn i = some d →
      rgn.dimRgn j = some d1 → d.addr = d1.addr → i = j)
    (hidx : idx < 2 ^ rgn.totalBits)
    (hz : zoneBits idx (bitposOf rgn st.resize.dimension) (rgn.dimDef st.resize.dimension).bits =
      st.resize.zone)
    (hvalid : ∀ e, e < rgn.Dimensions →
      zoneBits idx (bitposOf rgn e) (rgn.dimDef e).bits < (rgn.dimDef e).zones) :
    ∃ m6, velocityBroadcast st r v (idx : Int) m5 = some m6 ∧
      LimitsChangedOnly m5 m6 v
        (fun r1 i _ => InZoneOf r (bitposOf rgn st.resize.dimension)
          (rgn.dimDef st.resize.dimension).bits st.resize.zone r1 i)
        (InZoneOf r (bitposOf rgn st.resize.dimension)
          (rgn.dimDef st.resize.dimension).bits st.resize.zone) := by
  obtain ⟨rgn5, hr5, hdefs5, _⟩ := sameShape_regionAt _ _ hsh r rgn hrgn
  have hbp := bitposOf_congr rgn5 rgn hdefs5
  have hdd := dimDef_congr rgn5 rgn hdefs5
  have hd5 : st.resize.dimension < rgn5.Dimensions := by
    unfold Region.Dimensions at hdim ⊢; rw [hdefs5]; exact hdim
  have hnd5 : (rgn5.pDimensionDefinitions.map (fun df => df.dimension)).Nodup := by
    rw [hdefs5]; exact hnd
  have hs5 : (m5.slot r (idx : Int)).isSome = true := by
    rw [sameShape_slot_isSome _ _ hsh, slot_of_regionAt _ r rgn _ hrgn]
    exact hwf.slots idx hidx
  unfold velocityBroadcast
  by_cases hall : st.modifyalldimregs = true
  · simp only [hall, if_true]
    have hwf5 := instrument_wellFormed_of_sameShape _ _ hsh (hiwf (Or.inl hall))
    have h := broadcastAll_inZone m5 hwf5 st.resize v
      (if st.modifyallregions = true then none else some r) r st.resize.dimension idx rgn5 hr5
      hd5 hnd5 (by rw [hdef, hdd]) (by rw [hdef]; exact hzone) hs5 (by rw [hbp, hdd]; exact hz)
    rw [hbp, hdd] at h
    exact h
  · by_cases hreg : st.modifyallregions = true
    · have hwf5 := instrument_wellFormed_of_sameShape _ _ hsh (hiwf (Or.inr hreg))
      rw [slot_of_regionAt _ r rgn5 _ hr5] at hs5
      obtain ⟨d5, hd5slot⟩ := Option.isSome_iff_exists.1 hs5
      have haddr5 := distinct_of_sameShape _ _ hsh r rgn rgn5 hrgn hr5 haddr
      have hlook := matchingCase_lookup rgn5 st.resize.dimension idx d5 hd5slot haddr5 hnd5 hd5
        (by
          intro e he
          rw [hbp, hdd]
          apply hvalid
          unfold Region.Dimensions at he ⊢; rw [← hdefs5]; exact he)
      rw [hbp, hdd, hz, ← hdd] at hlook
      have h := matchingAll_spec m5 hwf5 st.resize v (dimensionCaseOf rgn5 (some d5.addr)) r
        st.resize.dimension st.resize.zone rgn5 hr5 hd5 hnd5 haddr5 hlook
      rw [hbp, hdd] at h
      simp only [hall, hreg, if_true, hr5, Option.some_bind, hd5slot, Option.map_some']
      exact h
    · simp only [hall, hreg]
      exact ⟨m5, rfl, limitsChangedOnly_refl _ _ _ _⟩

theorem updateVelocity_spec (st : DimRegionChooser) (r mr : Nat) (rgn : Region) (v : Nat)
    (hrgn : st.instr.regionAt r = some rgn) (hwf : rgn.WellFormed)
    (hiwf : st.modifyalldimregs = true ∨ st.modifyallregions = true → st.instr.WellFormed)
    (hdim : st.resize.dimension < rgn.Dimensions)
    (hkind : (rgn.dimDef st.resize.dimension).dimension = dimension_velocity)
    (hdef : st.resize.dimensionDef = rgn.dimDef st.resize.dimension)
    (hzone : st.resize.zone < (rgn.dimDef st.resize.dimension).zones)
    (hmain : st.maindimregno = (mr : Int)) (hmr : mr < 2 ^ rgn.totalBits)
    (hvalid : ∀ e, e < rgn.Dimensions → e ≠ st.resize.dimension →
      zoneBits mr (bitposOf rgn e) (rgn.dimDef e).bits < (rgn.dimDef e).zones)
    (hnd : (rgn.pDimensionDefinitions.map (fun df => df.dimension)).Nodup)
    (haddr : ∀ (i j : Nat) (d d1 : DimensionRegion), rgn.dimRgn i = some d →
      rgn.dimRgn j = some d1 → d.addr = d1.addr → i = j)
    (hstereo : st.modifybothchannels = true →
      ∃ es, es < rgn.Dimensions ∧ (rgn.dimDef es).dimension = dimension_samplechannel ∧
        1 ≤ (rgn.dimDef es).bits)
    (hunset : ∀ i d, rgn.dimRgn i = some d →
      d.upperLimit st.resize.dimension = 0 ∧ d.VelocityUpperLimit = 0) :
    ∃ (c0 : Nat) (m2 m4 m6 : Instrument),
      rgn.BaseIndex st.resize.dimension c0 ∧
      (∀ e, e ≠ st.resize.dimension → zoneBits c0 (bitposOf rgn e) (rgn.dimDef e).bits =
        zoneBits mr (bitposOf rgn e) (rgn.dimDef e).bits) ∧
      updateVelocity st r rgn v (bitposOf rgn st.resize.dimension)
        (if st.modifybothchannels then ((baseBits dimension_samplechannel rgn : Nat) : Int)
         else -1) = some m6 ∧
      (∀ j, j < (rgn.dimDef st.resize.dimension).zones →
        m2.dul r ((c0 + j <<< bitposOf rgn st.resize.dimension : Nat) : Int)
            st.resize.dimension =
          some (toUInt8 (defaultUpperLimit j (rgn.dimDef st.resize.dimension).zones)) ∧
        m2.vul r ((c0 + j <<< bitposOf rgn st.resize.dimension : Nat) : Int) =
          some (toUInt8 (defaultUpperLimit j (rgn.dimDef st.resize.dimension).zones))) ∧
      (∀ s : Nat, (∀ j, j < (rgn.dimDef st.resize.dimension).zones →
          s ≠ c0 + j <<< bitposOf rgn st.resize.dimension) →
        m2.dul r (s : Int) st.resize.dimension = st.instr.dul r (s : Int) st.resize.dimension ∧
        m2.vul r (s : Int) = st.instr.vul r (s : Int)) ∧
      m4.dul r ((c0 + st.resize.zone <<< bitposOf rgn st.resize.dimension : Nat) : Int)
        st.resize.dimension = some v ∧
      m4.vul r ((c0 + st.resize.zone <<< bitposOf rgn st.resize.dimension : Nat) : Int) =
        some v ∧
      (∀ s : Nat, s ≠ c0 + st.resize.zone <<< bitposOf rgn st.resize.dimension →
        m4.dul r (s : Int) st.resize.dimension = m2.dul r (s : Int) st.resize.dimension ∧
        m4.vul r (s : Int) = m2.vul r (s : Int)) ∧
      LimitsChangedOnly m4 m6 v
        (fun r1 i _ => InZoneOf r (bitposOf rgn st.resize.dimension)
          (rgn.dimDef st.resize.dimension).bits st.resize.zone r1 i)
        (InZoneOf r (bitposOf rgn st.resize.dimension)
          (rgn.dimDef st.resize.dimension).bits st.resize.zone) := by
  obtain ⟨c0, hc, hbase, hfields⟩ := maskedBase rgn st.resize.dimension mr hdim hwf.bits_le hmr
    hvalid
  have hzle := hwf.zones_le _ hdim
  have hcast : ∀ j : Nat, ((c0 : Int) + ((j <<< bitposOf rgn st.resize.dimension : Nat) : Int)) =
      ((c0 + j <<< bitposOf rgn st.resize.dimension : Nat) : Int) := by
    intro j; push_cast; rfl
  have hslotlt : ∀ j, j < (rgn.dimDef st.resize.dimension).zones →
      c0 + j <<< bitposOf rgn st.resize.dimension < 2 ^ rgn.totalBits :=
    fun j hj => (zoneSlot_fields rgn _ c0 j hdim hbase (by omega)).1
  have hd8 : st.resize.dimension < 8 := by
    have := hwf.dims_le
    omega
  have hslots0 : ∀ i : Nat, i < 2 ^ rgn.totalBits → (st.instr.slot r (i : Int)).isSome = true := by
    intro i hi
    rw [slot_of_regionAt _ r rgn _ hrgn]
    exact hwf.slots i hi
  obtain ⟨dc, hdc⟩ : ∃ dc, rgn.dimRgn (c0 : Int) = some dc :=
    Option.isSome_iff_exists.1 (hwf.slots c0 hbase.1)
  have hu := hunset _ dc hdc
  -- the two back-fill loops
  obtain ⟨m1, hb1, hsh1, hval1, hfr1, hvul1⟩ := backfillUpperLimits_spec st.instr r (c0 : Int)
    (bitposOf rgn st.resize.dimension) st.resize.dimension (rgn.dimDef st.resize.dimension).zones
    hd8 (by
      intro j hj
      rw [hcast]
      exact hslots0 _ (hslotlt j hj))
  have hslots1 : ∀ i : Nat, i < 2 ^ rgn.totalBits → (m1.slot r (i : Int)).isSome = true := by
    intro i hi
    rw [sameShape_slot_isSome _ _ hsh1]
    exact hslots0 i hi
  obtain ⟨dc1, hdc1⟩ := Option.isSome_iff_exists.1 (hslots1 c0 hbase.1)
  have hv1 : dc1.VelocityUpperLimit = 0 := by
    have h := hvul1 r (c0 : Int)
    unfold Instrument.vul at h
    rw [hdc1, slot_of_regionAt _ r rgn _ hrgn, hdc] at h
    simp only [Option.map_some', Option.some.injEq] at h
    rw [h]
    exact hu.2
  obtain ⟨m2, hb2, hsh2, hval2, hfr2, hdul2⟩ := backfillVelocityLimits_spec m1 r (c0 : Int)
    (bitposOf rgn st.resize.dimension) (rgn.dimDef st.resize.dimension).zones (by
      intro j hj
      rw [hcast]
      exact hslots1 _ (hslotlt j hj))
  have hsh02 := sameShape_trans _ _ _ hsh1 hsh2
  have hslots2 : ∀ i : Nat, i < 2 ^ rgn.totalBits → (m2.slot r (i : Int)).isSome = true := by
    intro i hi
    rw [sameShape_slot_isSome _ _ hsh02]
    exact hslots0 i hi
  -- the write of the new limit
  obtain ⟨m4, hw4, hsh4, hd4, hv4, hfr4⟩ := writeBothLimits_spec m2 r
    ((c0 : Int) + ((st.resize.zone <<< bitposOf rgn st.resize.dimension : Nat) : Int))
    st.resize.dimension v hd8 (by
      rw [hcast]
      exact hslots2 _ (hslotlt _ hzone))
  have hsh04 := sameShape_trans _ _ _ hsh02 hsh4
  have hslots4 : ∀ i : Nat, i < 2 ^ rgn.totalBits → (m4.slot r (i : Int)).isSome = true := by
    intro i hi
    rw [sameShape_slot_isSome _ _ hsh04]
    exact hslots0 i hi
  have hzidx : zoneBits (c0 + st.resize.zone <<< bitposOf rgn st.resize.dimension)
      (bitposOf rgn st.resize.dimension) (rgn.dimDef st.resize.dimension).bits =
      st.resize.zone := (zoneSlot_fields rgn _ c0 _ hdim hbase (by omega)).2.1
  have htail : ∃ m6, updateVelocity st r rgn v (bitposOf rgn st.resize.dimension)
        (if st.modifybothchannels then ((baseBits dimension_samplechannel rgn : Nat) : Int)
         else -1) = some m6 ∧
      LimitsChangedOnly m4 m6 v
        (fun r1 i _ => InZoneOf r (bitposOf rgn st.resize.dimension)
          (rgn.dimDef st.resize.dimension).bits st.resize.zone r1 i)
        (InZoneOf r (bitposOf rgn st.resize.dimension)
          (rgn.dimDef st.resize.dimension).bits st.resize.zone) := by
    have hslot1 : (m1.regionAt r).bind (fun rgn1 => rgn1.dimRgn (c0 : Int)) = some dc1 := hdc1
    have hvalidAll : ∀ e, e < rgn.Dimensions →
        zoneBits (c0 + st.resize.zone <<< bitposOf rgn st.resize.dimension) (bitposOf rgn e)
          (rgn.dimDef e).bits < (rgn.dimDef e).zones := by
      intro e he
      by_cases hed : e = st.resize.dimension
      · subst hed
        rw [hzidx]
        exact hzone
      · rw [(zoneSlot_fields rgn _ c0 _ hdim hbase (by omega)).2.2 e hed]
        exact hbase.2.2 e he hed
    have hbc : ∀ m5, LimitsChangedOnly m4 m5 v
        (fun r1 i _ => InZoneOf r (bitposOf rgn st.resize.dimension)
          (rgn.dimDef st.resize.dimension).bits st.resize.zone r1 i)
        (InZoneOf r (bitposOf rgn st.resize.dimension)
          (rgn.dimDef st.resize.dimension).bits st.resize.zone) →
        ∃ m6, velocityBroadcast st r v
            ((c0 : Int) + ((st.resize.zone <<< bitposOf rgn st.resize.dimension : Nat) : Int))
            m5 = some m6 ∧
          LimitsChangedOnly m4 m6 v
            (fun r1 i _ => InZoneOf r (bitposOf rgn st.resize.dimension)
              (rgn.dimDef st.resize.dimension).bits st.resize.zone r1 i)
            (InZoneOf r (bitposOf rgn st.resize.dimension)
              (rgn.dimDef st.resize.dimension).bits st.resize.zone) := by
      intro m5 hl5
      rw [hcast]
      obtain ⟨m6, h6, hl6⟩ := velocityBroadcast_spec st r
        (c0 + st.resize.zone <<< bitposOf rgn st.resize.dimension) v rgn m5 hrgn
        (sameShape_trans _ _ _ hsh04 hl5.1) hwf hiwf hdim hdef hzone hnd haddr
        (hslotlt _ hzone) hzidx hvalidAll
      exact ⟨m6, h6, limitsChangedOnly_trans _ _ _ _ _ _ hl5 hl6⟩
    by_cases hmb : st.modifybothchannels = true
    · obtain ⟨es, hes, hkes, hbes⟩ := hstereo hmb
      have hne : es ≠ st.resize.dimension := by
        intro h
        rw [h, hkind] at hkes
        exact absurd hkes (by decide)
      obtain ⟨m5, h5, hl5⟩ := stereoWrite_spec m4 r rgn st.resize.dimension es
        (c0 + st.resize.zone <<< bitposOf rgn st.resize.dimension) st.resize.zone v hslots4
        hwf.dims_le hwf.bits_le hdim hnd hes hkes hbes hne (hslotlt _ hzone) hzidx
      rw [← hcast] at h5
      simp only [updateVelocity, velocityBackfill, velocityWrite, otherChannelWrite, hmain, hc, hdc, hu.1, if_true, hb1, hslot1, hv1, hb2, hw4, hmb,
        Int.toNat_ofNat, Int.ofNat_zero_le, and_self, h5]
      exact hbc m5 hl5
    · simp only [updateVelocity, velocityBackfill, velocityWrite, otherChannelWrite, hmain, hc, hdc, hu.1, if_true, hb1, hslot1, hv1, hb2, hw4, hmb,
        false_and, if_false]
      exact hbc m4 (limitsChangedOnly_refl _ _ _ _)
  obtain ⟨m6, h6, hl6⟩ := htail
  refine ⟨c0, m2, m4, m6, hbase, hfields, h6, ?_, ?_, ?_, ?_, ?_, hl6⟩
  · intro j hj
    constructor
    · rw [hdul2, ← hcast]
      exact hval1 j hj
    · rw [← hcast]
      exact hval2 j hj
  · intro s hs
    have hnot : ¬ ∃ j, j < (rgn.dimDef st.resize.dimension).zones ∧
        (s : Int) = (c0 : Int) + ((j <<< bitposOf rgn st.resize.dimension : Nat) : Int) := by
      rintro ⟨j, hj, hsj⟩
      rw [hcast] at hsj
      exact hs j hj (by exact_mod_cast hsj)
    constructor
    · rw [hdul2, hfr1 r (s : Int) _ (fun h => hnot h.2.2)]
    · rw [hfr2 r (s : Int) (fun h => hnot h.2), hvul1]
  · rw [← hcast]; exact hd4
  · rw [← hcast]; exact hv4
  · intro s hs
    apply hfr4
    rintro ⟨_, hsj⟩
    rw [hcast] at hsj
    exact hs (by exact_mod_cast hsj)

theorem limitsAt_eq (st : DimRegionChooser) (r : Nat) (i : Int) (dim a b : Nat)
    (hd : st.instr.dul r i dim = some a) (hv : st.instr.vul r i = some b) :
    limitsAt st r i dim = some (a, b) := by
  unfold limitsAt
  unfold Instrument.dul at hd
  unfold Instrument.vul at hv
  cases hs : st.instr.slot r i with
  | none => simp [hs] at hd
  | some d =>
    simp only [hs, Option.map_some', Option.some.injEq] at hd hv ⊢
    rw [hd, hv]

/-- C7, amended: when update_after_resize runs for the velocity dimension of a
well-formed region (dimension kinds pairwise distinct, dimension regions
pairwise distinct objects) in which no slot has a limit recorded for it
(DimensionUpperLimits[d] and VelocityUpperLimit are 0), maindimregno being a
slot of a valid combination of zones, it returns for every setting of the
check boxes (with both channels set the region must have a stereo dimension),
and afterwards: in the slots of the combination of zones of the other
dimensions that maindimregno selects, the resized zone holds the new limit
resize.pos - 1 (as stored in the uint8_t upperLimit) and every other zone j holds
the default floor(128*(j+1)/zones) - 1, in both limit fields; in the slots of
every other combination the zones other than the resized one still hold 0 in
both fields. -/
theorem update_after_resize_velocity_limits (st : DimRegionChooser) (r mr : Nat) (rgn : Region)
    (hregion : st.region = some r) (hrgn : st.instr.regionAt r = some rgn)
    (hwf : rgn.WellFormed)
    (hiwf : st.modifyalldimregs = true ∨ st.modifyallregions = true → st.instr.WellFormed)
    (hdim : st.resize.dimension < rgn.Dimensions)
    (hkind : (rgn.dimDef st.resize.dimension).dimension = dimension_velocity)
    (hdef : st.resize.dimensionDef = rgn.dimDef st.resize.dimension)
    (hzone : st.resize.zone < (rgn.dimDef st.resize.dimension).zones)
    (hzones : (rgn.dimDef st.resize.dimension).zones ≤ 128)
    (hmain : st.maindimregno = (mr : Int)) (hmr : mr < 2 ^ rgn.totalBits)
    (hvalid : ∀ e, e < rgn.Dimensions → e ≠ st.resize.dimension →
      zoneBits mr (bitposOf rgn e) (rgn.dimDef e).bits < (rgn.dimDef e).zones)
    (hnd : (rgn.pDimensionDefinitions.map (fun df => df.dimension)).Nodup)
    (haddr : ∀ (i j : Nat) (d d1 : DimensionRegion), rgn.dimRgn i = some d →
      rgn.dimRgn j = some d1 → d.addr = d1.addr → i = j)
    (hstereo : st.modifybothchannels = true →
      ∃ es, es < rgn.Dimensions ∧ (rgn.dimDef es).dimension = dimension_samplechannel ∧
        1 ≤ (rgn.dimDef es).bits)
    (hunset : ∀ i d, rgn.dimRgn i = some d →
      d.upperLimit st.resize.dimension = 0 ∧ d.VelocityUpperLimit = 0) :
    ∃ st1, update_after_resize st = some st1 ∧
      ∀ s : Nat, s < 2 ^ rgn.totalBits →
        zoneBits s (bitposOf rgn st.resize.dimension) (rgn.dimDef st.resize.dimension).bits <
          (rgn.dimDef st.resize.dimension).zones →
        ((∀ e, e < rgn.Dimensions → e ≠ st.resize.dimension →
            zoneBits s (bitposOf rgn e) (rgn.dimDef e).bits =
              zoneBits mr (bitposOf rgn e) (rgn.dimDef e).bits) →
          limitsAt st1 r (s : Int) st.resize.dimension =
            some (if zoneBits s (bitposOf rgn st.resize.dimension)
                      (rgn.dimDef st.resize.dimension).bits = st.resize.zone
                  then (toUInt8 (st.resize.pos - 1), toUInt8 (st.resize.pos - 1))
                  else (128 * (zoneBits s (bitposOf rgn st.resize.dimension)
                            (rgn.dimDef st.resize.dimension).bits + 1) /
                          (rgn.dimDef st.resize.dimension).zones - 1,
                        128 * (zoneBits s (bitposOf rgn st.resize.dimension)
                            (rgn.dimDef st.resize.dimension).bits + 1) /
                          (rgn.dimDef st.resize.dimension).zones - 1))) ∧
        ((¬ ∀ e, e < rgn.Dimensions → e ≠ st.resize.dimension →
            zoneBits s (bitposOf rgn e) (rgn.dimDef e).bits =
              zoneBits mr (bitposOf rgn e) (rgn.dimDef e).bits) →
          zoneBits s (bitposOf rgn st.resize.dimension)
              (rgn.dimDef st.resize.dimension).bits ≠ st.resize.zone →
          limitsAt st1 r (s : Int) st.resize.dimension = some (0, 0)) := by
  obtain ⟨c0, m2, m4, m6, hbase, hfields, hrun, hbf, hfr2, hd4, hv4, hfr4, hl6⟩ :=
    updateVelocity_spec st r mr rgn (toUInt8 (st.resize.pos - 1)) hrgn hwf hiwf hdim hkind hdef
      hzone hmain hmr hvalid hnd haddr hstereo hunset
  have hzle := hwf.zones_le _ hdim
  have hmainEq : update_after_resize st =
      (updateVelocity st r rgn (toUInt8 (st.resize.pos - 1)) (bitposOf rgn st.resize.dimension)
        (if st.modifybothchannels then ((baseBits dimension_samplechannel rgn : Nat) : Int)
         else -1)).map (fun m => { st with instr := m }) := by
    unfold update_after_resize
    simp only [hregion, hrgn, hkind, if_true]
  rw [hmainEq, hrun]
  refine ⟨_, rfl, ?_⟩
  intro s hs hj
  -- a slot of another zone is not written after the back-fill
  have hkeep : zoneBits s (bitposOf rgn st.resize.dimension)
        (rgn.dimDef st.resize.dimension).bits ≠ st.resize.zone →
      m6.dul r (s : Int) st.resize.dimension = m2.dul r (s : Int) st.resize.dimension ∧
      m6.vul r (s : Int) = m2.vul r (s : Int) := by
    intro hne
    have hsne : s ≠ c0 + st.resize.zone <<< bitposOf rgn st.resize.dimension := by
      intro h
      rw [h] at hne
      exact hne (zoneSlot_fields rgn _ c0 _ hdim hbase (by omega)).2.1
    have h4 := hfr4 s hsne
    constructor
    · rcases hl6.2.1 r (s : Int) st.resize.dimension with h | ⟨hP, _⟩
      · rw [h, h4.1]
      · obtain ⟨s1, hs1, hz1⟩ := hP rfl
        have : s = s1 := by exact_mod_cast hs1
        subst this
        exact absurd hz1 hne
    · rcases hl6.2.2 r (s : Int) with h | ⟨hQ, _⟩
      · rw [h, h4.2]
      · obtain ⟨s1, hs1, hz1⟩ := hQ rfl
        have : s = s1 := by exact_mod_cast hs1
        subst this
        exact absurd hz1 hne
  have hfamily : ∀ j, j < (rgn.dimDef st.resize.dimension).zones →
      s = c0 + j <<< bitposOf rgn st.resize.dimension →
      ∀ e, e < rgn.Dimensions → e ≠ st.resize.dimension →
        zoneBits s (bitposOf rgn e) (rgn.dimDef e).bits =
          zoneBits mr (bitposOf rgn e) (rgn.dimDef e).bits := by
    intro j hjn hsj e _ hed
    rw [hsj, (zoneSlot_fields rgn _ c0 j hdim hbase (by omega)).2.2 e hed]
    exact hfields e hed
  constructor
  · intro hsame
    have hsj : s = c0 + zoneBits s (bitposOf rgn st.resize.dimension)
        (rgn.dimDef st.resize.dimension).bits <<< bitposOf rgn st.resize.dimension := by
      have hf := zoneSlot_fields rgn _ c0 (zoneBits s (bitposOf rgn st.resize.dimension)
        (rgn.dimDef st.resize.dimension).bits) hdim hbase (by omega)
      apply eq_of_fields_eq rgn _ _ hs hf.1
      intro e he
      by_cases hed : e = st.resize.dimension
      · subst hed
        exact hf.2.1.symm
      · rw [hf.2.2 e hed, hfields e hed]
        exact hsame e he hed
    by_cases hjz : zoneBits s (bitposOf rgn st.resize.dimension)
        (rgn.dimDef st.resize.dimension).bits = st.resize.zone
    · simp only [hjz, if_true]
      rw [hjz] at hsj
      rw [hsj]
      exact limitsAt_eq _ r _ _ _ _
        (limitsChangedOnly_dul_some _ _ _ _ _ hl6 r _ _ hd4)
        (limitsChangedOnly_vul_some _ _ _ _ _ hl6 r _ hv4)
    · simp only [hjz, if_false]
      have hk := hkeep hjz
      have hb := hbf _ hj
      rw [← hsj] at hb
      have hform := toUInt8_defaultUpperLimit (rgn.dimDef st.resize.dimension).zones
        (zoneBits s (bitposOf rgn st.resize.dimension) (rgn.dimDef st.resize.dimension).bits)
        (by omega) (by omega) hj
      rw [hform] at hb
      exact limitsAt_eq _ r _ _ _ _ (by rw [hk.1]; exact hb.1) (by rw [hk.2]; exact hb.2)
  · intro hdiff hjz
    have hk := hkeep hjz
    have h2 := hfr2 s (by
      intro j hjn hsj
      exact hdiff (hfamily j hjn hsj))
    obtain ⟨d0, hd0⟩ := Option.isSome_iff_exists.1 (hwf.slots s hs)
    have hu := hunset _ d0 hd0
    apply limitsAt_eq
    · rw [hk.1, h2.1]
      unfold Instrument.dul
      rw [slot_of_regionAt _ r rgn _ hrgn, hd0]
      simp [hu.1]
    · rw [hk.2, h2.2]
      unfold Instrument.vul
      rw [slot_of_regionAt _ r rgn _ hrgn, hd0]
      simp [hu.2]

theorem mkRegion_addr (defs : List dimension_def_t) (n i : Nat) (d : DimensionRegion)
    (h : (mkRegion defs n).dimRgn (i : Int) = some d) : d.addr = 100 + i := by
  unfold Region.dimRgn mkRegion freshSlots at h
  split at h
  · simp only [List.getD_eq_getElem?_getD, List.getElem?_map, Int.toNat_ofNat] at h
    cases hx : (List.range n)[i]? with
    | none => simp [hx] at h
    | some k =>
      have hk : k = i := by
        rw [List.getElem?_range] at hx
        · simpa using hx.symm
        · by_contra hge
          rw [List.getElem?_eq_none (by simpa using hge)] at hx
          exact Option.noConfusion hx
      simp only [hx, Option.map_some', Option.getD_some, Option.some.injEq] at h
      subst h
      rw [hk]
  · simp at h

theorem mkRegion_distinct (defs : List dimension_def_t) (n : Nat) :
    ∀ (i j : Nat) (d d1 : DimensionRegion), (mkRegion defs n).dimRgn i = some d →
      (mkRegion defs n).dimRgn j = some d1 → d.addr = d1.addr → i = j := by
  intro i j d d1 hd hd1 h
  rw [mkRegion_addr defs n i d hd, mkRegion_addr defs n j d1 hd1] at h
  omega

theorem stereoRegion_wellFormed : stereoRegion.WellFormed :=
  ⟨by decide, by decide, by decide, by decide, by decide, by decide⟩

set_option maxRecDepth 1000000 in
/-- C7, witness: in the stereo region (channel in bit 0, velocity with 3 zones
in bits 1..2) with the main selection in slot 1 and the check boxes both
channels and all regions set, the boundary above velocity zone 0 is dragged to
position 30: the slots 1, 3, 5 of the selected channel then hold 29, 84, 127,
the slot 0 of the other channel holds 29, and the slots 2 and 4 of the other
channel still hold 0. -/
theorem update_after_resize_velocity_limits_witness :
    (startDrag stereoChooser 42 24).isSome = true ∧
    (update_after_resize stereoResizing).map (fun st1 =>
      [0, 1, 2, 3, 4, 5].map (fun s => limitsAt st1 0 s 1)) =
      some [some (29, 29), some (29, 29), some (0, 0), some (84, 84), some (0, 0),
        some (127, 127)] ∧
    ∃ st1, update_after_resize stereoResizing = some st1 ∧
      ∀ s : Nat, s < 2 ^ stereoRegion.totalBits →
        zoneBits s (bitposOf stereoRegion stereoResizing.resize.dimension)
            (stereoRegion.dimDef stereoResizing.resize.dimension).bits <
          (stereoRegion.dimDef stereoResizing.resize.dimension).zones →
        ((∀ e, e < stereoRegion.Dimensions → e ≠ stereoResizing.resize.dimension →
            zoneBits s (bitposOf stereoRegion e) (stereoRegion.dimDef e).bits =
              zoneBits 1 (bitposOf stereoRegion e) (stereoRegion.dimDef e).bits) →
          limitsAt st1 0 (s : Int) stereoResizing.resize.dimension =
            some (if zoneBits s (bitposOf stereoRegion stereoResizing.resize.dimension)
                      (stereoRegion.dimDef stereoResizing.resize.dimension).bits =
                      stereoResizing.resize.zone
                  then (toUInt8 (stereoResizing.resize.pos - 1),
                        toUInt8 (stereoResizing.resize.pos - 1))
                  else (128 * (zoneBits s (bitposOf stereoRegion stereoResizing.resize.dimension)
                            (stereoRegion.dimDef stereoResizing.resize.dimension).bits + 1) /
                          (stereoRegion.dimDef stereoResizing.resize.dimension).zones - 1,
                        128 * (zoneBits s (bitposOf stereoRegion stereoResizing.resize.dimension)
                            (stereoRegion.dimDef stereoResizing.resize.dimension).bits + 1) /
                          (stereoRegion.dimDef stereoResizing.resize.dimension).zones - 1))) ∧
        ((¬ ∀ e, e < stereoRegion.Dimensions → e ≠ stereoResizing.resize.dimension →
            zoneBits s (bitposOf stereoRegion e) (stereoRegion.dimDef e).bits =
              zoneBits 1 (bitposOf stereoRegion e) (stereoRegion.dimDef e).bits) →
          zoneBits s (bitposOf stereoRegion stereoResizing.resize.dimension)
              (stereoRegion.dimDef stereoResizing.resize.dimension).bits ≠
            stereoResizing.resize.zone →
          limitsAt st1 0 (s : Int) stereoResizing.resize.dimension = some (0, 0)) :=
  ⟨by decide, by decide,
   update_after_resize_velocity_limits stereoResizing 0 1 stereoRegion (by decide) (by decide)
     stereoRegion_wellFormed (fun _ => mkInstrument_wellFormed _ stereoRegion_wellFormed)
     (by decide) (by decide) (by decide) (by decide) (by decide) (by decide) (by decide)
     (by decide) (by decide) (mkRegion_distinct _ _)
     (fun _ => ⟨0, by decide, by decide, by decide⟩)
     (fun i d h => mkRegion_unset _ _ i d h 1)⟩

/-- C7, counterexample: a region with a velocity dimension (bit 0, 2 zones) and
a layer dimension (bit 1, 2 zones), no limits recorded, main selection in
slot 0, all check boxes off.  The boundary above velocity zone 0 is grabbed at
x = 64 and dragged to position 50.  update_after_resize back-fills only the
slots 0 and 1 of layer 0; the slots 2 and 3 of layer 1, a valid combination,
keep the limit 0 for both velocity zones, while the default of zone 1 is 127. -/
theorem update_after_resize_velocity_backfill_counterexample :
    startDrag plainChooser 64 0 = some plainDragging ∧
    (plainResizing.resize.dimension, plainResizing.resize.zone) = (0, 0) ∧
    (velocityLayerRegion.dimDef 0).dimension = dimension_velocity ∧
    [0, 1, 2, 3].map (fun s => limitsAt plainResizing 0 s 0) =
      [some (0, 0), some (0, 0), some (0, 0), some (0, 0)] ∧
    (update_after_resize plainResizing).map (fun st1 =>
      [0, 1, 2, 3].map (fun s => limitsAt st1 0 s 0)) =
      some [some (49, 49), some (127, 127), some (0, 0), some (0, 0)] ∧
    (on_motion_notify_event plainDragging 50 0).map (fun st1 =>
      (st1.resize.pos, [0, 1, 2, 3].map (fun s => limitsAt st1 0 s 0))) =
      some (50, [some (49, 49), some (127, 127), some (0, 0), some (0, 0)]) ∧
    toUInt8 (defaultUpperLimit 1 2) = 127 :=
  ⟨by decide, by decide, by decide, by decide, by decide, by decide, by decide⟩

/-! ## The accepted drag position is at least 2 (C11) -/

theorem clampDrag_ge_two (resize : resize_t) (k0 : Int) : 2 ≤ clampDrag resize k0 := by
  unfold clampDrag
  simp only
  split_ifs <;> omega

theorem clampDrag_le (resize : resize_t) (k0 : Int) (hmin : resize.min ≤ 256)
    (hmax : resize.max ≤ 256) : clampDrag resize k0 ≤ 256 := by
  unfold clampDrag
  simp only
  split_ifs <;> omega

/-- C11: during an active resize drag (whose recorded bounds resize.min and
resize.max are at most 256, as they are one more than an 8-bit limit), for
every pointer position the value k that on_motion_notify_event accepts is at
least 2, every state the handler returns has resize.pos = k, and the upper
limit k - 1 that update_after_resize stores in the uint8_t field is not 0. -/
theorem on_motion_pos_ge_two (st : DimRegionChooser) (x y : Int)
    (hactive : st.resize.active = true)
    (hwidth : st.width - st.label_width - 1 ≠ 0)
    (hmin : st.resize.min ≤ 256) (hmax : st.resize.max ≤ 256) :
    ∃ k, dragPosition st x = some k ∧ 2 ≤ k ∧ toUInt8 (k - 1) ≠ 0 ∧
      ∀ st1, on_motion_notify_event st x y = some st1 →
        st1.resize.pos = k ∧ 2 ≤ st1.resize.pos ∧ toUInt8 (st1.resize.pos - 1) ≠ 0 := by
  have h2 := clampDrag_ge_two st.resize
    (truncDiv (2 * ((x - st.label_width) * 128) + (st.width - st.label_width - 1))
      (2 * (st.width - st.label_width - 1)))
  have h256 := clampDrag_le st.resize
    (truncDiv (2 * ((x - st.label_width) * 128) + (st.width - st.label_width - 1))
      (2 * (st.width - st.label_width - 1))) hmin hmax
  have hu : toUInt8 (clampDrag st.resize
      (truncDiv (2 * ((x - st.label_width) * 128) + (st.width - st.label_width - 1))
        (2 * (st.width - st.label_width - 1))) - 1) ≠ 0 := by
    unfold toUInt8
    omega
  refine ⟨_, by simp only [dragPosition, hwidth, if_false], h2, hu, ?_⟩
  intro st1 h
  have hpos : st1.resize.pos = clampDrag st.resize
      (truncDiv (2 * ((x - st.label_width) * 128) + (st.width - st.label_width - 1))
        (2 * (st.width - st.label_width - 1))) := by
    simp only [on_motion_notify_event, hactive, if_true, dragPosition, hwidth, if_false] at h
    split at h
    · obtain ⟨m, hm⟩ := update_after_resize_frame _ _ h
      rw [hm]
    · rename_i hk
      simp only [ne_eq, not_not] at hk
      simp only [Option.some.injEq] at h
      rw [← h]
      exact hk.symm
  rw [hpos]
  exact ⟨rfl, h2, hu⟩

/-- C11, witness: on the region whose zone 0 has the custom limit 5 the drag
bounds are [0, 1]; while the boundary above zone 0 is dragged to x = 0 the
handler returns with resize.pos = 2 and the limit 1 is stored, not 0. -/
theorem on_motion_pos_ge_two_witness :
    (on_motion_notify_event gapDragging 0 0).map
      (fun st1 => (st1.resize.pos, limitsAt st1 0 0 0)) = some (2, some (1, 0)) ∧
    ∃ k, dragPosition gapDragging 0 = some k ∧ 2 ≤ k ∧ toUInt8 (k - 1) ≠ 0 ∧
      ∀ st1, on_motion_notify_event gapDragging 0 0 = some st1 →
        st1.resize.pos = k ∧ 2 ≤ st1.resize.pos ∧ toUInt8 (st1.resize.pos - 1) ≠ 0 :=
  ⟨by decide, on_motion_pos_ge_two gapDragging 0 0 (by decide) (by decide) (by decide)
    (by decide)⟩

/-! ## The velocity branch without assumptions on the stored limits -/

theorem zoneSlot_lt (rgn : Region) (dim k j : Nat) (hd : dim < rgn.Dimensions)
    (hk1 : k < 2 ^ rgn.totalBits)
    (hk2 : zoneBits k (bitposOf rgn dim) (rgn.dimDef dim).bits = 0)
    (hj : j < 2 ^ (rgn.dimDef dim).bits) :
    k + j <<< bitposOf rgn dim < 2 ^ rgn.totalBits ∧
    zoneBits (k + j <<< bitposOf rgn dim) (bitposOf rgn dim) (rgn.dimDef dim).bits = j ∧
    ∀ e, e ≠ dim →
      zoneBits (k + j <<< bitposOf rgn dim) (bitposOf rgn e) (rgn.dimDef e).bits =
        zoneBits k (bitposOf rgn e) (rgn.dimDef e).bits := by
  refine ⟨?_, (zoneBits_add_shift k j _ _ 0 0 hk2 hj).1, ?_⟩
  · apply lt_two_pow_of_zoneBits_eq _ k _ hk1
    intro w
    exact (zoneBits_add_shift k j _ _ rgn.totalBits w hk2 hj).2.2
      (bitposOf_add_bits_le rgn dim hd)
  · intro e he
    rcases bitposOf_disjoint rgn e dim he with h | h
    · exact (zoneBits_add_shift k j _ _ _ _ hk2 hj).2.1 h
    · exact (zoneBits_add_shift k j _ _ _ _ hk2 hj).2.2 h

theorem maskedIndex_base (rgn : Region) (dim mr : Nat) (hd : dim < rgn.Dimensions)
    (hbits : rgn.totalBits ≤ 8)
    (hmr : mr < 2 ^ rgn.totalBits) :
    ∃ c0 : Nat,
      bitAnd (mr : Int) (dimMask (rgn.dimDef dim).bits (bitposOf rgn dim)) = (c0 : Int) ∧
      c0 < 2 ^ rgn.totalBits ∧
      zoneBits c0 (bitposOf rgn dim) (rgn.dimDef dim).bits = 0 ∧
      ∀ e, e ≠ dim → zoneBits c0 (bitposOf rgn e) (rgn.dimDef e).bits =
        zoneBits mr (bitposOf rgn e) (rgn.dimDef e).bits := by
  have hT : 2 ^ rgn.totalBits ≤ 2 ^ 8 := Nat.pow_le_pow_right (by norm_num) hbits
  have hmr256 : mr < 256 := by
    have : (2 : Nat) ^ 8 = 256 := by norm_num
    omega
  have hsame := zoneBits_replaceField_same mr 0 (bitposOf rgn dim) (rgn.dimDef dim).bits
    (by omega) (Nat.two_pow_pos _)
  have hother := fun off1 b1 h => zoneBits_replaceField_other mr 0 (bitposOf rgn dim)
    (rgn.dimDef dim).bits off1 b1 (by omega) (Nat.two_pow_pos _) h
  simp only [Nat.zero_shiftLeft, Nat.or_zero] at hsame hother
  have hfit := bitposOf_add_bits_le rgn dim hd
  refine ⟨mr &&& ((((1 <<< (rgn.dimDef dim).bits) - 1) <<< bitposOf rgn dim) ^^^ 4294967295),
    ?_, ?_, hsame, ?_⟩
  · unfold dimMask
    exact bitAnd_natCast_bitNot mr _ (by omega) (dimMask_shape _ _ (by omega))
  · exact Nat.lt_of_le_of_lt (and_clear_le mr _) hmr
  · intro e hne
    exact hother _ _ (bitposOf_disjoint rgn e dim hne)

/-- The back-fill blocks of the velocity branch return and change nothing
outside the selected region, whatever limits are stored. -/
theorem velocityBackfill_frame (m0 : Instrument) (r : Nat) (rgn : Region) (dim c0 : Nat)
    (hrgn : m0.regionAt r = some rgn) (hwf : rgn.WellFormed) (hdim : dim < rgn.Dimensions)
    (hc1 : c0 < 2 ^ rgn.totalBits)
    (hc2 : zoneBits c0 (bitposOf rgn dim) (rgn.dimDef dim).bits = 0) :
    ∃ m2, velocityBackfill r rgn (c0 : Int) (bitposOf rgn dim) dim m0 = some m2 ∧
      SameShape m0 m2 ∧
      (∀ r1 i e, r1 ≠ r → m2.dul r1 i e = m0.dul r1 i e) ∧
      (∀ r1 i, r1 ≠ r → m2.vul r1 i = m0.vul r1 i) := by
  have hzle := hwf.zones_le _ hdim
  have hd8 : dim < 8 := by
    have := hwf.dims_le
    omega
  have hcast : ∀ j : Nat, ((c0 : Int) + ((j <<< bitposOf rgn dim : Nat) : Int)) =
      ((c0 + j <<< bitposOf rgn dim : Nat) : Int) := by
    intro j; push_cast; rfl
  have hslots : ∀ m : Instrument, SameShape m0 m → ∀ j, j < (rgn.dimDef dim).zones →
      (m.slot r ((c0 : Int) + ((j <<< bitposOf rgn dim : Nat) : Int))).isSome = true := by
    intro m hsh j hj
    rw [hcast, sameShape_slot_isSome _ _ hsh, slot_of_regionAt _ r rgn _ hrgn]
    exact hwf.slots _ (zoneSlot_lt rgn dim c0 j hdim hc1 hc2 (by omega)).1
  obtain ⟨dc, hdc⟩ : ∃ dc, rgn.dimRgn (c0 : Int) = some dc :=
    Option.isSome_iff_exists.1 (hwf.slots c0 hc1)
  have h1 : ∃ m1, (if dc.upperLimit dim = 0 then
        backfillUpperLimits r (c0 : Int) (bitposOf rgn dim) dim (rgn.dimDef dim).zones m0
      else some m0) = some m1 ∧ SameShape m0 m1 ∧
      (∀ r1 i e, r1 ≠ r → m1.dul r1 i e = m0.dul r1 i e) ∧
      (∀ r1 i, m1.vul r1 i = m0.vul r1 i) := by
    by_cases h0 : dc.upperLimit dim = 0
    · obtain ⟨m1, hb1, hsh1, _, hfr1, hvul1⟩ := backfillUpperLimits_spec m0 r (c0 : Int)
        (bitposOf rgn dim) dim (rgn.dimDef dim).zones hd8 (hslots m0 (sameShape_refl _))
      exact ⟨m1, by simp only [h0, if_true]; exact hb1, hsh1,
        fun r1 i e hne => hfr1 r1 i e (fun h => hne h.1), hvul1⟩
    · exact ⟨m0, by simp only [h0, if_false], sameShape_refl _, fun _ _ _ _ => rfl,
        fun _ _ => rfl⟩
  obtain ⟨m1, hb1, hsh1, hfd1, hfv1⟩ := h1
  obtain ⟨dc1, hdc1⟩ : ∃ dc1, (m1.regionAt r).bind (fun rgn1 => rgn1.dimRgn (c0 : Int)) =
      some dc1 := by
    have h := hslots m1 hsh1 0 (hwf.zones_pos _ hdim)
    simp only [Nat.zero_shiftLeft, Nat.cast_zero, add_zero] at h
    exact Option.isSome_iff_exists.1 h
  have h2 : ∃ m2, (if dc1.VelocityUpperLimit = 0 then
        backfillVelocityLimits r (c0 : Int) (bitposOf rgn dim) (rgn.dimDef dim).zones m1
      else some m1) = some m2 ∧ SameShape m1 m2 ∧
      (∀ r1 i e, m2.dul r1 i e = m1.dul r1 i e) ∧
      (∀ r1 i, r1 ≠ r → m2.vul r1 i = m1.vul r1 i) := by
    by_cases h0 : dc1.VelocityUpperLimit = 0
    · obtain ⟨m2, hb2, hsh2, _, hfr2, hdul2⟩ := backfillVelocityLimits_spec m1 r (c0 : Int)
        (bitposOf rgn dim) (rgn.dimDef dim).zones (hslots m1 hsh1)
      exact ⟨m2, by simp only [h0, if_true]; exact hb2, hsh2, hdul2,
        fun r1 i hne => hfr2 r1 i (fun h => hne h.1)⟩
    · exact ⟨m1, by simp only [h0, if_false], sameShape_refl _, fun _ _ _ => rfl,
        fun _ _ _ => rfl⟩
  obtain ⟨m2, hb2, hsh2, hfd2, hfv2⟩ := h2
  refine ⟨m2, ?_, sameShape_trans _ _ _ hsh1 hsh2, ?_, ?_⟩
  · simp only [velocityBackfill, hdc, hb1, hdc1, hb2]
  · intro r1 i e hne
    rw [hfd2, hfd1 r1 i e hne]
  · intro r1 i hne
    rw [hfv2 r1 i hne, hfv1]

/-! ## The broadcast blocks: what they write and what they leave alone -/

/-- Rule for the loop over the regions of the instrument that also records
what has been done to every region mapped by a key. -/
theorem forEachKeyRegion_visit (body : Nat → Instrument → Option Instrument) (m0 : Instrument)
    (I : Instrument → Prop) (V : Nat → Instrument → Prop) (h0 : I m0)
    (hget : ∀ m, I m → ∀ key, m.GetRegion key = m0.GetRegion key)
    (hstep : ∀ key r m, key < 128 → I m → m0.GetRegion key = some r →
      ∃ m1, body r m = some m1 ∧ I m1 ∧ V r m1 ∧ ∀ r1, V r1 m → V r1 m1) :
    ∃ m1, forEachKeyRegion body m0 = some m1 ∧ I m1 ∧
      ∀ key r, key < 128 → m0.GetRegion key = some r → V r m1 := by
  have key : ∀ n, n ≤ 128 → ∃ s : Option Nat × Instrument,
      (List.range n).foldlM (forEachKeyStep body) (none, m0) = some s ∧ I s.2 ∧
      (∀ key r, key < n → m0.GetRegion key = some r → V r s.2) ∧
      (∀ r, s.1 = some r → V r s.2) := by
    intro n
    induction n with
    | zero =>
      intro _
      exact ⟨(none, m0), by simp, h0, fun _ _ h => by omega, fun _ h => by simp at h⟩
    | succ n ih =>
      intro hn
      obtain ⟨s, hs, hI, hV, hlast⟩ := ih (by omega)
      rw [List.range_succ, List.foldlM_append, hs]
      simp only [Option.bind_eq_bind, Option.some_bind, List.foldlM_cons, List.foldlM_nil]
      unfold forEachKeyStep
      have hg0 := hget s.2 hI n
      cases hg : s.2.GetRegion n with
      | none =>
        refine ⟨s, by simp, hI, ?_, hlast⟩
        intro key r hkey hr
        by_cases hk : key = n
        · subst hk
          rw [← hg0, hg] at hr
          exact Option.noConfusion hr
        · exact hV key r (by omega) hr
      | some r =>
        by_cases hsame : s.1 = some r
        · refine ⟨s, by simp [hsame], hI, ?_, hlast⟩
          intro key r1 hkey hr
          by_cases hk : key = n
          · subst hk
            rw [← hg0, hg] at hr
            simp only [Option.some.injEq] at hr
            subst hr
            exact hlast r hsame
          · exact hV key r1 (by omega) hr
        · obtain ⟨m1, hm1, hI1, hV1, hkeep⟩ := hstep n r s.2 (by omega) hI (by rw [← hg0, hg])
          refine ⟨(some r, m1), by simp [hsame, hm1], hI1, ?_, ?_⟩
          · intro key r1 hkey hr
            by_cases hk : key = n
            · subst hk
              rw [← hg0, hg] at hr
              simp only [Option.some.injEq] at hr
              subst hr
              exact hV1
            · exact hkeep r1 (hV key r1 (by omega) hr)
          · intro r1 h1
            simp only [Option.some.injEq] at h1
            subst h1
            exact hV1
  obtain ⟨s, hs, hI, hV, _⟩ := key 128 (Nat.le_refl _)
  exact ⟨s.2, by unfold forEachKeyRegion; rw [hs]; rfl, hI, hV⟩

/-- The body of a broadcast block for one region, for arbitrary descriptions P
and Q of the slots that may be written. -/
theorem broadcastRegion_gen (m : Instrument) (resize : resize_t)
    (v : Nat) (onlyRegion : Option Nat) (legacy : Option (Nat × Int))
    (P : Nat → Int → Nat → Prop) (Q : Nat → Int → Prop)
    (rgnIdx : Nat) (g : Region) (hg : m.regionAt rgnIdx = some g)
    (hdims : g.Dimensions ≤ 8) (hbits : g.totalBits ≤ 8)
    (hzle : ∀ e, e < g.Dimensions → (g.dimDef e).zones ≤ 2 ^ (g.dimDef e).bits)
    (hzone : resize.zone < resize.dimensionDef.zones)
    (hleg : ∀ r0 i0, legacy = some (r0, i0) → (m.slot r0 i0).isSome = true ∧ Q r0 i0)
    (hP : ∀ dd, g.GetDimensionDefinition resize.dimensionDef.dimension = some dd →
      dd.zones = resize.dimensionDef.zones → (onlyRegion = none ∨ onlyRegion = some rgnIdx) →
      ∀ (s e : Nat), P rgnIdx (s : Int) e) :
    ∃ m1, broadcastRegion resize v onlyRegion legacy rgnIdx m = some m1 ∧
      LimitsChangedOnly m m1 v P Q ∧
      ∀ dd iDim, g.GetDimensionDefinition resize.dimensionDef.dimension = some dd →
        dd.zones = resize.dimensionDef.zones → (onlyRegion = none ∨ onlyRegion = some rgnIdx) →
        getDimensionIndex resize.dimensionDef.dimension g = some iDim →
        ∀ s : Nat, s < 256 → zoneBits s (bitposOf g iDim) (g.dimDef iDim).bits = resize.zone →
          (m.slot rgnIdx (s : Int)).isSome = true → m1.dul rgnIdx (s : Int) iDim = some v := by
  unfold broadcastRegion
  by_cases honly : onlyRegion.isSome ∧ onlyRegion ≠ some rgnIdx
  · rw [if_pos honly]
    refine ⟨m, rfl, limitsChangedOnly_refl m v _ Q, ?_⟩
    intro dd iDim _ _ ho
    rcases ho with h | h
    · rw [h] at honly; simp at honly
    · exact absurd h honly.2
  · have honly2 : onlyRegion = none ∨ onlyRegion = some rgnIdx := by
      cases ho : onlyRegion with
      | none => exact Or.inl rfl
      | some x =>
        right
        by_contra hne
        exact honly ⟨by rw [ho]; rfl, by rw [ho]; exact hne⟩
    rw [if_neg honly]
    simp only [hg]
    cases hdd : g.GetDimensionDefinition resize.dimensionDef.dimension with
    | none =>
      refine ⟨m, rfl, limitsChangedOnly_refl m v _ Q, ?_⟩
      intro dd iDim h
      exact Option.noConfusion h
    | some dimdef =>
      simp only
      by_cases hzeq : dimdef.zones ≠ resize.dimensionDef.zones
      · simp only [hzeq, ne_eq, not_false_eq_true, if_true]
        refine ⟨m, rfl, limitsChangedOnly_refl m v _ Q, ?_⟩
        intro dd iDim h hz
        simp only [Option.some.injEq] at h
        subst h
        exact absurd hz hzeq
      · simp only [hzeq, if_false]
        simp only [ne_eq, not_not] at hzeq
        obtain ⟨k, hk, hidx, hdef, hbase⟩ := getDimensionDefinition_spec g _ dimdef hdd
        simp only [hidx, hbase]
        have hfit : bitposOf g k + dimdef.bits ≤ 8 := by
          have := bitposOf_add_bits_le g k hk
          rw [hdef] at this
          omega
        have hz : resize.zone < 2 ^ dimdef.bits := by
          have := hzle k hk
          rw [hdef] at this
          omega
        obtain ⟨m1, h1, h2, h3⟩ := broadcastSlots_spec m rgnIdx k dimdef.bits (bitposOf g k)
          resize.zone v legacy P Q (by omega) hfit hz hleg
          (fun s _ _ => hP dimdef hdd hzeq honly2 s k)
        refine ⟨m1, h1, h2, ?_⟩
        intro dd iDim _ _ _ hi s hs hzs hsome
        simp only [Option.some.injEq] at hi
        subst hi
        rw [hdef] at hzs
        exact h3 s hs hzs hsome

theorem getDimensionDefinition_congr (g g0 : Region)
    (h : g.pDimensionDefinitions = g0.pDimensionDefinitions) (kind : dimension_t) :
    g.GetDimensionDefinition kind = g0.GetDimensionDefinition kind := by
  unfold Region.GetDimensionDefinition
  rw [h]

/-- A broadcast block over the regions of a well-formed instrument, for
arbitrary descriptions P and Q of the slots that may be written: it returns,
writes only such slots, and afterwards every region mapped by a key that the
block treats holds the limit in all slots of the zone. -/
theorem broadcastAll_gen (m : Instrument) (hwf : m.WellFormed) (resize : resize_t) (v : Nat)
    (onlyRegion : Option Nat) (legacy : Option (Nat × Int))
    (P : Nat → Int → Nat → Prop) (Q : Nat → Int → Prop)
    (hzone : resize.zone < resize.dimensionDef.zones)
    (hleg : ∀ r0 i0, legacy = some (r0, i0) → (m.slot r0 i0).isSome = true ∧ Q r0 i0)
    (hP : ∀ r1 g dd, m.regionAt r1 = some g →
      g.GetDimensionDefinition resize.dimensionDef.dimension = some dd →
      dd.zones = resize.dimensionDef.zones → (onlyRegion = none ∨ onlyRegion = some r1) →
      ∀ (s e : Nat), P r1 (s : Int) e) :
    ∃ m1, forEachKeyRegion (broadcastRegion resize v onlyRegion legacy) m = some m1 ∧
      LimitsChangedOnly m m1 v P Q ∧
      ∀ key r1, key < 128 → m.GetRegion key = some r1 →
        ZoneWritten m resize v onlyRegion r1 m1 := by
  apply forEachKeyRegion_visit _ m (fun s => LimitsChangedOnly m s v P Q)
    (fun r1 s => ZoneWritten m resize v onlyRegion r1 s) (limitsChangedOnly_refl m v P Q)
    (fun s hI key => sameShape_getRegion m s hI.1 key)
  intro key rr s _ hI hget
  obtain ⟨g0, hg0, hgwf⟩ := hwf key rr hget
  obtain ⟨g, hg, hdefs, _⟩ := sameShape_regionAt m s hI.1 rr g0 hg0
  obtain ⟨m1, h1, h2, h3⟩ := broadcastRegion_gen s resize v onlyRegion legacy P Q rr g hg
    (by unfold Region.Dimensions; rw [hdefs]; exact hgwf.dims_le)
    (by unfold Region.totalBits; rw [hdefs]; exact hgwf.bits_le)
    (by
      intro e he
      rw [dimDef_congr g g0 hdefs]
      apply hgwf.zones_le
      unfold Region.Dimensions at he ⊢
      rw [← hdefs]; exact he)
    hzone (by
      intro r0 i0 hl
      rw [sameShape_slot_isSome m s hI.1]
      exact hleg r0 i0 hl)
    (by
      intro dd hdd hz ho s1 e
      rw [getDimensionDefinition_congr g g0 hdefs] at hdd
      exact hP rr g0 dd hg0 hdd hz ho s1 e)
  refine ⟨m1, h1, limitsChangedOnly_trans m s m1 v P Q hI h2, ?_, ?_⟩
  · intro g1 dd iDim hg1 hdd hz ho hi s1 hs1 hzs hsome
    rw [hg0] at hg1
    simp only [Option.some.injEq] at hg1
    subst hg1
    apply h3 dd iDim (by rw [getDimensionDefinition_congr g g0 hdefs]; exact hdd) hz ho
      (by rw [getDimensionIndex_congr g g0 hdefs]; exact hi) s1 hs1
      (by rw [bitposOf_congr g g0 hdefs, dimDef_congr g g0 hdefs]; exact hzs)
    rw [sameShape_slot_isSome m s hI.1]
    exact hsome
  · intro r1 hV g1 dd iDim hg1 hdd hz ho hi s1 hs1 hzs hsome
    exact limitsChangedOnly_dul_some s m1 v P Q h2 _ _ _
      (hV g1 dd iDim hg1 hdd hz ho hi s1 hs1 hzs hsome)

/-- The body of the key loop of the block else if (modifyallregions) for one
region, for arbitrary descriptions P and Q of the slots that may be written. -/
theorem matchingRegion_gen (m : Instrument) (resize : resize_t) (v : Nat)
    (dimCase : DimensionCase) (P : Nat → Int → Nat → Prop) (Q : Nat → Int → Prop)
    (rgnIdx : Nat) (g : Region) (hg : m.regionAt rgnIdx = some g) (hdims : g.Dimensions ≤ 8)
    (hPQ : ∀ dd, g.GetDimensionDefinition resize.dimensionDef.dimension = some dd →
      dd.zones = resize.dimensionDef.zones →
      ∀ (s e : Nat), P rgnIdx (s : Int) e ∧ Q rgnIdx (s : Int)) :
    ∃ m1, matchingRegion resize v dimCase rgnIdx m = some m1 ∧
      LimitsChangedOnly m m1 v P Q := by
  simp only [matchingRegion, hg]
  cases hf : g.GetDimensionDefinition resize.dimensionDef.dimension with
  | none => exact ⟨m, rfl, limitsChangedOnly_refl m v P Q⟩
  | some dimdef =>
    by_cases hz : dimdef.zones ≠ resize.dimensionDef.zones
    · simp only [hz, ne_eq, not_false_eq_true, if_true]
      exact ⟨m, rfl, limitsChangedOnly_refl m v P Q⟩
    · obtain ⟨k, hk, hidx, _, _⟩ := getDimensionDefinition_spec g _ dimdef hf
      simp only [hz, if_false, hidx]
      simp only [ne_eq, not_not] at hz
      apply matchingWrites_spec rgnIdx k v (by omega) P Q
      intro i hi
      refine ⟨?_, (hPQ dimdef hf hz i k).1, (hPQ dimdef hf hz i k).2⟩
      rw [slot_of_regionAt m rgnIdx g _ hg]
      exact mem_matching_isSome dimCase g i hi

theorem matchingAll_gen (m5 : Instrument) (hwf : m5.WellFormed) (resize : resize_t) (v : Nat)
    (dimCase : DimensionCase) (P : Nat → Int → Nat → Prop) (Q : Nat → Int → Prop)
    (hPQ : ∀ r1 g dd, m5.regionAt r1 = some g →
      g.GetDimensionDefinition resize.dimensionDef.dimension = some dd →
      dd.zones = resize.dimensionDef.zones →
      ∀ (s e : Nat), P r1 (s : Int) e ∧ Q r1 (s : Int)) :
    ∃ m1, forEachKeyRegion (matchingRegion resize v dimCase) m5 = some m1 ∧
      LimitsChangedOnly m5 m1 v P Q := by
  apply forEachKeyRegion_inv _ m5 (fun s => LimitsChangedOnly m5 s v P Q)
    (limitsChangedOnly_refl m5 v _ _)
  intro key rr s _ hI hget
  rw [sameShape_getRegion m5 s hI.1] at hget
  obtain ⟨g0, hg0, hgwf⟩ := hwf key rr hget
  obtain ⟨g, hg, hdefs, _⟩ := sameShape_regionAt m5 s hI.1 rr g0 hg0
  obtain ⟨m1, h1, h2⟩ := matchingRegion_gen s resize v dimCase P Q rr g hg
    (by unfold Region.Dimensions; rw [hdefs]; exact hgwf.dims_le)
    (by
      intro dd hdd hz s1 e
      rw [getDimensionDefinition_congr g g0 hdefs] at hdd
      exact hPQ rr g0 dd hg0 hdd hz s1 e)
  exact ⟨m1, h1, limitsChangedOnly_trans m5 s m1 v _ _ hI h2⟩

theorem zoneWritten_congr (m0 m1 m : Instrument) (h : SameShape m0 m1) (resize : resize_t)
    (v : Nat) (onlyRegion : Option Nat) (r1 : Nat)
    (hw : ZoneWritten m1 resize v onlyRegion r1 m) : ZoneWritten m0 resize v onlyRegion r1 m := by
  intro g dd iDim hg hdd hz ho hi s hs hzs hsome
  obtain ⟨g1, hg1, hdefs, _⟩ := sameShape_regionAt m0 m1 h r1 g hg
  apply hw g1 dd iDim hg1 (by rw [getDimensionDefinition_congr g1 g hdefs]; exact hdd) hz ho
    (by rw [getDimensionIndex_congr g1 g hdefs]; exact hi) s hs
    (by rw [bitposOf_congr g1 g hdefs, dimDef_congr g1 g hdefs]; exact hzs)
  rw [sameShape_slot_isSome m0 m1 h]
  exact hsome

/-- The write into the slot of the other audio channel: it returns when the
region has a stereo dimension, and then that slot holds the new limit in both
fields. -/
theorem otherChannelWrite_spec (st : DimRegionChooser) (m4 : Instrument) (r : Nat) (rgn : Region)
    (idx v : Nat) (P : Nat → Int → Nat → Prop) (Q : Nat → Int → Prop)
    (hslots : ∀ i : Nat, i < 2 ^ rgn.totalBits → (m4.slot r (i : Int)).isSome = true)
    (hdims : rgn.Dimensions ≤ 8) (hbits : rgn.totalBits ≤ 8)
    (hdim : st.resize.dimension < rgn.Dimensions)
    (hnd : (rgn.pDimensionDefinitions.map (fun df => df.dimension)).Nodup)
    (hstereo : st.modifybothchannels = true →
      ∃ es, es < rgn.Dimensions ∧ (rgn.dimDef es).dimension = dimension_samplechannel ∧
        1 ≤ (rgn.dimDef es).bits)
    (hidx : idx < 2 ^ rgn.totalBits)
    (hPQ : ∀ s : Nat, P r (s : Int) st.resize.dimension ∧ Q r (s : Int)) :
    ∃ m5, otherChannelWrite st r v (idx : Int)
        (if st.modifybothchannels then ((baseBits dimension_samplechannel rgn : Nat) : Int)
         else -1) m4 = some m5 ∧
      LimitsChangedOnly m4 m5 v P Q ∧
      (st.modifybothchannels = true →
        m5.dul r (bitXor (idx : Int) ((1 <<< baseBits dimension_samplechannel rgn : Nat) : Int))
          st.resize.dimension = some v ∧
        m5.vul r (bitXor (idx : Int) ((1 <<< baseBits dimension_samplechannel rgn : Nat) : Int)) =
          some v) := by
  unfold otherChannelWrite
  by_cases hmb : st.modifybothchannels = true
  · obtain ⟨es, hes, hkes, hbes⟩ := hstereo hmb
    have hbase := (dimension_index_of_nodup rgn es hnd hes).2.2
    rw [hkes] at hbase
    have hfit := bitposOf_add_bits_le rgn es hes
    have hsb : bitposOf rgn es < rgn.totalBits := by omega
    have hT : 2 ^ rgn.totalBits ≤ 2 ^ 8 := Nat.pow_le_pow_right (by norm_num) hbits
    have h256 : (2 : Nat) ^ 8 = 256 := by norm_num
    have hx := xor_bit_lt idx (bitposOf rgn es) rgn.totalBits hidx hsb
    have hone : 1 <<< bitposOf rgn es < 2 ^ rgn.totalBits := by
      rw [Nat.one_shiftLeft]
      exact Nat.pow_lt_pow_right (by norm_num) hsb
    have hxor := bitXor_natCast idx (1 <<< bitposOf rgn es) (by omega) (by omega)
    have hd8 : st.resize.dimension < 8 := by omega
    obtain ⟨m5, h5, hl5⟩ := limitsChangedOnly_writeBothLimits m4 r
      ((idx ^^^ (1 <<< bitposOf rgn es) : Nat) : Int) st.resize.dimension v P Q hd8
      (hslots _ hx) (hPQ _).1 (hPQ _).2
    obtain ⟨m5b, h5b, _, hd5, hv5, _⟩ := writeBothLimits_spec m4 r
      ((idx ^^^ (1 <<< bitposOf rgn es) : Nat) : Int) st.resize.dimension v hd8 (hslots _ hx)
    rw [h5] at h5b
    simp only [Option.some.injEq] at h5b
    subst h5b
    refine ⟨m5, ?_, hl5, ?_⟩
    · simp only [hmb, if_true, Int.toNat_ofNat, Int.ofNat_zero_le, and_self, hbase, hxor]
      exact h5
    · intro _
      rw [hbase, hxor]
      exact ⟨hd5, hv5⟩
  · refine ⟨m4, ?_, limitsChangedOnly_refl _ _ _ _, fun h => absurd h hmb⟩
    simp [hmb]

/-- The broadcast blocks that end the velocity branch, for arbitrary
descriptions P and Q of the slots that may be written. -/
theorem velocityBroadcast_gen (st : DimRegionChooser) (r idx v : Nat) (rgn : Region)
    (m5 : Instrument) (hrgn : st.instr.regionAt r = some rgn) (hsh : SameShape st.instr m5)
    (hwf : rgn.WellFormed)
    (hiwf : st.modifyalldimregs = true ∨ st.modifyallregions = true → st.instr.WellFormed)
    (hzone : st.resize.zone < st.resize.dimensionDef.zones)
    (hidx : idx < 2 ^ rgn.totalBits)
    (P : Nat → Int → Nat → Prop) (Q : Nat → Int → Prop)
    (hP : ∀ r1 g dd, st.instr.regionAt r1 = some g →
      g.GetDimensionDefinition st.resize.dimensionDef.dimension = some dd →
      dd.zones = st.resize.dimensionDef.zones →
      (st.modifyallregions = true ∨ r1 = r) →
      ∀ (s e : Nat), P r1 (s : Int) e ∧ Q r1 (s : Int))
    (hQ : Q r (idx : Int)) :
    ∃ m6, velocityBroadcast st r v (idx : Int) m5 = some m6 ∧
      LimitsChangedOnly m5 m6 v P Q ∧
      (st.modifyalldimregs = true → ∀ key r1, key < 128 → st.instr.GetRegion key = some r1 →
        ZoneWritten st.instr st.resize v (if st.modifyallregions then none else some r) r1 m6) := by
  have hs5 : (m5.slot r (idx : Int)).isSome = true := by
    rw [sameShape_slot_isSome _ _ hsh, slot_of_regionAt _ r rgn _ hrgn]
    exact hwf.slots idx hidx
  have hP5 : ∀ r1 g dd, m5.regionAt r1 = some g →
      g.GetDimensionDefinition st.resize.dimensionDef.dimension = some dd →
      dd.zones = st.resize.dimensionDef.zones →
      (st.modifyallregions = true ∨ r1 = r) →
      ∀ (s e : Nat), P r1 (s : Int) e ∧ Q r1 (s : Int) := by
    intro r1 g dd hg hdd hz ho s e
    obtain ⟨g0, hg0, hdefs, _⟩ := sameShape_regionAt _ _ (sameShape_symm _ _ hsh) r1 g hg
    exact hP r1 g0 dd hg0 (by rw [getDimensionDefinition_congr g0 g hdefs]; exact hdd) hz ho s e
  unfold velocityBroadcast
  by_cases hall : st.modifyalldimregs = true
  · simp only [hall, if_true]
    have hwf5 := instrument_wellFormed_of_sameShape _ _ hsh (hiwf (Or.inl hall))
    obtain ⟨m6, h6, hl6, hv6⟩ := broadcastAll_gen m5 hwf5 st.resize v
      (if st.modifyallregions = true then none else some r) (some (r, (idx : Int))) P Q hzone
      (by
        intro r0 i0 h
        simp only [Option.some.injEq, Prod.mk.injEq] at h
        obtain ⟨h1, h2⟩ := h
        subst h1 h2
        exact ⟨hs5, hQ⟩)
      (by
        intro r1 g dd hg hdd hz ho s e
        refine (hP5 r1 g dd hg hdd hz ?_ s e).1
        by_cases hreg : st.modifyallregions = true
        · exact Or.inl hreg
        · right
          simp only [hreg, Bool.false_eq_true, if_false, Option.some.injEq] at ho
          rcases ho with h | h
          · exact Option.noConfusion h
          · exact h.symm)
    refine ⟨m6, h6, hl6, ?_⟩
    intro _ key r1 hkey hget
    apply zoneWritten_congr _ _ _ hsh
    exact hv6 key r1 hkey (by rw [sameShape_getRegion _ _ hsh]; exact hget)
  · by_cases hreg : st.modifyallregions = true
    · have hwf5 := instrument_wellFormed_of_sameShape _ _ hsh (hiwf (Or.inr hreg))
      obtain ⟨rgn5, hr5, _, _⟩ := sameShape_regionAt _ _ hsh r rgn hrgn
      rw [slot_of_regionAt _ r rgn5 _ hr5] at hs5
      obtain ⟨d5, hd5slot⟩ := Option.isSome_iff_exists.1 hs5
      obtain ⟨m6, h6, hl6⟩ := matchingAll_gen m5 hwf5 st.resize v
        (dimensionCaseOf rgn5 (some d5.addr)) P Q
        (fun r1 g dd hg hdd hz s e => hP5 r1 g dd hg hdd hz (Or.inl hreg) s e)
      refine ⟨m6, ?_, hl6, fun h => absurd h hall⟩
      simp only [hall, hreg, if_true, hr5, Option.some_bind, hd5slot, Option.map_some']
      exact h6
    · refine ⟨m5, ?_, limitsChangedOnly_refl _ _ _ _, fun h => absurd h hall⟩
      simp [hall, hreg]

/-- The velocity branch of update_after_resize, whatever limits are stored: it
returns; outside the selected region the back-fill changes nothing; after the
back-fill only slots described by P and Q are written, and only with the new
limit; the edited slot, the slot of the other channel (with both channels
set) and, with all dimension regions set, all slots of the zone in the
regions treated hold the new limit. -/
theorem updateVelocity_gen (st : DimRegionChooser) (r mr : Nat) (rgn : Region) (v : Nat)
    (hrgn : st.instr.regionAt r = some rgn) (hwf : rgn.WellFormed)
    (hiwf : st.modifyalldimregs = true ∨ st.modifyallregions = true → st.instr.WellFormed)
    (hdim : st.resize.dimension < rgn.Dimensions)
    (hdef : st.resize.dimensionDef = rgn.dimDef st.resize.dimension)
    (hzone : st.resize.zone < (rgn.dimDef st.resize.dimension).zones)
    (hmain : st.maindimregno = (mr : Int)) (hmr : mr < 2 ^ rgn.totalBits)
    (hnd : (rgn.pDimensionDefinitions.map (fun df => df.dimension)).Nodup)
    (hstereo : st.modifybothchannels = true →
      ∃ es, es < rgn.Dimensions ∧ (rgn.dimDef es).dimension = dimension_samplechannel ∧
        1 ≤ (rgn.dimDef es).bits)
    (P : Nat → Int → Nat → Prop) (Q : Nat → Int → Prop)
    (hPr : ∀ s : Nat, P r (s : Int) st.resize.dimension ∧ Q r (s : Int))
    (hP : ∀ r1 g dd, st.instr.regionAt r1 = some g →
      g.GetDimensionDefinition st.resize.dimensionDef.dimension = some dd →
      dd.zones = st.resize.dimensionDef.zones →
      (st.modifyallregions = true ∨ r1 = r) →
      ∀ (s e : Nat), P r1 (s : Int) e ∧ Q r1 (s : Int)) :
    ∃ (idx : Nat) (m2 m6 : Instrument),
      (idx : Int) = bitAnd st.maindimregno
          (dimMask (rgn.dimDef st.resize.dimension).bits (bitposOf rgn st.resize.dimension)) +
        ((st.resize.zone <<< bitposOf rgn st.resize.dimension : Nat) : Int) ∧
      idx < 2 ^ rgn.totalBits ∧
      zoneBits idx (bitposOf rgn st.resize.dimension) (rgn.dimDef st.resize.dimension).bits =
        st.resize.zone ∧
      (∀ e, e ≠ st.resize.dimension → zoneBits idx (bitposOf rgn e) (rgn.dimDef e).bits =
        zoneBits mr (bitposOf rgn e) (rgn.dimDef e).bits) ∧
      updateVelocity st r rgn v (bitposOf rgn st.resize.dimension)
        (if st.modifybothchannels then ((baseBits dimension_samplechannel rgn : Nat) : Int)
         else -1) = some m6 ∧
      SameShape st.instr m2 ∧
      (∀ r1 i e, r1 ≠ r → m2.dul r1 i e = st.instr.dul r1 i e) ∧
      (∀ r1 i, r1 ≠ r → m2.vul r1 i = st.instr.vul r1 i) ∧
      LimitsChangedOnly m2 m6 v P Q ∧
      m6.dul r (idx : Int) st.resize.dimension = some v ∧
      m6.vul r (idx : Int) = some v ∧
      (st.modifybothchannels = true →
        m6.dul r (bitXor (idx : Int) ((1 <<< baseBits dimension_samplechannel rgn : Nat) : Int))
          st.resize.dimension = some v ∧
        m6.vul r (bitXor (idx : Int) ((1 <<< baseBits dimension_samplechannel rgn : Nat) : Int)) =
          some v) ∧
      (st.modifyalldimregs = true → ∀ key r1, key < 128 → st.instr.GetRegion key = some r1 →
        ZoneWritten st.instr st.resize v (if st.modifyallregions then none else some r) r1 m6) := by
  obtain ⟨c0, hc, hc1, hc2, hfields⟩ := maskedIndex_base rgn st.resize.dimension mr hdim
    hwf.bits_le hmr
  have hzle := hwf.zones_le _ hdim
  have hsl := zoneSlot_lt rgn st.resize.dimension c0 st.resize.zone hdim hc1 hc2 (by omega)
  have hcast : ((c0 : Int) + ((st.resize.zone <<< bitposOf rgn st.resize.dimension : Nat) : Int)) =
      ((c0 + st.resize.zone <<< bitposOf rgn st.resize.dimension : Nat) : Int) := by
    push_cast; rfl
  have hd8 : st.resize.dimension < 8 := by
    have := hwf.dims_le
    omega
  obtain ⟨m2, hb2, hsh2, hfd2, hfv2⟩ := velocityBackfill_frame st.instr r rgn st.resize.dimension
    c0 hrgn hwf hdim hc1 hc2
  have hslots : ∀ m : Instrument, SameShape st.instr m → ∀ i : Nat, i < 2 ^ rgn.totalBits →
      (m.slot r (i : Int)).isSome = true := by
    intro m hsh i hi
    rw [sameShape_slot_isSome _ _ hsh, slot_of_regionAt _ r rgn _ hrgn]
    exact hwf.slots i hi
  obtain ⟨m4, hw4, hl4⟩ := limitsChangedOnly_writeBothLimits m2 r
    ((c0 + st.resize.zone <<< bitposOf rgn st.resize.dimension : Nat) : Int)
    st.resize.dimension v P Q hd8 (hslots m2 hsh2 _ hsl.1) (hPr _).1 (hPr _).2
  obtain ⟨m4b, hw4b, _, hd4, hv4, _⟩ := writeBothLimits_spec m2 r
    ((c0 + st.resize.zone <<< bitposOf rgn st.resize.dimension : Nat) : Int)
    st.resize.dimension v hd8 (hslots m2 hsh2 _ hsl.1)
  rw [hw4] at hw4b
  simp only [Option.some.injEq] at hw4b
  subst hw4b
  have hsh4 := sameShape_trans _ _ _ hsh2 hl4.1
  obtain ⟨m5, h5, hl5, hx5⟩ := otherChannelWrite_spec st m4 r rgn
    (c0 + st.resize.zone <<< bitposOf rgn st.resize.dimension) v P Q (hslots m4 hsh4)
    hwf.dims_le hwf.bits_le hdim hnd hstereo hsl.1 hPr
  have hsh5 := sameShape_trans _ _ _ hsh4 hl5.1
  obtain ⟨m6, h6, hl6, hz6⟩ := velocityBroadcast_gen st r
    (c0 + st.resize.zone <<< bitposOf rgn st.resize.dimension) v rgn m5 hrgn hsh5 hwf hiwf
    (by rw [hdef]; exact hzone) hsl.1 P Q hP (hPr _).2
  have hl56 := limitsChangedOnly_trans _ _ _ _ _ _ hl5 hl6
  refine ⟨c0 + st.resize.zone <<< bitposOf rgn st.resize.dimension, m2, m6, ?_, hsl.1, hsl.2.1,
    ?_, ?_, hsh2, hfd2, hfv2, limitsChangedOnly_trans _ _ _ _ _ _ hl4 hl56, ?_, ?_, ?_, hz6⟩
  · rw [hmain, hc, hcast]
  · intro e he
    rw [hsl.2.2 e he, hfields e he]
  · simp only [updateVelocity, velocityWrite, hmain, hc, hb2, hcast, hw4, h5]
    exact h6
  · exact limitsChangedOnly_dul_some _ _ _ _ _ hl56 r _ _ hd4
  · exact limitsChangedOnly_vul_some _ _ _ _ _ hl56 r _ hv4
  · intro hmb
    exact ⟨limitsChangedOnly_dul_some _ _ _ _ _ hl6 r _ _ (hx5 hmb).1,
      limitsChangedOnly_vul_some _ _ _ _ _ hl6 r _ (hx5 hmb).2⟩

/-! ## The non-velocity branch without assumptions on the stored limits -/

/-- The loop of the non-velocity branch, started at the index of a valid
combination, returns whatever limits are stored, and changes only entries of
the resized dimension in the selected region. -/
theorem updateOtherLoop_frame (st : DimRegionChooser) (r : Nat) (rgn : Region) (upperLimit : Nat)
    (m0 : Instrument) (hr0 : m0.regionAt r = some rgn) (hwf : rgn.WellFormed)
    (hd : st.resize.dimension < rgn.Dimensions)
    (hzone : st.resize.zone < (rgn.dimDef st.resize.dimension).zones) :
    ∀ (fuel i : Nat) (m : Instrument), rgn.BaseIndex st.resize.dimension i →
      2 ^ rgn.totalBits + 1 ≤ fuel + i → SameShape m0 m →
      ∃ m1, updateOtherLoop st r rgn upperLimit (bitposOf rgn st.resize.dimension) fuel i m =
          some m1 ∧ SameShape m0 m1 ∧
        (∀ r1 i1 e1, (r1 ≠ r ∨ e1 ≠ st.resize.dimension) →
          m1.dul r1 i1 e1 = m.dul r1 i1 e1) ∧
        (∀ r1 i1, m1.vul r1 i1 = m.vul r1 i1) := by
  intro fuel
  induction fuel with
  | zero =>
    intro i m hi hfuel
    have := hi.1
    omega
  | succ fuel ih =>
    intro i m hi hfuel hsh
    have hdim8 : st.resize.dimension < 8 := Nat.lt_of_lt_of_le hd hwf.dims_le
    have hzle := hwf.zones_le _ hd
    have hT8 := hwf.bits_le
    have hslotz : ∀ (m2 : Instrument), SameShape m0 m2 →
        ∀ j, j < (rgn.dimDef st.resize.dimension).zones →
        (m2.slot r ((i : Int) + ((j <<< bitposOf rgn st.resize.dimension : Nat) : Int))).isSome
          = true := by
      intro m2 hsh2 j hj
      have := (zoneSlot_fields rgn _ i j hd hi (by omega)).1
      have hcast : ((i : Int) + ((j <<< bitposOf rgn st.resize.dimension : Nat) : Int)) =
          ((i + j <<< bitposOf rgn st.resize.dimension : Nat) : Int) := by push_cast; rfl
      rw [hcast, sameShape_slot_isSome m0 m2 hsh2, slot_of_regionAt m0 r rgn _ hr0]
      exact hwf.slots _ this
    rw [updateOtherLoop]
    have hlt : i < rgn.DimensionRegions := by rw [hwf.count]; exact hi.1
    simp only [hlt, if_true]
    have hslot_eq : (m.regionAt r).bind (fun rgn1 => rgn1.dimRgn (i : Int)) = m.slot r i := rfl
    rw [hslot_eq]
    have hsi := hslotz m hsh 0 (hwf.zones_pos _ hd)
    simp only [Nat.zero_shiftLeft, Nat.cast_zero, add_zero] at hsi
    obtain ⟨di, hdi⟩ := Option.isSome_iff_exists.1 hsi
    rw [hdi]
    simp only
    have h1 : ∃ m1, (if di.upperLimit st.resize.dimension = 0 then
          backfillUpperLimits r (i : Int) (bitposOf rgn st.resize.dimension) st.resize.dimension
            (rgn.dimDef st.resize.dimension).zones m
        else some m) = some m1 ∧ SameShape m m1 ∧
        (∀ r1 i1 e1, (r1 ≠ r ∨ e1 ≠ st.resize.dimension) → m1.dul r1 i1 e1 = m.dul r1 i1 e1) ∧
        (∀ r1 i1, m1.vul r1 i1 = m.vul r1 i1) := by
      by_cases h0 : di.upperLimit st.resize.dimension = 0
      · obtain ⟨m1, hb, hsh1, _, hbframe, hbvul⟩ := backfillUpperLimits_spec m r (i : Int)
          (bitposOf rgn st.resize.dimension) st.resize.dimension
          (rgn.dimDef st.resize.dimension).zones hdim8 (hslotz m hsh)
        refine ⟨m1, by simp only [h0, if_true]; exact hb, hsh1, ?_, hbvul⟩
        intro r1 i1 e1 hne
        apply hbframe
        intro ⟨h1, h2, _⟩
        rcases hne with h | h
        · exact h h1
        · exact h h2
      · exact ⟨m, by simp only [h0, if_false], sameShape_refl _, fun _ _ _ _ => rfl,
          fun _ _ => rfl⟩
    obtain ⟨m1, hb, hsh1, hbframe, hbvul⟩ := h1
    rw [hb]
    simp only
    have hsh01 := sameShape_trans m0 m m1 hsh hsh1
    obtain ⟨m2, hw, hsh2, _, hwframe, hwvul⟩ := writeUpperLimit_spec m1 r
      ((i : Int) + ((st.resize.zone <<< bitposOf rgn st.resize.dimension : Nat) : Int))
      st.resize.dimension upperLimit hdim8 (hslotz m1 hsh01 _ hzone)
    rw [hw]
    simp only
    have hsh02 := sameShape_trans m0 m1 m2 hsh01 hsh2
    have hframe2 : ∀ r1 i1 e1, (r1 ≠ r ∨ e1 ≠ st.resize.dimension) →
        m2.dul r1 i1 e1 = m.dul r1 i1 e1 := by
      intro r1 i1 e1 hne
      rw [hwframe, hbframe r1 i1 e1 hne]
      intro ⟨h1, _, h2⟩
      rcases hne with h | h
      · exact h h1
      · exact h h2
    have hvul2 : ∀ r1 i1, m2.vul r1 i1 = m.vul r1 i1 := by
      intro r1 i1
      rw [hwvul, hbvul]
    cases hscan : scanNextDim st.resize.dimension i rgn.pDimensionDefinitions 0 0 with
    | none =>
      simp only
      exact ⟨m2, rfl, hsh02, hframe2, hvul2⟩
    | some bp =>
      simp only
      obtain ⟨jd, hjd, _, hbp, _, _⟩ := scanNextDim_region_some rgn _ i bp hscan
      have hbp8 : bp ≤ 8 := by
        have := bitposOf_add_bits_le rgn jd hjd
        omega
      have hi31 : i < 2147483648 := by
        have h1 := hi.1
        have h2 : (2 : Nat) ^ rgn.totalBits ≤ 2 ^ 8 := Nat.pow_le_pow_right (by norm_num) hT8
        norm_num at h2
        omega
      rw [nextIndex_eq i bp hi31 (by omega)]
      obtain ⟨hnext, hlt2, _⟩ := baseIndex_next rgn _ i bp hwf.zones_pos hwf.zones_le hscan hi
      obtain ⟨m3, hloop, hsh3, hframe3, hvul3⟩ :=
        ih ((i / 2 ^ bp + 1) * 2 ^ bp) m2 hnext (by omega) hsh02
      refine ⟨m3, hloop, hsh3, ?_, ?_⟩
      · intro r1 i1 e1 hne
        rw [hframe3 r1 i1 e1 hne, hframe2 r1 i1 e1 hne]
      · intro r1 i1
        rw [hvul3, hvul2]

/-- The non-velocity branch of update_after_resize, whatever limits are stored:
it returns; its loop changes only entries of the resized dimension in the
selected region; the broadcast block writes only slots described by P, and
afterwards every region mapped by a key that has the dimension kind with the
same zone count holds the new limit in all slots of the zone. -/
theorem updateOther_gen (st : DimRegionChooser) (r : Nat) (rgn : Region) (v : Nat)
    (hrgn : st.instr.regionAt r = some rgn) (hwf : rgn.WellFormed)
    (hiwf : st.modifyallregions = true → st.instr.WellFormed)
    (hdim : st.resize.dimension < rgn.Dimensions)
    (hdef : st.resize.dimensionDef = rgn.dimDef st.resize.dimension)
    (hzone : st.resize.zone < (rgn.dimDef st.resize.dimension).zones)
    (P : Nat → Int → Nat → Prop)
    (hP : ∀ r1 g dd, st.instr.regionAt r1 = some g →
      g.GetDimensionDefinition st.resize.dimensionDef.dimension = some dd →
      dd.zones = st.resize.dimensionDef.zones → ∀ (s e : Nat), P r1 (s : Int) e) :
    ∃ m1 m2, updateOther st r rgn v (bitposOf rgn st.resize.dimension) = some m2 ∧
      SameShape st.instr m1 ∧
      (∀ r1 i1 e1, (r1 ≠ r ∨ e1 ≠ st.resize.dimension) →
        m1.dul r1 i1 e1 = st.instr.dul r1 i1 e1) ∧
      (∀ r1 i1, m1.vul r1 i1 = st.instr.vul r1 i1) ∧
      LimitsChangedOnly m1 m2 v P (fun _ _ => False) ∧
      (st.modifyallregions = true → ∀ key r1, key < 128 → st.instr.GetRegion key = some r1 →
        ZoneWritten st.instr st.resize v none r1 m2) ∧
      updateOtherLoop st r rgn v (bitposOf rgn st.resize.dimension) (rgn.DimensionRegions + 1) 0
        st.instr = some m1 := by
  obtain ⟨m1, hloop, hsh1, hfr1, hvul1⟩ := updateOtherLoop_frame st r rgn v st.instr hrgn hwf
    hdim hzone (rgn.DimensionRegions + 1) 0 st.instr (baseIndex_zero rgn _ hwf.zones_pos)
    (by rw [hwf.count]) (sameShape_refl _)
  have hrun : updateOther st r rgn v (bitposOf rgn st.resize.dimension) =
      if st.modifyallregions then
        forEachKeyRegion (broadcastRegion st.resize v none none) m1
      else some m1 := by
    unfold updateOther
    rw [hloop]
  rw [hrun]
  by_cases hall : st.modifyallregions = true
  · simp only [hall, if_true]
    have hwf1 := instrument_wellFormed_of_sameShape _ _ hsh1 (hiwf hall)
    obtain ⟨m2, hb, hch, hval⟩ := broadcastAll_gen m1 hwf1 st.resize v none none P
      (fun _ _ => False) (by rw [hdef]; exact hzone) (by intro r0 i0 h; simp at h)
      (by
        intro r1 g dd hg hdd hz _ s e
        obtain ⟨g0, hg0, hdefs, _⟩ := sameShape_regionAt _ _ (sameShape_symm _ _ hsh1) r1 g hg
        exact hP r1 g0 dd hg0 (by rw [getDimensionDefinition_congr g0 g hdefs]; exact hdd) hz s e)
    refine ⟨m1, m2, hb, hsh1, hfr1, hvul1, hch, ?_, hloop⟩
    intro _ key r1 hkey hget
    apply zoneWritten_congr _ _ _ hsh1
    exact hval key r1 hkey (by rw [sameShape_getRegion _ _ hsh1]; exact hget)
  · refine ⟨m1, m1, by simp [hall], hsh1, hfr1, hvul1, limitsChangedOnly_refl _ _ _ _,
      fun h => absurd h hall, hloop⟩

/-! ## Both channels and all dimension regions in the velocity branch (C12, C13) -/

/-- C12: when update_after_resize runs for the velocity dimension of a
well-formed region (dimension kinds pairwise distinct, maindimregno a slot
index of the region) with both channels set, and the region has a
stereo-channel dimension es at bit offset s = bitposOf rgn es, it returns, and
afterwards the edited slot index = (maindimregno & mask) + (resize.zone <<
bitpos) and the slot index ^ (1 << s) both hold the new limit resize.pos - 1
(as stored in the uint8_t upperLimit) in DimensionUpperLimits[velocity
dimension] and in VelocityUpperLimit, for every setting of the other two check
boxes and whatever limits were stored before. -/
theorem update_after_resize_both_channels (st : DimRegionChooser) (r mr es : Nat) (rgn : Region)
    (hregion : st.region = some r) (hrgn : st.instr.regionAt r = some rgn)
    (hwf : rgn.WellFormed)
    (hiwf : st.modifyalldimregs = true ∨ st.modifyallregions = true → st.instr.WellFormed)
    (hdim : st.resize.dimension < rgn.Dimensions)
    (hkind : (rgn.dimDef st.resize.dimension).dimension = dimension_velocity)
    (hdef : st.resize.dimensionDef = rgn.dimDef st.resize.dimension)
    (hzone : st.resize.zone < (rgn.dimDef st.resize.dimension).zones)
    (hmain : st.maindimregno = (mr : Int)) (hmr : mr < 2 ^ rgn.totalBits)
    (hnd : (rgn.pDimensionDefinitions.map (fun df => df.dimension)).Nodup)
    (hboth : st.modifybothchannels = true)
    (hes : es < rgn.Dimensions)
    (hkes : (rgn.dimDef es).dimension = dimension_samplechannel)
    (hbes : 1 ≤ (rgn.dimDef es).bits) :
    ∃ (st1 : DimRegionChooser) (idx : Nat), update_after_resize st = some st1 ∧
      (idx : Int) = bitAnd st.maindimregno
          (dimMask (rgn.dimDef st.resize.dimension).bits (bitposOf rgn st.resize.dimension)) +
        ((st.resize.zone <<< bitposOf rgn st.resize.dimension : Nat) : Int) ∧
      limitsAt st1 r (idx : Int) st.resize.dimension =
        some (toUInt8 (st.resize.pos - 1), toUInt8 (st.resize.pos - 1)) ∧
      limitsAt st1 r (bitXor (idx : Int) ((1 <<< bitposOf rgn es : Nat) : Int))
          st.resize.dimension =
        some (toUInt8 (st.resize.pos - 1), toUInt8 (st.resize.pos - 1)) := by
  obtain ⟨idx, m2, m6, hidx, _, _, _, hrun, _, _, _, _, hd6, hv6, hx6, _⟩ :=
    updateVelocity_gen st r mr rgn (toUInt8 (st.resize.pos - 1)) hrgn hwf hiwf hdim hdef hzone
      hmain hmr hnd (fun _ => ⟨es, hes, hkes, hbes⟩) (fun _ _ _ => True) (fun _ _ => True)
      (fun _ => ⟨trivial, trivial⟩) (fun _ _ _ _ _ _ _ _ _ => ⟨trivial, trivial⟩)
  have hmainEq : update_after_resize st =
      (updateVelocity st r rgn (toUInt8 (st.resize.pos - 1)) (bitposOf rgn st.resize.dimension)
        (if st.modifybothchannels then ((baseBits dimension_samplechannel rgn : Nat) : Int)
         else -1)).map (fun m => { st with instr := m }) := by
    unfold update_after_resize
    simp only [hregion, hrgn, hkind, if_true]
  have hbase := (dimension_index_of_nodup rgn es hnd hes).2.2
  rw [hkes] at hbase
  rw [hmainEq, hrun]
  refine ⟨_, idx, rfl, hidx, limitsAt_eq _ r _ _ _ _ hd6 hv6, ?_⟩
  have h := hx6 hboth
  rw [hbase] at h
  exact limitsAt_eq _ r _ _ _ _ h.1 h.2

set_option maxRecDepth 1000000 in
/-- C12, witness: in the stereo region (channel in bit 0, velocity with 3 zones
in bits 1..2) with the main selection in slot 1 and both channels set, the
boundary above velocity zone 0 is dragged to position 30: afterwards slot 1
and slot 1 ^ (1 << 0) = 0 both hold 29 in both limit fields. -/
theorem update_after_resize_both_channels_witness :
    (update_after_resize stereoResizing).map (fun st1 =>
      (limitsAt st1 0 1 1, limitsAt st1 0 (bitXor 1 ((1 <<< 0 : Nat) : Int)) 1)) =
      some (some (29, 29), some (29, 29)) ∧
    ∃ (st1 : DimRegionChooser) (idx : Nat), update_after_resize stereoResizing = some st1 ∧
      (idx : Int) = bitAnd stereoResizing.maindimregno
          (dimMask (stereoRegion.dimDef stereoResizing.resize.dimension).bits
            (bitposOf stereoRegion stereoResizing.resize.dimension)) +
        ((stereoResizing.resize.zone <<< bitposOf stereoRegion stereoResizing.resize.dimension :
          Nat) : Int) ∧
      limitsAt st1 0 (idx : Int) stereoResizing.resize.dimension =
        some (toUInt8 (stereoResizing.resize.pos - 1), toUInt8 (stereoResizing.resize.pos - 1)) ∧
      limitsAt st1 0 (bitXor (idx : Int) ((1 <<< bitposOf stereoRegion 0 : Nat) : Int))
          stereoResizing.resize.dimension =
        some (toUInt8 (stereoResizing.resize.pos - 1), toUInt8 (stereoResizing.resize.pos - 1)) :=
  ⟨by decide,
   update_after_resize_both_channels stereoResizing 0 1 0 stereoRegion (by decide) (by decide)
     stereoRegion_wellFormed (fun _ => mkInstrument_wellFormed _ stereoRegion_wellFormed)
     (by decide) (by decide) (by decide) (by decide) (by decide) (by decide) (by decide)
     (by decide) (by decide) (by decide) (by decide)⟩

/-- C13: when update_after_resize runs for the velocity dimension of a
well-formed region of a well-formed instrument (dimension kinds pairwise
distinct, maindimregno a slot index of the region, the region mapped by some
key) with all dimension regions set and all regions unset, it returns, and
afterwards every non-null slot of the edited region whose zone index in the
velocity dimension equals resize.zone, whatever its zones in the other
dimensions, holds the new limit resize.pos - 1 (as stored in the uint8_t
upperLimit) in DimensionUpperLimits[velocity dimension]. -/
theorem update_after_resize_all_dimregs (st : DimRegionChooser) (r mr key : Nat) (rgn : Region)
    (hregion : st.region = some r) (hrgn : st.instr.regionAt r = some rgn)
    (hwf : rgn.WellFormed) (hiwf : st.instr.WellFormed)
    (hdim : st.resize.dimension < rgn.Dimensions)
    (hkind : (rgn.dimDef st.resize.dimension).dimension = dimension_velocity)
    (hdef : st.resize.dimensionDef = rgn.dimDef st.resize.dimension)
    (hzone : st.resize.zone < (rgn.dimDef st.resize.dimension).zones)
    (hmain : st.maindimregno = (mr : Int)) (hmr : mr < 2 ^ rgn.totalBits)
    (hnd : (rgn.pDimensionDefinitions.map (fun df => df.dimension)).Nodup)
    (hstereo : st.modifybothchannels = true →
      ∃ es, es < rgn.Dimensions ∧ (rgn.dimDef es).dimension = dimension_samplechannel ∧
        1 ≤ (rgn.dimDef es).bits)
    (hall : st.modifyalldimregs = true) (hreg : st.modifyallregions = false)
    (hkey : key < 128) (hget : st.instr.GetRegion key = some r) :
    ∃ st1, update_after_resize st = some st1 ∧
      ∀ s : Nat, s < 256 → (rgn.dimRgn (s : Int)).isSome = true →
        zoneBits s (bitposOf rgn st.resize.dimension) (rgn.dimDef st.resize.dimension).bits =
          st.resize.zone →
        st1.instr.dul r (s : Int) st.resize.dimension = some (toUInt8 (st.resize.pos - 1)) := by
  obtain ⟨idx, m2, m6, _, _, _, _, hrun, _, _, _, _, _, _, _, hz6⟩ :=
    updateVelocity_gen st r mr rgn (toUInt8 (st.resize.pos - 1)) hrgn hwf (fun _ => hiwf) hdim
      hdef hzone hmain hmr hnd hstereo (fun _ _ _ => True) (fun _ _ => True)
      (fun _ => ⟨trivial, trivial⟩) (fun _ _ _ _ _ _ _ _ _ => ⟨trivial, trivial⟩)
  have hmainEq : update_after_resize st =
      (updateVelocity st r rgn (toUInt8 (st.resize.pos - 1)) (bitposOf rgn st.resize.dimension)
        (if st.modifybothchannels then ((baseBits dimension_samplechannel rgn : Nat) : Int)
         else -1)).map (fun m => { st with instr := m }) := by
    unfold update_after_resize
    simp only [hregion, hrgn, hkind, if_true]
  rw [hmainEq, hrun]
  refine ⟨_, rfl, ?_⟩
  intro s hs hsome hzs
  have hzw := hz6 hall key r hkey hget
  obtain ⟨hgd, hgi, _⟩ := dimension_index_of_nodup rgn st.resize.dimension hnd hdim
  have hk : st.resize.dimensionDef.dimension = (rgn.dimDef st.resize.dimension).dimension := by
    rw [hdef]
  rw [← hk] at hgd hgi
  apply hzw rgn (rgn.dimDef st.resize.dimension) st.resize.dimension hrgn hgd (by rw [hdef])
    (by simp [hreg]) hgi s hs hzs
  rw [slot_of_regionAt _ r rgn _ hrgn]
  exact hsome

set_option maxRecDepth 1000000 in
/-- C13, witness: in the region with a velocity dimension (bit 0, 2 zones) and
a layer dimension (bit 1, 2 zones), with all dimension regions set, the
boundary above velocity zone 0 is dragged to position 50: afterwards the slots
0 and 2 (velocity zone 0 of both layers) hold 49 in DimensionUpperLimits[0]. -/
theorem update_after_resize_all_dimregs_witness :
    (update_after_resize allDimRegsResizing).map (fun st1 =>
      [0, 1, 2, 3].map (fun s => st1.instr.dul 0 s 0)) =
      some [some 49, some 127, some 49, some 0] ∧
    ∃ st1, update_after_resize allDimRegsResizing = some st1 ∧
      ∀ s : Nat, s < 256 → (velocityLayerRegion.dimRgn (s : Int)).isSome = true →
        zoneBits s (bitposOf velocityLayerRegion allDimRegsResizing.resize.dimension)
            (velocityLayerRegion.dimDef allDimRegsResizing.resize.dimension).bits =
          allDimRegsResizing.resize.zone →
        st1.instr.dul 0 (s : Int) allDimRegsResizing.resize.dimension =
          some (toUInt8 (allDimRegsResizing.resize.pos - 1)) :=
  ⟨by decide,
   update_after_resize_all_dimregs allDimRegsResizing 0 0 0 velocityLayerRegion (by decide)
     (by decide) ⟨by decide, by decide, by decide, by decide, by decide, by decide⟩
     (mkInstrument_wellFormed _ ⟨by decide, by decide, by decide, by decide, by decide, by decide⟩)
     (by decide) (by decide) (by decide) (by decide) (by decide) (by decide) (by decide)
     (fun h => absurd h (by decide)) (by decide) (by decide) (by decide) (by decide)⟩

/-! ## Regions skipped and regions treated by the broadcast (C14, C15) -/

theorem pairInstrument_getRegion (a b : Region) (key r : Nat)
    (h : (pairInstrument a b).GetRegion key = some r) : r = 0 ∨ r = 1 := by
  unfold Instrument.GetRegion pairInstrument at h
  simp only [List.getD_eq_getElem?_getD] at h
  by_cases hk : key < 64
  · rw [List.getElem?_append_left (by simpa using hk), List.getElem?_replicate] at h
    simp only [hk, if_true, Option.getD_some, Option.some.injEq] at h
    exact Or.inl h.symm
  · rw [List.getElem?_append_right (by simpa using hk), List.getElem?_replicate] at h
    split at h
    · simp only [Option.getD_some, Option.some.injEq] at h
      exact Or.inr h.symm
    · simp at h

theorem pairInstrument_wellFormed (a b : Region) (ha : a.WellFormed) (hb : b.WellFormed) :
    (pairInstrument a b).WellFormed := by
  intro key r hget
  rcases pairInstrument_getRegion a b key r hget with h | h
  · subst h; exact ⟨a, rfl, ha⟩
  · subst h; exact ⟨b, rfl, hb⟩

theorem siblingRegion_wellFormed : siblingRegion.WellFormed :=
  ⟨by decide, by decide, by decide, by decide, by decide, by decide⟩

theorem otherCountRegion_wellFormed : otherCountRegion.WellFormed :=
  ⟨by decide, by decide, by decide, by decide, by decide, by decide⟩

/-- C14: when update_after_resize runs on a well-formed region of an instrument
(well-formed when a broadcast check box is set; dimension kinds of the edited
region pairwise distinct; for the velocity dimension maindimregno a slot index
of the region and, with both channels set, a stereo dimension present), it
returns for every setting of the check boxes, in particular with all regions
set, and every region of the instrument that has no dimension of the kind
resize.dimensionDef.dimension, or whose dimension of that kind has a zone count
other than resize.dimensionDef.zones, keeps all limit fields of all its
dimension regions: every entry of DimensionUpperLimits and VelocityUpperLimit
of every slot is as before the call. -/
theorem update_after_resize_skips_regions (st : DimRegionChooser) (r mr r1 : Nat)
    (rgn g : Region)
    (hregion : st.region = some r) (hrgn : st.instr.regionAt r = some rgn)
    (hwf : rgn.WellFormed)
    (hiwf : st.modifyalldimregs = true ∨ st.modifyallregions = true → st.instr.WellFormed)
    (hdim : st.resize.dimension < rgn.Dimensions)
    (hdef : st.resize.dimensionDef = rgn.dimDef st.resize.dimension)
    (hzone : st.resize.zone < (rgn.dimDef st.resize.dimension).zones)
    (hnd : (rgn.pDimensionDefinitions.map (fun df => df.dimension)).Nodup)
    (hvel : (rgn.dimDef st.resize.dimension).dimension = dimension_velocity →
      st.maindimregno = (mr : Int) ∧ mr < 2 ^ rgn.totalBits ∧
      (st.modifybothchannels = true →
        ∃ es, es < rgn.Dimensions ∧ (rgn.dimDef es).dimension = dimension_samplechannel ∧
          1 ≤ (rgn.dimDef es).bits))
    (hg : st.instr.regionAt r1 = some g)
    (hskip : g.GetDimensionDefinition st.resize.dimensionDef.dimension = none ∨
      ∃ dd, g.GetDimensionDefinition st.resize.dimensionDef.dimension = some dd ∧
        dd.zones ≠ st.resize.dimensionDef.zones) :
    ∃ st1, update_after_resize st = some st1 ∧
      ∀ (i : Int) (e : Nat), st1.instr.dul r1 i e = st.instr.dul r1 i e ∧
        st1.instr.vul r1 i = st.instr.vul r1 i := by
  -- a region that is treated is not the region r1
  have hother : ∀ r2 g2 dd, st.instr.regionAt r2 = some g2 →
      g2.GetDimensionDefinition st.resize.dimensionDef.dimension = some dd →
      dd.zones = st.resize.dimensionDef.zones → r2 ≠ r1 := by
    intro r2 g2 dd hg2 hdd hz heq
    subst heq
    rw [hg] at hg2
    simp only [Option.some.injEq] at hg2
    subst hg2
    rcases hskip with h | ⟨dd1, h1, h2⟩
    · rw [h] at hdd; exact Option.noConfusion hdd
    · rw [h1] at hdd
      simp only [Option.some.injEq] at hdd
      subst hdd
      exact h2 hz
  have hk : st.resize.dimensionDef.dimension = (rgn.dimDef st.resize.dimension).dimension := by
    rw [hdef]
  have hne : r ≠ r1 := by
    have hgd := (dimension_index_of_nodup rgn st.resize.dimension hnd hdim).1
    rw [← hk] at hgd
    exact hother r rgn _ hrgn hgd (by rw [hdef])
  by_cases hkind : (rgn.dimDef st.resize.dimension).dimension = dimension_velocity
  · obtain ⟨hmain, hmr, hstereo⟩ := hvel hkind
    obtain ⟨idx, m2, m6, _, _, _, _, hrun, _, hfd2, hfv2, hl6, _⟩ :=
      updateVelocity_gen st r mr rgn (toUInt8 (st.resize.pos - 1)) hrgn hwf hiwf hdim
        hdef hzone hmain hmr hnd hstereo (fun r2 _ _ => r2 ≠ r1) (fun r2 _ => r2 ≠ r1)
        (fun _ => ⟨hne, hne⟩)
        (fun r2 g2 dd hg2 hdd hz _ _ _ => ⟨hother r2 g2 dd hg2 hdd hz, hother r2 g2 dd hg2 hdd hz⟩)
    have hmainEq : update_after_resize st =
        (updateVelocity st r rgn (toUInt8 (st.resize.pos - 1)) (bitposOf rgn st.resize.dimension)
          (if st.modifybothchannels then ((baseBits dimension_samplechannel rgn : Nat) : Int)
           else -1)).map (fun m => { st with instr := m }) := by
      unfold update_after_resize
      simp only [hregion, hrgn, hkind, if_true]
    rw [hmainEq, hrun]
    refine ⟨_, rfl, ?_⟩
    intro i e
    constructor
    · rcases hl6.2.1 r1 i e with h | ⟨hP, _⟩
      · simp only
        rw [h, hfd2 r1 i e (Ne.symm hne)]
      · exact absurd rfl hP
    · rcases hl6.2.2 r1 i with h | ⟨hQ, _⟩
      · simp only
        rw [h, hfv2 r1 i (Ne.symm hne)]
      · exact absurd rfl hQ
  · obtain ⟨m1, m2, hrun, _, hfr1, hvul1, hl2, _⟩ := updateOther_gen st r rgn
      (toUInt8 (st.resize.pos - 1)) hrgn hwf (fun h => hiwf (Or.inr h)) hdim hdef hzone
      (fun r2 _ _ => r2 ≠ r1) (fun r2 g2 dd hg2 hdd hz _ _ => hother r2 g2 dd hg2 hdd hz)
    have hmainEq : update_after_resize st =
        (updateOther st r rgn (toUInt8 (st.resize.pos - 1))
          (bitposOf rgn st.resize.dimension)).map (fun m => { st with instr := m }) := by
      unfold update_after_resize
      simp only [hregion, hrgn, hkind, if_false]
    rw [hmainEq, hrun]
    refine ⟨_, rfl, ?_⟩
    intro i e
    constructor
    · rcases hl2.2.1 r1 i e with h | ⟨hP, _⟩
      · simp only
        rw [h, hfr1 r1 i e (Or.inl (Ne.symm hne))]
      · exact absurd rfl hP
    · rcases hl2.2.2 r1 i with h | ⟨hQ, _⟩
      · simp only
        rw [h, hvul1]
      · exact absurd hQ (fun h => h)

set_option maxRecDepth 1000000 in
/-- C14, witness: the instrument has the example region (dimension A with 3
zones) and a region whose dimension A has 2 zones; with all regions set the
boundary above zone 0 of A is dragged to position 30 in the first region: the
first region holds 29, 84, 127 for the zones of A, the second region still
holds 0 in all its slots. -/
theorem update_after_resize_skips_regions_witness :
    (pairResizing otherCountRegion).modifyallregions = true ∧
    (update_after_resize (pairResizing otherCountRegion)).map (fun st1 =>
      ([0, 1, 2].map (fun s => st1.instr.dul 0 s 0),
       [0, 1, 2, 3].map (fun s => limitsAt st1 1 s 0))) =
      some ([some 29, some 84, some 127],
        [some (0, 0), some (0, 0), some (0, 0), some (0, 0)]) ∧
    ∃ st1, update_after_resize (pairResizing otherCountRegion) = some st1 ∧
      ∀ (i : Int) (e : Nat),
        st1.instr.dul 1 i e = (pairResizing otherCountRegion).instr.dul 1 i e ∧
        st1.instr.vul 1 i = (pairResizing otherCountRegion).instr.vul 1 i :=
  ⟨by decide, by decide,
   update_after_resize_skips_regions (pairResizing otherCountRegion) 0 0 1 exampleRegion
     otherCountRegion (by decide) (by decide) exampleRegion_wellFormed
     (fun _ => pairInstrument_wellFormed _ _ exampleRegion_wellFormed otherCountRegion_wellFormed)
     (by decide) (by decide) (by decide) (by decide) (fun h => absurd h (by decide))
     (by decide) (Or.inr ⟨mkDef 1 1 2, by decide, by decide⟩)⟩

/-- C15, amended: when update_after_resize runs for a dimension other than
velocity with all regions set (well-formed region and instrument), it returns,
and in every other region mapped by a key that has a dimension of the kind
resize.dimensionDef.dimension with the zone count resize.dimensionDef.zones,
every non-null slot whose zone index for that kind (in the layout of that
region) equals resize.zone holds the new limit in its entry for that dimension,
whatever its zones in the other dimensions, and every slot of another zone
keeps its entry: no dimension case is resolved in this branch. -/
theorem update_after_resize_other_all_regions (st : DimRegionChooser) (r r1 key iDim : Nat)
    (rgn g : Region) (dd : dimension_def_t)
    (hregion : st.region = some r) (hrgn : st.instr.regionAt r = some rgn)
    (hwf : rgn.WellFormed) (hiwf : st.instr.WellFormed)
    (hdim : st.resize.dimension < rgn.Dimensions)
    (hkind : (rgn.dimDef st.resize.dimension).dimension ≠ dimension_velocity)
    (hdef : st.resize.dimensionDef = rgn.dimDef st.resize.dimension)
    (hzone : st.resize.zone < (rgn.dimDef st.resize.dimension).zones)
    (hall : st.modifyallregions = true)
    (hne : r1 ≠ r) (hkey : key < 128) (hget : st.instr.GetRegion key = some r1)
    (hg : st.instr.regionAt r1 = some g)
    (hdd : g.GetDimensionDefinition st.resize.dimensionDef.dimension = some dd)
    (hzones : dd.zones = st.resize.dimensionDef.zones)
    (hi : getDimensionIndex st.resize.dimensionDef.dimension g = some iDim) :
    ∃ st1, update_after_resize st = some st1 ∧
      ∀ s : Nat, s < 256 → (g.dimRgn (s : Int)).isSome = true →
        st1.instr.dul r1 (s : Int) iDim =
          if zoneBits s (bitposOf g iDim) (g.dimDef iDim).bits = st.resize.zone
          then some (toUInt8 (st.resize.pos - 1))
          else st.instr.dul r1 (s : Int) iDim := by
  obtain ⟨m1, m2, hrun, hsh1, hfr1, _, _, hzw, hloop⟩ := updateOther_gen st r rgn
    (toUInt8 (st.resize.pos - 1)) hrgn hwf (fun _ => hiwf) hdim hdef hzone
    (fun _ _ _ => True) (fun _ _ _ _ _ _ _ _ => trivial)
  have hwf1 := instrument_wellFormed_of_sameShape _ _ hsh1 hiwf
  obtain ⟨m2b, hb, hch⟩ := broadcastAll_spec m1 hwf1 st.resize (toUInt8 (st.resize.pos - 1))
    none none (fun _ _ => False) (by rw [hdef]; exact hzone) (by intro r0 i0 h; simp at h)
  have hm2 : m2b = m2 := by
    have h := hrun
    unfold updateOther at h
    rw [hloop] at h
    simp only [hall, if_true] at h
    rw [hb] at h
    simpa using h
  subst hm2
  have hmainEq : update_after_resize st =
      (updateOther st r rgn (toUInt8 (st.resize.pos - 1))
        (bitposOf rgn st.resize.dimension)).map (fun m => { st with instr := m }) := by
    unfold update_after_resize
    simp only [hregion, hrgn, hkind, if_false]
  rw [hmainEq, hrun]
  refine ⟨_, rfl, ?_⟩
  intro s hs hsome
  simp only
  by_cases hzs : zoneBits s (bitposOf g iDim) (g.dimDef iDim).bits = st.resize.zone
  · simp only [hzs, if_true]
    apply hzw hall key r1 hkey hget g dd iDim hg hdd hzones (Or.inl rfl) hi s hs hzs
    rw [slot_of_regionAt _ r1 g _ hg]
    exact hsome
  · simp only [hzs, if_false]
    rcases hch.2.1 r1 (s : Int) iDim with h | ⟨hP, _⟩
    · rw [h, hfr1 r1 _ _ (Or.inl hne)]
    · obtain ⟨g1, s1, hg1, _, hs1, _, hz1⟩ := hP
      have hs_eq : s = s1 := by exact_mod_cast hs1
      subst hs_eq
      obtain ⟨g0, hg0, hdefs, _⟩ := sameShape_regionAt _ _ (sameShape_symm _ _ hsh1) r1 g1 hg1
      rw [hg] at hg0
      simp only [Option.some.injEq] at hg0
      subst hg0
      rw [bitposOf_congr g1 g hdefs.symm, dimDef_congr g1 g hdefs.symm] at hz1
      exact absurd hz1 hzs

set_option maxRecDepth 1000000 in
/-- C15, witness: the instrument has the example region (A in bits 0..1, B in
bit 2) and a region with the same dimensions in the other order (B in bit 0,
A in bits 1..2); with all regions set the boundary above zone 0 of A is
dragged to position 30 in the first region: in the second region the slots 0
and 1 (zone 0 of A with both zones of B) hold 29 in the entry of A, the other
slots keep 0. -/
theorem update_after_resize_other_all_regions_witness :
    (update_after_resize (pairResizing siblingRegion)).map (fun st1 =>
      [0, 1, 2, 3, 4, 5].map (fun s => st1.instr.dul 1 s 1)) =
      some [some 29, some 29, some 0, some 0, some 0, some 0] ∧
    ∃ st1, update_after_resize (pairResizing siblingRegion) = some st1 ∧
      ∀ s : Nat, s < 256 → (siblingRegion.dimRgn (s : Int)).isSome = true →
        st1.instr.dul 1 (s : Int) 1 =
          if zoneBits s (bitposOf siblingRegion 1) (siblingRegion.dimDef 1).bits =
              (pairResizing siblingRegion).resize.zone
          then some (toUInt8 ((pairResizing siblingRegion).resize.pos - 1))
          else (pairResizing siblingRegion).instr.dul 1 (s : Int) 1 :=
  ⟨by decide,
   update_after_resize_other_all_regions (pairResizing siblingRegion) 0 1 64 1 exampleRegion
     siblingRegion (mkDef 1 2 3) (by decide) (by decide) exampleRegion_wellFormed
     (pairInstrument_wellFormed _ _ exampleRegion_wellFormed siblingRegion_wellFormed)
     (by decide) (by decide) (by decide) (by decide) (by decide) (by decide) (by decide)
     (by decide) (by decide) (by decide) (by decide) (by decide)⟩

set_option maxRecDepth 1000000 in
/-- C15, counterexample: the instrument has the example region (A in bits
0..1, B in bit 2) and a region with the same dimensions in the other order;
the main selection is slot 0 of the first region, whose case is A:0, B:0, and
in the second region only slot 0 matches that case.  With all regions set the
boundary above zone 0 of A (not a velocity dimension) is dragged to position
30: in the second region slot 1, whose case is A:0, B:1, receives the new
limit 29 as well. -/
theorem update_after_resize_exact_case_counterexample :
    (pairResizing siblingRegion).modifyallregions = true ∧
    ((pairResizing siblingRegion).maindimregno, (pairResizing siblingRegion).resize.dimension,
      (pairResizing siblingRegion).resize.zone, (pairResizing siblingRegion).resize.pos) =
      (0, 0, 0, 30) ∧
    (exampleRegion.dimDef 0).dimension ≠ dimension_velocity ∧
    dimensionCaseOf exampleRegion (some 100) = [(1, 0), (2, 0)] ∧
    dimensionRegionsMatching (dimensionCaseOf exampleRegion (some 100)) siblingRegion = [0] ∧
    dimensionCaseOf siblingRegion (some 101) = [(1, 0), (2, 1)] ∧
    [0, 1].map (fun s => (pairResizing siblingRegion).instr.dul 1 s 1) = [some 0, some 0] ∧
    (update_after_resize (pairResizing siblingRegion)).map (fun st1 =>
      [0, 1].map (fun s => st1.instr.dul 1 s 1)) = some [some 29, some 29] :=
  ⟨by decide, by decide, by decide, by decide, by decide, by decide, by decide, by decide⟩

/-! ## The resize zones of is_in_resize_zone (C16, C17) -/

/-- The loop over iZone of is_in_resize_zone returns when the slots it reads
are non-null; when it reports a boundary, the pointer is more than 2 pixels to
the right of all earlier boundaries and within (limitx - 2, limitx + 2] of the
reported one; when it reports none, the pointer is to the right of all
boundaries or at most at limitx - 2 of the first boundary it is not to the
right of. -/
theorem resizeZoneLoop_spec (st : DimRegionChooser) (rgn : Region) (dim bitpos : Nat) (c : Int)
    (cs : Bool) (x : Int) :
    ∀ (n iZone : Nat) (prev : Int),
      (∀ i, iZone ≤ i → i ≤ iZone + n → (zoneLimitAt rgn dim bitpos c cs i).isSome = true) →
      ∃ res, resizeZoneLoop st rgn (rgn.dimDef dim) dim bitpos c cs x n iZone prev = some res ∧
        (∀ rs, res = some rs →
          iZone ≤ rs.zone ∧ rs.zone < iZone + n ∧
          (∀ i, iZone ≤ i → i < rs.zone → boundaryColumn st rgn dim bitpos c cs i + 2 < x) ∧
          boundaryColumn st rgn dim bitpos c cs rs.zone - 2 < x ∧
          x ≤ boundaryColumn st rgn dim bitpos c cs rs.zone + 2 ∧
          rs.active = st.resize.active ∧ rs.dimension = dim ∧
          rs.dimensionDef = rgn.dimDef dim ∧
          zoneLimitAt rgn dim bitpos c cs rs.zone = some (rs.pos - 1) ∧
          zoneLimitAt rgn dim bitpos c cs (rs.zone + 1) = some (rs.max - 1)) ∧
        (res = none →
          (∀ i, iZone ≤ i → i < iZone + n → boundaryColumn st rgn dim bitpos c cs i + 2 < x) ∨
          ∃ j, iZone ≤ j ∧ j < iZone + n ∧
            (∀ i, iZone ≤ i → i < j → boundaryColumn st rgn dim bitpos c cs i + 2 < x) ∧
            x ≤ boundaryColumn st rgn dim bitpos c cs j - 2) := by
  intro n
  induction n with
  | zero =>
    intro iZone prev _
    refine ⟨none, rfl, ?_, ?_⟩
    · intro rs h; exact Option.noConfusion h
    · intro _; left; intro i h1 h2; omega
  | succ n ih =>
    intro iZone prev hs
    obtain ⟨u, hu⟩ := Option.isSome_iff_exists.1 (hs iZone (Nat.le_refl _) (by omega))
    obtain ⟨u2, hu2⟩ := Option.isSome_iff_exists.1 (hs (iZone + 1) (by omega) (by omega))
    have hcol : boundaryColumn st rgn dim bitpos c cs iZone =
        limitColumn st.width st.label_width (u + 1) := by
      unfold boundaryColumn
      rw [hu]
      rfl
    have hu' := hu
    have hu2' := hu2
    unfold zoneLimitAt at hu' hu2'
    rw [resizeZoneLoop]
    simp only [hu']
    by_cases h1 : x ≤ limitColumn st.width st.label_width (u + 1) - 2
    · simp only [h1, if_true]
      refine ⟨none, rfl, ?_, ?_⟩
      · intro rs h; exact Option.noConfusion h
      · intro _
        right
        refine ⟨iZone, Nat.le_refl _, by omega, ?_, by rw [hcol]; exact h1⟩
        intro i hi1 hi2
        omega
    · simp only [h1, if_false]
      by_cases h2 : x ≤ limitColumn st.width st.label_width (u + 1) + 2
      · simp only [h2, if_true, hu2']
        refine ⟨_, rfl, ?_, ?_⟩
        · intro rs hrs
          simp only [Option.some.injEq] at hrs
          subst hrs
          simp only
          refine ⟨Nat.le_refl _, by omega, ?_, by rw [hcol]; omega, by rw [hcol]; exact h2,
            trivial, trivial, trivial, ?_, ?_⟩
          · intro i hi1 hi2
            omega
          · rw [hu]; simp
          · rw [hu2]; simp
        · intro h; exact Option.noConfusion h
      · simp only [h2, if_false]
        obtain ⟨res, hres, hsome, hnone⟩ := ih (iZone + 1) (u + 1) (by
          intro i hi1 hi2
          exact hs i (by omega) (by omega))
        refine ⟨res, hres, ?_, ?_⟩
        · intro rs hrs
          obtain ⟨a1, a2, a3, a4⟩ := hsome rs hrs
          refine ⟨by omega, by omega, ?_, a4⟩
          intro i hi1 hi2
          by_cases hi : i = iZone
          · subst hi
            rw [hcol]
            omega
          · exact a3 i (by omega) hi2
        · intro hrn
          rcases hnone hrn with h | ⟨j, hj1, hj2, hj3, hj4⟩
          · left
            intro i hi1 hi2
            by_cases hi : i = iZone
            · subst hi
              rw [hcol]
              omega
            · exact h i (by omega) (by omega)
          · right
            refine ⟨j, by omega, by omega, ?_, hj4⟩
            intro i hi1 hi2
            by_cases hi : i = iZone
            · subst hi
              rw [hcol]
              omega
            · exact hj3 i (by omega) hi2

/-- C16: for every pointer position whose row belongs to a dimension of the
bit-exact split type (the dimension region in slot c being non-null where the
test of customsplits reads it, that is for a velocity dimension),
is_in_resize_zone returns false and leaves the widget state, the resize
descriptor included, unchanged; so on_button_press_event does not start a
resize drag there. -/
theorem is_in_resize_zone_bit_split (st : DimRegionChooser) (x y : Int) (r : Nat) (rgn : Region)
    (hregion : st.region = some r) (hrgn : st.instr.regionAt r = some rgn)
    (hbit : (rgn.dimDef (rowOf st rgn y).1).split_type = split_type_t.split_type_bit)
    (hslot : (rgn.dimDef (rowOf st rgn y).1).dimension = dimension_velocity →
      (rgn.dimRgn (baseSlot st rgn (rowOf st rgn y).1 (rowOf st rgn y).2)).isSome = true) :
    is_in_resize_zone st x y = some (false, st) ∧ startDrag st x y = none := by
  have hcs : ∃ b, customSplits rgn (rgn.dimDef (rowOf st rgn y).1) (rowOf st rgn y).1
      (baseSlot st rgn (rowOf st rgn y).1 (rowOf st rgn y).2) = some b := by
    unfold customSplits
    have hn : ¬ (rgn.dimDef (rowOf st rgn y).1).split_type = split_type_t.split_type_normal := by
      rw [hbit]; decide
    simp only [hn, if_false]
    by_cases hv : (rgn.dimDef (rowOf st rgn y).1).dimension = dimension_velocity
    · obtain ⟨d, hd⟩ := Option.isSome_iff_exists.1 (hslot hv)
      simp only [hv, if_true, hd, Option.map_some']
      exact ⟨_, rfl⟩
    · simp only [hv, if_false]
      exact ⟨_, rfl⟩
  obtain ⟨b, hb⟩ := hcs
  have hmain : is_in_resize_zone st x y = some (false, st) := by
    unfold is_in_resize_zone
    simp only [hregion, hrgn]
    split
    · have hb' := hb
      unfold rowOf baseSlot at hb'
      simp only [hb']
      have hbit' := hbit
      unfold rowOf at hbit'
      simp only [hbit', ne_eq, not_true_eq_false, if_false]
    · rfl
  refine ⟨hmain, ?_⟩
  unfold startDrag
  rw [hmain]

/-- C16, witness: the second row of the region with a velocity and a layer
dimension belongs to the layer dimension, which is bit-exact split; at x = 64,
where the first row has a boundary, is_in_resize_zone returns false in the
second row. -/
theorem is_in_resize_zone_bit_split_witness :
    (velocityLayerRegion.dimDef (rowOf plainChooser velocityLayerRegion 30).1).dimension =
      dimension_layer ∧
    (is_in_resize_zone plainChooser 64 0).map (fun res => res.1) = some true ∧
    is_in_resize_zone plainChooser 64 30 = some (false, plainChooser) ∧
    startDrag plainChooser 64 30 = none :=
  ⟨by decide, by decide,
   is_in_resize_zone_bit_split plainChooser 64 30 0 velocityLayerRegion (by decide) (by decide)
     (by decide) (fun h => absurd h (by decide))⟩

/-- C17, amended: for a pointer inside the zone area, in the row of a dimension
that is not bit-exact split, whose boundary columns limitx_i are non-decreasing
in i (the slots that the loop reads being non-null), is_in_resize_zone returns;
it returns true exactly when limitx_i - 2 < x <= limitx_i + 2 for some interior
boundary i, and then resize.zone is the first boundary whose column is not more
than 2 pixels to the left of x, the pointer being within
(limitx - 2, limitx + 2] of that boundary; when it returns false the widget
state is unchanged.  The position x = limitx_i - 2 is not in the resize zone. -/
theorem is_in_resize_zone_hit (st : DimRegionChooser) (x y : Int) (r : Nat) (rgn : Region)
    (cs : Bool)
    (hregion : st.region = some r) (hrgn : st.instr.regionAt r = some rgn)
    (hguard : y < st.nbDimensions * st.h ∧ x ≥ st.label_width ∧ x < st.width)
    (hnorm : (rgn.dimDef (rowOf st rgn y).1).split_type ≠ split_type_t.split_type_bit)
    (hcs : customSplits rgn (rgn.dimDef (rowOf st rgn y).1) (rowOf st rgn y).1
      (baseSlot st rgn (rowOf st rgn y).1 (rowOf st rgn y).2) = some cs)
    (hslots : ∀ i, i ≤ (rgn.dimDef (rowOf st rgn y).1).zones - 1 →
      (zoneLimitAt rgn (rowOf st rgn y).1 (rowOf st rgn y).2
        (baseSlot st rgn (rowOf st rgn y).1 (rowOf st rgn y).2) cs i).isSome = true)
    (hmono : ∀ i j, i ≤ j → j < (rgn.dimDef (rowOf st rgn y).1).zones - 1 →
      boundaryColumn st rgn (rowOf st rgn y).1 (rowOf st rgn y).2
          (baseSlot st rgn (rowOf st rgn y).1 (rowOf st rgn y).2) cs i ≤
        boundaryColumn st rgn (rowOf st rgn y).1 (rowOf st rgn y).2
          (baseSlot st rgn (rowOf st rgn y).1 (rowOf st rgn y).2) cs j) :
    ∃ res, is_in_resize_zone st x y = some res ∧
      (res.1 = true ↔ ∃ i, i < (rgn.dimDef (rowOf st rgn y).1).zones - 1 ∧
        boundaryColumn st rgn (rowOf st rgn y).1 (rowOf st rgn y).2
            (baseSlot st rgn (rowOf st rgn y).1 (rowOf st rgn y).2) cs i - 2 < x ∧
        x ≤ boundaryColumn st rgn (rowOf st rgn y).1 (rowOf st rgn y).2
            (baseSlot st rgn (rowOf st rgn y).1 (rowOf st rgn y).2) cs i + 2) ∧
      (res.1 = true →
        res.2.resize.zone < (rgn.dimDef (rowOf st rgn y).1).zones - 1 ∧
        res.2.resize.dimension = (rowOf st rgn y).1 ∧
        (∀ i, i < res.2.resize.zone →
          boundaryColumn st rgn (rowOf st rgn y).1 (rowOf st rgn y).2
            (baseSlot st rgn (rowOf st rgn y).1 (rowOf st rgn y).2) cs i + 2 < x) ∧
        boundaryColumn st rgn (rowOf st rgn y).1 (rowOf st rgn y).2
            (baseSlot st rgn (rowOf st rgn y).1 (rowOf st rgn y).2) cs res.2.resize.zone - 2 < x ∧
        x ≤ boundaryColumn st rgn (rowOf st rgn y).1 (rowOf st rgn y).2
            (baseSlot st rgn (rowOf st rgn y).1 (rowOf st rgn y).2) cs res.2.resize.zone + 2) ∧
      (res.1 = false → res.2 = st) := by
  obtain ⟨lres, hloop, hsome, hnone⟩ := resizeZoneLoop_spec st rgn (rowOf st rgn y).1
    (rowOf st rgn y).2 (baseSlot st rgn (rowOf st rgn y).1 (rowOf st rgn y).2) cs x
    ((rgn.dimDef (rowOf st rgn y).1).zones - 1) 0 0 (by
      intro i _ hi
      exact hslots i (by omega))
  have hrun : is_in_resize_zone st x y =
      match lres with
      | none => some (false, st)
      | some rs => some (true, { st with resize := rs }) := by
    unfold is_in_resize_zone
    simp only [hregion, hrgn, hguard, and_self, if_true]
    have hcs' := hcs
    have hloop' := hloop
    have hnorm' := hnorm
    unfold rowOf baseSlot at hcs' hloop'
    unfold rowOf at hnorm'
    simp only [hcs', hnorm', ne_eq, not_false_eq_true, if_true, hloop']
    cases lres <;> rfl
  cases lres with
  | none =>
    refine ⟨(false, st), hrun, ?_, ?_, fun _ => rfl⟩
    · constructor
      · intro h; exact Bool.noConfusion h
      · rintro ⟨i, hi, h1, h2⟩
        exfalso
        rcases hnone rfl with h | ⟨j, _, hj2, hj3, hj4⟩
        · have := h i (Nat.zero_le _) (by omega)
          omega
        · by_cases hij : i < j
          · have := hj3 i (Nat.zero_le _) hij
            omega
          · have := hmono j i (by omega) hi
            omega
    · intro h; exact Bool.noConfusion h
  | some rs =>
    obtain ⟨_, a2, a3, a4, a5, _, a7, _⟩ := hsome rs rfl
    refine ⟨(true, { st with resize := rs }), hrun, ?_, ?_, fun h => Bool.noConfusion h⟩
    · constructor
      · intro _
        exact ⟨rs.zone, by omega, a4, a5⟩
      · intro _; rfl
    · intro _
      exact ⟨by simp only; omega, a7, fun i hi => a3 i (Nat.zero_le _) hi, a4, a5⟩

set_option maxRecDepth 1000000 in
/-- C17, witness: the region with one velocity dimension of 5 zones, widget 129
pixels wide: the boundary columns are 25, 50, 75, 100; at x = 52 in the first
row is_in_resize_zone returns true and records zone 1. -/
theorem is_in_resize_zone_hit_witness :
    [0, 1, 2, 3].map (fun i => boundaryColumn fiveZoneChooser fiveZoneRegion 0 0 0 false i) =
      [25, 50, 75, 100] ∧
    (is_in_resize_zone fiveZoneChooser 52 0).map (fun res => (res.1, res.2.resize.zone)) =
      some (true, 1) ∧
    ∃ res, is_in_resize_zone fiveZoneChooser 52 0 = some res ∧
      (res.1 = true ↔ ∃ i, i < (fiveZoneRegion.dimDef
          (rowOf fiveZoneChooser fiveZoneRegion 0).1).zones - 1 ∧
        boundaryColumn fiveZoneChooser fiveZoneRegion (rowOf fiveZoneChooser fiveZoneRegion 0).1
            (rowOf fiveZoneChooser fiveZoneRegion 0).2
            (baseSlot fiveZoneChooser fiveZoneRegion (rowOf fiveZoneChooser fiveZoneRegion 0).1
              (rowOf fiveZoneChooser fiveZoneRegion 0).2) false i - 2 < 52 ∧
        52 ≤ boundaryColumn fiveZoneChooser fiveZoneRegion
            (rowOf fiveZoneChooser fiveZoneRegion 0).1 (rowOf fiveZoneChooser fiveZoneRegion 0).2
            (baseSlot fiveZoneChooser fiveZoneRegion (rowOf fiveZoneChooser fiveZoneRegion 0).1
              (rowOf fiveZoneChooser fiveZoneRegion 0).2) false i + 2) ∧
      (res.1 = true →
        res.2.resize.zone < (fiveZoneRegion.dimDef
          (rowOf fiveZoneChooser fiveZoneRegion 0).1).zones - 1 ∧
        res.2.resize.dimension = (rowOf fiveZoneChooser fiveZoneRegion 0).1 ∧
        (∀ i, i < res.2.resize.zone →
          boundaryColumn fiveZoneChooser fiveZoneRegion
            (rowOf fiveZoneChooser fiveZoneRegion 0).1 (rowOf fiveZoneChooser fiveZoneRegion 0).2
            (baseSlot fiveZoneChooser fiveZoneRegion (rowOf fiveZoneChooser fiveZoneRegion 0).1
              (rowOf fiveZoneChooser fiveZoneRegion 0).2) false i + 2 < 52) ∧
        boundaryColumn fiveZoneChooser fiveZoneRegion
            (rowOf fiveZoneChooser fiveZoneRegion 0).1 (rowOf fiveZoneChooser fiveZoneRegion 0).2
            (baseSlot fiveZoneChooser fiveZoneRegion (rowOf fiveZoneChooser fiveZoneRegion 0).1
              (rowOf fiveZoneChooser fiveZoneRegion 0).2) false res.2.resize.zone - 2 < 52 ∧
        52 ≤ boundaryColumn fiveZoneChooser fiveZoneRegion
            (rowOf fiveZoneChooser fiveZoneRegion 0).1 (rowOf fiveZoneChooser fiveZoneRegion 0).2
            (baseSlot fiveZoneChooser fiveZoneRegion (rowOf fiveZoneChooser fiveZoneRegion 0).1
              (rowOf fiveZoneChooser fiveZoneRegion 0).2) false res.2.resize.zone + 2) ∧
      (res.1 = false → res.2 = fiveZoneChooser) :=
  ⟨by decide, by decide,
   is_in_resize_zone_hit fiveZoneChooser 52 0 0 fiveZoneRegion false (by decide) (by decide)
     (by decide) (by decide) (by decide)
     (by
       have h : ∀ i, i < 5 → (zoneLimitAt fiveZoneRegion
           (rowOf fiveZoneChooser fiveZoneRegion 0).1 (rowOf fiveZoneChooser fiveZoneRegion 0).2
           (baseSlot fiveZoneChooser fiveZoneRegion (rowOf fiveZoneChooser fiveZoneRegion 0).1
             (rowOf fiveZoneChooser fiveZoneRegion 0).2) false i).isSome = true := by decide
       have hz : (fiveZoneRegion.dimDef (rowOf fiveZoneChooser fiveZoneRegion 0).1).zones - 1 = 4 :=
         by decide
       intro i hi
       exact h i (by omega))
     (by
       have h : ∀ j, j < 4 → ∀ i, i < j + 1 →
           boundaryColumn fiveZoneChooser fiveZoneRegion
             (rowOf fiveZoneChooser fiveZoneRegion 0).1 (rowOf fiveZoneChooser fiveZoneRegion 0).2
             (baseSlot fiveZoneChooser fiveZoneRegion (rowOf fiveZoneChooser fiveZoneRegion 0).1
               (rowOf fiveZoneChooser fiveZoneRegion 0).2) false i ≤
           boundaryColumn fiveZoneChooser fiveZoneRegion
             (rowOf fiveZoneChooser fiveZoneRegion 0).1 (rowOf fiveZoneChooser fiveZoneRegion 0).2
             (baseSlot fiveZoneChooser fiveZoneRegion (rowOf fiveZoneChooser fiveZoneRegion 0).1
               (rowOf fiveZoneChooser fiveZoneRegion 0).2) false j := by decide
       have hz : (fiveZoneRegion.dimDef (rowOf fiveZoneChooser fiveZoneRegion 0).1).zones - 1 = 4 :=
         by decide
       intro i j hij hj
       exact h j (by omega) i (by omega))⟩

/-- C17, counterexample: the region with one velocity dimension of 5 zones
(not bit-exact split), widget 129 pixels wide, boundary columns 25, 50, 75,
100.  The pointer at x = 48 in the first row is inside the zone area and
exactly 2 pixels left of the boundary column 50, yet is_in_resize_zone returns
false (the loop leaves at x <= limitx - 2); at x = 49 and at x = 52 it returns
true. -/
theorem is_in_resize_zone_hit_counterexample :
    fiveZoneChooser.region = some 0 ∧
    (fiveZoneRegion.dimDef (rowOf fiveZoneChooser fiveZoneRegion 0).1).split_type =
      split_type_t.split_type_normal ∧
    [0, 1, 2, 3].map (fun i => boundaryColumn fiveZoneChooser fiveZoneRegion 0 0 0 false i) =
      [25, 50, 75, 100] ∧
    ((0 : Int) < fiveZoneChooser.nbDimensions * fiveZoneChooser.h ∧
      fiveZoneChooser.label_width ≤ 48 ∧ (48 : Int) < fiveZoneChooser.width) ∧
    is_in_resize_zone fiveZoneChooser 48 0 = some (false, fiveZoneChooser) ∧
    (is_in_resize_zone fiveZoneChooser 49 0).map (fun res => (res.1, res.2.resize.zone)) =
      some (true, 1) ∧
    (is_in_resize_zone fiveZoneChooser 52 0).map (fun res => (res.1, res.2.resize.zone)) =
      some (true, 1) ∧
    is_in_resize_zone fiveZoneChooser 53 0 = some (false, fiveZoneChooser) :=
  ⟨by decide, by decide, by decide, by decide, by decide, by decide, by decide, by decide⟩

/-! ## The end of a resize drag (C18) -/

theorem resizeZoneLoop_active (st : DimRegionChooser) (rgn : Region) (df : dimension_def_t)
    (dim bitpos : Nat) (c : Int) (cs : Bool) (x : Int) :
    ∀ (n iZone : Nat) (prev : Int) (rs : resize_t),
      resizeZoneLoop st rgn df dim bitpos c cs x n iZone prev = some (some rs) →
      rs.active = st.resize.active := by
  intro n
  induction n with
  | zero =>
    intro iZone prev rs h
    simp [resizeZoneLoop] at h
  | succ n ih =>
    intro iZone prev rs h
    rw [resizeZoneLoop] at h
    split at h
    · exact Option.noConfusion h
    · simp only at h
      split at h
      · simp at h
      · split at h
        · split at h
          · exact Option.noConfusion h
          · simp only [Option.some.injEq] at h
            rw [← h]
        · exact ih _ _ _ h

/-- The method is_in_resize_zone changes nothing but the resize descriptor, and
not its field active. -/
theorem is_in_resize_zone_frame (st : DimRegionChooser) (x y : Int) (res : Bool × DimRegionChooser)
    (h : is_in_resize_zone st x y = some res) :
    res.2.resize.active = st.resize.active ∧ res.2.emitted = st.emitted ∧
      res.2.cursor_is_resize = st.cursor_is_resize := by
  unfold is_in_resize_zone at h
  split at h
  · simp only [Option.some.injEq] at h
    rw [← h]
    exact ⟨rfl, rfl, rfl⟩
  · split at h
    · split at h
      · exact Option.noConfusion h
      · simp only at h
        split at h
        · exact Option.noConfusion h
        · split at h
          · split at h
            · exact Option.noConfusion h
            · simp only [Option.some.injEq] at h
              rw [← h]
              exact ⟨rfl, rfl, rfl⟩
            · rename_i hloop
              simp only [Option.some.injEq] at h
              rw [← h]
              exact ⟨resizeZoneLoop_active _ _ _ _ _ _ _ _ _ _ _ _ hloop, rfl, rfl⟩
          · simp only [Option.some.injEq] at h
            rw [← h]
            exact ⟨rfl, rfl, rfl⟩
    · simp only [Option.some.injEq] at h
      rw [← h]
      exact ⟨rfl, rfl, rfl⟩

/-- C18: for every widget state and pointer position, on_button_release_event
returns (when a resize is active, provided the call of is_in_resize_zone it
makes returns), leaves resize.active false, and emits region_changed exactly
when resize.active was true before the call: the log of notifications gains
region_changed in that case and is unchanged otherwise; and the constructor
leaves resize.active false, whatever the memory held. -/
theorem on_button_release_event_spec (st mem : DimRegionChooser) (x y : Int)
    (hret : st.resize.active = true → (is_in_resize_zone (releaseGrab st) x y).isSome = true) :
    (∃ st1, on_button_release_event st x y = some st1 ∧ st1.resize.active = false ∧
      st1.emitted = if st.resize.active then Signal.region_changed :: st.emitted
                    else st.emitted) ∧
    (DimRegionChooser.construct mem).resize.active = false := by
  refine ⟨?_, rfl⟩
  unfold on_button_release_event
  by_cases ha : st.resize.active = true
  · obtain ⟨res, hres⟩ := Option.isSome_iff_exists.1 (hret ha)
    obtain ⟨h1, h2, _⟩ := is_in_resize_zone_frame _ _ _ _ hres
    simp only [ha, if_true, hres]
    obtain ⟨b, st1⟩ := res
    cases b with
    | true => exact ⟨st1, rfl, h1, h2⟩
    | false =>
      simp only
      by_cases hc : st1.cursor_is_resize = true
      · simp only [hc, if_true]
        exact ⟨_, rfl, h1, h2⟩
      · simp only [hc]
        exact ⟨st1, by simp, h1, h2⟩
  · have hf : st.resize.active = false := by
      cases h : st.resize.active with
      | true => exact absurd h ha
      | false => rfl
    simp only [hf]
    exact ⟨st, by simp, hf, by simp⟩

set_option maxRecDepth 1000000 in
/-- C18, witness: the drag started on the region with 5 velocity zones is
released at x = 10, outside all resize zones: the handler returns with
resize.active false and region_changed as the only new notification; released
again, it changes nothing. -/
theorem on_button_release_event_spec_witness :
    fiveZoneDragging.resize.active = true ∧
    (on_button_release_event fiveZoneDragging 10 0).map
      (fun st1 => (st1.resize.active, st1.emitted)) =
      some (false, Signal.region_changed :: fiveZoneDragging.emitted) ∧
    ((on_button_release_event fiveZoneDragging 10 0).bind
      (fun st1 => on_button_release_event st1 10 0)) =
      on_button_release_event fiveZoneDragging 10 0 ∧
    ((∃ st1, on_button_release_event fiveZoneDragging 10 0 = some st1 ∧
      st1.resize.active = false ∧
      st1.emitted = if fiveZoneDragging.resize.active
                    then Signal.region_changed :: fiveZoneDragging.emitted
                    else fiveZoneDragging.emitted) ∧
    (DimRegionChooser.construct fiveZoneDragging).resize.active = false) :=
  ⟨by decide, by decide, by decide,
   on_button_release_event_spec fiveZoneDragging fiveZoneDragging 10 0 (fun _ => by decide)⟩

/-! ## The key loop of split_dimension_zone and delete_dimension_zone (C19, C20) -/

theorem regionAt_set (m : Instrument) (r r1 : Nat) (g1 : Region) :
    Instrument.regionAt { m with regions := m.regions.set r g1 } r1 =
      if r = r1 then (m.regionAt r1).map (fun _ => g1) else m.regionAt r1 := by
  unfold Instrument.regionAt
  simp only [List.getElem?_set]
  by_cases h : r = r1
  · subst h
    simp only [if_true]
    by_cases hl : r < m.regions.length
    · simp [hl, List.getElem?_eq_getElem hl]
    · simp [hl, List.getElem?_eq_none (Nat.le_of_not_lt hl)]
  · simp [h]

theorem perm_snoc_mid (c m k v : List Nat) (r : Nat) (h : (c ++ m ++ k).Perm v) :
    (c ++ (m ++ [r]) ++ k).Perm (v ++ [r]) := by
  rw [List.perm_iff_count] at h ⊢
  intro a
  have := h a
  simp only [List.count_append] at this ⊢
  omega

theorem perm_snoc_last (c m k v : List Nat) (r : Nat) (h : (c ++ m ++ k).Perm v) :
    (c ++ m ++ (k ++ [r])).Perm (v ++ [r]) := by
  rw [List.perm_iff_count] at h ⊢
  intro a
  have := h a
  simp only [List.count_append] at this ⊢
  omega

theorem perm_snoc_first (c m k v : List Nat) (r : Nat) (h : (c ++ m ++ k).Perm v) :
    (c ++ [r] ++ m ++ k).Perm (v ++ [r]) := by
  rw [List.perm_iff_count] at h ⊢
  intro a
  have := h a
  simp only [List.count_append] at this ⊢
  omega

theorem perm_all_minor (a m k : List Nat) (r : Nat) (h : a.Perm (m ++ k)) :
    (a ++ [r]).Perm (m ++ [r] ++ k) := by
  rw [List.perm_iff_count] at h ⊢
  intro x
  have := h x
  simp only [List.count_append] at this ⊢
  omega

theorem perm_all_critical (a m k : List Nat) (r : Nat) (h : a.Perm (m ++ k)) :
    (a ++ [r]).Perm (m ++ (k ++ [r])) := by
  rw [List.perm_iff_count] at h ⊢
  intro x
  have := h x
  simp only [List.count_append] at this ⊢
  omega

/-- The key loop of split_dimension_zone and delete_dimension_zone returns when
every region that a key maps to exists; it keeps the invariant, only adds to
the log of visits, and, unless it is left by an exception, visits every region
that one of its keys maps to. -/
theorem zoneLoop_spec (method : Region → dimension_t → Int → Option Region)
    (type : dimension_t) (zone : Int) (zones : Nat) (m0 : Instrument)
    (hkeys : ∀ key r, m0.GetRegion key = some r → (m0.regionAt r).isSome = true) :
    ∀ (keys : List Nat) (s : ZoneLoop), ZoneLoopInv m0 type zones s →
      ∃ s1 thrown, zoneLoop method type zone zones keys s = some (s1, thrown) ∧
        ZoneLoopInv m0 type zones s1 ∧
        (∀ r, r ∈ s.visited → r ∈ s1.visited) ∧
        (thrown = false → ∀ key r, key ∈ keys → m0.GetRegion key = some r →
          r ∈ s1.visited) := by
  intro keys
  induction keys with
  | nil =>
    intro s hinv
    exact ⟨s, false, rfl, hinv, fun _ h => h, fun _ key r h => by simp at h⟩
  | cons key rest ih =>
    intro s hinv
    have hget : s.instr.GetRegion key = m0.GetRegion key := by
      unfold Instrument.GetRegion
      rw [hinv.table]
    rw [zoneLoop, hget]
    cases hg : m0.GetRegion key with
    | none =>
      simp only
      obtain ⟨s1, thrown, h1, h2, h3, h4⟩ := ih s hinv
      refine ⟨s1, thrown, h1, h2, h3, ?_⟩
      intro ht key1 r1 hk hr
      rcases List.mem_cons.1 hk with h | h
      · subst h
        rw [hg] at hr
        exact Option.noConfusion hr
      · exact h4 ht key1 r1 h hr
    | some r =>
      simp only
      by_cases hlast : s.rgn = some r
      · simp only [hlast, if_true]
        obtain ⟨s1, thrown, h1, h2, h3, h4⟩ := ih s hinv
        refine ⟨s1, thrown, h1, h2, h3, ?_⟩
        intro ht key1 r1 hk hr
        rcases List.mem_cons.1 hk with h | h
        · subst h
          rw [hg] at hr
          simp only [Option.some.injEq] at hr
          subst hr
          exact h3 _ (hinv.last _ hlast)
        · exact h4 ht key1 r1 h hr
      · simp only [hlast, if_false]
        have hsome : (s.instr.regionAt r).isSome = true := by
          rw [hinv.exist]
          exact hkeys key r hg
        obtain ⟨g, hgr⟩ := Option.isSome_iff_exists.1 hsome
        rw [hgr]
        simp only
        -- what the visit of r adds to the result of the rest of the loop
        have hstep : ∀ s2 : ZoneLoop, ZoneLoopInv m0 type zones s2 →
            (∀ r1, r1 ∈ s.visited → r1 ∈ s2.visited) → r ∈ s2.visited →
            ∃ s1 thrown, zoneLoop method type zone zones rest s2 = some (s1, thrown) ∧
              ZoneLoopInv m0 type zones s1 ∧
              (∀ r1, r1 ∈ s.visited → r1 ∈ s1.visited) ∧
              (thrown = false → ∀ key1 r1, key1 ∈ key :: rest → m0.GetRegion key1 = some r1 →
                r1 ∈ s1.visited) := by
          intro s2 hinv2 hmono hr2
          obtain ⟨s1, thrown, h1, h2, h3, h4⟩ := ih s2 hinv2
          refine ⟨s1, thrown, h1, h2, fun r1 h => h3 r1 (hmono r1 h), ?_⟩
          intro ht key1 r1 hk hr
          rcases List.mem_cons.1 hk with h | h
          · subst h
            rw [hg] at hr
            simp only [Option.some.injEq] at hr
            subst hr
            exact h3 _ hr2
          · exact h4 ht key1 r1 h hr
        -- the region is as in m0 unless the method has been called on it
        have horig : r ∉ s.called → m0.regionAt r = some g := by
          intro h
          rw [← hinv.unchanged r h]
          exact hgr
        cases hdd : g.GetDimensionDefinition type with
        | none =>
          simp only
          apply hstep
          · refine ⟨hinv.table, hinv.exist, hinv.unchanged, hinv.called_ok, ?_, ?_, ?_, ?_, ?_,
              hinv.critical_ok⟩
            · intro r1 hv hz
              rcases List.mem_append.1 hv with h | h
              · exact hinv.visited_ok r1 h hz
              · simp only [List.mem_singleton] at h
                subst h
                by_contra hc
                obtain ⟨g0, dd0, hg0, hdd0, _⟩ := hz
                rw [horig hc] at hg0
                simp only [Option.some.injEq] at hg0
                subst hg0
                rw [hdd] at hdd0
                exact Option.noConfusion hdd0
            · intro r1 h
              simp only [Option.some.injEq] at h
              subst h
              exact List.mem_append_right _ (List.mem_singleton_self _)
            · exact perm_snoc_mid _ _ _ _ _ hinv.classes
            · exact perm_all_minor _ _ _ _ hinv.all
            · intro r1 hm hc
              rcases List.mem_append.1 hm with h | h
              · exact hinv.minor_ok r1 h hc
              · simp only [List.mem_singleton] at h
                subst h
                exact ⟨g, horig hc, hdd⟩
          · intro r1 h
            exact List.mem_append_left _ h
          · exact List.mem_append_right _ (List.mem_singleton_self _)
        | some dd =>
          simp only
          by_cases hz : dd.zones ≠ zones
          · simp only [hz, ne_eq, not_false_eq_true, if_true]
            apply hstep
            · refine ⟨hinv.table, hinv.exist, hinv.unchanged, hinv.called_ok, ?_, ?_, ?_, ?_,
                hinv.minor_ok, ?_⟩
              · intro r1 hv hzc
                rcases List.mem_append.1 hv with h | h
                · exact hinv.visited_ok r1 h hzc
                · simp only [List.mem_singleton] at h
                  subst h
                  by_contra hc
                  obtain ⟨g0, dd0, hg0, hdd0, hz0⟩ := hzc
                  rw [horig hc] at hg0
                  simp only [Option.some.injEq] at hg0
                  subst hg0
                  rw [hdd] at hdd0
                  simp only [Option.some.injEq] at hdd0
                  subst hdd0
                  exact hz hz0
              · intro r1 h
                simp only [Option.some.injEq] at h
                subst h
                exact List.mem_append_right _ (List.mem_singleton_self _)
              · exact perm_snoc_last _ _ _ _ _ hinv.classes
              · exact perm_all_critical _ _ _ _ hinv.all
              · intro r1 hm hc
                rcases List.mem_append.1 hm with h | h
                · exact hinv.critical_ok r1 h hc
                · simp only [List.mem_singleton] at h
                  subst h
                  exact ⟨g, dd, horig hc, hdd, hz⟩
            · intro r1 h
              exact List.mem_append_left _ h
            · exact List.mem_append_right _ (List.mem_singleton_self _)
          · simp only [hz, if_false]
            simp only [ne_eq, not_not] at hz
            -- the invariant after the call, for any object graph that differs at r only
            have hcall : ∀ m : Instrument, m.RegionKeyTable = m0.RegionKeyTable →
                (∀ r1, (m.regionAt r1).isSome = (m0.regionAt r1).isSome) →
                (∀ r1, r1 ≠ r → m.regionAt r1 = s.instr.regionAt r1) →
                ZoneLoopInv m0 type zones
                  { s with rgn := some r, visited := s.visited ++ [r], called := s.called ++ [r],
                           instr := m } := by
              intro m ht he hm
              refine ⟨ht, he, ?_, ?_, ?_, ?_, ?_, hinv.all, ?_, ?_⟩
              · intro r1 hc
                simp only [List.mem_append, List.mem_singleton, not_or] at hc
                show m.regionAt r1 = m0.regionAt r1
                rw [hm r1 hc.2]
                exact hinv.unchanged r1 hc.1
              · intro r1 hc
                rcases List.mem_append.1 hc with h | h
                · exact hinv.called_ok r1 h
                · simp only [List.mem_singleton] at h
                  subst h
                  by_cases hcs : r1 ∈ s.called
                  · exact hinv.called_ok r1 hcs
                  · exact ⟨g, dd, horig hcs, hdd, hz⟩
              · intro r1 hv _
                rcases List.mem_append.1 hv with h | h
                · by_cases hzc : HasZoneCount m0 type zones r1
                  · exact List.mem_append_left _ (hinv.visited_ok r1 h hzc)
                  · rename_i hzc2
                    exact absurd hzc2 hzc
                · exact List.mem_append_right _ h
              · intro r1 h
                simp only [Option.some.injEq] at h
                subst h
                exact List.mem_append_right _ (List.mem_singleton_self _)
              · exact perm_snoc_first _ _ _ _ _ hinv.classes
              · intro r1 hm1 hc
                exact hinv.minor_ok r1 hm1 (fun h => hc (List.mem_append_left _ h))
              · intro r1 hm1 hc
                exact hinv.critical_ok r1 hm1 (fun h => hc (List.mem_append_left _ h))
            cases hmeth : method g type zone with
            | none =>
              simp only
              refine ⟨_, true, rfl, hcall s.instr hinv.table hinv.exist (fun _ _ => rfl), ?_, ?_⟩
              · intro r1 h
                exact List.mem_append_left _ h
              · intro h; exact Bool.noConfusion h
            | some g1 =>
              simp only
              apply hstep
              · apply hcall
                · exact hinv.table
                · intro r1
                  rw [regionAt_set, ← hinv.exist]
                  by_cases h : r = r1
                  · subst h
                    simp [hgr]
                  · simp [h]
                · intro r1 hne
                  rw [regionAt_set]
                  simp [Ne.symm hne]
              · intro r1 h
                exact List.mem_append_left _ h
              · exact List.mem_append_right _ (List.mem_singleton_self _)

theorem keys_exist_of_all (m : Instrument)
    (h : m.RegionKeyTable.all (fun e =>
      match e with
      | none => true
      | some r => decide (r < m.regions.length)) = true) :
    ∀ key r, m.GetRegion key = some r → (m.regionAt r).isSome = true := by
  intro key r hget
  unfold Instrument.GetRegion at hget
  rw [List.getD_eq_getElem?_getD] at hget
  cases hk : m.RegionKeyTable[key]? with
  | none => simp [hk] at hget
  | some e =>
    simp only [hk, Option.getD_some] at hget
    subst hget
    rw [List.all_eq_true] at h
    have := h _ (List.mem_iff_getElem?.2 ⟨key, hk⟩)
    simp only [decide_eq_true_eq] at this
    unfold Instrument.regionAt
    rw [List.getElem?_eq_getElem this]
    rfl

/-- The common body of split_dimension_zone and delete_dimension_zone with all
regions set returns when the selected region has the dimension kind and every
region that a key maps to exists; the variables of the key loop then satisfy
the invariant, and unless an exception was caught every region that a key maps
to has been visited. -/
theorem zoneOperation_spec (method : Region → dimension_t → Int → Option Region)
    (st : DimRegionChooser) (r : Nat) (rgn : Region) (maindimdef : dimension_def_t)
    (hregion : st.region = some r) (hrgn : st.instr.regionAt r = some rgn)
    (hall : st.modifyallregions = true)
    (hdef : rgn.GetDimensionDefinition st.maindimtype = some maindimdef)
    (hkeys : ∀ key r1, st.instr.GetRegion key = some r1 → (st.instr.regionAt r1).isSome = true) :
    ∃ res, zoneOperation method st = some res ∧
      ZoneLoopInv st.instr st.maindimtype maindimdef.zones res.loop ∧
      (res.thrown = false → ∀ key r1, key < 128 → st.instr.GetRegion key = some r1 →
        r1 ∈ res.loop.visited) ∧
      res.report = (if res.thrown then none else ignoredReport res.loop) := by
  obtain ⟨s1, thrown, hloop, hinv, _, hvis⟩ := zoneLoop_spec method st.maindimtype
    ((st.maindimcase.touch st.maindimtype).get st.maindimtype) maindimdef.zones st.instr hkeys
    (List.range 128)
    { instr := st.instr, rgn := none, ignoredAll := [], ignoredMinor := [],
      ignoredCritical := [], visited := [], called := [] }
    ⟨rfl, fun _ => rfl, fun _ _ => rfl, fun _ h => by simp at h, fun _ h => by simp at h,
     fun _ h => by simp at h, by simp, by simp, fun _ h => by simp at h,
     fun _ h => by simp at h⟩
  have hsome : (s1.instr.regionAt r).isSome = true := by
    rw [hinv.exist, hrgn]
    rfl
  obtain ⟨g1, hg1⟩ := Option.isSome_iff_exists.1 hsome
  simp only [zoneOperation, hregion, hrgn, hall, not_true_eq_false, if_false, hdef, hloop,
    set_region, hg1, Option.map_some']
  refine ⟨_, rfl, hinv, ?_, rfl⟩
  intro ht key r1 hk hr
  exact hvis ht key r1 (List.mem_range.2 hk) hr

/-- C19, amended: with all regions set, split_dimension_zone and
delete_dimension_zone (for any library method, the selected region having the
dimension kind maindimtype and every region that a key maps to existing)
return, and call the library method only on regions that had the dimension
kind with the zone count that the source region had before the operation
started; when no call throws, the method is called on a region that a key maps
to if and only if that region had the dimension kind with that zone count,
whatever the order of the regions and although the source region is changed by
the call.  A call that throws ends the loop. -/
theorem zone_operation_regions (method : Region → dimension_t → Int → Option Region)
    (st : DimRegionChooser) (r : Nat) (rgn : Region) (maindimdef : dimension_def_t)
    (hregion : st.region = some r) (hrgn : st.instr.regionAt r = some rgn)
    (hall : st.modifyallregions = true)
    (hdef : rgn.GetDimensionDefinition st.maindimtype = some maindimdef)
    (hkeys : ∀ key r1, st.instr.GetRegion key = some r1 → (st.instr.regionAt r1).isSome = true) :
    ∃ res, split_dimension_zone method st = some res ∧
      delete_dimension_zone method st = some res ∧
      (∀ r1, r1 ∈ res.loop.called →
        HasZoneCount st.instr st.maindimtype maindimdef.zones r1) ∧
      (res.thrown = false → ∀ key r1, key < 128 → st.instr.GetRegion key = some r1 →
        (r1 ∈ res.loop.called ↔ HasZoneCount st.instr st.maindimtype maindimdef.zones r1)) := by
  obtain ⟨res, hres, hinv, hvis, _⟩ := zoneOperation_spec method st r rgn maindimdef hregion hrgn
    hall hdef hkeys
  refine ⟨res, hres, hres, hinv.called_ok, ?_⟩
  intro ht key r1 hk hr
  exact ⟨hinv.called_ok r1, hinv.visited_ok r1 (hvis ht key r1 hk hr)⟩

set_option maxRecDepth 1000000 in
/-- Witness of C19 (amended) on pairZoneOp, with a library method that lowers
the zone count: both regions have the dimension A with 3 zones, no call throws,
and the method is called on region 0 and on region 1, which afterwards have 2
zones in A. -/
theorem zone_operation_regions_witness :
    pairZoneOp.modifyallregions = true ∧
    (delete_dimension_zone exampleDeleteZone pairZoneOp).map (fun res =>
      (res.loop.called, res.thrown,
        [0, 1].map (fun r1 => (res.st.instr.regionAt r1).bind (fun g =>
          (g.GetDimensionDefinition 1).map (fun dd => dd.zones))))) =
      some ([0, 1], false, [some 2, some 2]) ∧
    (∃ res, split_dimension_zone exampleDeleteZone pairZoneOp = some res ∧
      delete_dimension_zone exampleDeleteZone pairZoneOp = some res ∧
      (∀ r1, r1 ∈ res.loop.called →
        HasZoneCount pairZoneOp.instr pairZoneOp.maindimtype (mkDef 1 2 3).zones r1) ∧
      (res.thrown = false → ∀ key r1, key < 128 → pairZoneOp.instr.GetRegion key = some r1 →
        (r1 ∈ res.loop.called ↔
          HasZoneCount pairZoneOp.instr pairZoneOp.maindimtype (mkDef 1 2 3).zones r1))) :=
  ⟨by decide, by decide,
   zone_operation_regions exampleDeleteZone pairZoneOp 0 exampleRegion (mkDef 1 2 3)
     (by decide) (by decide) (by decide) (by decide)
     (keys_exist_of_all pairZoneOp.instr (by decide))⟩

set_option maxRecDepth 1000000 in
/-- Counterexample to C19 as stated: twoZoneOp shows region 0 of an instrument
whose regions 0 (keys 0..63) and 1 (keys 64..127) both have the dimension A
(kind 1) with 2 zones, and all regions is set.  The library method refuses to
delete a zone of a dimension with 2 zones and throws; the exception of the call
on region 0 is caught outside the loop, so region 1, which has the selected
dimension kind and the zone count of the source region, is never visited and
the method is never called on it. -/
theorem zone_operation_regions_counterexample :
    twoZoneOp.modifyallregions = true ∧
    (twoZoneOp.region, twoZoneOp.maindimtype) = (some 0, 1) ∧
    twoZoneOp.instr.GetRegion 64 = some 1 ∧
    [0, 1].map (fun r1 => (twoZoneOp.instr.regionAt r1).bind (fun g =>
      (g.GetDimensionDefinition 1).map (fun dd => dd.zones))) = [some 2, some 2] ∧
    [0, 1].map (fun r1 => (twoZoneOp.instr.regionAt r1).bind (fun g =>
      (exampleDeleteZone g 1 0).map (fun _ => ()))) = [none, none] ∧
    (delete_dimension_zone exampleDeleteZone twoZoneOp).map (fun res =>
      (res.loop.called, res.loop.visited, res.thrown)) = some ([0], [0], true) ∧
    (delete_dimension_zone exampleDeleteZone twoZoneOp).map (fun res => res.report) =
      some none ∧
    (delete_dimension_zone exampleDeleteZone twoZoneOp).map (fun res => res.st.instr) =
      some twoZoneOp.instr :=
  ⟨by decide, by decide, by decide, by decide, by decide, by decide, by decide, by decide⟩

/-- C20: with all regions set, split_dimension_zone and delete_dimension_zone
(for any library method, the selected region having the dimension kind and
every region that a key maps to existing) return, and every visit of the key
loop puts the visited region into exactly one of the three classes processed,
ignoredMinor and ignoredCritical: the three lists together are a rearrangement
of the list of visits, so when no region is visited twice the classes are
disjoint.  A region in ignoredMinor lacked the dimension kind and a region in
ignoredCritical had it with another zone count (unless the method was called on
the region in an earlier visit); ignoredAll has as many entries as ignoredMinor
and ignoredCritical together; no report is shown when ignoredAll is empty, and
a report that is shown is a warning exactly when ignoredCritical is non-empty
and informational exactly when it is empty. -/
theorem zone_operation_report (method : Region → dimension_t → Int → Option Region)
    (st : DimRegionChooser) (r : Nat) (rgn : Region) (maindimdef : dimension_def_t)
    (hregion : st.region = some r) (hrgn : st.instr.regionAt r = some rgn)
    (hall : st.modifyallregions = true)
    (hdef : rgn.GetDimensionDefinition st.maindimtype = some maindimdef)
    (hkeys : ∀ key r1, st.instr.GetRegion key = some r1 → (st.instr.regionAt r1).isSome = true) :
    ∃ res, split_dimension_zone method st = some res ∧
      delete_dimension_zone method st = some res ∧
      (res.loop.called ++ res.loop.ignoredMinor ++ res.loop.ignoredCritical).Perm
        res.loop.visited ∧
      (res.loop.visited.Nodup →
        (res.loop.called ++ res.loop.ignoredMinor ++ res.loop.ignoredCritical).Nodup) ∧
      (∀ r1, r1 ∈ res.loop.called →
        HasZoneCount st.instr st.maindimtype maindimdef.zones r1) ∧
      (∀ r1, r1 ∈ res.loop.ignoredMinor → r1 ∉ res.loop.called →
        LacksDimension st.instr st.maindimtype r1) ∧
      (∀ r1, r1 ∈ res.loop.ignoredCritical → r1 ∉ res.loop.called →
        HasOtherZoneCount st.instr st.maindimtype maindimdef.zones r1) ∧
      res.loop.ignoredAll.length =
        res.loop.ignoredMinor.length + res.loop.ignoredCritical.length ∧
      (res.loop.ignoredAll = [] → res.report = none) ∧
      (res.thrown = false → (res.report = none ↔ res.loop.ignoredAll = [])) ∧
      (∀ type txt, res.report = some (type, txt) →
        (type = MessageType.MESSAGE_WARNING ↔ res.loop.ignoredCritical ≠ []) ∧
        (type = MessageType.MESSAGE_INFO ↔ res.loop.ignoredCritical = [])) := by
  obtain ⟨res, hres, hinv, _, hrep⟩ := zoneOperation_spec method st r rgn maindimdef hregion hrgn
    hall hdef hkeys
  refine ⟨res, hres, hres, hinv.classes, fun hnd => hinv.classes.nodup_iff.2 hnd,
    hinv.called_ok, hinv.minor_ok, hinv.critical_ok, ?_, ?_, ?_, ?_⟩
  · rw [hinv.all.length_eq, List.length_append]
  · intro he
    rw [hrep]
    cases res.thrown
    · simp [ignoredReport, he]
    · rfl
  · intro ht
    rw [hrep, ht]
    by_cases he : res.loop.ignoredAll = []
    · simp [ignoredReport, he]
    · simp [ignoredReport, he]
  · intro type txt h
    rw [hrep] at h
    cases ht : res.thrown
    · rw [ht] at h
      by_cases he : res.loop.ignoredAll = []
      · simp [ignoredReport, he] at h
      · by_cases hc : res.loop.ignoredCritical = []
        · simp [ignoredReport, he, hc] at h
          rw [← h.1]
          simp [hc]
        · simp [ignoredReport, he, hc] at h
          rw [← h.1]
          simp [hc]
    · rw [ht] at h
      simp at h

set_option maxRecDepth 1000000 in
/-- Witness of C20 on tripleZoneOp, with a library method that lowers the zone
count: region 0 is processed, region 1 lacks the dimension A and region 2 has 2
zones in A instead of 3, so the report is a warning about 1 region with another
zone count and 1 region without the dimension. -/
theorem zone_operation_report_witness :
    tripleZoneOp.modifyallregions = true ∧
    (delete_dimension_zone exampleDeleteZone tripleZoneOp).map (fun res =>
      (res.loop.visited, res.loop.called, res.thrown)) = some ([0, 1, 2], [0], false) ∧
    (delete_dimension_zone exampleDeleteZone tripleZoneOp).map (fun res =>
      (res.loop.ignoredMinor, res.loop.ignoredCritical, res.loop.ignoredAll)) =
      some ([1], [2], [1, 2]) ∧
    (delete_dimension_zone exampleDeleteZone tripleZoneOp).map (fun res => res.report) =
      some (some (MessageType.MESSAGE_WARNING, IgnoredText.differentZonesAndMissing 1 1)) ∧
    (∃ res, split_dimension_zone exampleDeleteZone tripleZoneOp = some res ∧
      delete_dimension_zone exampleDeleteZone tripleZoneOp = some res ∧
      (res.loop.called ++ res.loop.ignoredMinor ++ res.loop.ignoredCritical).Perm
        res.loop.visited ∧
      (res.loop.visited.Nodup →
        (res.loop.called ++ res.loop.ignoredMinor ++ res.loop.ignoredCritical).Nodup) ∧
      (∀ r1, r1 ∈ res.loop.called →
        HasZoneCount tripleZoneOp.instr tripleZoneOp.maindimtype (mkDef 1 2 3).zones r1) ∧
      (∀ r1, r1 ∈ res.loop.ignoredMinor → r1 ∉ res.loop.called →
        LacksDimension tripleZoneOp.instr tripleZoneOp.maindimtype r1) ∧
      (∀ r1, r1 ∈ res.loop.ignoredCritical → r1 ∉ res.loop.called →
        HasOtherZoneCount tripleZoneOp.instr tripleZoneOp.maindimtype (mkDef 1 2 3).zones r1) ∧
      res.loop.ignoredAll.length =
        res.loop.ignoredMinor.length + res.loop.ignoredCritical.length ∧
      (res.loop.ignoredAll = [] → res.report = none) ∧
      (res.thrown = false → (res.report = none ↔ res.loop.ignoredAll = [])) ∧
      (∀ type txt, res.report = some (type, txt) →
        (type = MessageType.MESSAGE_WARNING ↔ res.loop.ignoredCritical ≠ []) ∧
        (type = MessageType.MESSAGE_INFO ↔ res.loop.ignoredCritical = []))) :=
  ⟨by decide, by decide, by decide, by decide,
   zone_operation_report exampleDeleteZone tripleZoneOp 0 exampleRegion (mkDef 1 2 3)
     (by decide) (by decide) (by decide) (by decide)
     (keys_exist_of_all tripleZoneOp.instr (by decide))⟩

/-! ## caseOfDimRegion on a pointer that is in none of the slots -/

theorem findDimRgnIndexFrom_not_found (rgn : Region) (dr : Nat) :
    ∀ (n start : Nat),
      (∀ i : Nat, start ≤ i → i < start + n →
        (rgn.dimRgn i).map (fun d => d.addr) ≠ some dr) →
      findDimRgnIndexFrom rgn dr n start = start + n := by
  intro n
  induction n with
  | zero => intro start _; rfl
  | succ n ih =>
    intro start h
    rw [findDimRgnIndexFrom]
    have hne := h start (Nat.le_refl _) (by omega)
    simp only [hne, if_false]
    rw [ih (start + 1) (fun i hi1 hi2 => h i (by omega) (by omega))]
    omega

theorem findDimRgnReadsFrom_bound (rgn : Region) (dr : Nat) :
    ∀ (n start i : Nat), i ∈ findDimRgnReadsFrom rgn dr n start → start ≤ i ∧ i < start + n := by
  intro n
  induction n with
  | zero => intro start i h; simp [findDimRgnReadsFrom] at h
  | succ n ih =>
    intro start i h
    rw [findDimRgnReadsFrom, List.mem_cons] at h
    rcases h with h | h
    · omega
    · split at h
      · simp at h
      · have := ih (start + 1) i h
        omega

theorem findDimRgnReadsFrom_not_found (rgn : Region) (dr : Nat) :
    ∀ (n start : Nat),
      (∀ i : Nat, start ≤ i → i < start + n →
        (rgn.dimRgn i).map (fun d => d.addr) ≠ some dr) →
      findDimRgnReadsFrom rgn dr n start = List.range' start n := by
  intro n
  induction n with
  | zero => intro start _; rfl
  | succ n ih =>
    intro start h
    rw [findDimRgnReadsFrom, List.range'_succ]
    have hne := h start (Nat.le_refl _) (by omega)
    simp only [hne, if_false]
    rw [ih (start + 1) (fun i hi1 hi2 => h i (by omega) (by omega))]

/-- C21: when the dimension region passed to caseOfDimRegion is null, or is not
found among the 256 slots of its region, caseOfDimRegion returns an empty case
with isValidZone false; the search loop reads the slots 0..255 once each in the
second case, and for every pointer it reads slots below 256 only. -/
theorem caseOfDimRegion_not_found (rgn : Region) (dr : Option Nat)
    (hnot : ∀ p, dr = some p → ∀ i : Nat, i < 256 →
      (rgn.dimRgn i).map (fun d => d.addr) ≠ some p) :
    caseOfDimRegion rgn dr = (false, []) ∧
    (∀ p, dr = some p → findDimRgnReads rgn p = List.range 256) ∧
    (∀ p i, i ∈ findDimRgnReads rgn p → i < 256) := by
  refine ⟨?_, ?_, ?_⟩
  · cases dr with
    | none => rfl
    | some p =>
      have h := findDimRgnIndexFrom_not_found rgn p 256 0
        (fun i _ hi => hnot p rfl i (by omega))
      simp only [caseOfDimRegion, findDimRgnIndex, h]
      rfl
  · intro p hp
    unfold findDimRgnReads
    rw [findDimRgnReadsFrom_not_found rgn p 256 0 (fun i _ hi => hnot p hp i (by omega)),
      List.range_eq_range']
  · intro p i hi
    have := findDimRgnReadsFrom_bound rgn p 256 0 i hi
    omega

theorem mkRegion_addr_ge (defs : List dimension_def_t) (n : Nat) (i : Int) (p : Nat)
    (h : ((mkRegion defs n).dimRgn i).map (fun d => d.addr) = some p) : 100 ≤ p := by
  unfold Region.dimRgn mkRegion freshSlots at h
  split at h
  · rw [List.getD_eq_getElem?_getD, List.getElem?_map] at h
    cases hr : (List.range n)[i.toNat]? with
    | none => simp [hr] at h
    | some k =>
      simp [hr] at h
      omega
  · simp at h

/-- Witness of C21 on the example region, whose dimension regions have the
addresses 100..107: the pointer 99 is in none of its slots. -/
theorem caseOfDimRegion_not_found_witness :
    caseOfDimRegion exampleRegion (some 99) = (false, []) ∧
    (∀ p, some 99 = some p → findDimRgnReads exampleRegion p = List.range 256) ∧
    (∀ p i, i ∈ findDimRgnReads exampleRegion p → i < 256) :=
  caseOfDimRegion_not_found exampleRegion (some 99) (fun p hp i _ h => by
    have h1 := mkRegion_addr_ge _ _ _ _ h
    have h2 : p = 99 := (Option.some.inj hp).symm
    omega)

/-! ## on_draw: the labels of the zones -/

theorem wrapInt32_natCast (n : Nat) (h : n < 2147483648) : wrapInt32 (n : Int) = (n : Int) := by
  unfold wrapInt32
  rw [toBits32_natCast n (by omega), ofBits32_of_lt n h]

theorem truncDiv_natCast (a b : Nat) : truncDiv (a : Int) (b : Int) = ((a / b : Nat) : Int) := by
  unfold truncDiv
  rw [Int.tdiv_eq_ediv (by omega) (by omega), Int.natCast_div]

theorem borderColumn_bounds (w label_width : Int) (nbZones j : Nat) (hw : label_width < w)
    (hj : j ≤ nbZones) :
    label_width ≤ borderColumn w label_width nbZones j ∧
      borderColumn w label_width nbZones j < w := by
  unfold borderColumn truncDiv
  obtain ⟨a, ha⟩ : ∃ a : Nat, w - label_width - 1 = (a : Int) :=
    ⟨(w - label_width - 1).toNat, by omega⟩
  rw [ha]
  have hnum : 2 * ((a : Int) * (j : Int)) + (nbZones : Int) = ((2 * (a * j) + nbZones : Nat) : Int) := by
    push_cast
    ring
  have hden : 2 * (nbZones : Int) = ((2 * nbZones : Nat) : Int) := by push_cast; ring
  rw [hnum, hden, Int.tdiv_eq_ediv (by omega) (by omega), ← Int.natCast_div]
  generalize hq : (2 * (a * j) + nbZones) / (2 * nbZones) = q
  have hle : q ≤ a := by
    rw [← hq]
    rcases Nat.eq_zero_or_pos nbZones with h0 | hpos
    · subst h0
      simp
    · apply Nat.le_of_lt_succ
      rw [Nat.div_lt_iff_lt_mul (by omega)]
      have : a * j ≤ a * nbZones := Nat.mul_le_mul_left a hj
      nlinarith
  omega

theorem drawNormalZones_labels (w label_width clipx1 clipx2 : Int) (nbZones : Nat)
    (hsmall : 128 * nbZones < 2147483648) :
    ∀ (n j : Nat) (prevX : Int), j + n ≤ nbZones + 1 →
      ∀ z, z ∈ drawNormalZones w label_width clipx1 clipx2 nbZones n j prevX →
        j ≤ z.zone + 1 ∧ z.zone < nbZones ∧
        z.x = borderColumn w label_width nbZones (z.zone + 1) ∧
        z.lowerText = ((128 * z.zone / nbZones : Nat) : Int) ∧
        z.upperText = ((128 * (z.zone + 1) / nbZones : Nat) : Int) - 1 := by
  intro n
  induction n with
  | zero => intro j prevX _ z hz; simp [drawNormalZones] at hz
  | succ n ih =>
    intro j prevX hjn z hz
    rw [drawNormalZones] at hz
    split at hz
    · simp at hz
    · split at hz
      · have := ih (j + 1) prevX (by omega) z hz
        exact ⟨by omega, this.2⟩
      · rw [List.mem_append] at hz
        rcases hz with hz | hz
        · by_cases hj0 : j = 0
          · simp [hj0] at hz
          · simp only [hj0, ne_eq, not_false_eq_true, if_true, List.mem_singleton] at hz
            subst hz
            obtain ⟨k, rfl⟩ : ∃ k, j = k + 1 := ⟨j - 1, by omega⟩
            have h1 : (((k + 1 : Nat) : Int) - 1) * 128 = ((k * 128 : Nat) : Int) := by
              push_cast; ring
            have h2 : (((k + 1 : Nat) : Int)) * 128 = (((k + 1) * 128 : Nat) : Int) := by
              push_cast; ring
            simp only [Nat.add_sub_cancel]
            rw [h1, h2, wrapInt32_natCast _ (by omega), wrapInt32_natCast _ (by omega),
              truncDiv_natCast, truncDiv_natCast, Nat.mul_comm k 128, Nat.mul_comm (k + 1) 128]
            refine ⟨by omega, by omega, ?_, ?_, ?_⟩ <;> first | rfl | trivial
        · have := ih (j + 1) _ (by omega) z hz
          exact ⟨by omega, this.2⟩

theorem drawNormalZones_all (w label_width clipx1 clipx2 : Int) (nbZones : Nat)
    (hclip : ∀ j, j ≤ nbZones → clipx1 ≤ borderColumn w label_width nbZones j ∧
      borderColumn w label_width nbZones j < clipx2) :
    ∀ (n j : Nat) (prevX : Int), j + n ≤ nbZones + 1 →
      (drawNormalZones w label_width clipx1 clipx2 nbZones n j prevX).map (fun z => z.zone) =
        ((List.range' j n).filter (fun k => decide (k ≠ 0))).map (fun k => k - 1) := by
  intro n
  induction n with
  | zero => intro j prevX _; rfl
  | succ n ih =>
    intro j prevX hjn
    rw [drawNormalZones]
    have hc := hclip j (by omega)
    have h1 : ¬ (borderColumn w label_width nbZones j ≥ clipx2) := by omega
    have h2 : ¬ (borderColumn w label_width nbZones j < clipx1) := by omega
    simp only [h1, h2, if_false, List.map_append, List.range'_succ]
    rw [ih (j + 1) _ (by omega)]
    by_cases hj0 : j = 0
    · simp [hj0, List.filter_cons]
    · simp [hj0, List.filter_cons]

theorem range_succ_filter_pred (n : Nat) :
    ((List.range' 0 (n + 1)).filter (fun k => decide (k ≠ 0))).map (fun k => k - 1) =
      List.range n := by
  have hfil : (List.range' 1 n).filter (fun k => decide (k ≠ 0)) = List.range' 1 n := by
    rw [List.filter_eq_self]
    intro a ha
    rw [List.mem_range'_1] at ha
    simp only [ne_eq, decide_eq_true_eq]
    omega
  have h0 : (List.range' 0 (n + 1)).filter (fun k => decide (k ≠ 0)) = List.range' 1 n := by
    rw [List.range'_succ, List.filter_cons]
    simpa using hfil
  rw [h0, List.range_eq_range']
  apply List.ext_getElem?
  intro i
  by_cases hi : i < n
  · simp [List.getElem?_range', hi]
  · rw [List.getElem?_eq_none (by simpa using hi), List.getElem?_eq_none (by simpa using hi)]

/-- C23: for a dimension that on_draw draws without custom splits, with n >= 1
zones (128 * n being an int), every zone that is painted is a zone j < n and is
labelled with the lower value floor(128*j/n) and the upper value
floor(128*(j+1)/n) - 1; when the clip rectangle spans the zone area (from
label_width to the widget width), the zones 0..n-1 are all painted, in this
order. -/
theorem on_draw_zone_labels (st : DimRegionChooser) (rgn : Region) (i bitpos : Nat)
    (clipx1 clipx2 : Int)
    (hcs : customSplits rgn (rgn.dimDef i) i (baseSlot st rgn i bitpos) = some false)
    (hsmall : 128 * (rgn.dimDef i).zones < 2147483648) :
    ∃ zs, drawRow st rgn i bitpos clipx1 clipx2 = some zs ∧
      (∀ z, z ∈ zs → z.zone < (rgn.dimDef i).zones ∧
        z.lowerText = ((128 * z.zone / (rgn.dimDef i).zones : Nat) : Int) ∧
        z.upperText = ((128 * (z.zone + 1) / (rgn.dimDef i).zones : Nat) : Int) - 1) ∧
      (clipx1 ≤ st.label_width → st.label_width < st.width → st.width ≤ clipx2 →
        zs.map (fun z => z.zone) = List.range (rgn.dimDef i).zones) := by
  unfold baseSlot at hcs
  refine ⟨drawNormalZones st.width st.label_width clipx1 clipx2 (rgn.dimDef i).zones
    ((rgn.dimDef i).zones + 1) 0 0, by simp only [drawRow, hcs], ?_, ?_⟩
  · intro z hz
    have := drawNormalZones_labels st.width st.label_width clipx1 clipx2 _ hsmall
      ((rgn.dimDef i).zones + 1) 0 0 (by omega) z hz
    exact ⟨this.2.1, this.2.2.2.1, this.2.2.2.2⟩
  · intro h1 h2 h3
    rw [drawNormalZones_all st.width st.label_width clipx1 clipx2 _ (fun j hj => by
      have := borderColumn_bounds st.width st.label_width (rgn.dimDef i).zones j h2 hj
      omega) ((rgn.dimDef i).zones + 1) 0 0 (by omega)]
    exact range_succ_filter_pred _

set_option maxRecDepth 1000000 in
/-- Witness of C23, the example of the specification: a dimension with 4 zones
and no custom limits, drawn in full; zone 2 is labelled 64 and 95. -/
theorem on_draw_zone_labels_witness :
    (on_draw fourZoneChooser 0 0 129 24).map (fun rows => rows.map (fun row =>
      row.2.map (fun z => (z.zone, z.lowerText, z.upperText)))) =
      some [[(0, 0, 31), (1, 32, 63), (2, 64, 95), (3, 96, 127)]] ∧
    (∃ zs, drawRow fourZoneChooser fourZoneRegion 0 0 0 129 = some zs ∧
      (∀ z, z ∈ zs → z.zone < (fourZoneRegion.dimDef 0).zones ∧
        z.lowerText = ((128 * z.zone / (fourZoneRegion.dimDef 0).zones : Nat) : Int) ∧
        z.upperText = ((128 * (z.zone + 1) / (fourZoneRegion.dimDef 0).zones : Nat) : Int) - 1) ∧
      ((0 : Int) ≤ fourZoneChooser.label_width → fourZoneChooser.label_width < fourZoneChooser.width →
        fourZoneChooser.width ≤ 129 →
        zs.map (fun z => z.zone) = List.range (fourZoneRegion.dimDef 0).zones)) :=
  ⟨by decide, on_draw_zone_labels fourZoneChooser fourZoneRegion 0 0 0 129 (by decide) (by decide)⟩

/-! ## Painting and hit-testing of the zone boundaries; the right edge -/

set_option maxRecDepth 1000000 in
/-- C29 does not hold: for a dimension of normal split type with 5 zones, no
custom limits and zone_size = 128/5 (so (int)zone_size = 25), shown in a widget
801 pixels wide with label_width 0, is_in_resize_zone uses the boundary values
25, 50, 75, 100 and the pixel columns 156, 313, 469, 625, while on_draw draws
the lines between the zones at the columns 160, 320, 480, 640 (the boundaries
128*(j+1)/5).  A pointer on the line drawn at column 160 is not in a resize
zone; the resize zone is around column 156. -/
theorem resize_zone_column_mismatch :
    customSplits fiveZoneRegion (fiveZoneRegion.dimDef 0) 0
      (baseSlot wideFiveZoneChooser fiveZoneRegion 0 0) = some false ∧
    ((fiveZoneRegion.dimDef 0).split_type, (fiveZoneRegion.dimDef 0).zones,
      (fiveZoneRegion.dimDef 0).zone_size) = (split_type_t.split_type_normal, 5, 25) ∧
    [0, 1, 2, 3].map (fun j => (zoneLimitAt fiveZoneRegion 0 0 0 false j).map (fun u => u + 1)) =
      [some 25, some 50, some 75, some 100] ∧
    [0, 1, 2, 3].map (boundaryColumn wideFiveZoneChooser fiveZoneRegion 0 0 0 false) =
      [156, 313, 469, 625] ∧
    (on_draw wideFiveZoneChooser 0 0 801 24).map (fun rows => rows.map (fun row =>
      row.2.map (fun z => (z.zone, z.x)))) =
      some [[(0, 160), (1, 320), (2, 480), (3, 640), (4, 800)]] ∧
    is_in_resize_zone wideFiveZoneChooser 160 0 = some (false, wideFiveZoneChooser) ∧
    (is_in_resize_zone wideFiveZoneChooser 156 0).map (fun res => res.1) = some true :=
  ⟨by decide, by decide, by decide, by decide, by decide, by decide, by decide⟩

set_option maxRecDepth 1000000 in
/-- C25 does not hold: edgeChooser shows a region with the dimensions A and B of
2 zones (1 bit) each in a widget 129 pixels wide with label_width 0, the main
selection being slot 0.  A press at x = 128, the last pixel column, in the row
of A is inside the zone area and not in a resize zone; the zone index stored in
maindimcase for A is 2, which is not below the zone count 2, and maindimregno
becomes 2, the slot of zone 0 of A and zone 1 of B: the zone index of the other
dimension has changed.  A press at x = 127 selects zone 1 of A, slot 1. -/
theorem on_button_press_zone_out_of_range :
    (edgeChooser.label_width, edgeChooser.width, edgeChooser.nbDimensions * edgeChooser.h,
      edgeChooser.maindimregno) = (0, 129, 48, 0) ∧
    (is_in_resize_zone edgeChooser 128 0).map (fun res => res.1) = some false ∧
    [0, 1].map (fun d => ((otherCountRegion.dimDef d).dimension, (otherCountRegion.dimDef d).bits,
      (otherCountRegion.dimDef d).zones)) = [(1, 1, 2), (2, 1, 2)] ∧
    (on_button_press_event edgeChooser 128 0).map (fun st1 =>
      (st1.maindimcase, st1.maindimregno, st1.maindimtype)) = some ([(1, 2), (2, 0)], 2, 1) ∧
    [0, 1].map (fun d => zoneBits 2 (bitposOf otherCountRegion d) (otherCountRegion.dimDef d).bits) =
      [0, 1] ∧
    (on_button_press_event edgeChooser 127 0).map (fun st1 =>
      (st1.maindimcase, st1.maindimregno, st1.maindimtype)) = some ([(1, 1), (2, 0)], 1, 1) :=
  ⟨by decide, by decide, by decide, by decide, by decide, by decide⟩

set_option maxRecDepth 1000000 in
/-- C26 does not hold: the constructor sets modifybothchannels and
modifyalldimregs to false but never assigns modifyallregions, which keeps the
value that the memory of the object held before.  When that value is true, a
newly constructed widget on which a region is set and a zone of dimension A is
clicked applies delete_dimension_zone to both regions of the instrument, not
only to the selected one.  Only setModifyAllRegions determines the flag. -/
theorem constructor_leaves_modifyallregions :
    (∀ mem : DimRegionChooser,
      (DimRegionChooser.construct mem).modifybothchannels = false ∧
      (DimRegionChooser.construct mem).modifyalldimregs = false ∧
      (DimRegionChooser.construct mem).modifyallregions = mem.modifyallregions ∧
      ∀ b, (setModifyAllRegions (DimRegionChooser.construct mem) b).modifyallregions = b) ∧
    pairZoneOp.modifyallregions = true ∧
    (DimRegionChooser.construct pairZoneOp).modifyallregions = true ∧
    (((set_region (DimRegionChooser.construct pairZoneOp) (some 0)).bind
      (fun st1 => on_button_press_event st1 10 0)).bind
      (fun st2 => delete_dimension_zone exampleDeleteZone st2)).map
      (fun res => (res.st.region, res.loop.called)) = some (some 0, [0, 1]) :=
  ⟨fun _ => ⟨rfl, rfl, rfl, fun _ => rfl⟩, by decide, by decide, by decide⟩

/-! ## The indices of the broadcast loops -/

/-- C24: in the broadcast loops of update_after_resize, for a dimension whose
bit field lies within the 8 index bits (bitpos + bits <= 8) and a zone below
2^bits, the index (idr & stencil) | selection stays within 0..255 for every
idr in 0..255, so the assertion holds and the loop runs to its end; the
indices produced are exactly the slots in 0..255 whose bit field for the
dimension equals the zone, and every such slot that holds a dimension region
receives the limit. -/
theorem broadcast_index_set (bits bitpos zone : Nat) (hfit : bitpos + bits ≤ 8)
    (hz : zone < 2 ^ bits) :
    (∀ idr : Nat, idr < 256 →
      0 ≤ bitOr (bitAnd (idr : Int) (dimMask bits bitpos)) ((zone <<< bitpos : Nat) : Int) ∧
      bitOr (bitAnd (idr : Int) (dimMask bits bitpos)) ((zone <<< bitpos : Nat) : Int) < 256) ∧
    (∀ i : Int,
      (∃ idr : Nat, idr < 256 ∧
        bitOr (bitAnd (idr : Int) (dimMask bits bitpos)) ((zone <<< bitpos : Nat) : Int) = i) ↔
      ∃ s : Nat, i = (s : Int) ∧ s < 256 ∧ zoneBits s bitpos bits = zone) ∧
    (∀ (m : Instrument) (rgnIdx iDim v : Nat), iDim < 8 →
      ∃ m1, broadcastSlots rgnIdx iDim v (dimMask bits bitpos) ((zone <<< bitpos : Nat) : Int)
          none m = some m1 ∧
        ∀ s : Nat, s < 256 → zoneBits s bitpos bits = zone →
          (m.slot rgnIdx (s : Int)).isSome = true → m1.dul rgnIdx (s : Int) iDim = some v) := by
  have hlt : ∀ idr : Nat, idr < 256 →
      ((idr &&& ((((1 <<< bits) - 1) <<< bitpos) ^^^ 4294967295)) ||| (zone <<< bitpos)) < 256 := by
    intro idr hidr
    have := replaceField_lt idr zone bitpos bits 8 (by norm_num; omega) (by norm_num) hz hfit
    norm_num at this
    exact this
  refine ⟨?_, ?_, ?_⟩
  · intro idr hidr
    rw [maskedIndex_eq idr zone bits bitpos hidr hz hfit]
    have := hlt idr hidr
    omega
  · intro i
    constructor
    · rintro ⟨idr, hidr, rfl⟩
      exact ⟨_, maskedIndex_eq idr zone bits bitpos hidr hz hfit, hlt idr hidr,
        zoneBits_replaceField_same idr zone bitpos bits (by omega) hz⟩
    · rintro ⟨s, rfl, hs, hzone⟩
      refine ⟨s, hs, ?_⟩
      rw [maskedIndex_eq s zone bits bitpos hs hz hfit, ← hzone, replaceField_self s bitpos bits
        (by omega)]
  · intro m rgnIdx iDim v hiDim
    obtain ⟨m1, h1, _, h3⟩ := broadcastSlots_spec m rgnIdx iDim bits bitpos zone v none
      (fun _ _ _ => True) (fun _ _ => True) hiDim hfit hz
      (fun r0 i0 h => by simp at h) (fun _ _ _ => trivial)
    exact ⟨m1, h1, h3⟩

set_option maxRecDepth 1000000 in
/-- Witness of C24 for dimension B of the example region (1 bit at bit offset
2) and zone 1: the indices produced for idr = 0..7 are 4, 5, 6, 7, 4, 5, 6, 7,
and of the 8 dimension regions of the region those in the slots 4..7 receive
the limit 29. -/
theorem broadcast_index_set_witness :
    (List.range 8).map (fun idr =>
      bitOr (bitAnd (idr : Int) (dimMask 1 2)) ((1 <<< 2 : Nat) : Int)) =
      [4, 5, 6, 7, 4, 5, 6, 7] ∧
    (broadcastSlots 0 1 29 (dimMask 1 2) ((1 <<< 2 : Nat) : Int) none
      (mkInstrument exampleRegion)).map (fun m1 =>
        (List.range 8).map (fun s => m1.dul 0 (s : Int) 1)) =
      some [some 0, some 0, some 0, some 0, some 29, some 29, some 29, some 29] ∧
    ((∀ idr : Nat, idr < 256 →
      0 ≤ bitOr (bitAnd (idr : Int) (dimMask 1 2)) ((1 <<< 2 : Nat) : Int) ∧
      bitOr (bitAnd (idr : Int) (dimMask 1 2)) ((1 <<< 2 : Nat) : Int) < 256) ∧
    (∀ i : Int,
      (∃ idr : Nat, idr < 256 ∧
        bitOr (bitAnd (idr : Int) (dimMask 1 2)) ((1 <<< 2 : Nat) : Int) = i) ↔
      ∃ s : Nat, i = (s : Int) ∧ s < 256 ∧ zoneBits s 2 1 = 1) ∧
    (∀ (m : Instrument) (rgnIdx iDim v : Nat), iDim < 8 →
      ∃ m1, broadcastSlots rgnIdx iDim v (dimMask 1 2) ((1 <<< 2 : Nat) : Int)
          none m = some m1 ∧
        ∀ s : Nat, s < 256 → zoneBits s 2 1 = 1 →
          (m.slot rgnIdx (s : Int)).isSome = true → m1.dul rgnIdx (s : Int) iDim = some v)) :=
  ⟨by decide, by decide, broadcast_index_set 1 2 1 (by decide) (by decide)⟩

/-! ## select_dimregion -/

theorem selectLoop_spec (rgn : Region) (dimrgn : Option Nat) :
    ∀ (n dr : Nat), dr + n ≤ 256 →
      ∃ res, selectLoop rgn dimrgn n dr = some res ∧
        (∀ k, res = some k →
          dr ≤ k ∧ k < dr + n ∧ (∀ j, dr ≤ j → j ≤ k → (rgn.dimRgn j).isSome = true) ∧
          (rgn.dimRgn k).map (fun d => d.addr) = dimrgn ∧
          ∀ j, dr ≤ j → j < k → (rgn.dimRgn j).map (fun d => d.addr) ≠ dimrgn) ∧
        (res = none → ∀ k, dr ≤ k → k < dr + n →
          (∀ j, dr ≤ j → j ≤ k → (rgn.dimRgn j).isSome = true) →
          (rgn.dimRgn k).map (fun d => d.addr) ≠ dimrgn) := by
  intro n
  induction n with
  | zero =>
    intro dr _
    exact ⟨none, rfl, fun k h => by simp at h, fun _ k h1 h2 => by omega⟩
  | succ n ih =>
    intro dr hdr
    rw [selectLoop]
    have h256 : ¬ (256 ≤ dr) := by omega
    simp only [Region.readSlot, h256, if_false]
    cases hd : rgn.dimRgn (dr : Int) with
    | none =>
      refine ⟨none, rfl, fun k h => by simp at h, ?_⟩
      intro _ k hk1 _ hall
      have := hall dr (Nat.le_refl _) hk1
      rw [hd] at this
      simp at this
    | some d =>
      simp only
      by_cases hfound : some d.addr = dimrgn
      · simp only [hfound, if_true]
        refine ⟨some dr, rfl, ?_, fun h => by simp at h⟩
        intro k hk
        have hk1 : dr = k := Option.some.inj hk
        subst hk1
        refine ⟨Nat.le_refl _, by omega, ?_, ?_, fun j h1 h2 => by omega⟩
        · intro j h1 h2
          have : j = dr := by omega
          subst this
          rw [hd]
          rfl
        · rw [hd]
          exact hfound
      · simp only [hfound, if_false]
        obtain ⟨res, hres, hsome, hnone⟩ := ih (dr + 1) (by omega)
        have hne : (rgn.dimRgn (dr : Int)).map (fun d => d.addr) ≠ dimrgn := by
          rw [hd]
          exact hfound
        refine ⟨res, by exact_mod_cast hres, ?_, ?_⟩
        · intro k hk
          obtain ⟨h1, h2, h3, h4, h5⟩ := hsome k hk
          refine ⟨by omega, by omega, ?_, h4, ?_⟩
          · intro j hj1 hj2
            by_cases hj : j = dr
            · subst hj
              rw [hd]
              rfl
            · exact h3 j (by omega) hj2
          · intro j hj1 hj2
            by_cases hj : j = dr
            · subst hj
              exact hne
            · exact h5 j (by omega) hj2
        · intro hn k hk1 hk2 hall
          by_cases hk : k = dr
          · subst hk
            exact hne
          · exact hnone hn k (by omega) (by omega) (fun j hj1 hj2 => hall j (by omega) hj2)

theorem resetSelectedZones_spec (st : DimRegionChooser) (r : Nat) (rgn : Region)
    (hregion : st.region = some r) (hrgn : st.instr.regionAt r = some rgn) :
    ∃ st1, resetSelectedZones st = some st1 ∧ st1.maindimregno = st.maindimregno ∧
      st1.emitted = st.emitted ∧ st1.region = st.region ∧ st1.instr = st.instr := by
  unfold resetSelectedZones
  simp only [hregion, hrgn]
  split
  · exact ⟨_, rfl, rfl, rfl, rfl, rfl⟩
  · split
    · exact ⟨_, rfl, rfl, rfl, rfl, rfl⟩
    · exact ⟨_, rfl, rfl, rfl, rfl, rfl⟩

/-- C22: select_dimregion(dimrgn) (the region pointer, when set, pointing to a
region with at most 256 dimension regions) returns; it returns true exactly
when a region is set and dimrgn occurs among the slots 0..DimensionRegions-1 of
that region before the first empty slot; in that case maindimregno is the first
such slot index, the state is the one that resetSelectedZones leaves for that
maindimregno, and dimregion_selected is the one notification emitted; when it
returns false the whole widget state, with maindimregno, maindimcase and
dimzones, is unchanged and nothing is emitted. -/
theorem select_dimregion_spec (st : DimRegionChooser) (dimrgn : Option Nat)
    (hreg : ∀ r, st.region = some r →
      ∃ rgn, st.instr.regionAt r = some rgn ∧ rgn.DimensionRegions ≤ 256) :
    ∃ res, select_dimregion st dimrgn = some res ∧
      (res.1 = true ↔ ∃ r rgn k, st.region = some r ∧ st.instr.regionAt r = some rgn ∧
        k < rgn.DimensionRegions ∧ (∀ j, j ≤ k → (rgn.dimRgn j).isSome = true) ∧
        (rgn.dimRgn k).map (fun d => d.addr) = dimrgn) ∧
      (res.1 = true → ∃ r rgn k st1, st.region = some r ∧ st.instr.regionAt r = some rgn ∧
        rgn.FoundAt dimrgn k ∧
        resetSelectedZones { st with maindimregno := (k : Int) } = some st1 ∧
        res.2 = { st1 with emitted := Signal.dimregion_selected :: st.emitted } ∧
        res.2.maindimregno = (k : Int)) ∧
      (res.1 = false → res.2 = st) := by
  have hor : st.region = none ∨ ∃ r, st.region = some r := by
    cases st.region with
    | none => exact Or.inl rfl
    | some r => exact Or.inr ⟨r, rfl⟩
  rcases hor with hregion | ⟨r, hregion⟩
  · refine ⟨(false, st), by simp only [select_dimregion, hregion], ?_, ?_, fun _ => rfl⟩
    · constructor
      · intro h
        exact Bool.noConfusion h
      · rintro ⟨r, _, _, h, _⟩
        rw [hregion] at h
        exact Option.noConfusion h
    · intro h
      exact Bool.noConfusion h
  · obtain ⟨rgn, hrgn, hcount⟩ := hreg r hregion
    obtain ⟨lres, hloop, hsome, hnone⟩ := selectLoop_spec rgn dimrgn rgn.DimensionRegions 0
      (by omega)
    cases lres with
    | none =>
      refine ⟨(false, st), by simp only [select_dimregion, hregion, hrgn, hloop], ?_, ?_,
        fun _ => rfl⟩
      · constructor
        · intro h
          exact Bool.noConfusion h
        · rintro ⟨r1, rgn1, k, h1, h2, h3, h4, h5⟩
          rw [hregion] at h1
          have hr : r1 = r := (Option.some.inj h1).symm
          subst hr
          rw [hrgn] at h2
          have hg : rgn1 = rgn := (Option.some.inj h2).symm
          subst hg
          exact absurd h5 (hnone rfl k (Nat.zero_le _) (by omega) (fun j _ hj => h4 j hj))
      · intro h
        exact Bool.noConfusion h
    | some k =>
      obtain ⟨_, hk2, hk3, hk4, hk5⟩ := hsome k rfl
      obtain ⟨st1, hst1, hm, he, _, _⟩ := resetSelectedZones_spec
        { st with maindimregno := (k : Int) } r rgn hregion hrgn
      refine ⟨(true, { st1 with emitted := Signal.dimregion_selected :: st1.emitted }),
        by
          simp only [hregion] at hst1
          simp only [select_dimregion, hregion, hrgn, hloop, hst1], ?_, ?_, ?_⟩
      · constructor
        · intro _
          exact ⟨r, rgn, k, hregion, hrgn, by omega, fun j hj => hk3 j (Nat.zero_le _) hj, hk4⟩
        · intro _
          rfl
      · intro _
        refine ⟨r, rgn, k, st1, hregion, hrgn,
          ⟨by omega, fun j hj => hk3 j (Nat.zero_le _) hj, hk4,
            fun j hj => hk5 j (Nat.zero_le _) hj⟩, hst1, ?_, hm⟩
        simp only at he
        rw [he]
      · intro h
        exact Bool.noConfusion h

set_option maxRecDepth 1000000 in
/-- Witness of C22 on the example widget: the dimension region with the address
102 is in slot 2 of the region, so select_dimregion returns true with
maindimregno 2 and the case A:2, B:0; the null pointer and the pointer 99,
which is in no slot, give false and leave the state unchanged. -/
theorem select_dimregion_spec_witness :
    (select_dimregion exampleChooser (some 102)).map (fun res =>
      (res.1, res.2.maindimregno, res.2.emitted)) =
      some (true, 2, [Signal.dimregion_selected]) ∧
    (select_dimregion exampleChooser (some 102)).map (fun res => res.2.maindimcase) =
      some [(1, 2), (2, 0)] ∧
    (select_dimregion exampleChooser (some 102)).map (fun res => res.2.dimzones) =
      some [(1, [2]), (2, [0])] ∧
    select_dimregion exampleChooser none = some (false, exampleChooser) ∧
    select_dimregion exampleChooser (some 99) = some (false, exampleChooser) ∧
    (∃ res, select_dimregion exampleChooser (some 102) = some res ∧
      (res.1 = true ↔ ∃ r rgn k, exampleChooser.region = some r ∧
        exampleChooser.instr.regionAt r = some rgn ∧
        k < rgn.DimensionRegions ∧ (∀ j, j ≤ k → (rgn.dimRgn j).isSome = true) ∧
        (rgn.dimRgn k).map (fun d => d.addr) = some 102) ∧
      (res.1 = true → ∃ r rgn k st1, exampleChooser.region = some r ∧
        exampleChooser.instr.regionAt r = some rgn ∧
        rgn.FoundAt (some 102) k ∧
        resetSelectedZones { exampleChooser with maindimregno := (k : Int) } = some st1 ∧
        res.2 = { st1 with emitted := Signal.dimregion_selected :: exampleChooser.emitted } ∧
        res.2.maindimregno = (k : Int)) ∧
      (res.1 = false → res.2 = exampleChooser)) :=
  ⟨by decide, by decide, by decide, by decide, by decide,
   select_dimregion_spec exampleChooser (some 102) (fun r hr =>
     ⟨exampleRegion, by
       have h0 : r = 0 := (Option.some.inj hr).symm
       subst h0
       rfl, by decide⟩)⟩

/-! ## get_dimregions -/

theorem mem_setInsert {α : Type} [LinearOrder α] (l : List α) (z a : α) :
    a ∈ setInsert l z ↔ a = z ∨ a ∈ l := by
  induction l with
  | nil => simp [setInsert]
  | cons b rest ih =>
    rw [setInsert]
    split
    · simp
    · split
      · rename_i h
        subst h
        simp
      · simp only [List.mem_cons, ih]
        tauto

theorem zoneIsSelected_iff (st : DimRegionChooser) (stereo : Bool) (kv : dimension_t × Int) :
    zoneIsSelected st.dimzones stereo kv = true ↔ EntrySelected st stereo kv := by
  unfold zoneIsSelected EntrySelected
  by_cases h1 : stereo = true ∧ kv.1 = dimension_samplechannel
  · simp only [h1, and_self, if_true, true_or]
  · simp only [h1, if_false, false_or]
    cases hl : List.lookup kv.1 st.dimzones with
    | none => simp
    | some zs =>
      simp only [Option.some.injEq, exists_eq_left']
      have hc : zs.contains kv.2 = true ↔ kv.2 ∈ zs := by simp
      by_cases h2 : zs.contains kv.2 = true
      · simp only [h2, if_true, true_iff]
        exact Or.inl (hc.1 h2)
      · have h3 : kv.2 ∉ zs := fun h => h2 (hc.2 h)
        simp only [h2, h3, false_or, Bool.false_eq_true, if_false, List.isEmpty_iff]
        by_cases h4 : zs = [] ∧ kv.2 = 0
        · simp only [h4, and_self, if_true]
        · simp only [h4, if_false, Bool.false_eq_true]

theorem getDimregionsStep_mem (st : DimRegionChooser) (rgn : Region) (stereo : Bool)
    (dimregs : List Nat) (i a : Nat) :
    a ∈ getDimregionsStep st rgn stereo dimregs i ↔
      a ∈ dimregs ∨ ∃ d, rgn.dimRgn i = some d ∧ d.addr = a ∧
        (caseOfDimRegion rgn (some a)).1 = true ∧
        ∀ kv, kv ∈ (caseOfDimRegion rgn (some a)).2 → EntrySelected st stereo kv := by
  unfold getDimregionsStep
  cases hd : rgn.dimRgn (i : Int) with
  | none => simp
  | some d =>
    simp only [Option.some.injEq, exists_eq_left']
    by_cases hv : (caseOfDimRegion rgn (some d.addr)).1 = false
    · simp only [hv, if_true]
      constructor
      · exact Or.inl
      · rintro (h | ⟨h1, h2, _⟩)
        · exact h
        · subst h1
          rw [hv] at h2
          exact Bool.noConfusion h2
    · have hv1 : (caseOfDimRegion rgn (some d.addr)).1 = true := by
        cases h : (caseOfDimRegion rgn (some d.addr)).1
        · exact absurd h hv
        · rfl
      rw [if_neg hv]
      by_cases hall : (caseOfDimRegion rgn (some d.addr)).2.all (zoneIsSelected st.dimzones stereo)
          = true
      · simp only [hall, if_true, mem_setInsert]
        have hall1 := List.all_eq_true.1 hall
        constructor
        · rintro (h | h)
          · subst h
            exact Or.inr ⟨rfl, hv1, fun kv hkv => (zoneIsSelected_iff st stereo kv).1 (hall1 kv hkv)⟩
          · exact Or.inl h
        · rintro (h | ⟨h1, _⟩)
          · exact Or.inr h
          · exact Or.inl h1.symm
      · simp only [hall, if_false, Bool.false_eq_true]
        constructor
        · exact Or.inl
        · rintro (h | ⟨h1, _, h3⟩)
          · exact h
          · subst h1
            exfalso
            apply hall
            rw [List.all_eq_true]
            intro kv hkv
            exact (zoneIsSelected_iff st stereo kv).2 (h3 kv hkv)

theorem getDimregions_foldl_mem (st : DimRegionChooser) (rgn : Region) (stereo : Bool) (a : Nat) :
    ∀ (l : List Nat) (dimregs : List Nat),
      a ∈ l.foldl (getDimregionsStep st rgn stereo) dimregs ↔
        a ∈ dimregs ∨ ∃ i, i ∈ l ∧ ∃ d, rgn.dimRgn i = some d ∧ d.addr = a ∧
          (caseOfDimRegion rgn (some a)).1 = true ∧
          ∀ kv, kv ∈ (caseOfDimRegion rgn (some a)).2 → EntrySelected st stereo kv := by
  intro l
  induction l with
  | nil => intro dimregs; simp
  | cons i rest ih =>
    intro dimregs
    rw [List.foldl_cons, ih, getDimregionsStep_mem]
    constructor
    · rintro ((h | h) | ⟨j, hj, h⟩)
      · exact Or.inl h
      · exact Or.inr ⟨i, List.mem_cons_self _ _, h⟩
      · exact Or.inr ⟨j, List.mem_cons_of_mem _ hj, h⟩
    · rintro (h | ⟨j, hj, h⟩)
      · exact Or.inl (Or.inl h)
      · rcases List.mem_cons.1 hj with hji | hjr
        · subst hji
          exact Or.inl (Or.inr h)
        · exact Or.inr ⟨j, hjr, h⟩

theorem entrySelected_stereo (st : DimRegionChooser) (kv : dimension_t × Int)
    (h : EntrySelected st false kv) : EntrySelected st true kv := by
  rcases h with ⟨h, _⟩ | h
  · exact Bool.noConfusion h
  · exact Or.inr h

/-- C27: get_dimregions adds a dimension region to the output set if and only
if it is held by one of the 256 slots of the region (the slot is non-null), its
decoded case is valid, and every dimension of that case either is the
sample-channel dimension while stereo is true, or has an entry in dimzones that
contains the zone index of the dimension region or is empty while that zone
index is 0; the elements that were in the output set are kept, and the result
for stereo = true contains the result for stereo = false. -/
theorem get_dimregions_spec (st : DimRegionChooser) (rgn : Region) (stereo : Bool)
    (dimregs : List Nat) :
    (∀ a, a ∈ get_dimregions st rgn stereo dimregs ↔
      a ∈ dimregs ∨ DimRgnSelected st rgn stereo a) ∧
    (∀ a, a ∈ get_dimregions st rgn false dimregs → a ∈ get_dimregions st rgn true dimregs) := by
  have hmem : ∀ s a, a ∈ get_dimregions st rgn s dimregs ↔
      a ∈ dimregs ∨ DimRgnSelected st rgn s a := by
    intro s a
    unfold get_dimregions DimRgnSelected
    rw [getDimregions_foldl_mem]
    simp only [List.mem_range]
  refine ⟨hmem stereo, ?_⟩
  intro a ha
  rw [hmem] at ha ⊢
  rcases ha with ha | ⟨i, hi, d, h1, h2, h3, h4⟩
  · exact Or.inl ha
  · exact Or.inr ⟨i, hi, d, h1, h2, h3, fun kv hkv => entrySelected_stereo st kv (h4 kv hkv)⟩

/-! ## The indices visited by the loop of the non-velocity branch -/

theorem updateOtherTrace_snd (st : DimRegionChooser) (r : Nat) (rgn : Region)
    (upperLimit bitpos : Nat) :
    ∀ (fuel i : Nat) (m : Instrument),
      (updateOtherTrace st r rgn upperLimit bitpos fuel i m).map (fun res => res.2) =
        updateOtherLoop st r rgn upperLimit bitpos fuel i m := by
  intro fuel
  induction fuel with
  | zero => intro i m; rfl
  | succ fuel ih =>
    intro i m
    rw [updateOtherTrace, updateOtherLoop]
    by_cases hi : i < rgn.DimensionRegions
    · simp only [hi, if_true]
      cases (m.regionAt r).bind (fun rgn1 => rgn1.dimRgn (i : Int)) with
      | none => rfl
      | some di =>
        simp only
        cases (if di.upperLimit st.resize.dimension = 0 then
            backfillUpperLimits r (i : Int) bitpos st.resize.dimension
              (rgn.dimDef st.resize.dimension).zones m
          else some m) with
        | none => rfl
        | some m1 =>
          simp only
          cases m1.writeUpperLimit r ((i : Int) + ((st.resize.zone <<< bitpos : Nat) : Int))
              st.resize.dimension upperLimit with
          | none => rfl
          | some m2 =>
            simp only
            cases scanNextDim st.resize.dimension i rgn.pDimensionDefinitions 0 0 with
            | none => rfl
            | some bp =>
              simp only [Option.map_map]
              rw [← ih]
              rfl
    · simp only [hi, if_false]
      rfl

theorem updateOtherTrace_visits (st : DimRegionChooser) (r : Nat) (rgn : Region)
    (upperLimit : Nat) (hwf : rgn.WellFormed) :
    ∀ (fuel i : Nat) (m : Instrument) (visits : List Nat) (m1 : Instrument),
      rgn.BaseIndex st.resize.dimension i →
      updateOtherTrace st r rgn upperLimit (bitposOf rgn st.resize.dimension) fuel i m =
        some (visits, m1) →
      visits.Pairwise (fun a b => a < b) ∧
      ∀ k, k ∈ visits ↔ rgn.BaseIndex st.resize.dimension k ∧ i ≤ k := by
  intro fuel
  induction fuel with
  | zero =>
    intro i m visits m1 _ h
    simp [updateOtherTrace] at h
  | succ fuel ih =>
    intro i m visits m1 hi h
    rw [updateOtherTrace] at h
    have hlt : i < rgn.DimensionRegions := by rw [hwf.count]; exact hi.1
    simp only [hlt, if_true] at h
    cases h1 : (m.regionAt r).bind (fun rgn1 => rgn1.dimRgn (i : Int)) with
    | none => simp [h1] at h
    | some di =>
      simp only [h1] at h
      cases h2 : (if di.upperLimit st.resize.dimension = 0 then
          backfillUpperLimits r (i : Int) (bitposOf rgn st.resize.dimension) st.resize.dimension
            (rgn.dimDef st.resize.dimension).zones m
        else some m) with
      | none => simp [h2] at h
      | some ma =>
        simp only [h2] at h
        cases h3 : ma.writeUpperLimit r
            ((i : Int) + ((st.resize.zone <<< bitposOf rgn st.resize.dimension : Nat) : Int))
            st.resize.dimension upperLimit with
        | none => simp [h3] at h
        | some mb =>
          simp only [h3] at h
          cases hscan : scanNextDim st.resize.dimension i rgn.pDimensionDefinitions 0 0 with
          | none =>
            simp only [hscan, Option.some.injEq, Prod.mk.injEq] at h
            obtain ⟨hv, _⟩ := h
            subst hv
            refine ⟨List.pairwise_singleton _ _, ?_⟩
            intro k
            simp only [List.mem_singleton]
            constructor
            · intro hk
              subst hk
              exact ⟨hi, Nat.le_refl _⟩
            · rintro ⟨hk1, hk2⟩
              have := baseIndex_le_of_scan_none rgn _ i k hscan hk1
              omega
          | some bp =>
            simp only [hscan] at h
            obtain ⟨jd, hjd, _, hbp, _, _⟩ := scanNextDim_region_some rgn _ i bp hscan
            have hbp8 : bp ≤ 8 := by
              have := bitposOf_add_bits_le rgn jd hjd
              have := hwf.bits_le
              omega
            have hi31 : i < 2147483648 := by
              have h1 := hi.1
              have h2 : (2 : Nat) ^ rgn.totalBits ≤ 2 ^ 8 :=
                Nat.pow_le_pow_right (by norm_num) hwf.bits_le
              norm_num at h2
              omega
            rw [nextIndex_eq i bp hi31 (by omega)] at h
            obtain ⟨hnext, hlt2, hleast⟩ :=
              baseIndex_next rgn _ i bp hwf.zones_pos hwf.zones_le hscan hi
            cases hrec : updateOtherTrace st r rgn upperLimit (bitposOf rgn st.resize.dimension)
                fuel ((i / 2 ^ bp + 1) * 2 ^ bp) mb with
            | none => simp [hrec] at h
            | some res =>
              simp only [hrec, Option.map_some', Option.some.injEq, Prod.mk.injEq] at h
              obtain ⟨hv, _⟩ := h
              subst hv
              obtain ⟨hpw, hmem⟩ := ih _ mb res.1 res.2 hnext hrec
              refine ⟨List.pairwise_cons.2 ⟨?_, hpw⟩, ?_⟩
              · intro k hk
                have := ((hmem k).1 hk).2
                omega
              · intro k
                rw [List.mem_cons, hmem]
                constructor
                · rintro (hk | ⟨hk1, hk2⟩)
                  · subst hk
                    exact ⟨hi, Nat.le_refl _⟩
                  · exact ⟨hk1, by omega⟩
                · rintro ⟨hk1, hk2⟩
                  by_cases hki : k = i
                  · exact Or.inl hki
                  · exact Or.inr ⟨hk1, hleast k hk1 (by omega)⟩

/-- C28: in the non-velocity branch of update_after_resize, for a well-formed
region (every dimension has between 1 and 2^bits zones, and the library holds a
dimension region in each of the 2^(total bits) slots, total bits being at most
8) and a resized zone below the zone count, the loop over i terminates within
DimensionRegions + 1 iterations; i strictly increases from one iteration to the
next, and the values that i takes are exactly the slot indices whose bits for
the resized dimension are 0 and whose zone index in every other dimension is
below the zone count of that dimension, each of them once. -/
theorem update_other_loop_visits (st : DimRegionChooser) (r : Nat) (rgn : Region)
    (upperLimit : Nat) (hrgn : st.instr.regionAt r = some rgn) (hwf : rgn.WellFormed)
    (hd : st.resize.dimension < rgn.Dimensions)
    (hzone : st.resize.zone < (rgn.dimDef st.resize.dimension).zones) :
    ∃ visits m1,
      updateOtherTrace st r rgn upperLimit (bitposOf rgn st.resize.dimension)
        (rgn.DimensionRegions + 1) 0 st.instr = some (visits, m1) ∧
      updateOtherLoop st r rgn upperLimit (bitposOf rgn st.resize.dimension)
        (rgn.DimensionRegions + 1) 0 st.instr = some m1 ∧
      visits.Pairwise (fun a b => a < b) ∧ visits.Nodup ∧
      ∀ k, k ∈ visits ↔ rgn.BaseIndex st.resize.dimension k := by
  have h0 := baseIndex_zero rgn st.resize.dimension hwf.zones_pos
  obtain ⟨m1, hloop, _, _, _⟩ := updateOtherLoop_frame st r rgn upperLimit st.instr hrgn hwf
    hd hzone (rgn.DimensionRegions + 1) 0 st.instr h0
    (by rw [hwf.count]) (sameShape_refl _)
  have hsnd := updateOtherTrace_snd st r rgn upperLimit (bitposOf rgn st.resize.dimension)
    (rgn.DimensionRegions + 1) 0 st.instr
  rw [hloop] at hsnd
  cases htr : updateOtherTrace st r rgn upperLimit (bitposOf rgn st.resize.dimension)
      (rgn.DimensionRegions + 1) 0 st.instr with
  | none => simp [htr] at hsnd
  | some res =>
    simp only [htr, Option.map_some', Option.some.injEq] at hsnd
    obtain ⟨hpw, hmem⟩ := updateOtherTrace_visits st r rgn upperLimit hwf
      (rgn.DimensionRegions + 1) 0 st.instr res.1 res.2 h0 htr
    refine ⟨res.1, m1, ?_, hloop, hpw, ?_, ?_⟩
    · rw [← hsnd]
    · exact hpw.imp (fun h => Nat.ne_of_lt h)
    · intro k
      rw [hmem]
      exact ⟨fun h => h.1, fun h => ⟨h, Nat.zero_le _⟩⟩

set_option maxRecDepth 1000000 in
/-- Witness of C28 on the example region (dimension A with 2 bits and 3 zones
in bits 0..1, dimension B with 1 bit and 2 zones in bit 2) while a boundary of
A is resized: the loop visits the indices 0 and 4, the two zones of B with the
bits of A cleared. -/
theorem update_other_loop_visits_witness :
    exampleResizing.resize.dimension = 0 ∧
    (updateOtherTrace exampleResizing 0 exampleRegion 29
      (bitposOf exampleRegion exampleResizing.resize.dimension)
      (exampleRegion.DimensionRegions + 1) 0 exampleResizing.instr).map (fun res => res.1) =
      some [0, 4] ∧
    (∃ visits m1,
      updateOtherTrace exampleResizing 0 exampleRegion 29
        (bitposOf exampleRegion exampleResizing.resize.dimension)
        (exampleRegion.DimensionRegions + 1) 0 exampleResizing.instr = some (visits, m1) ∧
      updateOtherLoop exampleResizing 0 exampleRegion 29
        (bitposOf exampleRegion exampleResizing.resize.dimension)
        (exampleRegion.DimensionRegions + 1) 0 exampleResizing.instr = some m1 ∧
      visits.Pairwise (fun a b => a < b) ∧ visits.Nodup ∧
      ∀ k, k ∈ visits ↔ exampleRegion.BaseIndex exampleResizing.resize.dimension k) :=
  ⟨by decide, by decide,
   update_other_loop_visits exampleResizing 0 exampleRegion 29 (by decide)
     exampleRegion_wellFormed (by decide) (by decide)⟩

/-! ## PropEditor: the key range stays ordered -/

/-- C30: in a PropEditor with update_model == 0, when the widget for the high
end shows the value of the model and key_range_low_changed handles a new value
of the widget for the low end (a value within the range of the widget for the
high end, the two NoteEntry widgets having the same range), the slot returns,
the cascaded call of key_range_high_changed included, with a model range that
satisfies low <= high, low being the new value, and with both widgets showing
the values of the model.  Symmetrically, when the widget for the low end shows
the value of the model and key_range_high_changed handles a new value of the
widget for the high end, the slot returns with low <= high, high being the new
value, and with both widgets showing the values of the model.  The state s is
the one in which the low end is edited, t the one in which the high end is
edited. -/
theorem key_range_changed_ordered (s t : PropEditor) (fuel : Nat) (hfuel : 2 ≤ fuel)
    (hs : s.update_model = 0) (hshow : s.eKeyRangeHigh.value = s.high)
    (hup : s.eKeyRangeLow.value ≤ s.eKeyRangeHigh.upper)
    (ht : t.update_model = 0) (htshow : t.eKeyRangeLow.value = t.low) :
    (∃ s1, key_range_low_changed fuel s = some s1 ∧ s1.low ≤ s1.high ∧
        s1.low = s.eKeyRangeLow.value ∧
        s1.eKeyRangeLow.value = s1.low ∧ s1.eKeyRangeHigh.value = s1.high) ∧
    (∃ t1, key_range_high_changed fuel t = some t1 ∧ t1.low ≤ t1.high ∧
        t1.high = t.eKeyRangeHigh.value ∧
        t1.eKeyRangeLow.value = t1.low ∧ t1.eKeyRangeHigh.value = t1.high) := by
  obtain ⟨f, rfl⟩ : ∃ f, fuel = f + 2 := ⟨fuel - 2, by omega⟩
  constructor
  · unfold key_range_low_changed
    rw [keyRangeChanged]
    simp only [hs, if_true]
    by_cases hgt : s.eKeyRangeLow.value > s.high
    · have hne : s.eKeyRangeHigh.value ≠ s.eKeyRangeLow.value := by omega
      have hnc : ¬ (s.eKeyRangeLow.value > s.eKeyRangeHigh.upper) := by omega
      simp only [hgt, if_true, NoteEntry.set_value, hnc, if_false, hne, ne_eq,
        not_false_eq_true]
      rw [keyRangeChanged]
      simp only [hs, if_true, Nat.lt_irrefl, if_false, Option.map_some']
      exact ⟨_, rfl, Nat.le_refl _, rfl, rfl, rfl⟩
    · simp only [hgt, if_false, Option.map_some']
      exact ⟨_, rfl, by simp only; omega, rfl, rfl, hshow⟩
  · unfold key_range_high_changed
    rw [keyRangeChanged]
    simp only [ht, if_true]
    by_cases hlt : t.eKeyRangeHigh.value < t.low
    · simp only [hlt, if_true, NoteEntry.set_value]
      by_cases hc : t.eKeyRangeHigh.value > t.eKeyRangeLow.upper
      · have hne : t.eKeyRangeLow.value ≠ t.eKeyRangeLow.upper := by omega
        simp only [hc, if_true, hne, ne_eq, not_false_eq_true]
        rw [keyRangeChanged]
        have hng : ¬ (t.eKeyRangeLow.upper > t.eKeyRangeHigh.value) := by omega
        simp only [ht, if_true, hng, if_false, Option.map_some']
        exact ⟨_, rfl, by simp only; omega, rfl, rfl, rfl⟩
      · have hne : t.eKeyRangeLow.value ≠ t.eKeyRangeHigh.value := by omega
        simp only [hc, if_false, hne, ne_eq, not_false_eq_true, if_true]
        rw [keyRangeChanged]
        simp only [ht, if_true, gt_iff_lt, Nat.lt_irrefl, if_false, Option.map_some']
        exact ⟨_, rfl, Nat.le_refl _, rfl, rfl, rfl⟩
    · simp only [hlt, if_false, Option.map_some']
      exact ⟨_, rfl, by simp only; omega, rfl, htshow, rfl⟩

/-- Witness of C30: the model holds the range 40..60; entering 70 for the low
end raises the high end to 70 as well, entering 30 for the high end lowers the
low end to 30, and entering 50 for either end changes that end only. -/
theorem key_range_changed_ordered_witness :
    (key_range_low_changed 2 (lowEdited 70)).map (fun s1 =>
      (s1.low, s1.high, s1.eKeyRangeLow.value, s1.eKeyRangeHigh.value, s1.changed)) =
      some (70, 70, 70, 70, 2) ∧
    (key_range_high_changed 2 (highEdited 30)).map (fun s1 =>
      (s1.low, s1.high, s1.eKeyRangeLow.value, s1.eKeyRangeHigh.value, s1.changed)) =
      some (30, 30, 30, 30, 2) ∧
    (key_range_low_changed 2 (lowEdited 50)).map (fun s1 => (s1.low, s1.high, s1.changed)) =
      some (50, 60, 1) ∧
    (key_range_high_changed 2 (highEdited 50)).map (fun s1 => (s1.low, s1.high, s1.changed)) =
      some (40, 50, 1) ∧
    ((∃ s1, key_range_low_changed 2 (lowEdited 70) = some s1 ∧ s1.low ≤ s1.high ∧
        s1.low = (lowEdited 70).eKeyRangeLow.value ∧
        s1.eKeyRangeLow.value = s1.low ∧ s1.eKeyRangeHigh.value = s1.high) ∧
    (∃ t1, key_range_high_changed 2 (highEdited 30) = some t1 ∧ t1.low ≤ t1.high ∧
        t1.high = (highEdited 30).eKeyRangeHigh.value ∧
        t1.eKeyRangeLow.value = t1.low ∧ t1.eKeyRangeHigh.value = t1.high)) :=
  ⟨by decide, by decide, by decide, by decide,
   key_range_changed_ordered (lowEdited 70) (highEdited 30) 2 (by decide) (by decide)
     (by decide) (by decide) (by decide) (by decide)⟩

end Gigedit
